import Mathlib

/-!
# jsonl: a shallow embedding of `jsonl.c` (JSON library 3.0.0)

The C library parses JSON text into a value tree that lives in one caller-supplied
buffer, prints a tree back to text, looks values up by path and builds a patched copy
of a tree from a batch of path-addressed operations (`jsonl_set_values`).

Conventions of the embedding.

* Bytes, sizes and indices are natural numbers.  `size_t` is 64 bits wide (LP64), so the
  append sentinel `(size_t)~0` is `2 ^ 64 - 1`.  The sums and products that accumulate
  the size of a tree are not reduced modulo `2 ^ 64`.  Each of them is a part of the size
  the call reports, so they are the numbers the C code computes whenever that size is at
  most `SIZE_MAX` (`jsonl_size_fits`); the statements about a write at an arbitrary array
  index, where the size can exceed `SIZE_MAX`, assume it.  The `size_t` subtractions of
  the source that can go below zero wrap (`jsonl_size_sub`).
* A text slice `(size, pointer)` is the list of its bytes.
* A value tree is the inductive type `jsonl_value_t`.  The `size` and `parent` members
  are not part of it: the code never reads them from its inputs, and the size of every
  tree it builds is the number the building function returns.  The nodes that the parser
  writes are given with their member `size` by `jsonl_sized_value_t`.
* Every tree-producing function takes the capacity of the destination buffer and
  returns the size it reports together with the tree the buffer holds, which is
  `some _` only when every field of every node was written (each write of the source is
  guarded by a capacity test, and so is each field of the model).
* A result of type `Option _` is `none` when the C code would read or write outside the
  table it addresses (the operation table, a path, a child table), which is undefined
  behaviour, or would not terminate.
* `JSONL_ASSERT` is the empty statement of line 63.  The release definitions for GCC and
  MSVC (lines 53 and 58) turn a failing assertion into undefined behaviour and the debug
  definitions stop the program there; wherever no assertion fails the three agree.
* IEEE binary64 values are carried as bit patterns; the floating-point arithmetic and
  the signedness of `char` are taken from the platform (`jsonl_platform_t`).
-/

/-! ## Constants and memory layout (LP64, default number format) -/

/-- The value `(size_t)~0`: the append sentinel and the error value of the counters. -/
def jsonl_size_max : Nat := 2 ^ 64 - 1

def JSONL_TYPE_ERROR : Nat := 0
def JSONL_TYPE_OBJECT : Nat := 1
def JSONL_TYPE_ARRAY : Nat := 2
def JSONL_TYPE_STRING : Nat := 3
def JSONL_TYPE_NUMBER : Nat := 4
def JSONL_TYPE_BOOLEAN : Nat := 5
def JSONL_TYPE_NULL : Nat := 6

/-- The constant `sizeof(jsonl_value_t)`: size, parent, type and a 16 byte union. -/
def jsonl_sizeof_value : Nat := 40

/-- The constant `sizeof(*value_buffer->object.table)`: name_length, name, value. -/
def jsonl_sizeof_object_entry : Nat := 24

/-- The constant `sizeof(jsonl_value_t*)`. -/
def jsonl_sizeof_pointer : Nat := 8

/-- Line 77: the largest of `sizeof(double)`, `sizeof(void*)`, `sizeof(int)`, minus one. -/
def jsonl_value_alignment_minus_one : Nat := 7

/-- Line 79: `(size + a) & ~a` for the alignment mask `a`. -/
def jsonl_round_size (size : Nat) : Nat :=
  (size + jsonl_value_alignment_minus_one) / (jsonl_value_alignment_minus_one + 1)
    * (jsonl_value_alignment_minus_one + 1)

/-- `size_t` subtraction, which wraps below zero. -/
def jsonl_size_sub (a b : Nat) : Nat := if b ≤ a then a - b else a + 2 ^ 64 - b

/-! ## Data model -/

/-- The number payload of the default build: one IEEE binary64, as its bit pattern. -/
structure jsonl_number_value_t where
  value : Nat
deriving DecidableEq, Repr

/-- A value tree (`jsonl_value_t` without `size` and `parent`).  An object is its table
of name/value pairs, an array its table of children.  `unknown` stands for a node whose
`type` member is none of the six value types. -/
inductive jsonl_value_t where
  | object (table : List (List Nat × jsonl_value_t))
  | array (table : List jsonl_value_t)
  | string (value : List Nat)
  | number (number : jsonl_number_value_t)
  | boolean (value : Bool)
  | null
  | unknown (type : Nat)
deriving Repr

/-- A path component: a name in an object or an index in an array. -/
inductive jsonl_path_component_t where
  | name (value : List Nat)
  | index (index : Nat)
deriving DecidableEq, Repr

/-- One modification: a path and the value to write there, `none` (a null pointer) to
remove. -/
structure jsonl_set_value_t where
  path : List jsonl_path_component_t
  value : Option jsonl_value_t

/-- What the C platform decides: whether `char` is signed, and binary64 arithmetic
(on bit patterns). -/
structure jsonl_platform_t where
  char_is_signed : Bool
  double_add : Nat → Nat → Nat
  double_sub : Nat → Nat → Nat
  double_mul : Nat → Nat → Nat
  double_div : Nat → Nat → Nat
  double_neg : Nat → Nat
  double_of_uint64 : Nat → Nat
  double_to_uint64 : Nat → Nat
  double_lt_zero : Nat → Bool
  double_ne_zero : Nat → Bool

/-- The member `type` of a node. -/
def jsonl_value_t.type : jsonl_value_t → Nat
  | .object _ => JSONL_TYPE_OBJECT
  | .array _ => JSONL_TYPE_ARRAY
  | .string _ => JSONL_TYPE_STRING
  | .number _ => JSONL_TYPE_NUMBER
  | .boolean _ => JSONL_TYPE_BOOLEAN
  | .null => JSONL_TYPE_NULL
  | .unknown t => t

/-- The member `container_type` of a path component. -/
def jsonl_path_component_t.container_type : jsonl_path_component_t → Nat
  | .name _ => JSONL_TYPE_OBJECT
  | .index _ => JSONL_TYPE_ARRAY

/-- Reading the union member `index`: on a name component it aliases `name.length`. -/
def jsonl_path_component_t.index_member : jsonl_path_component_t → Nat
  | .name value => value.length
  | .index i => i

/-- Reading the union member `name.length`: on an index component it aliases `index`. -/
def jsonl_path_component_t.name_length : jsonl_path_component_t → Nat
  | .name value => value.length
  | .index i => i

/-- Reading the bytes behind the union member `name.value`: on an index component the
pointer is not one, and there is nothing to read. -/
def jsonl_path_component_t.name_value : jsonl_path_component_t → Option (List Nat)
  | .name value => some value
  | .index _ => none

mutual
/-- Every node of the tree has one of the six value types. -/
def jsonl_value_t.valid : jsonl_value_t → Bool
  | .object table => jsonl_value_t.valid_entries table
  | .array table => jsonl_value_t.valid_values table
  | .unknown _ => false
  | _ => true
/-- Validity of the children of an array. -/
def jsonl_value_t.valid_values : List jsonl_value_t → Bool
  | [] => true
  | v :: vs => v.valid && jsonl_value_t.valid_values vs
/-- Validity of the children of an object. -/
def jsonl_value_t.valid_entries : List (List Nat × jsonl_value_t) → Bool
  | [] => true
  | (_, v) :: es => v.valid && jsonl_value_t.valid_entries es
end

mutual
/-- Nesting depth of a tree, the bound on the recursion of `jsonl_internal_set_values`. -/
def jsonl_value_t.depth : jsonl_value_t → Nat
  | .object table => jsonl_value_t.depth_entries table + 1
  | .array table => jsonl_value_t.depth_values table + 1
  | _ => 0
/-- Largest depth among the children of an array. -/
def jsonl_value_t.depth_values : List jsonl_value_t → Nat
  | [] => 0
  | v :: vs => max v.depth (jsonl_value_t.depth_values vs)
/-- Largest depth among the children of an object. -/
def jsonl_value_t.depth_entries : List (List Nat × jsonl_value_t) → Nat
  | [] => 0
  | (_, v) :: es => max v.depth (jsonl_value_t.depth_entries es)
end

/-- All the parts of a node were written. -/
def jsonl_collect {α : Type} : List (Option α) → Option (List α)
  | [] => some []
  | none :: _ => none
  | some a :: rest => (jsonl_collect rest).map (fun l => a :: l)

/-- The effect of a guarded store: the field holds `a` when the guard let it through. -/
def jsonl_written {α : Type} (guard : Bool) (a : α) : Option α :=
  if guard then some a else none

/-- The remaining capacity handed to a child, `(used <= capacity) ? capacity - used : 0`
(written with `<` in places, which is the same number). -/
def jsonl_remaining (used capacity : Nat) : Nat := capacity - used

/-! ## Character classes (lines 81 to 91) -/

def jsonl_is_white_space (character : Nat) : Bool :=
  character == 32 || character == 9 || character == 10 || character == 13

def jsonl_is_structural_character (character : Nat) : Bool :=
  character == 91 || character == 123 || character == 93 || character == 125 ||
    character == 58 || character == 44 || character == 34

def jsonl_is_decimal_value (character : Nat) : Bool :=
  decide (48 ≤ character) && decide (character ≤ 57)

def jsonl_is_hex_value (character : Nat) : Bool :=
  (decide (48 ≤ character) && decide (character ≤ 57)) ||
    (decide (65 ≤ character) && decide (character ≤ 70)) ||
    (decide (97 ≤ character) && decide (character ≤ 102))

def jsonl_decimal_value (character : Nat) : Nat := character - 48

/-- Line 91.  The last branch subtracts `'f' - 10`, which is 92. -/
def jsonl_hex_value (character : Nat) : Nat :=
  if character ≤ 57 then character - 48
  else if character ≤ 70 then character - 55
  else character - 92

/-- Line 101: the first `size` bytes of the two blocks are equal.  Every caller compares
the two lengths first and passes that length, so neither block ends early. -/
def jsonl_memory_compare : List Nat → List Nat → Nat → Bool
  | _, _, 0 => true
  | a :: block_a, b :: block_b, size + 1 =>
      if a == b then jsonl_memory_compare block_a block_b size else false
  | _, _, _ + 1 => false

/-- The test the code makes on two names: equal lengths, then equal bytes. -/
def jsonl_name_equal (name_a name_b : List Nat) : Bool :=
  name_a.length == name_b.length && jsonl_memory_compare name_a name_b name_a.length

/-! ## Lexical scanners (lines 175 to 229) -/

def jsonl_white_space_length : List Nat → Nat
  | [] => 0
  | character :: rest =>
      if jsonl_is_white_space character then jsonl_white_space_length rest + 1 else 0

def jsonl_printable_space_length : List Nat → Nat
  | [] => 0
  | character :: rest =>
      if !jsonl_is_white_space character then jsonl_printable_space_length rest + 1 else 0

/-- The loop of `jsonl_quoted_string_lenght`: `read` is the text from the read pointer,
`offset` the distance of the read pointer from the opening quote. -/
def jsonl_quoted_string_lenght_loop : List Nat → Bool → Nat → Nat
  | [], _, _ => 0
  | character :: read, escape, offset =>
      if !escape && character == 34 then offset + 1
      else jsonl_quoted_string_lenght_loop read (character == 92) (offset + 1)

def jsonl_quoted_string_lenght (json_text : List Nat) : Nat :=
  match json_text with
  | [] => 0
  | character :: read =>
      if character != 34 then 0 else jsonl_quoted_string_lenght_loop read false 1

/-- The test shared by `null`, `false` and `true`: the text is the literal, or starts
with it and goes on with white space or a structural character. -/
def jsonl_text_is_literal (literal json_text : List Nat) : Bool :=
  (json_text.length == literal.length && json_text == literal) ||
    (decide (json_text.length > literal.length) && json_text.take literal.length == literal &&
      (jsonl_is_white_space (json_text.getD literal.length 0) ||
        jsonl_is_structural_character (json_text.getD literal.length 0)))

/-- Returns the length of the literal (0 when there is none) and the decoded value. -/
def jsonl_decode_boolean (json_text : List Nat) : Nat × Bool :=
  if jsonl_text_is_literal [102, 97, 108, 115, 101] json_text then (5, false)
  else if jsonl_text_is_literal [116, 114, 117, 101] json_text then (4, true)
  else (0, false)

/-! ## Quoted strings (lines 231 to 356) -/

/-- One guarded store into the string buffer: `if (string_length < string_buffer_size)`. -/
def jsonl_decode_store (string_buffer_size string_length : Nat) (buffer : List Nat)
    (character : Nat) : List Nat :=
  if string_length < string_buffer_size then buffer ++ [character] else buffer

/-- The loop of `jsonl_decode_quoted_string`.  `remaining` is `end - read`, `read` the text
from the read pointer (it goes on past `end`, at least to the closing quote), `buffer` the
bytes stored so far.  Returns `string_length` and the bytes stored; `none` when the loop
runs past `end`. -/
def jsonl_decode_quoted_string_loop (string_buffer_size : Nat) :
    Nat → Nat → List Nat → Nat → List Nat → Option (Nat × List Nat)
  | 0, remaining, _, string_length, buffer =>
      if remaining = 0 then some (string_length, buffer) else none
  | fuel + 1, remaining, read, string_length, buffer =>
      if remaining = 0 then some (string_length, buffer)
      else
        let store := jsonl_decode_store string_buffer_size
        let simple (unescaped : Nat) : Option (Nat × List Nat) :=
          if remaining < 2 then none
          else jsonl_decode_quoted_string_loop string_buffer_size fuel (remaining - 2)
            (read.drop 2) (string_length + 1) (store string_length buffer unescaped)
        let backslash : Option (Nat × List Nat) :=
          jsonl_decode_quoted_string_loop string_buffer_size fuel (remaining - 1)
            (read.drop 1) (string_length + 1) (store string_length buffer 92)
        match read with
        | [] => none
        | character :: after =>
            if character != 92 || remaining == 1 then
              jsonl_decode_quoted_string_loop string_buffer_size fuel (remaining - 1) after
                (string_length + 1) (store string_length buffer character)
            else
              match after with
              | [] => none
              | escaped :: _ =>
                  if escaped == 39 then simple 39
                  else if escaped == 34 then simple 34
                  else if escaped == 92 then simple 92
                  else if escaped == 110 then simple 10
                  else if escaped == 114 then simple 13
                  else if escaped == 116 then simple 9
                  else if escaped == 98 then simple 8
                  else if escaped == 102 then simple 12
                  else if escaped == 117 then
                    if remaining != 5 && jsonl_is_hex_value (read.getD 2 0) &&
                        jsonl_is_hex_value (read.getD 3 0) && jsonl_is_hex_value (read.getD 4 0) &&
                        jsonl_is_hex_value (read.getD 5 0) then
                      let unicode_character :=
                        (jsonl_hex_value (read.getD 2 0) <<< 12) |||
                          (jsonl_hex_value (read.getD 3 0) <<< 8) |||
                          (jsonl_hex_value (read.getD 4 0) <<< 4) ||| jsonl_hex_value (read.getD 5 0)
                      if remaining < 6 then none
                      else if unicode_character > 2047 then
                        let b1 := store string_length buffer ((unicode_character / 4096) % 256 ||| 224)
                        let b2 := store (string_length + 1) b1 ((unicode_character / 64) % 64 ||| 128)
                        let b3 := store (string_length + 2) b2 (unicode_character % 64 ||| 128)
                        jsonl_decode_quoted_string_loop string_buffer_size fuel (remaining - 6)
                          (read.drop 6) (string_length + 3) b3
                      else if unicode_character > 127 then
                        let b1 := store string_length buffer ((unicode_character / 64) % 256 ||| 192)
                        let b2 := store (string_length + 1) b1 (unicode_character % 64 ||| 128)
                        jsonl_decode_quoted_string_loop string_buffer_size fuel (remaining - 6)
                          (read.drop 6) (string_length + 2) b2
                      else
                        jsonl_decode_quoted_string_loop string_buffer_size fuel (remaining - 6)
                          (read.drop 6) (string_length + 1)
                          (store string_length buffer (unicode_character % 256))
                    else backslash
                  else backslash

/-- Decodes the quoted string at the start of the text into a buffer of
`string_buffer_size` bytes.  `some (0, _, _)` is the return value 0; otherwise the
result is the length of the quoted text, `*string_size` and the bytes stored. -/
def jsonl_decode_quoted_string (json_text : List Nat) (string_buffer_size : Nat) :
    Option (Nat × Nat × List Nat) :=
  let json_text_size := jsonl_quoted_string_lenght json_text
  if json_text_size = 0 then some (0, 0, [])
  else
    (jsonl_decode_quoted_string_loop string_buffer_size (json_text_size - 2)
      (json_text_size - 2) (json_text.drop 1) 0 []).map
      (fun r => (json_text_size, r.1, r.2))

/-! ## Numbers (lines 530 to 647, the default binary64 build) -/

/-- What the scan of `jsonl_decode_number` (lines 532 to 597) finds: the length of the
number text and its digit runs. -/
structure jsonl_number_text_t where
  length : Nat
  is_negative : Bool
  integer_digits : List Nat
  fraction_digits : List Nat
  exponent_is_negative : Bool
  exponent_digits : List Nat
deriving DecidableEq, Repr

/-- The optional fraction: the digits and the text after them; `none` when the function
returns 0. -/
def jsonl_decode_number_fraction (read : List Nat) : Option (List Nat × List Nat) :=
  match read with
  | 46 :: after =>
      if after.isEmpty || !jsonl_is_decimal_value (after.getD 0 0) then none
      else some (after.takeWhile jsonl_is_decimal_value, after.dropWhile jsonl_is_decimal_value)
  | _ => some ([], read)

/-- The optional exponent: its sign, the digits and the text after them; `none` when the
function returns 0. -/
def jsonl_decode_number_exponent (read : List Nat) : Option (Bool × List Nat × List Nat) :=
  let digits (negative : Bool) (after : List Nat) : Option (Bool × List Nat × List Nat) :=
    if after.isEmpty || !jsonl_is_decimal_value (after.getD 0 0) then none
    else some (negative, after.takeWhile jsonl_is_decimal_value,
      after.dropWhile jsonl_is_decimal_value)
  match read with
  | [] => some (false, [], read)
  | character :: after =>
      if character == 69 || character == 101 then
        match after with
        | [] => none
        | 43 :: after2 => digits false after2
        | 45 :: after2 => digits true after2
        | _ => digits false after
      else some (false, [], read)

/-- Lines 532 to 597: the scan of a number text; `none` when the function returns 0. -/
def jsonl_decode_number_scan (json_text : List Nat) : Option jsonl_number_text_t :=
  if json_text.isEmpty then none
  else
    let is_negative := json_text.getD 0 0 == 45
    let read := if is_negative then json_text.drop 1 else json_text
    if read.isEmpty || !jsonl_is_decimal_value (read.getD 0 0) then none
    else
      let integer_digits := read.takeWhile jsonl_is_decimal_value
      if decide (integer_digits.length > 1) && integer_digits.getD 0 0 == 48 then none
      else
        match jsonl_decode_number_fraction (read.dropWhile jsonl_is_decimal_value) with
        | none => none
        | some (fraction_digits, read) =>
            match jsonl_decode_number_exponent read with
            | none => none
            | some (exponent_is_negative, exponent_digits, read) =>
                if !read.isEmpty && !jsonl_is_white_space (read.getD 0 0) &&
                    !jsonl_is_structural_character (read.getD 0 0) then none
                else some {
                  length := json_text.length - read.length
                  is_negative := is_negative
                  integer_digits := integer_digits
                  fraction_digits := fraction_digits
                  exponent_is_negative := exponent_is_negative
                  exponent_digits := exponent_digits }

/-- The value `jsonl_decode_number` returns when it is called with a null `number_value`,
as `jsonl_decide_value_type` does. -/
def jsonl_decode_number_length (json_text : List Nat) : Nat :=
  match jsonl_decode_number_scan json_text with
  | none => 0
  | some scan => scan.length

def jsonl_double_zero : Nat := 0
def jsonl_double_one : Nat := 0x3FF0000000000000
def jsonl_double_ten : Nat := 0x4024000000000000
/-- The constant `hex_infinity` of line 637. -/
def jsonl_double_infinity : Nat := 0x7FF0000000000000
/-- The constant `10000000000000000000.0` of line 1170. -/
def jsonl_double_1e19 : Nat := 0x43E158E460913D00

/-- The loops `for (i = count; i--; decimal_shift *= 10.0) value += decimal_shift * digit`
of lines 607 and 611, over the digits from the last to the first. -/
def jsonl_decode_number_digits (pf : jsonl_platform_t) :
    List Nat → Nat → Nat → Nat
  | [], value, _ => value
  | digit :: reversed_digits, value, decimal_shift =>
      jsonl_decode_number_digits pf reversed_digits
        (pf.double_add value
          (pf.double_mul decimal_shift (pf.double_of_uint64 (jsonl_decimal_value digit))))
        (pf.double_mul decimal_shift jsonl_double_ten)

/-- Lines 598 to 645: the value of a scanned number. -/
def jsonl_decode_number_value (pf : jsonl_platform_t) (scan : jsonl_number_text_t) : Nat :=
  let value := jsonl_double_zero
  let value :=
    if scan.fraction_digits.length != 0 then
      jsonl_decode_number_digits pf scan.fraction_digits.reverse value
        (Nat.iterate (fun shift => pf.double_div shift jsonl_double_ten)
          scan.fraction_digits.length jsonl_double_one)
    else value
  let value := jsonl_decode_number_digits pf scan.integer_digits.reverse value jsonl_double_one
  let value :=
    if scan.exponent_digits.length != 0 then
      if scan.exponent_digits.length < 4 then
        let exponent_value :=
          scan.exponent_digits.foldl (fun e digit => 10 * e + jsonl_decimal_value digit) 0
        if exponent_value != 0 then
          let decimal_shift :=
            Nat.iterate (fun shift => pf.double_mul shift jsonl_double_ten) exponent_value
              jsonl_double_one
          if scan.exponent_is_negative then pf.double_div value decimal_shift
          else pf.double_mul value decimal_shift
        else value
      else if scan.exponent_is_negative then jsonl_double_zero
      else jsonl_double_infinity
    else value
  if pf.double_ne_zero value && scan.is_negative then pf.double_neg value else value

/-- Returns the length of the number text (0 when there is none) and the value stored
through `number_value`. -/
def jsonl_decode_number (pf : jsonl_platform_t) (json_text : List Nat) :
    Nat × jsonl_number_value_t :=
  match jsonl_decode_number_scan json_text with
  | none => (0, ⟨0⟩)
  | some scan => (scan.length, ⟨jsonl_decode_number_value pf scan⟩)

/-! ## Spans, value types and counting (lines 650 to 863) -/

/-- The loop shared by `jsonl_object_text_size` and `jsonl_array_text_size`, which
differ in the two delimiters only.  `read` is the text from the read pointer to `end`,
`offset` the distance of the read pointer from the start. -/
def jsonl_container_text_size_loop (opening closing : Nat) :
    Nat → List Nat → Nat → Nat → Nat
  | 0, _, _, _ => 0
  | fuel + 1, read, offset, depth =>
      match read with
      | [] => 0
      | character :: after =>
          if character == closing then
            if depth - 1 == 0 then offset + 1
            else jsonl_container_text_size_loop opening closing fuel after (offset + 1) (depth - 1)
          else if character == opening then
            jsonl_container_text_size_loop opening closing fuel after (offset + 1) (depth + 1)
          else if character == 34 then
            let quoted_string_lenght := jsonl_quoted_string_lenght read
            if quoted_string_lenght != 0 then
              jsonl_container_text_size_loop opening closing fuel (read.drop quoted_string_lenght)
                (offset + quoted_string_lenght) depth
            else 0
          else jsonl_container_text_size_loop opening closing fuel after (offset + 1) depth

def jsonl_object_text_size (json_text : List Nat) : Nat :=
  match json_text with
  | 123 :: read => jsonl_container_text_size_loop 123 125 read.length read 1 1
  | _ => 0

def jsonl_array_text_size (json_text : List Nat) : Nat :=
  match json_text with
  | 91 :: read => jsonl_container_text_size_loop 91 93 read.length read 1 1
  | _ => 0

/-- Returns the value type and `*object_text_size`. -/
def jsonl_decide_value_type (json_text : List Nat) : Nat × Nat :=
  if jsonl_text_is_literal [110, 117, 108, 108] json_text then (JSONL_TYPE_NULL, 4)
  else if (jsonl_decode_boolean json_text).1 != 0 then
    (JSONL_TYPE_BOOLEAN, (jsonl_decode_boolean json_text).1)
  else if jsonl_object_text_size json_text != 0 then
    (JSONL_TYPE_OBJECT, jsonl_object_text_size json_text)
  else if jsonl_array_text_size json_text != 0 then
    (JSONL_TYPE_ARRAY, jsonl_array_text_size json_text)
  else if jsonl_decode_number_length json_text != 0 then
    (JSONL_TYPE_NUMBER, jsonl_decode_number_length json_text)
  else if jsonl_quoted_string_lenght json_text != 0 then
    (JSONL_TYPE_STRING, jsonl_quoted_string_lenght json_text)
  else (JSONL_TYPE_ERROR, 0)

/-- The return value of `jsonl_name_value_pair_size` and what it stores through its
pointers. -/
structure jsonl_name_value_pair_t where
  size : Nat
  name_size : Nat
  value_type : Nat
  value_offset : Nat
  value_size : Nat
deriving DecidableEq, Repr

def jsonl_name_value_pair_size (json_text : List Nat) : jsonl_name_value_pair_t :=
  let name_lenght := jsonl_quoted_string_lenght json_text
  if name_lenght == 0 then ⟨0, name_lenght, 0, 0, 0⟩
  else
    let read := json_text.drop name_lenght
    let colon := jsonl_white_space_length read
    let read := read.drop colon
    match read with
    | [] => ⟨0, name_lenght, 0, 0, 0⟩
    | character :: after =>
        if character != 58 then ⟨0, name_lenght, 0, 0, 0⟩
        else
          let space := jsonl_white_space_length after
          let read := after.drop space
          if read.isEmpty then ⟨0, name_lenght, 0, 0, 0⟩
          else
            let object_offset := name_lenght + colon + 1 + space
            let decided := jsonl_decide_value_type read
            if decided.1 == JSONL_TYPE_ERROR then ⟨0, name_lenght, 0, object_offset, 0⟩
            else ⟨object_offset + decided.2, name_lenght, decided.1, object_offset, decided.2⟩

/-- The loop of `jsonl_count_object_name_value_pairs`; `read` is the text from the read
pointer to `end`. -/
def jsonl_count_object_name_value_pairs_loop : Nat → List Nat → Nat → Bool → Nat
  | 0, _, object_count, expecting_new_object =>
      if object_count == 0 || !expecting_new_object then object_count else jsonl_size_max
  | fuel + 1, read, object_count, expecting_new_object =>
      match read with
      | [] => if object_count == 0 || !expecting_new_object then object_count else jsonl_size_max
      | character :: after =>
          if expecting_new_object then
            if character == 34 then
              let name_value_pair_size := (jsonl_name_value_pair_size read).size
              if name_value_pair_size == 0 then jsonl_size_max
              else jsonl_count_object_name_value_pairs_loop fuel (read.drop name_value_pair_size)
                (object_count + 1) false
            else if jsonl_is_white_space character then
              jsonl_count_object_name_value_pairs_loop fuel after object_count true
            else jsonl_size_max
          else if character == 44 then
            jsonl_count_object_name_value_pairs_loop fuel after object_count true
          else if !jsonl_is_white_space character then jsonl_size_max
          else jsonl_count_object_name_value_pairs_loop fuel after object_count false

def jsonl_count_object_name_value_pairs (json_text : List Nat) : Nat :=
  let json_text_size := jsonl_object_text_size json_text
  if json_text_size == 0 then jsonl_size_max
  else
    let read := (json_text.take (json_text_size - 1)).drop 1
    jsonl_count_object_name_value_pairs_loop read.length read 0 true

/-- The loop of `jsonl_count_array_values`; `read` is the text from the read pointer to
`end`. -/
def jsonl_count_array_values_loop : Nat → List Nat → Nat → Bool → Nat
  | 0, _, object_count, expecting_new_object =>
      if object_count == 0 || !expecting_new_object then object_count else jsonl_size_max
  | fuel + 1, read, object_count, expecting_new_object =>
      match read with
      | [] => if object_count == 0 || !expecting_new_object then object_count else jsonl_size_max
      | character :: after =>
          if expecting_new_object then
            if jsonl_is_white_space character then
              jsonl_count_array_values_loop fuel after object_count true
            else
              let decided := jsonl_decide_value_type read
              if decided.1 == JSONL_TYPE_ERROR then jsonl_size_max
              else jsonl_count_array_values_loop fuel (read.drop decided.2) (object_count + 1) false
          else if character == 44 then
            jsonl_count_array_values_loop fuel after object_count true
          else if !jsonl_is_white_space character then jsonl_size_max
          else jsonl_count_array_values_loop fuel after object_count false

def jsonl_count_array_values (json_text : List Nat) : Nat :=
  let json_text_size := jsonl_array_text_size json_text
  if json_text_size == 0 then jsonl_size_max
  else
    let read := (json_text.take (json_text_size - 1)).drop 1
    jsonl_count_array_values_loop read.length read 0 true

/-! ## The parser (lines 865 to 1068) -/

/-- The loop of the object case of `jsonl_create_tree_from_text` (lines 903 to 949).
`child` is the recursive call; `remaining` is `end - read` and `read` the text from the
read pointer (it ends with the closing brace); `table` holds the entries written so far.
The size 0 stands for `return 0`. -/
def jsonl_create_tree_from_text_object_loop
    (child : List Nat → Nat → Option (Nat × Nat × Option jsonl_value_t))
    (value_buffer_size sub_value_count : Nat) :
    Nat → Nat → List Nat → Nat → Bool → Nat → List (Option (List Nat × jsonl_value_t)) →
      Option (Nat × List (Option (List Nat × jsonl_value_t)))
  | 0, _, _, sub_object_index, _, value_size, table =>
      if sub_object_index == sub_value_count then some (value_size, table) else none
  | fuel + 1, remaining, read, sub_object_index, expecting_sub_value, value_size, table =>
      if sub_object_index == sub_value_count then some (value_size, table)
      else
        match read with
        | [] => none
        | character :: after =>
            if expecting_sub_value then
              if character == 34 then
                let pair := jsonl_name_value_pair_size (read.take remaining)
                if pair.size == 0 then some (0, [])
                else
                  match jsonl_decode_quoted_string (read.take pair.name_size)
                      (jsonl_remaining value_size value_buffer_size) with
                  | none => none
                  | some (decoded, string_length, name) =>
                      if decoded == 0 then some (0, [])
                      else
                        let value_size := value_size + jsonl_round_size (string_length + 1)
                        match child ((read.drop pair.value_offset).take pair.value_size)
                            (jsonl_remaining value_size value_buffer_size) with
                        | none => none
                        | some (value_text_lenght, sub_value_size, sub_value) =>
                            if value_text_lenght == 0 then some (0, [])
                            else
                              jsonl_create_tree_from_text_object_loop child value_buffer_size
                                sub_value_count fuel (remaining - pair.size) (read.drop pair.size)
                                (sub_object_index + 1) false (value_size + sub_value_size)
                                (table ++ [if value_size ≤ value_buffer_size then
                                  sub_value.map (fun v => (name, v)) else none])
              else if jsonl_is_white_space character then
                jsonl_create_tree_from_text_object_loop child value_buffer_size sub_value_count
                  fuel (remaining - 1) after sub_object_index true value_size table
              else some (0, [])
            else if character == 44 then
              jsonl_create_tree_from_text_object_loop child value_buffer_size sub_value_count
                fuel (remaining - 1) after sub_object_index true value_size table
            else if !jsonl_is_white_space character then some (0, [])
            else
              jsonl_create_tree_from_text_object_loop child value_buffer_size sub_value_count
                fuel (remaining - 1) after sub_object_index false value_size table

/-- The loop of the array case of `jsonl_create_tree_from_text` (lines 965 to 996). -/
def jsonl_create_tree_from_text_array_loop
    (child : List Nat → Nat → Option (Nat × Nat × Option jsonl_value_t))
    (value_buffer_size sub_value_count : Nat) :
    Nat → Nat → List Nat → Nat → Bool → Nat → List (Option jsonl_value_t) →
      Option (Nat × List (Option jsonl_value_t))
  | 0, _, _, sub_object_index, _, value_size, table =>
      if sub_object_index == sub_value_count then some (value_size, table) else none
  | fuel + 1, remaining, read, sub_object_index, expecting_sub_value, value_size, table =>
      if sub_object_index == sub_value_count then some (value_size, table)
      else
        match read with
        | [] => none
        | character :: after =>
            if expecting_sub_value then
              if jsonl_is_white_space character then
                jsonl_create_tree_from_text_array_loop child value_buffer_size sub_value_count
                  fuel (remaining - 1) after sub_object_index true value_size table
              else
                match child (read.take remaining)
                    (jsonl_remaining value_size value_buffer_size) with
                | none => none
                | some (sub_value_text_size, sub_value_size, sub_value) =>
                    if sub_value_text_size == 0 then some (0, [])
                    else
                      jsonl_create_tree_from_text_array_loop child value_buffer_size
                        sub_value_count fuel (remaining - sub_value_text_size)
                        (read.drop sub_value_text_size) (sub_object_index + 1) false
                        (value_size + sub_value_size)
                        (table ++ [if value_size ≤ value_buffer_size then sub_value else none])
            else if character == 44 then
              jsonl_create_tree_from_text_array_loop child value_buffer_size sub_value_count
                fuel (remaining - 1) after sub_object_index true value_size table
            else if !jsonl_is_white_space character then some (0, [])
            else
              jsonl_create_tree_from_text_array_loop child value_buffer_size sub_value_count
                fuel (remaining - 1) after sub_object_index false value_size table

/-- Returns the length of the value text (0 on failure), `*required_value_buffer_size`
and the tree written to the buffer.  The first argument bounds the nesting. -/
def jsonl_create_tree_from_text (pf : jsonl_platform_t) :
    Nat → List Nat → Nat → Option (Nat × Nat × Option jsonl_value_t)
  | 0, _, _ => none
  | fuel + 1, json_text, value_buffer_size =>
      let decided := jsonl_decide_value_type json_text
      let value_type := decided.1
      let value_text_size := decided.2
      let value_size := jsonl_round_size jsonl_sizeof_value
      if value_type == JSONL_TYPE_OBJECT then
        let sub_value_count := jsonl_count_object_name_value_pairs (json_text.take value_text_size)
        if sub_value_count == jsonl_size_max then some (0, 0, none)
        else
          let table_size := value_size + jsonl_round_size (sub_value_count * jsonl_sizeof_object_entry)
          match jsonl_create_tree_from_text_object_loop (jsonl_create_tree_from_text pf fuel)
              value_buffer_size sub_value_count value_text_size (value_text_size - 2)
              ((json_text.take value_text_size).drop 1) 0 true table_size [] with
          | none => none
          | some (value_size, table) =>
              if value_size == 0 then some (0, 0, none)
              else some (value_text_size, value_size,
                if table_size ≤ value_buffer_size ∧ value_size ≤ value_buffer_size then
                  (jsonl_collect table).map jsonl_value_t.object
                else none)
      else if value_type == JSONL_TYPE_ARRAY then
        let sub_value_count := jsonl_count_array_values (json_text.take value_text_size)
        if sub_value_count == jsonl_size_max then some (0, 0, none)
        else
          let table_size := value_size + jsonl_round_size (sub_value_count * jsonl_sizeof_pointer)
          match jsonl_create_tree_from_text_array_loop (jsonl_create_tree_from_text pf fuel)
              value_buffer_size sub_value_count value_text_size (value_text_size - 2)
              ((json_text.take value_text_size).drop 1) 0 true table_size [] with
          | none => none
          | some (value_size, table) =>
              if value_size == 0 then some (0, 0, none)
              else some (value_text_size, value_size,
                if value_size ≤ value_buffer_size then
                  (jsonl_collect table).map jsonl_value_t.array
                else none)
      else if value_type == JSONL_TYPE_STRING then
        match jsonl_decode_quoted_string (json_text.take value_text_size)
            (jsonl_remaining value_size value_buffer_size) with
        | none => none
        | some (decoded, string_length, string) =>
            if decoded == 0 then some (0, 0, none)
            else
              let value_size := value_size + jsonl_round_size (string_length + 1)
              some (value_text_size, value_size,
                jsonl_written (value_size ≤ value_buffer_size) (jsonl_value_t.string string))
      else if value_type == JSONL_TYPE_NUMBER then
        let decoded := jsonl_decode_number pf (json_text.take value_text_size)
        if decoded.1 == 0 then some (0, 0, none)
        else some (value_text_size, value_size,
          jsonl_written (value_size ≤ value_buffer_size) (jsonl_value_t.number decoded.2))
      else if value_type == JSONL_TYPE_BOOLEAN then
        let decoded := jsonl_decode_boolean (json_text.take value_text_size)
        if decoded.1 == 0 then some (0, 0, none)
        else some (value_text_size, value_size,
          jsonl_written (value_size ≤ value_buffer_size) (jsonl_value_t.boolean decoded.2))
      else if value_type == JSONL_TYPE_NULL then
        some (value_text_size, value_size,
          jsonl_written (value_size ≤ value_buffer_size) jsonl_value_t.null)
      else some (0, 0, none)

/-- Returns the size of the value tree (0 when the text does not parse) and the tree
the buffer holds.  The nesting of a text is less than its length. -/
def jsonl_parse_text (pf : jsonl_platform_t) (json_text : List Nat) (value_buffer_size : Nat) :
    Option (Nat × Option jsonl_value_t) :=
  let beginning_white_space := jsonl_white_space_length json_text
  match jsonl_create_tree_from_text pf (json_text.length + 1)
      (json_text.drop beginning_white_space) value_buffer_size with
  | none => none
  | some (text_size, tree_size, tree) =>
      if text_size != 0 then some (tree_size, tree) else some (0, none)

/-! ## Path lookup (lines 1070 to 1100) -/

/-- The search loop of line 1079: the value of the first entry with the given name. -/
def jsonl_get_value_child (name : List Nat) :
    List (List Nat × jsonl_value_t) → Option jsonl_value_t
  | [] => none
  | (entry_name, value) :: table =>
      if jsonl_name_equal name entry_name then some value
      else jsonl_get_value_child name table

/-- The walk of `jsonl_get_value`; `none` is the null pointer. -/
def jsonl_get_value_walk : jsonl_value_t → List jsonl_path_component_t → Option jsonl_value_t
  | iterator, [] => some iterator
  | iterator, component :: path_table =>
      if component.container_type == iterator.type then
        match iterator, component with
        | .object table, .name name =>
            match jsonl_get_value_child name table with
            | none => none
            | some child => jsonl_get_value_walk child path_table
        | .array table, .index index =>
            match table[index]? with
            | none => none
            | some child => jsonl_get_value_walk child path_table
        | _, _ => none
      else none

/-- Returns the node at the path, `none` for the null pointer. -/
def jsonl_get_value (parent_value : jsonl_value_t) (path_table : List jsonl_path_component_t)
    (required_value_type : Nat) : Option jsonl_value_t :=
  match jsonl_get_value_walk parent_value path_table with
  | none => none
  | some iterator =>
      if required_value_type != 0 && iterator.type != required_value_type then none
      else some iterator

/-! ## The printer (lines 1154 to 1408)

A printing function returns the length it reports and the stores it makes, in program
order, each a pair of a buffer index and a byte. -/

/-- Moves the stores of a callee, made relative to its own buffer pointer. -/
def jsonl_shift_writes (offset : Nat) (writes : List (Nat × Nat)) : List (Nat × Nat) :=
  writes.map (fun w => (offset + w.1, w.2))

/-- The buffer after the stores: a store replaces the byte at its index. -/
def jsonl_apply_writes (buffer : Nat → Nat) : List (Nat × Nat) → Nat → Nat
  | [] => buffer
  | w :: writes => jsonl_apply_writes (fun i => if i = w.1 then w.2 else buffer i) writes

/-- The first `size` bytes of a buffer. -/
def jsonl_buffer_text (buffer : Nat → Nat) (size : Nat) : List Nat :=
  (List.range size).map buffer

/-- The loop `while (decimal_count < 19 && decimal_part / (decimal_shift * 10))` of line
1164; returns `decimal_count` and `decimal_shift`. -/
def jsonl_print_number_decimal_count (decimal_part : Nat) : Nat → Nat → Nat → Nat × Nat
  | 0, decimal_count, decimal_shift => (decimal_count, decimal_shift)
  | fuel + 1, decimal_count, decimal_shift =>
      if decimal_count < 19 ∧ decimal_part / ((decimal_shift * 10) % 2 ^ 64) ≠ 0 then
        jsonl_print_number_decimal_count decimal_part fuel (decimal_count + 1)
          ((decimal_shift * 10) % 2 ^ 64)
      else (decimal_count, decimal_shift)

/-- The loop of line 1176: the position after the last non-zero digit among the 19
fraction digits. -/
def jsonl_print_number_fraction_count (fraction_part : Nat) : List Nat → Nat → Nat → Nat
  | [], fraction_count, _ => fraction_count
  | digit :: digits, fraction_count, fraction_shift =>
      jsonl_print_number_fraction_count fraction_part digits
        (if (fraction_part / fraction_shift) % 10 ≠ 0 then digit + 1 else fraction_count)
        (fraction_shift / 10)

/-- The digit loops of lines 1191 and 1202: `count` digits of `part`, from the digit
at `shift` down, stored from `offset` on. -/
def jsonl_print_number_digits (part : Nat) : Nat → Nat → Nat → List (Nat × Nat)
  | 0, _, _ => []
  | count + 1, shift, offset =>
      (offset, (48 + (part / shift) % 10) % 256) ::
        jsonl_print_number_digits part count (shift / 10) (offset + 1)

/-- Lines 1154 to 1211, the binary64 build. -/
def jsonl_print_number_value (pf : jsonl_platform_t) (number_value : jsonl_number_value_t)
    (text_buffer_size : Nat) : Nat × List (Nat × Nat) :=
  let sign_bit : Nat := if pf.double_lt_zero number_value.value then 1 else 0
  let value := if sign_bit = 1 then pf.double_neg number_value.value else number_value.value
  let decimal_part := pf.double_to_uint64 value % 2 ^ 64
  let counted := jsonl_print_number_decimal_count decimal_part 19 1 1
  let decimal_count := counted.1
  let decimal_shift := counted.2
  let fraction_part :=
    pf.double_to_uint64
      (pf.double_mul (pf.double_sub value (pf.double_of_uint64 decimal_part)) jsonl_double_1e19)
      % 2 ^ 64
  let fraction_count :=
    if fraction_part ≠ 0 then
      jsonl_print_number_fraction_count fraction_part (List.range' 1 18) 1 100000000000000000
    else 0
  let size := sign_bit + decimal_count + (if fraction_count ≠ 0 then 1 + fraction_count else 0)
  (size,
    if text_buffer_size ≥ size then
      (if sign_bit = 1 then [(0, 45)] else []) ++
        jsonl_print_number_digits decimal_part decimal_count decimal_shift sign_bit ++
        (if fraction_count ≠ 0 then
          (sign_bit + decimal_count, 46) ::
            jsonl_print_number_digits fraction_part fraction_count 1000000000000000000
              (sign_bit + decimal_count + 1)
        else [])
    else [])

/-- The table `escaped_character_table` of line 1216, as pairs of `character` and
`escaped`. -/
def jsonl_escaped_character_table : List (Nat × Nat) :=
  [(34, 34), (92, 92), (8, 98), (12, 102), (10, 110), (13, 114), (9, 116)]

/-- The search of line 1231: the first entry of the table whose `character` is the
byte. -/
def jsonl_escaped_character_index (character : Nat) : Option (Nat × Nat) :=
  jsonl_escaped_character_table.find? (fun entry => character == entry.1)

/-- The test `character < 0x20` of line 1236 on a `char`: a byte above 127 is negative
where `char` is signed. -/
def jsonl_char_less_than_0x20 (pf : jsonl_platform_t) (character : Nat) : Bool :=
  decide (character < 32) || (pf.char_is_signed && decide (character ≥ 128))

/-- The byte `'0' + ((int)character >> 4)` of line 1244. -/
def jsonl_print_high_digit (pf : jsonl_platform_t) (character : Nat) : Nat :=
  if pf.char_is_signed ∧ character ≥ 128 then (32 + character / 16) % 256
  else (48 + character / 16) % 256

/-- The byte of line 1245, from the low four bits. -/
def jsonl_print_low_digit (character : Nat) : Nat :=
  if character % 16 < 10 then 48 + character % 16 else 55 + character % 16

/-- The loop of `jsonl_print_string_value` (lines 1227 to 1265): returns
`printed_string_length` and the stores. -/
def jsonl_print_string_value_loop (pf : jsonl_platform_t) (text_buffer_size : Nat) :
    List Nat → Nat → Nat × List (Nat × Nat)
  | [], printed_string_length => (printed_string_length, [])
  | character :: string, printed_string_length =>
      match jsonl_escaped_character_index character with
      | none =>
          if jsonl_char_less_than_0x20 pf character then
            let rest := jsonl_print_string_value_loop pf text_buffer_size string
              (printed_string_length + 6)
            (rest.1,
              (if printed_string_length + 5 < text_buffer_size then
                [(1 + printed_string_length, 92), (1 + printed_string_length + 1, 117),
                  (1 + printed_string_length + 2, 48), (1 + printed_string_length + 3, 48),
                  (1 + printed_string_length + 4, jsonl_print_high_digit pf character),
                  (1 + printed_string_length + 5, jsonl_print_low_digit character)]
              else []) ++ rest.2)
          else
            let rest := jsonl_print_string_value_loop pf text_buffer_size string
              (printed_string_length + 1)
            (rest.1,
              (if printed_string_length < text_buffer_size then
                [(1 + printed_string_length, character)] else []) ++ rest.2)
      | some entry =>
          let rest := jsonl_print_string_value_loop pf text_buffer_size string
            (printed_string_length + 2)
          (rest.1,
            (if printed_string_length + 1 < text_buffer_size then
              [(1 + printed_string_length, 92), (1 + printed_string_length + 1, entry.1)]
            else []) ++ rest.2)

def jsonl_print_string_value (pf : jsonl_platform_t) (string : List Nat)
    (text_buffer_size : Nat) : Nat × List (Nat × Nat) :=
  let printed := jsonl_print_string_value_loop pf text_buffer_size string 0
  (2 + printed.1,
    (if text_buffer_size ≠ 0 then [(0, 34)] else []) ++ printed.2 ++
      (if 1 + printed.1 < text_buffer_size then [(1 + printed.1, 34)] else []))

/-- Line 1271: `depth` tabs from `offset` on. -/
def jsonl_print_indent (offset depth : Nat) : List (Nat × Nat) :=
  (List.range depth).map (fun i => (offset + i, 9))

mutual
/-- Lines 1277 to 1403.  The length 0 stands for `return 0`. -/
def jsonl_internal_print (pf : jsonl_platform_t) :
    jsonl_value_t → Nat → Nat → Nat × List (Nat × Nat)
  | .object table, json_text_buffer_size, depth =>
      let opened := if 1 < json_text_buffer_size then [(0, 123), (1, 10)] else []
      let entries := jsonl_internal_print_object_loop pf table json_text_buffer_size depth 2
      if entries.1 = 0 then (0, opened ++ entries.2)
      else
        (entries.1 + depth + 1,
          opened ++ entries.2 ++
            (if entries.1 + depth < json_text_buffer_size then
              jsonl_print_indent entries.1 depth ++ [(entries.1 + depth, 125)]
            else []))
  | .array table, json_text_buffer_size, depth =>
      let opened := if 1 < json_text_buffer_size then [(0, 91), (1, 10)] else []
      let entries := jsonl_internal_print_array_loop pf table json_text_buffer_size depth 2
      if entries.1 = 0 then (0, opened ++ entries.2)
      else
        (entries.1 + depth + 1,
          opened ++ entries.2 ++
            (if entries.1 + depth < json_text_buffer_size then
              jsonl_print_indent entries.1 depth ++ [(entries.1 + depth, 93)]
            else []))
  | .string value, json_text_buffer_size, _ =>
      jsonl_print_string_value pf value json_text_buffer_size
  | .number number, json_text_buffer_size, _ =>
      jsonl_print_number_value pf number json_text_buffer_size
  | .boolean true, json_text_buffer_size, _ =>
      (4, if json_text_buffer_size > 3 then [(0, 116), (1, 114), (2, 117), (3, 101)] else [])
  | .boolean false, json_text_buffer_size, _ =>
      (5, if json_text_buffer_size > 4 then
        [(0, 102), (1, 97), (2, 108), (3, 115), (4, 101)] else [])
  | .null, json_text_buffer_size, _ =>
      (4, if json_text_buffer_size > 3 then [(0, 110), (1, 117), (2, 108), (3, 108)] else [])
  | .unknown _, _, _ => (0, [])
/-- The loop of the object case (lines 1289 to 1315) from `object_size` on; the size 0
stands for `return 0`. -/
def jsonl_internal_print_object_loop (pf : jsonl_platform_t) :
    List (List Nat × jsonl_value_t) → Nat → Nat → Nat → Nat × List (Nat × Nat)
  | [], _, _, object_size => (object_size, [])
  | (name, value) :: table, json_text_buffer_size, depth, object_size =>
      let indent :=
        if object_size + 1 < json_text_buffer_size then jsonl_print_indent object_size (depth + 1)
        else []
      let object_size := object_size + (depth + 1)
      let printed_name := jsonl_print_string_value pf name
        (jsonl_remaining object_size json_text_buffer_size)
      let name_writes := jsonl_shift_writes object_size printed_name.2
      let object_size := object_size + printed_name.1
      let colon :=
        if object_size + 2 < json_text_buffer_size then
          [(object_size, 32), (object_size + 1, 58), (object_size + 2, 32)]
        else []
      let object_size := object_size + 3
      let child := jsonl_internal_print pf value
        (jsonl_remaining object_size json_text_buffer_size) (depth + 1)
      if child.1 = 0 then (0, indent ++ name_writes ++ colon ++ jsonl_shift_writes object_size child.2)
      else
        let child_writes := jsonl_shift_writes object_size child.2
        let object_size := object_size + child.1
        let comma :=
          if table.isEmpty then []
          else if object_size < json_text_buffer_size then [(object_size, 44)] else []
        let object_size := if table.isEmpty then object_size else object_size + 1
        let line := if object_size < json_text_buffer_size then [(object_size, 10)] else []
        let rest := jsonl_internal_print_object_loop pf table json_text_buffer_size depth
          (object_size + 1)
        (rest.1, indent ++ name_writes ++ colon ++ child_writes ++ comma ++ line ++ rest.2)
/-- The loop of the array case (lines 1332 to 1350) from `array_size` on; the size 0
stands for `return 0`. -/
def jsonl_internal_print_array_loop (pf : jsonl_platform_t) :
    List jsonl_value_t → Nat → Nat → Nat → Nat × List (Nat × Nat)
  | [], _, _, array_size => (array_size, [])
  | value :: table, json_text_buffer_size, depth, array_size =>
      let indent :=
        if array_size + 1 < json_text_buffer_size then jsonl_print_indent array_size (depth + 1)
        else []
      let array_size := array_size + (depth + 1)
      let child := jsonl_internal_print pf value
        (jsonl_remaining array_size json_text_buffer_size) (depth + 1)
      if child.1 = 0 then (0, indent ++ jsonl_shift_writes array_size child.2)
      else
        let child_writes := jsonl_shift_writes array_size child.2
        let array_size := array_size + child.1
        let comma :=
          if table.isEmpty then []
          else if array_size < json_text_buffer_size then [(array_size, 44)] else []
        let array_size := if table.isEmpty then array_size else array_size + 1
        let line := if array_size < json_text_buffer_size then [(array_size, 10)] else []
        let rest := jsonl_internal_print_array_loop pf table json_text_buffer_size depth
          (array_size + 1)
        (rest.1, indent ++ child_writes ++ comma ++ line ++ rest.2)
end

/-- Returns the length of the printed text (0 on failure) and the stores made into the
text buffer. -/
def jsonl_print (pf : jsonl_platform_t) (value_tree : jsonl_value_t)
    (json_text_buffer_size : Nat) : Nat × List (Nat × Nat) :=
  jsonl_internal_print pf value_tree json_text_buffer_size 0

/-! ## Building blocks of the patch engine (lines 1410 to 1527) -/

/-- Returns the size of a Null node and the node the buffer holds. -/
def jsonl_internal_create_null_value (value_buffer_size : Nat) : Nat × Option jsonl_value_t :=
  let null_object_size := jsonl_round_size jsonl_sizeof_value
  (null_object_size, jsonl_written (null_object_size ≤ value_buffer_size) jsonl_value_t.null)

/-- The name loop of lines 1435 to 1445: returns `object_table_size` and, for each entry,
the name the table holds. -/
def jsonl_internal_copy_value_names (object_size value_buffer_size : Nat) :
    List (List Nat × jsonl_value_t) → Nat → Nat × List (Option (List Nat))
  | [], object_table_size => (object_table_size, [])
  | (name, _) :: table, object_table_size =>
      let name_size := jsonl_round_size (name.length + 1)
      let rest := jsonl_internal_copy_value_names object_size value_buffer_size table
        (object_table_size + name_size)
      (rest.1,
        jsonl_written (object_size + object_table_size + name_size ≤ value_buffer_size) name
          :: rest.2)

/-- Puts the names and the values of an object table together: an entry is complete
when both its parts are. -/
def jsonl_object_entries :
    List (Option (List Nat)) → List (Option jsonl_value_t) →
      List (Option (List Nat × jsonl_value_t))
  | name :: names, value :: values =>
      (match name, value with
        | some n, some v => some (n, v)
        | _, _ => none) :: jsonl_object_entries names values
  | _, _ => []

mutual
/-- Returns the size of the copy (0 on failure) and the copy the buffer holds. -/
def jsonl_internal_copy_value :
    jsonl_value_t → Nat → Nat × Option jsonl_value_t
  | .object table, value_buffer_size =>
      let object_size := jsonl_round_size jsonl_sizeof_value
      let named := jsonl_internal_copy_value_names object_size value_buffer_size table
        (jsonl_round_size (table.length * jsonl_sizeof_object_entry))
      let copied := jsonl_internal_copy_value_entries table value_buffer_size
        (object_size + named.1)
      if copied.1 = 0 then (0, none)
      else
        (copied.1,
          if object_size ≤ value_buffer_size ∧ copied.1 ≤ value_buffer_size then
            (jsonl_collect (jsonl_object_entries named.2 copied.2)).map jsonl_value_t.object
          else none)
  | .array table, value_buffer_size =>
      let object_size := jsonl_round_size jsonl_sizeof_value
      let copied := jsonl_internal_copy_value_values table value_buffer_size
        (object_size + jsonl_round_size (table.length * jsonl_sizeof_pointer))
      if copied.1 = 0 then (0, none)
      else
        (copied.1,
          if object_size ≤ value_buffer_size ∧ copied.1 ≤ value_buffer_size then
            (jsonl_collect copied.2).map jsonl_value_t.array
          else none)
  | .string value, value_buffer_size =>
      let object_size := jsonl_round_size jsonl_sizeof_value
      let data_size := jsonl_round_size (value.length + 1)
      (object_size + data_size,
        jsonl_written (object_size + data_size ≤ value_buffer_size) (jsonl_value_t.string value))
  | .number number, value_buffer_size =>
      (jsonl_round_size jsonl_sizeof_value,
        jsonl_written (jsonl_round_size jsonl_sizeof_value ≤ value_buffer_size)
          (jsonl_value_t.number number))
  | .boolean value, value_buffer_size =>
      (jsonl_round_size jsonl_sizeof_value,
        jsonl_written (jsonl_round_size jsonl_sizeof_value ≤ value_buffer_size)
          (jsonl_value_t.boolean value))
  | .null, value_buffer_size =>
      (jsonl_round_size jsonl_sizeof_value,
        jsonl_written (jsonl_round_size jsonl_sizeof_value ≤ value_buffer_size) jsonl_value_t.null)
  | .unknown _, _ => (0, none)
/-- The value loop of the object case (lines 1447 to 1456) from `object_size` on: the
final `object_size` (0 for `return 0`) and the value each entry of the table points to. -/
def jsonl_internal_copy_value_entries :
    List (List Nat × jsonl_value_t) → Nat → Nat → Nat × List (Option jsonl_value_t)
  | [], _, object_size => (object_size, [])
  | (_, value) :: table, value_buffer_size, object_size =>
      let sub_value := jsonl_internal_copy_value value
        (jsonl_remaining object_size value_buffer_size)
      if sub_value.1 = 0 then (0, [])
      else
        let rest := jsonl_internal_copy_value_entries table value_buffer_size
          (object_size + sub_value.1)
        if rest.1 = 0 then (0, [])
        else (rest.1,
          (if object_size ≤ value_buffer_size then sub_value.2 else none) :: rest.2)
/-- The loop of the array case (lines 1468 to 1477) from `object_size` on. -/
def jsonl_internal_copy_value_values :
    List jsonl_value_t → Nat → Nat → Nat × List (Option jsonl_value_t)
  | [], _, object_size => (object_size, [])
  | value :: table, value_buffer_size, object_size =>
      let sub_value := jsonl_internal_copy_value value
        (jsonl_remaining object_size value_buffer_size)
      if sub_value.1 = 0 then (0, [])
      else
        let rest := jsonl_internal_copy_value_values table value_buffer_size
          (object_size + sub_value.1)
        if rest.1 = 0 then (0, [])
        else (rest.1,
          (if object_size ≤ value_buffer_size then sub_value.2 else none) :: rest.2)
end

/-! ## Path creation (lines 1529 to 1768) -/

/-- The comparison loop of `..._create_path_contains_second_path` (lines 1534 to 1555)
over the first `depth` components of the two paths. -/
def jsonl_internal_set_values_create_path_contains_loop :
    List jsonl_path_component_t → List jsonl_path_component_t → Nat → Bool
  | _, _, 0 => true
  | .name name :: path, .name second_name :: second_path, depth + 1 =>
      if !jsonl_name_equal name second_name then false
      else jsonl_internal_set_values_create_path_contains_loop path second_path depth
  | .index index :: path, .index second_index :: second_path, depth + 1 =>
      if index == jsonl_size_max then false
      else if index != second_index then false
      else jsonl_internal_set_values_create_path_contains_loop path second_path depth
  | _, _, _ + 1 => false

/-- Does the operation at `second_path_index` share the first `depth` components of the
operation at `path_index`?  `none` when an index is outside the table. -/
def jsonl_internal_set_values_create_path_contains_second_path (path_index : Nat)
    (set_value_table : List jsonl_set_value_t) (depth second_path_index : Nat) : Option Bool :=
  if path_index == second_path_index then some true
  else
    match set_value_table[path_index]?, set_value_table[second_path_index]? with
    | some first, some second =>
        if decide (first.path.length ≥ depth + 1) && decide (second.path.length ≥ depth + 1) then
          some (jsonl_internal_set_values_create_path_contains_loop first.path second.path depth)
        else some false
    | _, _ => none

/-- The loop of `..._create_path_sub_path_not_already_listed` over the operations before
`set_value_index`; `path` is the path of the operation at `set_value_index`.  `none`
when that path has no component at `depth`. -/
def jsonl_internal_set_values_create_path_not_listed_loop
    (path : List jsonl_path_component_t) (depth : Nat) : List jsonl_set_value_t → Option Bool
  | [] => some true
  | earlier :: set_value_table =>
      if earlier.value.isSome && decide (earlier.path.length > depth) then
        match path[depth]?, earlier.path[depth]? with
        | none, _ => none
        | _, none => none
        | some (.name name), some (.name earlier_name) =>
            if jsonl_name_equal name earlier_name then some false
            else jsonl_internal_set_values_create_path_not_listed_loop path depth set_value_table
        | some (.index index), some (.index earlier_index) =>
            if index == jsonl_size_max then some true
            else if index == earlier_index then some false
            else jsonl_internal_set_values_create_path_not_listed_loop path depth set_value_table
        | _, _ => jsonl_internal_set_values_create_path_not_listed_loop path depth set_value_table
      else jsonl_internal_set_values_create_path_not_listed_loop path depth set_value_table

def jsonl_internal_set_values_create_path_sub_path_not_already_listed (set_value_index : Nat)
    (set_value_table : List jsonl_set_value_t) (depth : Nat) : Option Bool :=
  match set_value_table[set_value_index]? with
  | none => none
  | some set_value =>
      jsonl_internal_set_values_create_path_not_listed_loop set_value.path depth
        (set_value_table.take set_value_index)

/-- The counters of lines 1591 to 1595. -/
structure jsonl_create_path_counts_t where
  value_count : Nat
  path_count : Nat
  append_offset : Nat
  append_count : Nat
deriving DecidableEq, Repr

/-- Lines 1604 to 1610 and 1616 to 1622: the update of `append_count` and `append_offset`
for the operation whose component at `depth` is `component`.  `sub_value_count` is
still 0 while the loop runs. -/
def jsonl_create_path_count_array (is_array : Bool) (component : jsonl_path_component_t)
    (counts : jsonl_create_path_counts_t) : jsonl_create_path_counts_t :=
  if is_array then
    if component.index_member == jsonl_size_max then
      { counts with append_count := counts.append_count + 1 }
    else if component.index_member + 1 > 0 then
      { counts with append_offset := component.index_member + 1 }
    else counts
  else counts

/-- The counting loop of lines 1596 to 1625, from the operation `i` on (`rest` is the
table from `i`). -/
def jsonl_internal_set_values_create_path_count (path_index : Nat)
    (set_value_table : List jsonl_set_value_t) (depth : Nat) (is_array : Bool) :
    List jsonl_set_value_t → Nat → jsonl_create_path_counts_t →
      Option jsonl_create_path_counts_t
  | [], _, counts => some counts
  | set_value :: rest, i, counts =>
      if set_value.value.isSome then
        match jsonl_internal_set_values_create_path_contains_second_path path_index
            set_value_table depth i with
        | none => none
        | some false =>
            jsonl_internal_set_values_create_path_count path_index set_value_table depth is_array
              rest (i + 1) counts
        | some true =>
            if set_value.path.length > depth + 1 then
              match jsonl_internal_set_values_create_path_sub_path_not_already_listed i
                  set_value_table depth with
              | none => none
              | some false =>
                  jsonl_internal_set_values_create_path_count path_index set_value_table depth
                    is_array rest (i + 1) counts
              | some true =>
                  match set_value.path[depth]? with
                  | none => none
                  | some component =>
                      let counts := jsonl_create_path_count_array is_array component counts
                      jsonl_internal_set_values_create_path_count path_index set_value_table
                        depth is_array rest (i + 1)
                        { counts with path_count := counts.path_count + 1 }
            else
              match set_value.path[depth]? with
              | none => if is_array then none else
                  jsonl_internal_set_values_create_path_count path_index set_value_table
                    depth is_array rest (i + 1)
                    { counts with value_count := counts.value_count + 1 }
              | some component =>
                  let counts := jsonl_create_path_count_array is_array component counts
                  jsonl_internal_set_values_create_path_count path_index set_value_table
                    depth is_array rest (i + 1)
                    { counts with value_count := counts.value_count + 1 }
      else
        jsonl_internal_set_values_create_path_count path_index set_value_table depth is_array
          rest (i + 1) counts

/-- The name loop of the object branch (lines 1645 to 1663), from the operation `i` on
with `c` names placed: returns `object_table_size` and the names the table holds. -/
def jsonl_internal_set_values_create_path_names (path_index : Nat)
    (set_value_table : List jsonl_set_value_t) (depth sub_value_count object_size
      value_buffer_size : Nat) :
    List jsonl_set_value_t → Nat → Nat → Nat → Option (Nat × List (Option (List Nat)))
  | rest, i, c, object_table_size =>
      if c == sub_value_count then some (object_table_size, [])
      else
        match rest with
        | [] => none
        | set_value :: rest =>
            let skip := jsonl_internal_set_values_create_path_names path_index set_value_table
              depth sub_value_count object_size value_buffer_size rest (i + 1) c object_table_size
            let place : Option (Nat × List (Option (List Nat))) :=
              match set_value.path[depth]? with
              | none => none
              | some component =>
                  let name_size := jsonl_round_size (component.name_length + 1)
                  let name : Option (Option (List Nat)) :=
                    if object_size + object_table_size + name_size ≤ value_buffer_size then
                      component.name_value.map some
                    else some none
                  match name, jsonl_internal_set_values_create_path_names path_index
                      set_value_table depth sub_value_count object_size value_buffer_size rest
                      (i + 1) (c + 1) (object_table_size + name_size) with
                  | some name, some (size, names) => some (size, name :: names)
                  | _, _ => none
            if set_value.value.isSome then
              match jsonl_internal_set_values_create_path_contains_second_path path_index
                  set_value_table depth i with
              | none => none
              | some false => skip
              | some true =>
                  if set_value.path.length + 1 == depth then place
                  else
                    match jsonl_internal_set_values_create_path_sub_path_not_already_listed i
                        set_value_table depth with
                    | none => none
                    | some false => skip
                    | some true => place
            else skip

/-- The value loop of the object branch (lines 1665 to 1694), from the operation `i` on
with `c` values placed.  `create` is the recursive call for the operation it is given.
Returns `object_size` (0 for `return 0`) and the values the table points to. -/
def jsonl_internal_set_values_create_path_values
    (create : Nat → Nat → Option (Nat × Option jsonl_value_t)) (path_index : Nat)
    (set_value_table : List jsonl_set_value_t) (depth sub_value_count value_buffer_size : Nat) :
    List jsonl_set_value_t → Nat → Nat → Nat → Option (Nat × List (Option jsonl_value_t))
  | rest, i, c, object_size =>
      if c == sub_value_count then some (object_size, [])
      else
        match rest with
        | [] => none
        | set_value :: rest =>
            let skip := jsonl_internal_set_values_create_path_values create path_index
              set_value_table depth sub_value_count value_buffer_size rest (i + 1) c object_size
            let place (sub_value : Nat × Option jsonl_value_t) :
                Option (Nat × List (Option jsonl_value_t)) :=
              if sub_value.1 == 0 then some (0, [])
              else
                match jsonl_internal_set_values_create_path_values create path_index
                    set_value_table depth sub_value_count value_buffer_size rest (i + 1) (c + 1)
                    (object_size + sub_value.1) with
                | none => none
                | some (size, values) =>
                    if size == 0 then some (0, [])
                    else some (size,
                      (if object_size ≤ value_buffer_size then sub_value.2 else none) :: values)
            match set_value.value with
            | none => skip
            | some value =>
                match jsonl_internal_set_values_create_path_contains_second_path path_index
                    set_value_table depth i with
                | none => none
                | some false => skip
                | some true =>
                    if set_value.path.length > depth + 1 then
                      match jsonl_internal_set_values_create_path_sub_path_not_already_listed i
                          set_value_table depth with
                      | none => none
                      | some false => skip
                      | some true =>
                          match create i (jsonl_remaining object_size value_buffer_size) with
                          | none => none
                          | some sub_value => place sub_value
                    else
                      place (jsonl_internal_copy_value value
                        (jsonl_remaining object_size value_buffer_size))

/-- The store `value_buffer->array.table[...] = ...` of lines 1718 and 1731, made when
`object_size <= value_buffer_size`: the slot is the index of the component, or
`append_offset++` for the sentinel.  `none` when the slot is outside the table. -/
def jsonl_internal_set_values_create_path_store (component : jsonl_path_component_t)
    (append_offset : Nat) (table : List (Option (Option jsonl_value_t)))
    (sub_value : Option jsonl_value_t) :
    Option (Nat × List (Option (Option jsonl_value_t))) :=
  let slot := if component.index_member != jsonl_size_max then component.index_member
    else append_offset
  let append_offset := if component.index_member != jsonl_size_max then append_offset
    else append_offset + 1
  if slot < table.length then some (append_offset, table.set slot (some sub_value)) else none

/-- The loop of the array branch (lines 1708 to 1739), from the operation `i` on with `c`
values placed out of `n`.  Returns `object_size` (0 for `return 0`) and the table: a slot
is `none` while it holds the null pointer. -/
def jsonl_internal_set_values_create_path_slots
    (create : Nat → Nat → Option (Nat × Option jsonl_value_t)) (path_index : Nat)
    (set_value_table : List jsonl_set_value_t) (depth n value_buffer_size : Nat) :
    List jsonl_set_value_t → Nat → Nat → Nat → Nat → List (Option (Option jsonl_value_t)) →
      Option (Nat × List (Option (Option jsonl_value_t)))
  | rest, i, c, object_size, append_offset, table =>
      if c == n then some (object_size, table)
      else
        match rest with
        | [] => none
        | set_value :: rest =>
            let skip := jsonl_internal_set_values_create_path_slots create path_index
              set_value_table depth n value_buffer_size rest (i + 1) c object_size append_offset
              table
            let place (sub_value : Nat × Option jsonl_value_t) :
                Option (Nat × List (Option (Option jsonl_value_t))) :=
              match set_value.path[depth]? with
              | none => none
              | some component =>
                  let stored :=
                    if object_size ≤ value_buffer_size then
                      jsonl_internal_set_values_create_path_store component append_offset table
                        sub_value.2
                    else some (append_offset, table)
                  match stored with
                  | none => none
                  | some (append_offset, table) =>
                      if sub_value.1 == 0 then some (0, [])
                      else
                        jsonl_internal_set_values_create_path_slots create path_index
                          set_value_table depth n value_buffer_size rest (i + 1) (c + 1)
                          (object_size + sub_value.1) append_offset table
            match set_value.value with
            | none => skip
            | some value =>
                match jsonl_internal_set_values_create_path_contains_second_path path_index
                    set_value_table depth i with
                | none => none
                | some false => skip
                | some true =>
                    if set_value.path.length > depth + 1 then
                      match jsonl_internal_set_values_create_path_sub_path_not_already_listed i
                          set_value_table depth with
                      | none => none
                      | some false => skip
                      | some true =>
                          match create i (jsonl_remaining object_size value_buffer_size) with
                          | none => none
                          | some sub_value => place sub_value
                    else
                      place (jsonl_internal_copy_value value
                        (jsonl_remaining object_size value_buffer_size))

/-- The loop of lines 1742 to 1749: every slot that still holds the null pointer gets a
Null node.  Returns `object_size` and the children of the array. -/
def jsonl_internal_set_values_create_path_fill (value_buffer_size : Nat) :
    List (Option (Option jsonl_value_t)) → Nat → Nat × List (Option jsonl_value_t)
  | [], object_size => (object_size, [])
  | some sub_value :: table, object_size =>
      let rest := jsonl_internal_set_values_create_path_fill value_buffer_size table object_size
      (rest.1, sub_value :: rest.2)
  | none :: table, object_size =>
      let null_value := jsonl_internal_create_null_value
        (jsonl_remaining object_size value_buffer_size)
      let rest := jsonl_internal_set_values_create_path_fill value_buffer_size table
        (object_size + null_value.1)
      (rest.1, null_value.2 :: rest.2)

/-- Builds the container that the operation at `path_index` needs at `depth`, for all
the operations that share its first `depth` components.  Returns the size (0 on failure)
and the tree the buffer holds.  The first argument bounds the recursion, which goes one
component deeper at each call.  The table sizes `sub_value_count * sizeof ...`, the sizes
of the Null nodes that fill an array and the sums in `object_size` are not reduced modulo
`2 ^ 64`: they are the `size_t` numbers of the code where the size returned is at most
`SIZE_MAX` (`jsonl_size_fits`). -/
def jsonl_internal_set_values_create_path :
    Nat → Nat → List jsonl_set_value_t → Nat → Nat → Option (Nat × Option jsonl_value_t)
  | 0, _, _, _, _ => none
  | fuel + 1, path_index, set_value_table, value_buffer_size, depth =>
      match set_value_table[path_index]? with
      | none => none
      | some first =>
          match first.path[depth]? with
          | none => none
          | some component =>
              let is_array := component.container_type == JSONL_TYPE_ARRAY
              let create := fun (i value_buffer_size : Nat) =>
                jsonl_internal_set_values_create_path fuel i set_value_table value_buffer_size
                  (depth + 1)
              match jsonl_internal_set_values_create_path_count path_index set_value_table depth
                  is_array set_value_table 0 ⟨0, 0, 0, 0⟩ with
              | none => none
              | some counts =>
                  let object_size := jsonl_round_size jsonl_sizeof_value
                  if !is_array then
                    let sub_value_count := counts.value_count + counts.path_count
                    match jsonl_internal_set_values_create_path_names path_index set_value_table
                        depth sub_value_count object_size value_buffer_size set_value_table 0 0
                        (jsonl_round_size (sub_value_count * jsonl_sizeof_object_entry)) with
                    | none => none
                    | some (object_table_size, names) =>
                        match jsonl_internal_set_values_create_path_values create path_index
                            set_value_table depth sub_value_count value_buffer_size
                            set_value_table 0 0 (object_size + object_table_size) with
                        | none => none
                        | some (final_size, values) =>
                            if final_size == 0 then some (0, none)
                            else some (final_size,
                              if object_size ≤ value_buffer_size ∧
                                  final_size ≤ value_buffer_size then
                                (jsonl_collect (jsonl_object_entries names values)).map
                                  jsonl_value_t.object
                              else none)
                  else
                    let sub_value_count := counts.append_offset + counts.append_count
                    let array_table_size :=
                      jsonl_round_size (sub_value_count * jsonl_sizeof_pointer)
                    match jsonl_internal_set_values_create_path_slots create path_index
                        set_value_table depth (counts.value_count + counts.path_count)
                        value_buffer_size set_value_table 0 0 (object_size + array_table_size)
                        counts.append_offset (List.replicate sub_value_count none) with
                    | none => none
                    | some (placed_size, table) =>
                        if placed_size == 0 then some (0, none)
                        else
                          let filled :=
                            if placed_size ≤ value_buffer_size then
                              jsonl_internal_set_values_create_path_fill value_buffer_size table
                                placed_size
                            else
                              (if counts.value_count + counts.path_count ≤ sub_value_count then
                                placed_size +
                                  (sub_value_count - (counts.value_count + counts.path_count)) *
                                    (jsonl_internal_create_null_value 0).1
                              else
                                (placed_size +
                                  jsonl_size_sub sub_value_count
                                      (counts.value_count + counts.path_count) *
                                    (jsonl_internal_create_null_value 0).1) % 2 ^ 64,
                                table.map (fun slot => slot.bind id))
                          let final_size := filled.1 + array_table_size
                          some (final_size,
                            if object_size ≤ value_buffer_size ∧
                                final_size ≤ value_buffer_size then
                              (jsonl_collect filled.2).map jsonl_value_t.array
                            else none)

/-! ## The patch engine (lines 1770 to 2358)

The internal path of a node (`jsonl_internal_path_t`) is the list of its components
from the node up to the root, so its length is `depth`. -/

/-- The comparison loop of `jsonl_internal_set_values_input_path_compare` over the first
`depth` components. -/
def jsonl_internal_set_values_input_path_compare_loop :
    List jsonl_path_component_t → List jsonl_path_component_t → Nat → Bool
  | _, _, 0 => true
  | .name name_a :: path_a, .name name_b :: path_b, depth + 1 =>
      if !jsonl_name_equal name_a name_b then false
      else jsonl_internal_set_values_input_path_compare_loop path_a path_b depth
  | .index index_a :: path_a, .index index_b :: path_b, depth + 1 =>
      if index_a == jsonl_size_max || index_b == jsonl_size_max || index_a != index_b then false
      else jsonl_internal_set_values_input_path_compare_loop path_a path_b depth
  | _, _, _ + 1 => false

def jsonl_internal_set_values_input_path_compare (input_path_a input_path_b : jsonl_set_value_t)
    (depth : Nat) : Bool :=
  decide (input_path_a.path.length ≥ depth) && decide (input_path_b.path.length ≥ depth) &&
    jsonl_internal_set_values_input_path_compare_loop input_path_a.path input_path_b.path depth

/-- The loop of `jsonl_internal_set_values_is_set_value_in_path`, from the node up. -/
def jsonl_internal_set_values_in_path_loop (input_path : List jsonl_path_component_t) :
    List jsonl_path_component_t → Bool
  | [] => true
  | component :: parent =>
      (match component, input_path[parent.length]? with
        | .name name, some (.name input_name) => jsonl_name_equal name input_name
        | .index index, some (.index input_index) => index == input_index
        | _, _ => false) && jsonl_internal_set_values_in_path_loop input_path parent

/-- Does the path of the operation start with the path of the node? -/
def jsonl_internal_set_values_is_set_value_in_path
    (internal_path input_path : List jsonl_path_component_t) : Bool :=
  decide (input_path.length ≥ internal_path.length) &&
    jsonl_internal_set_values_in_path_loop input_path internal_path

/-- The flag `set_value_in_child_value`: the component names a child the node has
(lines 1838 to 1853, 1883 to 1886). -/
def jsonl_set_value_in_child_value (source_value : jsonl_value_t)
    (component : jsonl_path_component_t) : Bool :=
  match source_value, component with
  | .object table, .name name => table.any (fun entry => jsonl_name_equal entry.1 name)
  | .array table, .index index => decide (table.length > index)
  | _, _ => false

/-- The flag `set_value_already_counted` of lines 1905 to 1908: an earlier operation has
the same first `depth + 1` components. -/
def jsonl_set_value_already_counted (set_value_table : List jsonl_set_value_t) (i : Nat)
    (set_value : jsonl_set_value_t) (depth : Nat) : Bool :=
  (set_value_table.take i).any
    (fun earlier => jsonl_internal_set_values_input_path_compare earlier set_value (depth + 1))

/-- What the first loop of `jsonl_internal_set_values` (lines 1825 to 1861) finds: an
operation that replaces the node, or `indirect_overwrite_set_value_index`. -/
inductive jsonl_first_pass_t where
  | replace (value : jsonl_value_t)
  | indirect (set_value_index : Option Nat)

def jsonl_internal_set_values_first_pass (internal_path : List jsonl_path_component_t)
    (source_value : jsonl_value_t) :
    List jsonl_set_value_t → Nat → Option Nat → Option jsonl_first_pass_t
  | [], _, indirect => some (.indirect indirect)
  | set_value :: rest, i, indirect =>
      match set_value.value with
      | none => jsonl_internal_set_values_first_pass internal_path source_value rest (i + 1) indirect
      | some value =>
          if jsonl_internal_set_values_is_set_value_in_path internal_path set_value.path then
            if set_value.path.length == internal_path.length then some (.replace value)
            else if indirect.isNone then
              match set_value.path[internal_path.length]? with
              | none => none
              | some component =>
                  let set_value_in_child_value :=
                    source_value.type == component.container_type &&
                      jsonl_set_value_in_child_value source_value component
                  if !set_value_in_child_value && source_value.type != component.container_type
                  then
                    jsonl_internal_set_values_first_pass internal_path source_value rest (i + 1)
                      (some i)
                  else
                    jsonl_internal_set_values_first_pass internal_path source_value rest (i + 1)
                      indirect
            else
              jsonl_internal_set_values_first_pass internal_path source_value rest (i + 1) indirect
          else
            jsonl_internal_set_values_first_pass internal_path source_value rest (i + 1) indirect

/-- The counting loop of the object case (lines 1877 to 1917): returns
`remove_value_count` and `add_value_count`. -/
def jsonl_internal_set_values_object_count (internal_path : List jsonl_path_component_t)
    (source_value : jsonl_value_t) (set_value_table : List jsonl_set_value_t) :
    List jsonl_set_value_t → Nat → Nat → Nat → Option (Nat × Nat)
  | [], _, remove_value_count, add_value_count => some (remove_value_count, add_value_count)
  | set_value :: rest, i, remove_value_count, add_value_count =>
      if jsonl_internal_set_values_is_set_value_in_path internal_path set_value.path &&
          decide (set_value.path.length > internal_path.length) then
        match set_value.path[internal_path.length]? with
        | none => none
        | some component =>
            if source_value.type == component.container_type &&
                jsonl_set_value_in_child_value source_value component then
              jsonl_internal_set_values_object_count internal_path source_value set_value_table
                rest (i + 1)
                (if set_value.value.isNone && set_value.path.length == internal_path.length + 1
                  then remove_value_count + 1 else remove_value_count)
                add_value_count
            else
              jsonl_internal_set_values_object_count internal_path source_value set_value_table
                rest (i + 1) remove_value_count
                (if set_value.value.isSome &&
                    (set_value.path.length == internal_path.length + 1 ||
                      !jsonl_set_value_already_counted set_value_table i set_value
                        internal_path.length)
                  then add_value_count + 1 else add_value_count)
      else
        jsonl_internal_set_values_object_count internal_path source_value set_value_table rest
          (i + 1) remove_value_count add_value_count

/-- The flag `child_value_removed` of the name loop (lines 1931 to 1940) for the child
called `name`. -/
def jsonl_internal_set_values_child_removed (internal_path : List jsonl_path_component_t)
    (name : List Nat) : List jsonl_set_value_t → Bool
  | [] => false
  | set_value :: rest =>
      if set_value.value.isNone && set_value.path.length == internal_path.length + 1 &&
          jsonl_internal_set_values_is_set_value_in_path internal_path set_value.path &&
          (match set_value.path[internal_path.length]? with
            | some (.name removed_name) => jsonl_name_equal name removed_name
            | _ => false) then true
      else jsonl_internal_set_values_child_removed internal_path name rest

/-- The name loop of the object case over the children of the source (lines 1927 to
1953), with `c` names placed out of `n`: returns `object_table_size` and the names. -/
def jsonl_internal_set_values_object_names (internal_path : List jsonl_path_component_t)
    (set_value_table : List jsonl_set_value_t) (n object_size value_buffer_size : Nat) :
    List (List Nat × jsonl_value_t) → Nat → Nat → Option (Nat × List (Option (List Nat)))
  | rest, c, object_table_size =>
      if c == n then some (object_table_size, [])
      else
        match rest with
        | [] => none
        | (name, _) :: rest =>
            if jsonl_internal_set_values_child_removed internal_path name set_value_table then
              jsonl_internal_set_values_object_names internal_path set_value_table n object_size
                value_buffer_size rest c object_table_size
            else
              let name_size := jsonl_round_size (name.length + 1)
              match jsonl_internal_set_values_object_names internal_path set_value_table n
                  object_size value_buffer_size rest (c + 1) (object_table_size + name_size) with
              | none => none
              | some (size, names) =>
                  some (size,
                    jsonl_written
                      (object_size + object_table_size + name_size ≤ value_buffer_size) name ::
                    names)

/-- The name loop of the object case over the operations that add a child (lines 1954 to
1990), from the operation `i` on with `c` names placed out of `add_value_count`. -/
def jsonl_internal_set_values_object_added_names (internal_path : List jsonl_path_component_t)
    (source_value : jsonl_value_t) (set_value_table : List jsonl_set_value_t)
    (add_value_count object_size value_buffer_size : Nat) :
    List jsonl_set_value_t → Nat → Nat → Nat → Option (Nat × List (Option (List Nat)))
  | rest, i, c, object_table_size =>
      if c == add_value_count then some (object_table_size, [])
      else
        match rest with
        | [] => none
        | set_value :: rest =>
            let skip := jsonl_internal_set_values_object_added_names internal_path source_value
              set_value_table add_value_count object_size value_buffer_size rest (i + 1) c
              object_table_size
            if set_value.value.isSome &&
                jsonl_internal_set_values_is_set_value_in_path internal_path set_value.path &&
                decide (set_value.path.length > internal_path.length) then
              match set_value.path[internal_path.length]? with
              | none => none
              | some component =>
                  if !(source_value.type == component.container_type &&
                        jsonl_set_value_in_child_value source_value component) &&
                      !jsonl_set_value_already_counted set_value_table i set_value
                        internal_path.length then
                    let name_size := jsonl_round_size (component.name_length + 1)
                    let name : Option (Option (List Nat)) :=
                      if object_size + object_table_size + name_size ≤ value_buffer_size then
                        component.name_value.map some
                      else some none
                    match name, jsonl_internal_set_values_object_added_names internal_path
                        source_value set_value_table add_value_count object_size value_buffer_size
                        rest (i + 1) (c + 1) (object_table_size + name_size) with
                    | some name, some (size, names) => some (size, name :: names)
                    | _, _ => none
                  else skip
            else skip

/-- The flag `child_value_removed` of the value loop (lines 1996 to 2005) for the child
at index `i` called `name`.  Line 1999 hands `set_value_table + i`, the child index, to
`..._is_set_value_in_path`; `none` when that is outside the operation table. -/
def jsonl_internal_set_values_child_value_removed (internal_path : List jsonl_path_component_t)
    (set_value_table : List jsonl_set_value_t) (i : Nat) (name : List Nat) :
    List jsonl_set_value_t → Option Bool
  | [] => some false
  | set_value :: rest =>
      if set_value.value.isNone && set_value.path.length == internal_path.length + 1 then
        match set_value_table[i]? with
        | none => none
        | some at_child_index =>
            if jsonl_internal_set_values_is_set_value_in_path internal_path at_child_index.path &&
                (match set_value.path[internal_path.length]? with
                  | some (.name removed_name) => jsonl_name_equal name removed_name
                  | _ => false) then some true
            else
              jsonl_internal_set_values_child_value_removed internal_path set_value_table i name
                rest
      else jsonl_internal_set_values_child_value_removed internal_path set_value_table i name rest

/-- The value loop of the object case over the children of the source (lines 1992 to
2022), from the child `i` on with `c` values placed out of `n`.  `patch` is the
recursive call.  Returns `object_size` (0 for `return 0`) and the values. -/
def jsonl_internal_set_values_object_values
    (patch : jsonl_value_t → List jsonl_path_component_t → Nat →
      Option (Nat × Option jsonl_value_t))
    (internal_path : List jsonl_path_component_t) (set_value_table : List jsonl_set_value_t)
    (n value_buffer_size : Nat) :
    List (List Nat × jsonl_value_t) → Nat → Nat → Nat →
      Option (Nat × List (Option jsonl_value_t))
  | rest, i, c, object_size =>
      if c == n then some (object_size, [])
      else
        match rest with
        | [] => none
        | (name, value) :: rest =>
            match jsonl_internal_set_values_child_value_removed internal_path set_value_table i
                name set_value_table with
            | none => none
            | some true =>
                jsonl_internal_set_values_object_values patch internal_path set_value_table n
                  value_buffer_size rest (i + 1) c object_size
            | some false =>
                let remaining_buffer_size := jsonl_remaining object_size value_buffer_size
                match patch value (.name name :: internal_path) remaining_buffer_size with
                | none => none
                | some child =>
                    if child.1 == 0 then some (0, [])
                    else
                      match jsonl_internal_set_values_object_values patch internal_path
                          set_value_table n value_buffer_size rest (i + 1) (c + 1)
                          (object_size + child.1) with
                      | none => none
                      | some (size, values) =>
                          if size == 0 then some (0, [])
                          else some (size,
                            (if remaining_buffer_size != 0 then child.2 else none) :: values)

/-- The bound on the recursion of `jsonl_internal_set_values_create_path`: it goes one
component deeper at each call, along the path of an operation. -/
def jsonl_path_length_bound (set_value_table : List jsonl_set_value_t) : Nat :=
  (set_value_table.map (fun set_value => set_value.path.length)).foldr max 0

/-- The value loop of the object case over the operations that add a child (lines 2023
to 2068), from the operation `i` on with `c` values placed out of `add_value_count`. -/
def jsonl_internal_set_values_object_added_values (internal_path : List jsonl_path_component_t)
    (source_value : jsonl_value_t) (set_value_table : List jsonl_set_value_t)
    (add_value_count value_buffer_size : Nat) :
    List jsonl_set_value_t → Nat → Nat → Nat → Option (Nat × List (Option jsonl_value_t))
  | rest, i, c, object_size =>
      if c == add_value_count then some (object_size, [])
      else
        match rest with
        | [] => none
        | set_value :: rest =>
            let skip := jsonl_internal_set_values_object_added_values internal_path source_value
              set_value_table add_value_count value_buffer_size rest (i + 1) c object_size
            let remaining_buffer_size := jsonl_remaining object_size value_buffer_size
            let place (child : Nat × Option jsonl_value_t) :
                Option (Nat × List (Option jsonl_value_t)) :=
              if child.1 == 0 then some (0, [])
              else
                match jsonl_internal_set_values_object_added_values internal_path source_value
                    set_value_table add_value_count value_buffer_size rest (i + 1) (c + 1)
                    (object_size + child.1) with
                | none => none
                | some (size, values) =>
                    if size == 0 then some (0, [])
                    else some (size,
                      (if remaining_buffer_size != 0 then child.2 else none) :: values)
            match set_value.value with
            | none => skip
            | some value =>
                if jsonl_internal_set_values_is_set_value_in_path internal_path set_value.path
                then
                  match set_value.path[internal_path.length]? with
                  | none => none
                  | some component =>
                      if !(source_value.type == component.container_type &&
                          jsonl_set_value_in_child_value source_value component) then
                        if set_value.path.length == internal_path.length + 1 then
                          place (jsonl_internal_copy_value value remaining_buffer_size)
                        else if !jsonl_set_value_already_counted set_value_table i set_value
                            internal_path.length then
                          match jsonl_internal_set_values_create_path
                              (jsonl_path_length_bound set_value_table) i set_value_table
                              remaining_buffer_size (internal_path.length + 1) with
                          | none => none
                          | some child => place child
                        else skip
                      else skip
                else skip

/-- The counters of the array case (lines 2073 to 2076). -/
structure jsonl_array_counts_t where
  remove_child_value_count : Nat
  set_child_value_count : Nat
  append_child_value_count : Nat
  set_child_value_highest_index : Nat
deriving DecidableEq, Repr

/-- Lines 2088 to 2090 and 2108 to 2110: a concrete index is counted. -/
def jsonl_array_counts_set (index : Nat) (counts : jsonl_array_counts_t) : jsonl_array_counts_t :=
  { counts with
    set_child_value_highest_index :=
      if counts.set_child_value_highest_index == jsonl_size_max ||
          decide (index > counts.set_child_value_highest_index) then index
      else counts.set_child_value_highest_index
    set_child_value_count := counts.set_child_value_count + 1 }

/-- The flag `set_value_already_counted` of lines 2100 to 2105. -/
def jsonl_array_set_value_already_counted (set_value_table : List jsonl_set_value_t) (i : Nat)
    (set_value : jsonl_set_value_t) (depth index : Nat) : Bool :=
  (set_value_table.take i).any (fun earlier =>
    earlier.path.length == set_value.path.length &&
      jsonl_internal_set_values_input_path_compare earlier set_value depth &&
      (match earlier.path[depth]? with
        | some (.index earlier_index) => earlier_index == index
        | _ => false))

/-- The counting loop of the array case (lines 2077 to 2121). -/
def jsonl_internal_set_values_array_count (internal_path : List jsonl_path_component_t)
    (value_count : Nat) (set_value_table : List jsonl_set_value_t) :
    List jsonl_set_value_t → Nat → jsonl_array_counts_t → Option jsonl_array_counts_t
  | [], _, counts => some counts
  | set_value :: rest, i, counts =>
      if jsonl_internal_set_values_is_set_value_in_path internal_path set_value.path &&
          decide (set_value.path.length > internal_path.length) then
        match set_value.path[internal_path.length]? with
        | none => none
        | some component =>
            let index := component.index_member
            jsonl_internal_set_values_array_count internal_path value_count set_value_table rest
              (i + 1)
              (if index != jsonl_size_max then
                if set_value.path.length == internal_path.length + 1 then
                  if set_value.value.isSome then jsonl_array_counts_set index counts
                  else if index < value_count then
                    { counts with
                      remove_child_value_count := counts.remove_child_value_count + 1 }
                  else counts
                else if set_value.value.isSome &&
                    !jsonl_array_set_value_already_counted set_value_table i set_value
                      internal_path.length index then
                  jsonl_array_counts_set index counts
                else counts
              else if set_value.value.isSome then
                { counts with
                  append_child_value_count := counts.append_child_value_count + 1 }
              else counts)
      else
        jsonl_internal_set_values_array_count internal_path value_count set_value_table rest
          (i + 1) counts

/-- The search of lines 2141 to 2156: the first operation with a value, in the path of
the node, whose component at `depth` is the array index `i`; with its table index. -/
def jsonl_internal_set_values_array_overwrite (internal_path : List jsonl_path_component_t)
    (i : Nat) : List jsonl_set_value_t → Nat → Option (Option (Nat × jsonl_set_value_t))
  | [], _ => some none
  | set_value :: rest, set_value_index =>
      if set_value.value.isSome &&
          jsonl_internal_set_values_is_set_value_in_path internal_path set_value.path then
        match set_value.path[internal_path.length]? with
        | none => none
        | some (.index index) =>
            if index == i then some (some (set_value_index, set_value))
            else jsonl_internal_set_values_array_overwrite internal_path i rest
              (set_value_index + 1)
        | some (.name _) =>
            jsonl_internal_set_values_array_overwrite internal_path i rest (set_value_index + 1)
      else jsonl_internal_set_values_array_overwrite internal_path i rest (set_value_index + 1)

/-- The inner loop of lines 2162 to 2177: an operation without a value, in the path of
the node, whose component at `depth` is the array index `target`.  `none` when the path
of such an operation ends at `depth`. -/
def jsonl_internal_set_values_array_erase_match (internal_path : List jsonl_path_component_t)
    (target : Nat) : List jsonl_set_value_t → Option Bool
  | [] => some false
  | set_value :: rest =>
      if set_value.value.isNone &&
          jsonl_internal_set_values_is_set_value_in_path internal_path set_value.path then
        match set_value.path[internal_path.length]? with
        | none => none
        | some (.index index) =>
            if index == target then some true
            else jsonl_internal_set_values_array_erase_match internal_path target rest
        | some (.name _) => jsonl_internal_set_values_array_erase_match internal_path target rest
      else jsonl_internal_set_values_array_erase_match internal_path target rest

/-- The loop `for (continue_erase = 1; continue_erase && i + erased < value_count;)` of
line 2159: returns `erased`.  It runs at most `value_count` times. -/
def jsonl_internal_set_values_array_erase (internal_path : List jsonl_path_component_t)
    (set_value_table : List jsonl_set_value_t) (value_count i : Nat) : Nat → Nat → Option Nat
  | 0, erased => some erased
  | fuel + 1, erased =>
      if i + erased < value_count then
        match jsonl_internal_set_values_array_erase_match internal_path (i + erased)
            set_value_table with
        | none => none
        | some true =>
            jsonl_internal_set_values_array_erase internal_path set_value_table value_count i fuel
              (erased + 1)
        | some false => some erased
      else some erased

/-- The body of the main loop of the array case (lines 2140 to 2245) for the slot `i`:
returns `erased` and what is built for the slot, its size and the node the buffer
holds.  `patch` is the recursive call. -/
def jsonl_internal_set_values_array_slot
    (patch : jsonl_value_t → List jsonl_path_component_t → Nat →
      Option (Nat × Option jsonl_value_t))
    (internal_path : List jsonl_path_component_t) (table : List jsonl_value_t)
    (set_value_table : List jsonl_set_value_t) (remaining_buffer_size i erased : Nat) :
    Option (Nat × Nat × Option jsonl_value_t) :=
  match jsonl_internal_set_values_array_overwrite internal_path i set_value_table 0 with
  | none => none
  | some none =>
      match jsonl_internal_set_values_array_erase internal_path set_value_table table.length i
          table.length erased with
      | none => none
      | some erased =>
          match table[i + erased]? with
          | some source_child =>
              (patch source_child (.index i :: internal_path) remaining_buffer_size).map
                (fun child => (erased, child))
          | none => some (erased, jsonl_internal_create_null_value remaining_buffer_size)
  | some (some (overwrite_set_value_index, set_value)) =>
      if set_value.path.length > internal_path.length + 1 then
        match table[i + erased]? with
        | some source_child =>
            (patch source_child (.index i :: internal_path) remaining_buffer_size).map
              (fun child => (erased, child))
        | none =>
            (jsonl_internal_set_values_create_path (jsonl_path_length_bound set_value_table)
              overwrite_set_value_index set_value_table remaining_buffer_size
              (internal_path.length + 1)).map (fun child => (erased, child))
      else
        set_value.value.map (fun value =>
          (erased, jsonl_internal_copy_value value remaining_buffer_size))

/-- The main loop of the array case (lines 2138 to 2246) for the slots `i`, `i + 1`, ...:
the first argument counts the slots left.  Returns `object_size` (0 for `return 0`) and
the children placed. -/
def jsonl_internal_set_values_array_values
    (patch : jsonl_value_t → List jsonl_path_component_t → Nat →
      Option (Nat × Option jsonl_value_t))
    (internal_path : List jsonl_path_component_t) (table : List jsonl_value_t)
    (set_value_table : List jsonl_set_value_t) (value_buffer_size : Nat) :
    Nat → Nat → Nat → Nat → Option (Nat × List (Option jsonl_value_t))
  | 0, _, _, object_size => some (object_size, [])
  | slots + 1, i, erased, object_size =>
      let remaining_buffer_size := jsonl_remaining object_size value_buffer_size
      match jsonl_internal_set_values_array_slot patch internal_path table set_value_table
          remaining_buffer_size i erased with
      | none => none
      | some (erased, child) =>
          if child.1 == 0 then some (0, [])
          else
            match jsonl_internal_set_values_array_values patch internal_path table
                set_value_table value_buffer_size slots (i + 1) erased
                (object_size + child.1) with
            | none => none
            | some (size, values) =>
                if size == 0 then some (0, [])
                else some (size,
                  (if remaining_buffer_size != 0 then child.2 else none) :: values)

/-- The search of lines 2250 to 2265, from the operation `set_value_index` on: the first
operation with a value, in the path of the node, whose component at `depth` is the
append sentinel. -/
def jsonl_internal_set_values_array_append_find (internal_path : List jsonl_path_component_t) :
    List jsonl_set_value_t → Nat → Option (Option (Nat × jsonl_set_value_t))
  | [], _ => some none
  | set_value :: rest, set_value_index =>
      if set_value.value.isSome &&
          jsonl_internal_set_values_is_set_value_in_path internal_path set_value.path then
        match set_value.path[internal_path.length]? with
        | none => none
        | some (.index index) =>
            if index == jsonl_size_max then some (some (set_value_index, set_value))
            else jsonl_internal_set_values_array_append_find internal_path rest
              (set_value_index + 1)
        | some (.name _) =>
            jsonl_internal_set_values_array_append_find internal_path rest (set_value_index + 1)
      else jsonl_internal_set_values_array_append_find internal_path rest (set_value_index + 1)

/-- The append loop of the array case (lines 2247 to 2293): the first argument counts the
appended values left to place, `append_set_value_index_offset` is where the search
starts.  A search that finds nothing leaves `c` as it is, and the loop never ends:
`none`. -/
def jsonl_internal_set_values_array_appended (internal_path : List jsonl_path_component_t)
    (set_value_table : List jsonl_set_value_t) (value_buffer_size : Nat) :
    Nat → Nat → Nat → Option (Nat × List (Option jsonl_value_t))
  | 0, _, object_size => some (object_size, [])
  | left + 1, append_set_value_index_offset, object_size =>
      let remaining_buffer_size := jsonl_remaining object_size value_buffer_size
      match jsonl_internal_set_values_array_append_find internal_path
          (set_value_table.drop append_set_value_index_offset) append_set_value_index_offset with
      | none => none
      | some none => none
      | some (some (append_set_value_index, set_value)) =>
          let appended : Option (Nat × Option jsonl_value_t) :=
            if set_value.path.length > internal_path.length + 1 then
              jsonl_internal_set_values_create_path (jsonl_path_length_bound set_value_table)
                append_set_value_index set_value_table remaining_buffer_size
                (internal_path.length + 1)
            else set_value.value.map (fun value =>
              jsonl_internal_copy_value value remaining_buffer_size)
          match appended with
          | none => none
          | some child =>
              if child.1 == 0 then some (0, [])
              else
                match jsonl_internal_set_values_array_appended internal_path set_value_table
                    value_buffer_size left (append_set_value_index + 1)
                    (object_size + child.1) with
                | none => none
                | some (size, values) =>
                    if size == 0 then some (0, [])
                    else some (size,
                      (if remaining_buffer_size != 0 then child.2 else none) :: values)

/-- Builds the patched copy of `source_value`, the node at `internal_path`.  Returns the
size (0 on failure) and the tree the buffer holds.  The first argument bounds the
recursion, which goes from a node to one of its children.  The count of lines 2126 to
2129, the table sizes `child_value_count * sizeof ...` (lines 2131 and 2137) and the sums
in `object_size` are not reduced modulo `2 ^ 64`: they are the `size_t` numbers of the
code where the size returned is at most `SIZE_MAX` (`jsonl_size_fits`). -/
def jsonl_internal_set_values (set_value_table : List jsonl_set_value_t) :
    Nat → jsonl_value_t → List jsonl_path_component_t → Nat →
      Option (Nat × Option jsonl_value_t)
  | 0, _, _, _ => none
  | fuel + 1, source_value, internal_path, value_buffer_size =>
      match jsonl_internal_set_values_first_pass internal_path source_value set_value_table 0
          none with
      | none => none
      | some (.replace value) => some (jsonl_internal_copy_value value value_buffer_size)
      | some (.indirect (some indirect_overwrite_set_value_index)) =>
          jsonl_internal_set_values_create_path (jsonl_path_length_bound set_value_table)
            indirect_overwrite_set_value_index set_value_table value_buffer_size
            internal_path.length
      | some (.indirect none) =>
          let object_size := jsonl_round_size jsonl_sizeof_value
          match source_value with
          | .object table =>
              match jsonl_internal_set_values_object_count internal_path source_value
                  set_value_table set_value_table 0 0 0 with
              | none => none
              | some (remove_value_count, add_value_count) =>
                  let n := jsonl_size_sub table.length remove_value_count
                  let child_value_count := n + add_value_count
                  match jsonl_internal_set_values_object_names internal_path set_value_table n
                      object_size value_buffer_size table 0
                      (jsonl_round_size (child_value_count * jsonl_sizeof_object_entry)) with
                  | none => none
                  | some (object_table_size, names) =>
                  match jsonl_internal_set_values_object_added_names internal_path source_value
                      set_value_table add_value_count object_size value_buffer_size
                      set_value_table 0 0 object_table_size with
                  | none => none
                  | some (object_table_size, added_names) =>
                  match jsonl_internal_set_values_object_values
                      (jsonl_internal_set_values set_value_table fuel) internal_path
                      set_value_table n value_buffer_size table 0 0
                      (object_size + object_table_size) with
                  | none => none
                  | some (kept_size, values) =>
                  if kept_size == 0 then some (0, none)
                  else
                  match jsonl_internal_set_values_object_added_values internal_path source_value
                      set_value_table add_value_count value_buffer_size set_value_table 0 0
                      kept_size with
                  | none => none
                  | some (final_size, added_values) =>
                  if final_size == 0 then some (0, none)
                  else some (final_size,
                    if object_size ≤ value_buffer_size ∧ final_size ≤ value_buffer_size then
                      (jsonl_collect (jsonl_object_entries (names ++ added_names)
                        (values ++ added_values))).map jsonl_value_t.object
                    else none)
          | .array table =>
              match jsonl_internal_set_values_array_count internal_path table.length
                  set_value_table set_value_table 0 ⟨0, 0, 0, jsonl_size_max⟩ with
              | none => none
              | some counts =>
                  let kept := jsonl_size_sub table.length counts.remove_child_value_count
                  let slots :=
                    if counts.set_child_value_highest_index != jsonl_size_max &&
                        decide (kept < counts.set_child_value_highest_index + 1) then
                      counts.set_child_value_highest_index + 1
                    else kept
                  let child_value_count := slots + counts.append_child_value_count
                  let array_table_size :=
                    jsonl_round_size (child_value_count * jsonl_sizeof_pointer)
                  match jsonl_internal_set_values_array_values
                      (jsonl_internal_set_values set_value_table fuel) internal_path table
                      set_value_table value_buffer_size slots 0 0
                      (object_size + array_table_size) with
                  | none => none
                  | some (placed_size, values) =>
                  if placed_size == 0 then some (0, none)
                  else
                  match jsonl_internal_set_values_array_appended internal_path set_value_table
                      value_buffer_size counts.append_child_value_count 0 placed_size with
                  | none => none
                  | some (final_size, appended) =>
                  if final_size == 0 then some (0, none)
                  else some (final_size,
                    if object_size + array_table_size ≤ value_buffer_size ∧
                        final_size ≤ value_buffer_size then
                      (jsonl_collect (values ++ appended)).map jsonl_value_t.array
                    else none)
          | .string value =>
              let data_size := jsonl_round_size (value.length + 1)
              some (object_size + data_size,
                jsonl_written (object_size + data_size ≤ value_buffer_size)
                  (jsonl_value_t.string value))
          | .number number =>
              some (object_size,
                jsonl_written (object_size ≤ value_buffer_size) (jsonl_value_t.number number))
          | .boolean value =>
              some (object_size,
                jsonl_written (object_size ≤ value_buffer_size) (jsonl_value_t.boolean value))
          | .null =>
              some (object_size, jsonl_written (object_size ≤ value_buffer_size) jsonl_value_t.null)
          | .unknown _ => some (0, none)

/-- Returns the size of the new tree (0 on failure) and the tree the buffer holds. -/
def jsonl_set_values (value_tree : jsonl_value_t) (set_value_table : List jsonl_set_value_t)
    (value_buffer_size : Nat) : Option (Nat × Option jsonl_value_t) :=
  if set_value_table.any (fun set_value => set_value.path.length == 0 && set_value.value.isNone)
  then some (0, none)
  else
    jsonl_internal_set_values set_value_table (value_tree.depth + 1) value_tree []
      value_buffer_size

/-! ### The member `size` of the nodes that the tree builder writes

`jsonl_create_tree_from_text` stores in every node it writes the member `size` next to the
member `type` (`value_buffer->size = value_size`, lines 950, 1001, 1014, 1026, 1038 and
1047).  The value trees of the embedding leave the member out; the definitions of this
section are the tree builder once more, with the member kept in every node. -/

/-- A node of a value tree with its member `size` (`jsonl_value_t` without `parent`). -/
inductive jsonl_sized_value_t where
  | object (size : Nat) (table : List (List Nat × jsonl_sized_value_t))
  | array (size : Nat) (table : List jsonl_sized_value_t)
  | string (size : Nat) (value : List Nat)
  | number (size : Nat) (number : jsonl_number_value_t)
  | boolean (size : Nat) (value : Bool)
  | null (size : Nat)
deriving Repr

/-- The member `size` of a node. -/
def jsonl_sized_value_t.size : jsonl_sized_value_t → Nat
  | .object size _ => size
  | .array size _ => size
  | .string size _ => size
  | .number size _ => size
  | .boolean size _ => size
  | .null size => size

mutual
/-- The value tree of a node: the node and the nodes below it without the member
`size`. -/
def jsonl_sized_value_t.value : jsonl_sized_value_t → jsonl_value_t
  | .object _ table => .object (jsonl_sized_value_t.value_entries table)
  | .array _ table => .array (jsonl_sized_value_t.value_values table)
  | .string _ characters => .string characters
  | .number _ decoded => .number decoded
  | .boolean _ truth => .boolean truth
  | .null _ => .null
/-- The value trees of the children of an array. -/
def jsonl_sized_value_t.value_values : List jsonl_sized_value_t → List jsonl_value_t
  | [] => []
  | v :: vs => v.value :: jsonl_sized_value_t.value_values vs
/-- The names and the value trees of the children of an object. -/
def jsonl_sized_value_t.value_entries :
    List (List Nat × jsonl_sized_value_t) → List (List Nat × jsonl_value_t)
  | [] => []
  | (name, v) :: es => (name, v.value) :: jsonl_sized_value_t.value_entries es
end

/-- The loop of the object case of `jsonl_create_tree_from_text` (lines 903 to 949), over
nodes with their member `size`. -/
def jsonl_create_sized_tree_from_text_object_loop
    (child : List Nat → Nat → Option (Nat × Nat × Option jsonl_sized_value_t))
    (value_buffer_size sub_value_count : Nat) :
    Nat → Nat → List Nat → Nat → Bool → Nat →
      List (Option (List Nat × jsonl_sized_value_t)) →
      Option (Nat × List (Option (List Nat × jsonl_sized_value_t)))
  | 0, _, _, sub_object_index, _, value_size, table =>
      if sub_object_index == sub_value_count then some (value_size, table) else none
  | fuel + 1, remaining, read, sub_object_index, expecting_sub_value, value_size, table =>
      if sub_object_index == sub_value_count then some (value_size, table)
      else
        match read with
        | [] => none
        | character :: after =>
            if expecting_sub_value then
              if character == 34 then
                let pair := jsonl_name_value_pair_size (read.take remaining)
                if pair.size == 0 then some (0, [])
                else
                  match jsonl_decode_quoted_string (read.take pair.name_size)
                      (jsonl_remaining value_size value_buffer_size) with
                  | none => none
                  | some (decoded, string_length, name) =>
                      if decoded == 0 then some (0, [])
                      else
                        let value_size := value_size + jsonl_round_size (string_length + 1)
                        match child ((read.drop pair.value_offset).take pair.value_size)
                            (jsonl_remaining value_size value_buffer_size) with
                        | none => none
                        | some (value_text_lenght, sub_value_size, sub_value) =>
                            if value_text_lenght == 0 then some (0, [])
                            else
                              jsonl_create_sized_tree_from_text_object_loop child
                                value_buffer_size sub_value_count fuel (remaining - pair.size)
                                (read.drop pair.size) (sub_object_index + 1) false
                                (value_size + sub_value_size)
                                (table ++ [if value_size ≤ value_buffer_size then
                                  sub_value.map (fun v => (name, v)) else none])
              else if jsonl_is_white_space character then
                jsonl_create_sized_tree_from_text_object_loop child value_buffer_size
                  sub_value_count fuel (remaining - 1) after sub_object_index true value_size
                  table
              else some (0, [])
            else if character == 44 then
              jsonl_create_sized_tree_from_text_object_loop child value_buffer_size
                sub_value_count fuel (remaining - 1) after sub_object_index true value_size table
            else if !jsonl_is_white_space character then some (0, [])
            else
              jsonl_create_sized_tree_from_text_object_loop child value_buffer_size
                sub_value_count fuel (remaining - 1) after sub_object_index false value_size
                table

/-- The loop of the array case of `jsonl_create_tree_from_text` (lines 965 to 996), over
nodes with their member `size`. -/
def jsonl_create_sized_tree_from_text_array_loop
    (child : List Nat → Nat → Option (Nat × Nat × Option jsonl_sized_value_t))
    (value_buffer_size sub_value_count : Nat) :
    Nat → Nat → List Nat → Nat → Bool → Nat → List (Option jsonl_sized_value_t) →
      Option (Nat × List (Option jsonl_sized_value_t))
  | 0, _, _, sub_object_index, _, value_size, table =>
      if sub_object_index == sub_value_count then some (value_size, table) else none
  | fuel + 1, remaining, read, sub_object_index, expecting_sub_value, value_size, table =>
      if sub_object_index == sub_value_count then some (value_size, table)
      else
        match read with
        | [] => none
        | character :: after =>
            if expecting_sub_value then
              if jsonl_is_white_space character then
                jsonl_create_sized_tree_from_text_array_loop child value_buffer_size
                  sub_value_count fuel (remaining - 1) after sub_object_index true value_size
                  table
              else
                match child (read.take remaining)
                    (jsonl_remaining value_size value_buffer_size) with
                | none => none
                | some (sub_value_text_size, sub_value_size, sub_value) =>
                    if sub_value_text_size == 0 then some (0, [])
                    else
                      jsonl_create_sized_tree_from_text_array_loop child value_buffer_size
                        sub_value_count fuel (remaining - sub_value_text_size)
                        (read.drop sub_value_text_size) (sub_object_index + 1) false
                        (value_size + sub_value_size)
                        (table ++ [if value_size ≤ value_buffer_size then sub_value else none])
            else if character == 44 then
              jsonl_create_sized_tree_from_text_array_loop child value_buffer_size
                sub_value_count fuel (remaining - 1) after sub_object_index true value_size table
            else if !jsonl_is_white_space character then some (0, [])
            else
              jsonl_create_sized_tree_from_text_array_loop child value_buffer_size
                sub_value_count fuel (remaining - 1) after sub_object_index false value_size
                table

/-- `jsonl_create_tree_from_text` with the member `size` of every node it writes: the
stores `value_buffer->size = value_size` stand under the guards of the stores of the
member `type`.  Returns the length of the value text (0 on failure),
`*required_value_buffer_size` and the node written to the buffer. -/
def jsonl_create_sized_tree_from_text (pf : jsonl_platform_t) :
    Nat → List Nat → Nat → Option (Nat × Nat × Option jsonl_sized_value_t)
  | 0, _, _ => none
  | fuel + 1, json_text, value_buffer_size =>
      let decided := jsonl_decide_value_type json_text
      let value_type := decided.1
      let value_text_size := decided.2
      let value_size := jsonl_round_size jsonl_sizeof_value
      if value_type == JSONL_TYPE_OBJECT then
        let sub_value_count := jsonl_count_object_name_value_pairs (json_text.take value_text_size)
        if sub_value_count == jsonl_size_max then some (0, 0, none)
        else
          let table_size := value_size + jsonl_round_size (sub_value_count * jsonl_sizeof_object_entry)
          match jsonl_create_sized_tree_from_text_object_loop
              (jsonl_create_sized_tree_from_text pf fuel)
              value_buffer_size sub_value_count value_text_size (value_text_size - 2)
              ((json_text.take value_text_size).drop 1) 0 true table_size [] with
          | none => none
          | some (value_size, table) =>
              if value_size == 0 then some (0, 0, none)
              else some (value_text_size, value_size,
                if table_size ≤ value_buffer_size ∧ value_size ≤ value_buffer_size then
                  (jsonl_collect table).map (jsonl_sized_value_t.object value_size)
                else none)
      else if value_type == JSONL_TYPE_ARRAY then
        let sub_value_count := jsonl_count_array_values (json_text.take value_text_size)
        if sub_value_count == jsonl_size_max then some (0, 0, none)
        else
          let table_size := value_size + jsonl_round_size (sub_value_count * jsonl_sizeof_pointer)
          match jsonl_create_sized_tree_from_text_array_loop
              (jsonl_create_sized_tree_from_text pf fuel)
              value_buffer_size sub_value_count value_text_size (value_text_size - 2)
              ((json_text.take value_text_size).drop 1) 0 true table_size [] with
          | none => none
          | some (value_size, table) =>
              if value_size == 0 then some (0, 0, none)
              else some (value_text_size, value_size,
                if value_size ≤ value_buffer_size then
                  (jsonl_collect table).map (jsonl_sized_value_t.array value_size)
                else none)
      else if value_type == JSONL_TYPE_STRING then
        match jsonl_decode_quoted_string (json_text.take value_text_size)
            (jsonl_remaining value_size value_buffer_size) with
        | none => none
        | some (decoded, string_length, string) =>
            if decoded == 0 then some (0, 0, none)
            else
              let value_size := value_size + jsonl_round_size (string_length + 1)
              some (value_text_size, value_size,
                jsonl_written (value_size ≤ value_buffer_size)
                  (jsonl_sized_value_t.string value_size string))
      else if value_type == JSONL_TYPE_NUMBER then
        let decoded := jsonl_decode_number pf (json_text.take value_text_size)
        if decoded.1 == 0 then some (0, 0, none)
        else some (value_text_size, value_size,
          jsonl_written (value_size ≤ value_buffer_size)
            (jsonl_sized_value_t.number value_size decoded.2))
      else if value_type == JSONL_TYPE_BOOLEAN then
        let decoded := jsonl_decode_boolean (json_text.take value_text_size)
        if decoded.1 == 0 then some (0, 0, none)
        else some (value_text_size, value_size,
          jsonl_written (value_size ≤ value_buffer_size)
            (jsonl_sized_value_t.boolean value_size decoded.2))
      else if value_type == JSONL_TYPE_NULL then
        some (value_text_size, value_size,
          jsonl_written (value_size ≤ value_buffer_size) (jsonl_sized_value_t.null value_size))
      else some (0, 0, none)

/-- `jsonl_parse_text` with the member `size` of every node it writes: the size it
returns and the root node the buffer holds. -/
def jsonl_parse_sized_text (pf : jsonl_platform_t) (json_text : List Nat)
    (value_buffer_size : Nat) : Option (Nat × Option jsonl_sized_value_t) :=
  let beginning_white_space := jsonl_white_space_length json_text
  match jsonl_create_sized_tree_from_text pf (json_text.length + 1)
      (json_text.drop beginning_white_space) value_buffer_size with
  | none => none
  | some (text_size, tree_size, tree) =>
      if text_size != 0 then some (tree_size, tree) else some (0, none)

mutual
/-- Every node of the tree holds in its member `size` its own footprint and the members
`size` of its children: `H` for Null, Boolean and Number, `H` and the rounded
`length + 1` for a String, `H`, the rounded table of pointers and the members of the
elements for an Array, `H`, the rounded table of entries and, for each entry, the rounded
`name_length + 1` and the member of the value for an Object, where `H` is the rounded
size of `jsonl_value_t`. -/
def jsonl_sized_value_t.footprint : jsonl_sized_value_t → Bool
  | .object size table =>
      size == jsonl_round_size jsonl_sizeof_value +
          jsonl_round_size (table.length * jsonl_sizeof_object_entry) +
          (table.map (fun entry => jsonl_round_size (entry.1.length + 1) + entry.2.size)).sum &&
        jsonl_sized_value_t.footprint_entries table
  | .array size table =>
      size == jsonl_round_size jsonl_sizeof_value +
          jsonl_round_size (table.length * jsonl_sizeof_pointer) +
          (table.map (fun child => child.size)).sum &&
        jsonl_sized_value_t.footprint_values table
  | .string size characters =>
      size == jsonl_round_size jsonl_sizeof_value + jsonl_round_size (characters.length + 1)
  | .number size _ => size == jsonl_round_size jsonl_sizeof_value
  | .boolean size _ => size == jsonl_round_size jsonl_sizeof_value
  | .null size => size == jsonl_round_size jsonl_sizeof_value
/-- The elements of an array hold their footprints. -/
def jsonl_sized_value_t.footprint_values : List jsonl_sized_value_t → Bool
  | [] => true
  | v :: vs => v.footprint && jsonl_sized_value_t.footprint_values vs
/-- The values of the entries of an object hold their footprints. -/
def jsonl_sized_value_t.footprint_entries : List (List Nat × jsonl_sized_value_t) → Bool
  | [] => true
  | (_, v) :: es => v.footprint && jsonl_sized_value_t.footprint_entries es
end

/-! ## Definitions for the statements and the proofs -/

/-! ## The footprint of a tree -/

mutual
/-- The member `size` of a node as jsonl.h describes it: the header, the table, the
names or the string bytes (null terminated, rounded), and the sizes of the children. -/
def jsonl_value_t.size : jsonl_value_t → Nat
  | .object table =>
      jsonl_round_size jsonl_sizeof_value +
        jsonl_round_size (table.length * jsonl_sizeof_object_entry) +
        jsonl_value_t.size_entries table
  | .array table =>
      jsonl_round_size jsonl_sizeof_value +
        jsonl_round_size (table.length * jsonl_sizeof_pointer) + jsonl_value_t.size_values table
  | .string value => jsonl_round_size jsonl_sizeof_value + jsonl_round_size (value.length + 1)
  | _ => jsonl_round_size jsonl_sizeof_value
/-- The sizes of the children of an array. -/
def jsonl_value_t.size_values : List jsonl_value_t → Nat
  | [] => 0
  | v :: vs => v.size + jsonl_value_t.size_values vs
/-- The sizes of the names and of the children of an object. -/
def jsonl_value_t.size_entries : List (List Nat × jsonl_value_t) → Nat
  | [] => 0
  | (name, v) :: es => jsonl_round_size (name.length + 1) + v.size + jsonl_value_t.size_entries es
end

/-- A tree-producing call, as a function of the capacity, reports `size` whatever the
capacity and leaves `tree` in every buffer that the size fits. -/
def jsonl_uniform (call : Nat → Option (Nat × Option jsonl_value_t)) (size : Nat)
    (tree : jsonl_value_t) : Prop :=
  size ≠ 0 ∧ ∀ capacity, call capacity = some (size, if size ≤ capacity then some tree else none)

/-- The size a tree-producing call reports for the capacity 0. -/
def jsonl_reported_size (call : Nat → Option (Nat × Option jsonl_value_t)) : Nat :=
  match call 0 with
  | some (size, _) => size
  | none => 0

/-- What path creation builds for one write of `value` at the end of `path`: for a name
an object with that one entry, for an index `i` an array of `i` Null nodes and the
value. -/
def jsonl_created_value : List jsonl_path_component_t → jsonl_value_t → jsonl_value_t
  | [], value => value
  | .name name :: path, value => .object [(name, jsonl_created_value path value)]
  | .index index :: path, value =>
      .array (List.replicate index .null ++ [jsonl_created_value path value])

/-- The tree that one write of `value` at `path` makes of a tree, as jsonl.h describes
it: the value at the path is overwritten if it exists, and the missing part of the path
is created if it does not (a node that is not the container the next component asks for
is replaced by a created one). -/
def jsonl_written_value : jsonl_value_t → List jsonl_path_component_t → jsonl_value_t →
    jsonl_value_t
  | _, [], value => value
  | .object table, .name name :: path, value =>
      if table.any (fun entry => entry.1 == name) then
        .object (table.map (fun entry =>
          if entry.1 == name then (entry.1, jsonl_written_value entry.2 path value) else entry))
      else .object (table ++ [(name, jsonl_created_value path value)])
  | .array table, .index index :: path, value =>
      if index < table.length then
        .array (table.modify (fun child => jsonl_written_value child path value) index)
      else
        .array (table ++ List.replicate (index - table.length) .null ++
          [jsonl_created_value path value])
  | _, component :: path, value => jsonl_created_value (component :: path) value

/-- What the loops of path creation do for the one operation of the batch: the recursive
call for the rest of its path, or the copy of its value. -/
def jsonl_create_path_single_child (fuel : Nat) (path : List jsonl_path_component_t)
    (value : jsonl_value_t) (depth : Nat) (capacity : Nat) :
    Option (Nat × Option jsonl_value_t) :=
  if path.length > depth + 1 then
    jsonl_internal_set_values_create_path fuel 0 [⟨path, some value⟩] capacity (depth + 1)
  else some (jsonl_internal_copy_value value capacity)

/-- Two components that name different children. -/
def jsonl_path_component_differs : jsonl_path_component_t → jsonl_path_component_t → Prop
  | .name a, .name b => a ≠ b
  | .index a, .index b => a ≠ b
  | _, _ => True

/-- What the patch engine builds for a child that the one write of the batch adds: a
copy of the value, or the containers for the rest of the path. -/
def jsonl_set_values_single_added (path : List jsonl_path_component_t) (value : jsonl_value_t)
    (depth : Nat) (capacity : Nat) : Option (Nat × Option jsonl_value_t) :=
  if path.length = depth + 1 then some (jsonl_internal_copy_value value capacity)
  else
    jsonl_internal_set_values_create_path path.length 0 [⟨path, some value⟩] capacity
      (depth + 1)

/-- The stores that write a text from an offset on, one byte after the other. -/
def jsonl_text_writes : Nat → List Nat → List (Nat × Nat)
  | _, [] => []
  | offset, byte :: text => (offset, byte) :: jsonl_text_writes (offset + 1) text

/-- A printing call reports the length of a text for every capacity and, when the text
fits, stores exactly the text. -/
def jsonl_prints (call : Nat → Nat × List (Nat × Nat)) (text : List Nat) : Prop :=
  ∀ capacity, (call capacity).1 = text.length ∧
    (text.length ≤ capacity → (call capacity).2 = jsonl_text_writes 0 text)

/-- Stands in for the platform in the examples, whose trees hold no number: `char` is
unsigned, and the binary64 operations act on the bit patterns as on integers. -/
def jsonl_example_platform : jsonl_platform_t where
  char_is_signed := false
  double_add := fun a b => a + b
  double_sub := fun a b => a - b
  double_mul := fun a b => a * b
  double_div := fun a b => a / b
  double_neg := fun a => a
  double_of_uint64 := fun a => a
  double_to_uint64 := fun a => a
  double_lt_zero := fun _ => false
  double_ne_zero := fun a => a != 0

/-- What a call of the tree builder of the parser does over all capacities: it fails for
every capacity, or it reports the same text length and the same non-zero tree size for
every capacity, and the buffer holds the tree whenever the size is at most the
capacity. -/
def jsonl_parses (call : Nat → Option (Nat × Nat × Option jsonl_value_t))
    (value_text_size : Nat) : Prop :=
  (∀ capacity, call capacity = some (0, 0, none)) ∨
    (value_text_size ≠ 0 ∧ ∃ tree_size tree, tree_size ≠ 0 ∧ ∀ capacity,
      call capacity =
        some (value_text_size, tree_size, if tree_size ≤ capacity then some tree else none))

/-- What a loop of the tree builder does over all capacities, sizes so far and tables so
far: it fails every time, or it adds the same size every time and appends the same
children whenever the final size is at most the capacity. -/
def jsonl_parses_children {α : Type}
    (loop : Nat → Nat → List (Option α) → Option (Nat × List (Option α))) : Prop :=
  (∀ capacity value_size table, loop capacity value_size table = some (0, [])) ∨
    (∃ (added : Nat) (children : List α), ∀ capacity value_size table, ∃ placed,
      loop capacity value_size table = some (value_size + added, table ++ placed) ∧
        (value_size + added ≤ capacity → placed = children.map some))

/-! ### The walk of a path, as the specification describes it -/

/-- One step of the walk: at a name on an object, the value of the first entry whose
name has the length and the bytes of the name; at an index on an array, the element at
the index when the index is below the number of elements; nothing otherwise. -/
def jsonl_walk_component (node : jsonl_value_t) (component : jsonl_path_component_t) :
    Option jsonl_value_t :=
  match component, node with
  | .name name, .object table =>
      (table.find? (fun entry => entry.1.length == name.length && entry.1 == name)).map
        (fun entry => entry.2)
  | .index index, .array table => if index < table.length then table[index]? else none
  | _, _ => none

/-- The walk of a path from a node, one component at a time; the empty path stays at the
node. -/
def jsonl_walk : jsonl_value_t → List jsonl_path_component_t → Option jsonl_value_t
  | node, [] => some node
  | node, component :: path =>
      match jsonl_walk_component node component with
      | none => none
      | some child => jsonl_walk child path

/-! ### The grammar of a number text, as the specification describes it -/

/-- One or more decimal digits. -/
def jsonl_number_digits (digits : List Nat) : Prop :=
  digits ≠ [] ∧ ∀ c ∈ digits, 48 ≤ c ∧ c ≤ 57

/-- The integer part: the single digit `0`, or a non-zero digit followed by digits. -/
def jsonl_number_integer (integer : List Nat) : Prop :=
  integer = [48] ∨
    ∃ digit digits, integer = digit :: digits ∧ 49 ≤ digit ∧ digit ≤ 57 ∧
      ∀ c ∈ digits, 48 ≤ c ∧ c ≤ 57

/-- The optional fraction: `.` and one or more digits. -/
def jsonl_number_fraction (fraction : List Nat) : Prop :=
  fraction = [] ∨ ∃ digits, fraction = 46 :: digits ∧ jsonl_number_digits digits

/-- The optional exponent: `e` or `E`, an optional sign and one or more digits. -/
def jsonl_number_exponent (exponent : List Nat) : Prop :=
  exponent = [] ∨
    ∃ letter sign digits, exponent = letter :: (sign ++ digits) ∧ (letter = 101 ∨ letter = 69) ∧
      (sign = [] ∨ sign = [43] ∨ sign = [45]) ∧ jsonl_number_digits digits

/-- A number lexeme: an optional `-`, the integer part, the optional fraction and the
optional exponent. -/
def jsonl_number_lexeme (lexeme : List Nat) : Prop :=
  ∃ sign integer fraction exponent, lexeme = sign ++ integer ++ fraction ++ exponent ∧
    (sign = [] ∨ sign = [45]) ∧ jsonl_number_integer integer ∧
    jsonl_number_fraction fraction ∧ jsonl_number_exponent exponent

/-- What may follow a number lexeme: the end of the input, a white space byte or a
structural character (in the sense of the code, which counts the double quote). -/
def jsonl_number_end (rest : List Nat) : Prop :=
  rest = [] ∨ ∃ character tail, rest = character :: tail ∧
    (jsonl_is_white_space character = true ∨ jsonl_is_structural_character character = true)

/-- The number that a run of decimal digits denotes. -/
def jsonl_number_digits_value (digits : List Nat) : Nat :=
  digits.foldl (fun value digit => 10 * value + (digit - 48)) 0

/-- The text does not go on with a decimal digit. -/
def jsonl_no_digit_ahead (read : List Nat) : Prop :=
  ∀ c, read.head? = some c → jsonl_is_decimal_value c = false

/-! ### The printed text of a tree, as the specification describes it -/

/-- The text a printing call stores into a buffer that is as long as the length the call
reports. -/
def jsonl_printed_text (call : Nat → Nat × List (Nat × Nat)) : List Nat :=
  jsonl_buffer_text (jsonl_apply_writes (fun _ => 0) (call (call 0).1).2) (call 0).1

mutual
/-- The rendering of a value at a nesting depth: a container as its opening character and
a line feed, one line per entry, `depth` tabs and the closing character; the literals as
their words; a string as the quoted text and a number as the digits that the printer
stores for them. -/
def jsonl_rendered (pf : jsonl_platform_t) : jsonl_value_t → Nat → List Nat
  | .object table, depth =>
      [123, 10] ++ jsonl_rendered_entries pf table depth ++ List.replicate depth 9 ++ [125]
  | .array table, depth =>
      [91, 10] ++ jsonl_rendered_values pf table depth ++ List.replicate depth 9 ++ [93]
  | .string value, _ => jsonl_printed_text (jsonl_print_string_value pf value)
  | .number number, _ => jsonl_printed_text (jsonl_print_number_value pf number)
  | .boolean true, _ => [116, 114, 117, 101]
  | .boolean false, _ => [102, 97, 108, 115, 101]
  | .null, _ => [110, 117, 108, 108]
  | .unknown _, _ => []
/-- The lines of the entries of an object: `depth + 1` tabs, the quoted name, space,
colon, space, the value at `depth + 1`, a comma unless the entry is the last, a line
feed. -/
def jsonl_rendered_entries (pf : jsonl_platform_t) :
    List (List Nat × jsonl_value_t) → Nat → List Nat
  | [], _ => []
  | (name, value) :: table, depth =>
      List.replicate (depth + 1) 9 ++ jsonl_printed_text (jsonl_print_string_value pf name) ++
        [32, 58, 32] ++ jsonl_rendered pf value (depth + 1) ++
        (if table.isEmpty then [] else [44]) ++ [10] ++ jsonl_rendered_entries pf table depth
/-- The lines of the elements of an array: as for an object, without the name part. -/
def jsonl_rendered_values (pf : jsonl_platform_t) : List jsonl_value_t → Nat → List Nat
  | [], _ => []
  | value :: table, depth =>
      List.replicate (depth + 1) 9 ++ jsonl_rendered pf value (depth + 1) ++
        (if table.isEmpty then [] else [44]) ++ [10] ++ jsonl_rendered_values pf table depth
end

/-! ### A batch of writes into a root array, as the specification describes it -/

/-- The entries of an object in which the value of the first entry with the name is
replaced by what `f` makes of it; the other entries stay. -/
def jsonl_modify_entry (f : jsonl_value_t → jsonl_value_t) (name : List Nat) :
    List (List Nat × jsonl_value_t) → List (List Nat × jsonl_value_t)
  | [] => []
  | entry :: table =>
      if entry.1 == name then (entry.1, f entry.2) :: table
      else entry :: jsonl_modify_entry f name table

/-- The tree in which the node at the path is replaced by `new` and everything else
stays as it is; the tree itself where the path does not resolve. -/
def jsonl_replaced : jsonl_value_t → List jsonl_path_component_t → jsonl_value_t →
    jsonl_value_t
  | _, [], new => new
  | .object table, .name name :: path, new =>
      .object (jsonl_modify_entry (fun child => jsonl_replaced child path new) name table)
  | .array table, .index index :: path, new =>
      .array (table.modify (fun child => jsonl_replaced child path new) index)
  | node, _ :: _, _ => node

mutual
/-- The names of every object of the tree are pairwise distinct. -/
def jsonl_value_t.distinct_names : jsonl_value_t → Bool
  | .object table =>
      decide ((table.map (fun entry => entry.1)).Nodup) &&
        jsonl_value_t.distinct_names_entries table
  | .array table => jsonl_value_t.distinct_names_values table
  | _ => true
/-- The names of every object below the elements of an array are pairwise distinct. -/
def jsonl_value_t.distinct_names_values : List jsonl_value_t → Bool
  | [] => true
  | v :: vs => v.distinct_names && jsonl_value_t.distinct_names_values vs
/-- The names of every object below the entries of an object are pairwise distinct. -/
def jsonl_value_t.distinct_names_entries : List (List Nat × jsonl_value_t) → Bool
  | [] => true
  | (_, v) :: es => v.distinct_names && jsonl_value_t.distinct_names_entries es
end

/-- A byte of printable ASCII (0x20 to 0x7E) other than the double quote and the
backslash. -/
def jsonl_plain_character (character : Nat) : Bool :=
  decide (32 ≤ character) && decide (character ≤ 126) && character != 34 && character != 92

mutual
/-- The tree is built only from objects, arrays, booleans, nulls and strings, and every
string and every object name consists of plain characters. -/
def jsonl_value_t.plain : jsonl_value_t → Bool
  | .object table => jsonl_value_t.plain_entries table
  | .array table => jsonl_value_t.plain_values table
  | .string value => value.all jsonl_plain_character
  | .boolean _ => true
  | .null => true
  | _ => false
/-- Every element of an array is plain. -/
def jsonl_value_t.plain_values : List jsonl_value_t → Bool
  | [] => true
  | v :: vs => v.plain && jsonl_value_t.plain_values vs
/-- Every name and every value of an object is plain. -/
def jsonl_value_t.plain_entries : List (List Nat × jsonl_value_t) → Bool
  | [] => true
  | (name, v) :: es =>
      name.all jsonl_plain_character && v.plain && jsonl_value_t.plain_entries es
end

/-- The span loop of the two delimiters passes over the text: it reads the text whatever
follows and goes on after it with the depth it had. -/
def jsonl_span_passes (opening closing : Nat) (text : List Nat) : Prop :=
  ∀ (rest : List Nat) (offset depth result : Nat), 1 ≤ depth →
    (∀ fuel, rest.length ≤ fuel →
      jsonl_container_text_size_loop opening closing fuel rest (offset + text.length) depth =
        result) →
    ∀ fuel, (text ++ rest).length ≤ fuel →
      jsonl_container_text_size_loop opening closing fuel (text ++ rest) offset depth = result

/-- What follows an element in the text of an array: a comma unless the element is the
last, a line feed, the lines of the later elements and the tabs before the closing
bracket. -/
def jsonl_rendered_values_after (pf : jsonl_platform_t) (table : List jsonl_value_t)
    (depth : Nat) : List Nat :=
  (if table.isEmpty then [] else [44]) ++
    10 :: (jsonl_rendered_values pf table depth ++ List.replicate depth 9)

/-- What follows an entry in the text of an object: a comma unless the entry is the last,
a line feed, the lines of the later entries and the tabs before the closing brace. -/
def jsonl_rendered_entries_after (pf : jsonl_platform_t)
    (table : List (List Nat × jsonl_value_t)) (depth : Nat) : List Nat :=
  (if table.isEmpty then [] else [44]) ++
    10 :: (jsonl_rendered_entries pf table depth ++ List.replicate depth 9)

/-! ### Sizes within `size_t` -/

/-- The size that a tree-producing call requires, which it reports for the capacity 0, is
at most `SIZE_MAX`.  Every sum and every product of sizes and counts that the C code
forms on the way (a count times the size of a table entry, the rounding of a size, the
Null nodes of a gap, the running `object_size`) is a part of the size it reports, so under
this condition none of them wraps and the numbers of the embedding, which are not
reduced modulo `2 ^ 64`, are the numbers the C code computes. -/
def jsonl_size_fits (call : Nat → Option (Nat × Option jsonl_value_t)) : Bool :=
  match call 0 with
  | some (size, _) => decide (size ≤ jsonl_size_max)
  | none => true

/-! ## Lemmas -/

theorem jsonl_round_size_ge (size : Nat) : size ≤ jsonl_round_size size := by
  unfold jsonl_round_size jsonl_value_alignment_minus_one
  omega

theorem jsonl_header_size : jsonl_round_size jsonl_sizeof_value = 40 := by decide

theorem jsonl_memory_compare_iff (a b : List Nat) (h : a.length = b.length) :
    jsonl_memory_compare a b a.length = true ↔ a = b := by
  induction a generalizing b with
  | nil =>
      cases b with
      | nil => simp [jsonl_memory_compare]
      | cons y ys => simp at h
  | cons x xs ih =>
      cases b with
      | nil => simp at h
      | cons y ys =>
          simp only [List.length_cons, Nat.add_right_cancel_iff] at h
          by_cases hxy : x = y
          · subst hxy
            simp [jsonl_memory_compare, ih ys h]
          · simp [jsonl_memory_compare, hxy]

theorem jsonl_name_equal_iff (a b : List Nat) : jsonl_name_equal a b = true ↔ a = b := by
  unfold jsonl_name_equal
  constructor
  · intro h
    simp only [Bool.and_eq_true, beq_iff_eq] at h
    exact (jsonl_memory_compare_iff a b h.1).1 h.2
  · intro h
    subst h
    simp [(jsonl_memory_compare_iff a a rfl).2 rfl]

theorem jsonl_name_equal_self (a : List Nat) : jsonl_name_equal a a = true :=
  (jsonl_name_equal_iff a a).2 rfl

theorem jsonl_collect_map_some {α : Type} (l : List α) :
    jsonl_collect (l.map some) = some l := by
  induction l with
  | nil => rfl
  | cons a l ih => simp [jsonl_collect, ih]

theorem jsonl_object_entries_map_some (table : List (List Nat × jsonl_value_t)) :
    jsonl_object_entries (table.map (fun e => some e.1)) (table.map (fun e => some e.2)) =
      table.map some := by
  induction table with
  | nil => rfl
  | cons e table ih => simp [jsonl_object_entries, ih]

/-! ### `jsonl_internal_copy_value` -/

theorem jsonl_copy_names_spec (object_size capacity : Nat)
    (table : List (List Nat × jsonl_value_t)) (object_table_size : Nat) :
    (jsonl_internal_copy_value_names object_size capacity table object_table_size).1 =
        object_table_size + (table.map (fun e => jsonl_round_size (e.1.length + 1))).sum ∧
      (object_size + object_table_size +
          (table.map (fun e => jsonl_round_size (e.1.length + 1))).sum ≤ capacity →
        (jsonl_internal_copy_value_names object_size capacity table object_table_size).2 =
          table.map (fun e => some e.1)) := by
  induction table generalizing object_table_size with
  | nil => simp [jsonl_internal_copy_value_names]
  | cons e table ih =>
      obtain ⟨name, v⟩ := e
      have h := ih (object_table_size + jsonl_round_size (name.length + 1))
      simp only [jsonl_internal_copy_value_names, List.map_cons, List.sum_cons]
      refine ⟨by rw [h.1]; omega, ?_⟩
      intro hfit
      rw [h.2 (by omega)]
      simp [jsonl_written]
      omega

theorem jsonl_size_entries_eq (table : List (List Nat × jsonl_value_t)) :
    jsonl_value_t.size_entries table =
      (table.map (fun e => jsonl_round_size (e.1.length + 1))).sum +
        (table.map (fun e => e.2.size)).sum := by
  induction table with
  | nil => simp [jsonl_value_t.size_entries]
  | cons e table ih =>
      obtain ⟨name, v⟩ := e
      simp [jsonl_value_t.size_entries, ih]
      omega

theorem jsonl_size_values_eq (table : List jsonl_value_t) :
    jsonl_value_t.size_values table = (table.map (fun v => v.size)).sum := by
  induction table with
  | nil => simp [jsonl_value_t.size_values]
  | cons e table ih => simp [jsonl_value_t.size_values, ih]

theorem jsonl_size_ge_header : ∀ v : jsonl_value_t, 40 ≤ v.size := by
  intro v
  cases v <;> simp [jsonl_value_t.size, jsonl_header_size] <;> omega

mutual
theorem jsonl_copy_value_spec (v : jsonl_value_t) (capacity : Nat) (hv : v.valid = true) :
    jsonl_internal_copy_value v capacity =
      (v.size, if v.size ≤ capacity then some v else none) := by
  cases v with
  | object table =>
      simp only [jsonl_value_t.valid] at hv
      have hn := jsonl_copy_names_spec (jsonl_round_size jsonl_sizeof_value) capacity table
        (jsonl_round_size (table.length * jsonl_sizeof_object_entry))
      have he := jsonl_copy_entries_spec table capacity
        (jsonl_round_size jsonl_sizeof_value +
          (jsonl_internal_copy_value_names (jsonl_round_size jsonl_sizeof_value) capacity table
            (jsonl_round_size (table.length * jsonl_sizeof_object_entry))).1) hv
        (by rw [jsonl_header_size]; omega)
      have hsz := jsonl_size_entries_eq table
      simp only [jsonl_internal_copy_value, jsonl_value_t.size]
      rw [he.1, hn.1]
      have hpos : jsonl_round_size jsonl_sizeof_value +
          (jsonl_round_size (table.length * jsonl_sizeof_object_entry) +
            (table.map (fun e => jsonl_round_size (e.1.length + 1))).sum) +
          (table.map (fun e => e.2.size)).sum ≠ 0 := by
        rw [jsonl_header_size]; omega
      rw [if_neg hpos]
      have hsame : jsonl_round_size jsonl_sizeof_value +
          (jsonl_round_size (table.length * jsonl_sizeof_object_entry) +
            (table.map (fun e => jsonl_round_size (e.1.length + 1))).sum) +
          (table.map (fun e => e.2.size)).sum =
          jsonl_round_size jsonl_sizeof_value +
            jsonl_round_size (table.length * jsonl_sizeof_object_entry) +
            jsonl_value_t.size_entries table := by
        rw [hsz]; omega
      rw [hsame]
      by_cases hfit : jsonl_round_size jsonl_sizeof_value +
            jsonl_round_size (table.length * jsonl_sizeof_object_entry) +
            jsonl_value_t.size_entries table ≤ capacity
      · have hfit2 : jsonl_round_size jsonl_sizeof_value ≤ capacity := by omega
        rw [hn.1] at he
        rw [he.2 (by rw [hsz] at hfit; omega), hn.2 (by rw [hsz] at hfit; omega)]
        simp only [hfit, hfit2, and_self, if_true]
        rw [jsonl_object_entries_map_some, jsonl_collect_map_some]
        rfl
      · simp [hfit]
  | array table =>
      simp only [jsonl_value_t.valid] at hv
      have he := jsonl_copy_values_spec table capacity
        (jsonl_round_size jsonl_sizeof_value +
          jsonl_round_size (table.length * jsonl_sizeof_pointer)) hv
        (by rw [jsonl_header_size]; omega)
      have hsz := jsonl_size_values_eq table
      simp only [jsonl_internal_copy_value, jsonl_value_t.size]
      rw [he.1]
      have hpos : jsonl_round_size jsonl_sizeof_value +
          jsonl_round_size (table.length * jsonl_sizeof_pointer) +
          (table.map (fun v => v.size)).sum ≠ 0 := by
        rw [jsonl_header_size]; omega
      rw [if_neg hpos]
      simp only [hsz]
      by_cases hfit : jsonl_round_size jsonl_sizeof_value +
            jsonl_round_size (table.length * jsonl_sizeof_pointer) +
            (table.map (fun v => v.size)).sum ≤ capacity
      · have hfit2 : jsonl_round_size jsonl_sizeof_value ≤ capacity := by omega
        rw [he.2 hfit]
        simp only [hfit, hfit2, and_self, if_true]
        rw [jsonl_collect_map_some]
        rfl
      · simp [hfit]
  | string value => simp [jsonl_internal_copy_value, jsonl_value_t.size, jsonl_written]
  | number n => simp [jsonl_internal_copy_value, jsonl_value_t.size, jsonl_written]
  | boolean b => simp [jsonl_internal_copy_value, jsonl_value_t.size, jsonl_written]
  | null => simp [jsonl_internal_copy_value, jsonl_value_t.size, jsonl_written]
  | unknown t => simp [jsonl_value_t.valid] at hv
theorem jsonl_copy_entries_spec (table : List (List Nat × jsonl_value_t))
    (capacity object_size : Nat) (hv : jsonl_value_t.valid_entries table = true)
    (hpos : 0 < object_size) :
    (jsonl_internal_copy_value_entries table capacity object_size).1 =
        object_size + (table.map (fun e => e.2.size)).sum ∧
      (object_size + (table.map (fun e => e.2.size)).sum ≤ capacity →
        (jsonl_internal_copy_value_entries table capacity object_size).2 =
          table.map (fun e => some e.2)) := by
  cases table with
  | nil => simp [jsonl_internal_copy_value_entries]
  | cons e table =>
      obtain ⟨name, v⟩ := e
      simp only [jsonl_value_t.valid_entries, Bool.and_eq_true] at hv
      have h1 := jsonl_copy_value_spec v (jsonl_remaining object_size capacity) hv.1
      have h2 := jsonl_copy_entries_spec table capacity (object_size + v.size) hv.2 (by omega)
      have hs := jsonl_size_ge_header v
      simp only [jsonl_internal_copy_value_entries, h1, List.map_cons, List.sum_cons]
      rw [if_neg (by omega), h2.1, if_neg (by omega)]
      refine ⟨by omega, ?_⟩
      intro hfit
      rw [h2.2 (by omega)]
      have : v.size ≤ jsonl_remaining object_size capacity := by
        unfold jsonl_remaining; omega
      simp [this]
      omega
theorem jsonl_copy_values_spec (table : List jsonl_value_t)
    (capacity object_size : Nat) (hv : jsonl_value_t.valid_values table = true)
    (hpos : 0 < object_size) :
    (jsonl_internal_copy_value_values table capacity object_size).1 =
        object_size + (table.map (fun v => v.size)).sum ∧
      (object_size + (table.map (fun v => v.size)).sum ≤ capacity →
        (jsonl_internal_copy_value_values table capacity object_size).2 =
          table.map some) := by
  cases table with
  | nil => simp [jsonl_internal_copy_value_values]
  | cons v table =>
      simp only [jsonl_value_t.valid_values, Bool.and_eq_true] at hv
      have h1 := jsonl_copy_value_spec v (jsonl_remaining object_size capacity) hv.1
      have h2 := jsonl_copy_values_spec table capacity (object_size + v.size) hv.2 (by omega)
      have hs := jsonl_size_ge_header v
      simp only [jsonl_internal_copy_value_values, h1, List.map_cons, List.sum_cons]
      rw [if_neg (by omega), h2.1, if_neg (by omega)]
      refine ⟨by omega, ?_⟩
      intro hfit
      rw [h2.2 (by omega)]
      have : v.size ≤ jsonl_remaining object_size capacity := by
        unfold jsonl_remaining; omega
      simp [this]
      omega
end

theorem jsonl_copy_value_uniform (v : jsonl_value_t) (hv : v.valid = true) :
    jsonl_uniform (fun capacity => some (jsonl_internal_copy_value v capacity)) v.size v := by
  refine ⟨by have := jsonl_size_ge_header v; omega, fun capacity => ?_⟩
  simp only [jsonl_copy_value_spec v capacity hv]

/-! ### Batches that only write -/

theorem jsonl_child_removed_of_writes (internal_path : List jsonl_path_component_t)
    (name : List Nat) (set_value_table : List jsonl_set_value_t)
    (hw : ∀ s ∈ set_value_table, s.value.isSome = true) :
    jsonl_internal_set_values_child_removed internal_path name set_value_table = false := by
  induction set_value_table with
  | nil => rfl
  | cons s rest ih =>
      have hs : s.value.isNone = false := by
        have := hw s (List.mem_cons_self _ _)
        cases h : s.value <;> simp_all
      simp only [jsonl_internal_set_values_child_removed, hs, Bool.false_and]
      exact ih (fun t ht => hw t (List.mem_cons_of_mem _ ht))

theorem jsonl_child_value_removed_of_writes (internal_path : List jsonl_path_component_t)
    (whole : List jsonl_set_value_t) (i : Nat) (name : List Nat)
    (set_value_table : List jsonl_set_value_t)
    (hw : ∀ s ∈ set_value_table, s.value.isSome = true) :
    jsonl_internal_set_values_child_value_removed internal_path whole i name set_value_table =
      some false := by
  induction set_value_table with
  | nil => rfl
  | cons s rest ih =>
      have hs : s.value.isNone = false := by
        have := hw s (List.mem_cons_self _ _)
        cases h : s.value <;> simp_all
      simp only [jsonl_internal_set_values_child_value_removed, hs, Bool.false_and]
      exact ih (fun t ht => hw t (List.mem_cons_of_mem _ ht))

theorem jsonl_array_erase_match_of_writes (internal_path : List jsonl_path_component_t)
    (target : Nat) (set_value_table : List jsonl_set_value_t)
    (hw : ∀ s ∈ set_value_table, s.value.isSome = true) :
    jsonl_internal_set_values_array_erase_match internal_path target set_value_table =
      some false := by
  induction set_value_table with
  | nil => rfl
  | cons s rest ih =>
      have hs : s.value.isNone = false := by
        have := hw s (List.mem_cons_self _ _)
        cases h : s.value <;> simp_all
      simp only [jsonl_internal_set_values_array_erase_match, hs, Bool.false_and]
      exact ih (fun t ht => hw t (List.mem_cons_of_mem _ ht))

theorem jsonl_array_erase_of_writes (internal_path : List jsonl_path_component_t)
    (set_value_table : List jsonl_set_value_t) (value_count i fuel erased : Nat)
    (hw : ∀ s ∈ set_value_table, s.value.isSome = true) :
    jsonl_internal_set_values_array_erase internal_path set_value_table value_count i fuel erased =
      some erased := by
  cases fuel with
  | zero => rfl
  | succ fuel =>
      simp only [jsonl_internal_set_values_array_erase,
        jsonl_array_erase_match_of_writes internal_path _ set_value_table hw]
      split <;> rfl

/-! ### Operations outside the path of a node -/

theorem jsonl_in_path_parent (component : jsonl_path_component_t)
    (internal_path input_path : List jsonl_path_component_t)
    (h : jsonl_internal_set_values_is_set_value_in_path internal_path input_path = false) :
    jsonl_internal_set_values_is_set_value_in_path (component :: internal_path) input_path =
      false := by
  unfold jsonl_internal_set_values_is_set_value_in_path at h ⊢
  simp only [jsonl_internal_set_values_in_path_loop, List.length_cons]
  by_cases hl : input_path.length ≥ internal_path.length
  · simp only [hl, decide_True, Bool.true_and] at h
    simp [h]
  · have : ¬ input_path.length ≥ internal_path.length + 1 := by omega
    simp [this]

theorem jsonl_first_pass_outside (internal_path : List jsonl_path_component_t)
    (source_value : jsonl_value_t) (set_value_table : List jsonl_set_value_t) (i : Nat)
    (indirect : Option Nat)
    (hp : ∀ s ∈ set_value_table,
      jsonl_internal_set_values_is_set_value_in_path internal_path s.path = false) :
    jsonl_internal_set_values_first_pass internal_path source_value set_value_table i indirect =
      some (.indirect indirect) := by
  induction set_value_table generalizing i with
  | nil => rfl
  | cons s rest ih =>
      have hs := hp s (List.mem_cons_self _ _)
      have hrest := fun j => ih j (fun t ht => hp t (List.mem_cons_of_mem _ ht))
      simp only [jsonl_internal_set_values_first_pass, hs]
      cases s.value <;> simp [hrest]

theorem jsonl_object_count_outside (internal_path : List jsonl_path_component_t)
    (source_value : jsonl_value_t) (whole set_value_table : List jsonl_set_value_t)
    (i remove_value_count add_value_count : Nat)
    (hp : ∀ s ∈ set_value_table,
      jsonl_internal_set_values_is_set_value_in_path internal_path s.path = false) :
    jsonl_internal_set_values_object_count internal_path source_value whole set_value_table i
      remove_value_count add_value_count = some (remove_value_count, add_value_count) := by
  induction set_value_table generalizing i with
  | nil => rfl
  | cons s rest ih =>
      have hs := hp s (List.mem_cons_self _ _)
      simp only [jsonl_internal_set_values_object_count, hs, Bool.false_and]
      exact ih (i + 1) (fun t ht => hp t (List.mem_cons_of_mem _ ht))

theorem jsonl_array_count_outside (internal_path : List jsonl_path_component_t)
    (value_count : Nat) (whole set_value_table : List jsonl_set_value_t)
    (i : Nat) (counts : jsonl_array_counts_t)
    (hp : ∀ s ∈ set_value_table,
      jsonl_internal_set_values_is_set_value_in_path internal_path s.path = false) :
    jsonl_internal_set_values_array_count internal_path value_count whole set_value_table i
      counts = some counts := by
  induction set_value_table generalizing i with
  | nil => rfl
  | cons s rest ih =>
      have hs := hp s (List.mem_cons_self _ _)
      simp only [jsonl_internal_set_values_array_count, hs, Bool.false_and]
      exact ih (i + 1) (fun t ht => hp t (List.mem_cons_of_mem _ ht))

theorem jsonl_array_overwrite_outside (internal_path : List jsonl_path_component_t)
    (i : Nat) (set_value_table : List jsonl_set_value_t) (set_value_index : Nat)
    (hp : ∀ s ∈ set_value_table,
      jsonl_internal_set_values_is_set_value_in_path internal_path s.path = false) :
    jsonl_internal_set_values_array_overwrite internal_path i set_value_table set_value_index =
      some none := by
  induction set_value_table generalizing set_value_index with
  | nil => rfl
  | cons s rest ih =>
      have hs := hp s (List.mem_cons_self _ _)
      simp only [jsonl_internal_set_values_array_overwrite, hs, Bool.and_false]
      exact ih (set_value_index + 1) (fun t ht => hp t (List.mem_cons_of_mem _ ht))

/-! ### The loops of the object case and of the array case -/

theorem jsonl_object_names_of_writes (internal_path : List jsonl_path_component_t)
    (set_value_table : List jsonl_set_value_t) (n object_size capacity : Nat)
    (table : List (List Nat × jsonl_value_t)) (c object_table_size : Nat)
    (hw : ∀ s ∈ set_value_table, s.value.isSome = true) (hn : n = c + table.length) :
    ∃ names, jsonl_internal_set_values_object_names internal_path set_value_table n object_size
        capacity table c object_table_size =
        some (object_table_size + (table.map (fun e => jsonl_round_size (e.1.length + 1))).sum,
          names) ∧
      (object_size + object_table_size +
          (table.map (fun e => jsonl_round_size (e.1.length + 1))).sum ≤ capacity →
        names = table.map (fun e => some e.1)) := by
  induction table generalizing c object_table_size with
  | nil =>
      refine ⟨[], ?_, fun _ => rfl⟩
      unfold jsonl_internal_set_values_object_names
      simp [hn]
  | cons e table ih =>
      obtain ⟨name, v⟩ := e
      obtain ⟨names, h1, h2⟩ := ih (c + 1)
        (object_table_size + jsonl_round_size (name.length + 1))
        (by simp only [List.length_cons] at hn; omega)
      refine ⟨jsonl_written (object_size + object_table_size +
        jsonl_round_size (name.length + 1) ≤ capacity) name :: names, ?_, ?_⟩
      · unfold jsonl_internal_set_values_object_names
        have hc : (c == n) = false := by
          simp only [List.length_cons] at hn
          simp only [beq_eq_false_iff_ne, ne_eq]
          omega
        simp only [hc, Bool.false_eq_true, if_false,
          jsonl_child_removed_of_writes internal_path name set_value_table hw, h1,
          List.map_cons, List.sum_cons]
        congr 2
        omega
      · intro hfit
        simp only [List.map_cons, List.sum_cons] at hfit
        rw [h2 (by omega)]
        simp [jsonl_written]
        omega

theorem jsonl_object_values_spec
    (patch : jsonl_value_t → List jsonl_path_component_t → Nat →
      Option (Nat × Option jsonl_value_t))
    (internal_path : List jsonl_path_component_t) (set_value_table : List jsonl_set_value_t)
    (n : Nat) (table : List (List Nat × jsonl_value_t))
    (sizes : List Nat × jsonl_value_t → Nat)
    (result : List Nat × jsonl_value_t → jsonl_value_t) (i c object_size : Nat)
    (hw : ∀ s ∈ set_value_table, s.value.isSome = true) (hn : n = c + table.length)
    (hpos : 0 < object_size)
    (hpatch : ∀ e ∈ table,
      jsonl_uniform (patch e.2 (.name e.1 :: internal_path)) (sizes e) (result e)) :
    ∀ capacity, ∃ values,
      jsonl_internal_set_values_object_values patch internal_path set_value_table n capacity
        table i c object_size = some (object_size + (table.map sizes).sum, values) ∧
      (object_size + (table.map sizes).sum ≤ capacity →
        values = table.map (fun e => some (result e))) := by
  induction table generalizing i c object_size with
  | nil =>
      refine fun capacity => ⟨[], ?_, fun _ => rfl⟩
      unfold jsonl_internal_set_values_object_values
      simp [hn]
  | cons e table ih =>
      obtain ⟨name, v⟩ := e
      obtain ⟨hsize, hcall⟩ := hpatch (name, v) (List.mem_cons_self _ _)
      generalize hsz : sizes (name, v) = size at hsize hcall
      have hloop := ih (i + 1) (c + 1) (object_size + size)
        (by simp only [List.length_cons] at hn; omega) (by omega)
        (fun e he => hpatch e (List.mem_cons_of_mem _ he))
      generalize htot : object_size + size + (table.map sizes).sum = total at hloop
      have htotal : object_size + size ≤ total := by omega
      intro capacity
      simp only [List.map_cons, List.sum_cons, hsz]
      have htot2 : object_size + (size + (table.map sizes).sum) = total := by omega
      rw [htot2]
      obtain ⟨values, hvalues, hfits⟩ := hloop capacity
      refine ⟨(if jsonl_remaining object_size capacity != 0 then
          (if size ≤ jsonl_remaining object_size capacity then some (result (name, v)) else none)
        else none) :: values, ?_, ?_⟩
      · unfold jsonl_internal_set_values_object_values
        have hc : (c == n) = false := by
          simp only [List.length_cons] at hn
          simp only [beq_eq_false_iff_ne, ne_eq]
          omega
        have hs : (size == 0) = false := by simp [hsize]
        have ht : (total == 0) = false := by
          simp only [beq_eq_false_iff_ne, ne_eq]; omega
        simp only [hc, Bool.false_eq_true, if_false,
          jsonl_child_value_removed_of_writes internal_path set_value_table i name
            set_value_table hw, hcall, hs, hvalues, ht]
      · intro hfit
        rw [hfits hfit]
        have h1 : size ≤ jsonl_remaining object_size capacity := by
          unfold jsonl_remaining; omega
        have h2 : jsonl_remaining object_size capacity ≠ 0 := by omega
        simp [h1, h2]

theorem jsonl_array_values_spec
    (patch : jsonl_value_t → List jsonl_path_component_t → Nat →
      Option (Nat × Option jsonl_value_t))
    (internal_path : List jsonl_path_component_t) (table : List jsonl_value_t)
    (set_value_table : List jsonl_set_value_t) (sizes : Nat → Nat)
    (result : Nat → jsonl_value_t)
    (slots i object_size : Nat) (hpos : 0 < object_size)
    (hslot : ∀ j, i ≤ j → j < i + slots → sizes j ≠ 0 ∧ ∀ remaining,
      jsonl_internal_set_values_array_slot patch internal_path table set_value_table remaining j
        0 = some (0, sizes j, if sizes j ≤ remaining then some (result j) else none)) :
    ∀ capacity, ∃ values,
      jsonl_internal_set_values_array_values patch internal_path table set_value_table capacity
        slots i 0 object_size =
        some (object_size + ((List.range' i slots).map sizes).sum, values) ∧
      (object_size + ((List.range' i slots).map sizes).sum ≤ capacity →
        values = (List.range' i slots).map (fun j => some (result j))) := by
  induction slots generalizing i object_size with
  | zero =>
      exact fun capacity =>
        ⟨[], by simp [jsonl_internal_set_values_array_values], fun _ => rfl⟩
  | succ slots ih =>
      obtain ⟨hsize, hcall⟩ := hslot i (le_refl _) (by omega)
      generalize hsz : sizes i = size at hsize hcall
      have hloop := ih (i + 1) (object_size + size) (by omega)
        (fun j h1 h2 => hslot j (by omega) (by omega))
      generalize htot : object_size + size + ((List.range' (i + 1) slots).map sizes).sum = total
        at hloop
      have htotal : object_size + size ≤ total := by omega
      intro capacity
      simp only [List.range'_succ, List.map_cons, List.sum_cons, hsz]
      have htot2 : object_size + (size + ((List.range' (i + 1) slots).map sizes).sum) = total := by
        omega
      rw [htot2]
      obtain ⟨values, hvalues, hfits⟩ := hloop capacity
      refine ⟨(if jsonl_remaining object_size capacity != 0 then
          (if size ≤ jsonl_remaining object_size capacity then some (result i) else none)
        else none) :: values, ?_, ?_⟩
      · have hs : (size == 0) = false := by simp [hsize]
        have ht : (total == 0) = false := by
          simp only [beq_eq_false_iff_ne, ne_eq]; omega
        simp only [jsonl_internal_set_values_array_values, hcall, hs, hvalues, ht,
          Bool.false_eq_true, if_false]
      · intro hfit
        rw [hfits hfit]
        have h1 : size ≤ jsonl_remaining object_size capacity := by
          unfold jsonl_remaining; omega
        have h2 : jsonl_remaining object_size capacity ≠ 0 := by omega
        simp [h1, h2]

theorem jsonl_valid_of_mem_entries (table : List (List Nat × jsonl_value_t))
    (h : jsonl_value_t.valid_entries table = true) : ∀ e ∈ table, e.2.valid = true := by
  induction table with
  | nil => intro e he; cases he
  | cons x table ih =>
      obtain ⟨name, v⟩ := x
      simp only [jsonl_value_t.valid_entries, Bool.and_eq_true] at h
      intro e he
      rcases List.mem_cons.1 he with rfl | he
      · exact h.1
      · exact ih h.2 e he

theorem jsonl_valid_of_mem_values (table : List jsonl_value_t)
    (h : jsonl_value_t.valid_values table = true) : ∀ v ∈ table, v.valid = true := by
  induction table with
  | nil => intro e he; cases he
  | cons x table ih =>
      simp only [jsonl_value_t.valid_values, Bool.and_eq_true] at h
      intro e he
      rcases List.mem_cons.1 he with rfl | he
      · exact h.1
      · exact ih h.2 e he

theorem jsonl_depth_of_mem_entries (table : List (List Nat × jsonl_value_t)) :
    ∀ e ∈ table, e.2.depth ≤ jsonl_value_t.depth_entries table := by
  induction table with
  | nil => intro e he; cases he
  | cons x table ih =>
      obtain ⟨name, v⟩ := x
      intro e he
      simp only [jsonl_value_t.depth_entries]
      rcases List.mem_cons.1 he with rfl | he
      · exact le_max_left _ _
      · exact le_trans (ih e he) (le_max_right _ _)

theorem jsonl_depth_of_mem_values (table : List jsonl_value_t) :
    ∀ v ∈ table, v.depth ≤ jsonl_value_t.depth_values table := by
  induction table with
  | nil => intro e he; cases he
  | cons x table ih =>
      intro e he
      simp only [jsonl_value_t.depth_values]
      rcases List.mem_cons.1 he with rfl | he
      · exact le_max_left _ _
      · exact le_trans (ih e he) (le_max_right _ _)

theorem jsonl_object_added_names_none (internal_path : List jsonl_path_component_t)
    (source_value : jsonl_value_t) (set_value_table : List jsonl_set_value_t)
    (object_size capacity : Nat) (rest : List jsonl_set_value_t) (i object_table_size : Nat) :
    jsonl_internal_set_values_object_added_names internal_path source_value set_value_table 0
      object_size capacity rest i 0 object_table_size = some (object_table_size, []) := by
  unfold jsonl_internal_set_values_object_added_names
  simp

theorem jsonl_object_added_values_none (internal_path : List jsonl_path_component_t)
    (source_value : jsonl_value_t) (set_value_table : List jsonl_set_value_t)
    (capacity : Nat) (rest : List jsonl_set_value_t) (i object_size : Nat) :
    jsonl_internal_set_values_object_added_values internal_path source_value set_value_table 0
      capacity rest i 0 object_size = some (object_size, []) := by
  unfold jsonl_internal_set_values_object_added_values
  simp

theorem jsonl_size_sub_zero (a : Nat) : jsonl_size_sub a 0 = a := by
  simp [jsonl_size_sub]

theorem jsonl_range_map_getElem (table : List jsonl_value_t) :
    (List.range' 0 table.length).map (fun j => some (table.getD j jsonl_value_t.null)) =
      table.map some := by
  apply List.ext_getElem
  · simp
  · intro n h1 h2
    simp only [List.length_map, List.length_range'] at h1
    simp [List.getD_eq_getElem?_getD, List.getElem?_eq_getElem h1]

theorem jsonl_range_map_size (table : List jsonl_value_t) :
    (List.range' 0 table.length).map (fun j => (table.getD j jsonl_value_t.null).size) =
      table.map (fun v => v.size) := by
  apply List.ext_getElem
  · simp
  · intro n h1 h2
    simp only [List.length_map, List.length_range'] at h1
    simp [List.getD_eq_getElem?_getD, List.getElem?_eq_getElem h1]

/-- A batch of writes none of which lies in the path of a node: the node is copied. -/
theorem jsonl_internal_set_values_outside (set_value_table : List jsonl_set_value_t)
    (hw : ∀ s ∈ set_value_table, s.value.isSome = true) :
    ∀ (fuel : Nat) (source_value : jsonl_value_t) (internal_path : List jsonl_path_component_t),
      (∀ s ∈ set_value_table,
        jsonl_internal_set_values_is_set_value_in_path internal_path s.path = false) →
      source_value.valid = true → source_value.depth < fuel →
      jsonl_uniform (jsonl_internal_set_values set_value_table fuel source_value internal_path)
        source_value.size source_value := by
  intro fuel
  induction fuel with
  | zero => intro s ip _ _ h; omega
  | succ fuel ih =>
      intro source_value internal_path hp hv hd
      refine ⟨by have := jsonl_size_ge_header source_value; omega, fun capacity => ?_⟩
      unfold jsonl_internal_set_values
      rw [jsonl_first_pass_outside internal_path source_value set_value_table 0 none hp]
      cases source_value with
      | object table =>
          simp only [jsonl_value_t.valid] at hv
          simp only [jsonl_value_t.depth] at hd
          simp only [jsonl_object_count_outside internal_path _ set_value_table set_value_table
            0 0 0 hp, jsonl_size_sub_zero, Nat.add_zero, jsonl_object_added_names_none,
            jsonl_object_added_values_none, List.append_nil]
          obtain ⟨names, hnames, hnfit⟩ := jsonl_object_names_of_writes internal_path
            set_value_table table.length (jsonl_round_size jsonl_sizeof_value) capacity table 0
            (jsonl_round_size (table.length * jsonl_sizeof_object_entry)) hw (by omega)
          obtain ⟨values, hvalues, hvfit⟩ := jsonl_object_values_spec
            (jsonl_internal_set_values set_value_table fuel) internal_path set_value_table
            table.length table (fun e => e.2.size) (fun e => e.2) 0 0
            (jsonl_round_size jsonl_sizeof_value +
              (jsonl_round_size (table.length * jsonl_sizeof_object_entry) +
                (table.map (fun e => jsonl_round_size (e.1.length + 1))).sum))
            hw (by omega) (by rw [jsonl_header_size]; omega)
            (fun e he => ih e.2 (.name e.1 :: internal_path)
              (fun s hs => jsonl_in_path_parent _ _ _ (hp s hs))
              (jsonl_valid_of_mem_entries table hv e he)
              (by have := jsonl_depth_of_mem_entries table e he; omega)) capacity
          simp only [hnames, hvalues]
          have hsz := jsonl_size_entries_eq table
          have hne : (jsonl_round_size jsonl_sizeof_value +
              (jsonl_round_size (table.length * jsonl_sizeof_object_entry) +
                (table.map (fun e => jsonl_round_size (e.1.length + 1))).sum) +
              (table.map (fun e => e.2.size)).sum == 0) = false := by
            rw [jsonl_header_size]; simp only [beq_eq_false_iff_ne, ne_eq]; omega
          have hsame : jsonl_round_size jsonl_sizeof_value +
              (jsonl_round_size (table.length * jsonl_sizeof_object_entry) +
                (table.map (fun e => jsonl_round_size (e.1.length + 1))).sum) +
              (table.map (fun e => e.2.size)).sum = (jsonl_value_t.object table).size := by
            simp only [jsonl_value_t.size, hsz]; omega
          simp only [hne, Bool.false_eq_true, if_false]
          rw [hsame] at hvfit ⊢
          by_cases hfit : (jsonl_value_t.object table).size ≤ capacity
          · have hfit2 : jsonl_round_size jsonl_sizeof_value ≤ capacity := by
              have := jsonl_size_ge_header (jsonl_value_t.object table)
              rw [jsonl_header_size]; omega
            rw [hvfit hfit, hnfit (by rw [← hsame] at hfit; omega)]
            simp only [hfit, hfit2, and_self, if_true]
            rw [jsonl_object_entries_map_some, jsonl_collect_map_some]
            rfl
          · simp [hfit]
      | array table =>
          simp only [jsonl_value_t.valid] at hv
          simp only [jsonl_value_t.depth] at hd
          simp only [jsonl_array_count_outside internal_path _ set_value_table set_value_table
            0 _ hp, jsonl_size_sub_zero, bne_self_eq_false, Bool.false_and, Bool.false_eq_true,
            if_false, Nat.add_zero, jsonl_internal_set_values_array_appended]
          obtain ⟨values, hvalues, hvfit⟩ := jsonl_array_values_spec
            (jsonl_internal_set_values set_value_table fuel) internal_path table set_value_table
            (fun j => (table.getD j jsonl_value_t.null).size)
            (fun j => table.getD j jsonl_value_t.null) table.length 0
            (jsonl_round_size jsonl_sizeof_value +
              jsonl_round_size (table.length * jsonl_sizeof_pointer))
            (by rw [jsonl_header_size]; omega)
            (by
              intro j _ hj
              have hj : j < table.length := by omega
              refine ⟨Nat.ne_of_gt (lt_of_lt_of_le (by decide)
                (jsonl_size_ge_header (table.getD j jsonl_value_t.null))), fun remaining => ?_⟩
              have hget : table[j]? = some (table.getD j jsonl_value_t.null) := by
                simp [List.getD_eq_getElem?_getD, List.getElem?_eq_getElem hj]
              have hmem : table.getD j jsonl_value_t.null ∈ table := by
                simp only [List.getD_eq_getElem?_getD, List.getElem?_eq_getElem hj,
                  Option.getD_some]
                exact List.getElem_mem hj
              have hchild := (ih (table.getD j jsonl_value_t.null) (.index j :: internal_path)
                (fun s hs => jsonl_in_path_parent _ _ _ (hp s hs))
                (jsonl_valid_of_mem_values table hv _ hmem)
                (by have := jsonl_depth_of_mem_values table _ hmem; omega)).2 remaining
              unfold jsonl_internal_set_values_array_slot
              simp only [jsonl_array_overwrite_outside internal_path j set_value_table 0 hp,
                jsonl_array_erase_of_writes internal_path set_value_table _ _ _ _ hw,
                Nat.add_zero, hget, hchild, Option.map_some'])
            capacity
          simp only [hvalues, jsonl_range_map_size]
          have hsz := jsonl_size_values_eq table
          have hne : (jsonl_round_size jsonl_sizeof_value +
              jsonl_round_size (table.length * jsonl_sizeof_pointer) +
              (table.map (fun v => v.size)).sum == 0) = false := by
            rw [jsonl_header_size]; simp only [beq_eq_false_iff_ne, ne_eq]; omega
          have hsame : jsonl_round_size jsonl_sizeof_value +
              jsonl_round_size (table.length * jsonl_sizeof_pointer) +
              (table.map (fun v => v.size)).sum = (jsonl_value_t.array table).size := by
            simp only [jsonl_value_t.size, hsz]
          simp only [hne, Bool.false_eq_true, if_false, List.append_nil]
          rw [jsonl_range_map_size, jsonl_range_map_getElem] at hvfit
          rw [hsame] at hvfit ⊢
          by_cases hfit : (jsonl_value_t.array table).size ≤ capacity
          · have hfit2 : jsonl_round_size jsonl_sizeof_value +
                jsonl_round_size (table.length * jsonl_sizeof_pointer) ≤ capacity := by
              rw [← hsame] at hfit; omega
            rw [hvfit hfit]
            simp only [hfit, hfit2, and_self, if_true]
            rw [jsonl_collect_map_some]
            rfl
          · simp [hfit]
      | string value => simp [jsonl_value_t.size, jsonl_written]
      | number n => simp [jsonl_value_t.size, jsonl_written]
      | boolean b => simp [jsonl_value_t.size, jsonl_written]
      | null => simp [jsonl_value_t.size, jsonl_written]
      | unknown t => simp [jsonl_value_t.valid] at hv

theorem jsonl_uniform_reported (call : Nat → Option (Nat × Option jsonl_value_t)) (size : Nat)
    (tree : jsonl_value_t) (h : jsonl_uniform call size tree) :
    jsonl_reported_size call = size := by
  unfold jsonl_reported_size
  rw [h.2 0]

theorem jsonl_uniform_of_exists (call : Nat → Option (Nat × Option jsonl_value_t))
    (tree : jsonl_value_t) (h : ∃ size, jsonl_uniform call size tree) :
    jsonl_uniform call (jsonl_reported_size call) tree := by
  obtain ⟨size, hs⟩ := h
  rw [jsonl_uniform_reported call size tree hs]
  exact hs

theorem jsonl_path_component_at (before : List jsonl_path_component_t)
    (component : jsonl_path_component_t) (after : List jsonl_path_component_t) :
    (before ++ component :: after)[before.length]? = some component := by
  rw [List.getElem?_append_right (le_refl _)]
  simp

theorem jsonl_create_path_fill_spec (capacity : Nat) (child : Option jsonl_value_t) :
    ∀ (count object_size : Nat),
      (jsonl_internal_set_values_create_path_fill capacity
          (List.replicate count none ++ [some child]) object_size).1 = object_size + count * 40 ∧
        (object_size + count * 40 ≤ capacity →
          (jsonl_internal_set_values_create_path_fill capacity
            (List.replicate count none ++ [some child]) object_size).2 =
            List.replicate count (some jsonl_value_t.null) ++ [child]) := by
  intro count
  induction count with
  | zero =>
      intro object_size
      simp [jsonl_internal_set_values_create_path_fill]
  | succ count ih =>
      intro object_size
      have h := ih (object_size + 40)
      rw [List.replicate_succ, List.cons_append]
      simp only [jsonl_internal_set_values_create_path_fill, jsonl_internal_create_null_value,
        jsonl_header_size, List.append_eq, h.1]
      refine ⟨by omega, fun hfit => ?_⟩
      rw [h.2 (by omega)]
      have : 40 ≤ jsonl_remaining object_size capacity := by unfold jsonl_remaining; omega
      simp [jsonl_written, this, List.replicate_succ]

theorem jsonl_replicate_set_last {α : Type} (count : Nat) (a : α) :
    (List.replicate (count + 1) (none : Option α)).set count (some a) =
      List.replicate count none ++ [some a] := by
  induction count with
  | zero => rfl
  | succ count ih =>
      rw [List.replicate_succ, List.set_cons_succ, ih, List.replicate_succ, List.cons_append]

theorem jsonl_create_path_contains_self (set_value_table : List jsonl_set_value_t)
    (depth i : Nat) :
    jsonl_internal_set_values_create_path_contains_second_path i set_value_table depth i =
      some true := by
  simp [jsonl_internal_set_values_create_path_contains_second_path]

theorem jsonl_create_path_not_listed_first (set_value : jsonl_set_value_t) (depth : Nat) :
    jsonl_internal_set_values_create_path_sub_path_not_already_listed 0 [set_value] depth =
      some true := by
  simp [jsonl_internal_set_values_create_path_sub_path_not_already_listed,
    jsonl_internal_set_values_create_path_not_listed_loop]

theorem jsonl_create_path_count_single (path : List jsonl_path_component_t)
    (value : jsonl_value_t) (depth : Nat) (is_array : Bool)
    (component : jsonl_path_component_t) (hc : path[depth]? = some component) :
    jsonl_internal_set_values_create_path_count 0 [⟨path, some value⟩] depth is_array
        [⟨path, some value⟩] 0 ⟨0, 0, 0, 0⟩ =
      some
        { jsonl_create_path_count_array is_array component ⟨0, 0, 0, 0⟩ with
          value_count := if path.length > depth + 1 then 0 else 1
          path_count := if path.length > depth + 1 then 1 else 0 } := by
  simp only [jsonl_internal_set_values_create_path_count, Option.isSome_some, if_true,
    jsonl_create_path_contains_self, jsonl_create_path_not_listed_first, hc]
  by_cases h : path.length > depth + 1
  · simp only [h, if_true]
    unfold jsonl_create_path_count_array
    split <;> (try split) <;> (try split) <;> rfl
  · simp only [h, if_false]
    unfold jsonl_create_path_count_array
    split <;> (try split) <;> (try split) <;> rfl

theorem jsonl_create_path_names_single (path : List jsonl_path_component_t)
    (value : jsonl_value_t) (depth object_size capacity object_table_size : Nat)
    (name : List Nat) (hc : path[depth]? = some (.name name)) (hl : path.length > depth) :
    jsonl_internal_set_values_create_path_names 0 [⟨path, some value⟩] depth 1 object_size
        capacity [⟨path, some value⟩] 0 0 object_table_size =
      some (object_table_size + jsonl_round_size (name.length + 1),
        [jsonl_written (object_size + object_table_size + jsonl_round_size (name.length + 1) ≤
          capacity) name]) := by
  have hne : ¬ (path.length + 1 = depth) := by omega
  unfold jsonl_internal_set_values_create_path_names
  simp only [Nat.zero_ne_one, beq_iff_eq, if_false, Option.isSome_some, if_true,
    jsonl_create_path_contains_self, jsonl_create_path_not_listed_first, hc, hne,
    jsonl_path_component_t.name_length, jsonl_path_component_t.name_value]
  unfold jsonl_internal_set_values_create_path_names
  simp only [Nat.zero_add, beq_self_eq_true, if_true, jsonl_written]
  by_cases hg : object_size + object_table_size + jsonl_round_size (name.length + 1) ≤ capacity
  · simp [hg]
  · simp [hg]

theorem jsonl_create_path_values_single (fuel : Nat) (path : List jsonl_path_component_t)
    (value : jsonl_value_t) (depth capacity object_size child_size : Nat)
    (child : jsonl_value_t)
    (hchild : jsonl_uniform (jsonl_create_path_single_child fuel path value depth) child_size
      child) :
    jsonl_internal_set_values_create_path_values
        (fun i value_buffer_size =>
          jsonl_internal_set_values_create_path fuel i [⟨path, some value⟩] value_buffer_size
            (depth + 1))
        0 [⟨path, some value⟩] depth 1 capacity [⟨path, some value⟩] 0 0 object_size =
      some (object_size + child_size,
        [if object_size ≤ capacity then
          (if child_size ≤ jsonl_remaining object_size capacity then some child else none)
        else none]) := by
  have hcall := hchild.2 (jsonl_remaining object_size capacity)
  have hne := hchild.1
  unfold jsonl_create_path_single_child at hcall
  have hsz : (object_size + child_size == 0) = false := by
    simp only [beq_eq_false_iff_ne, ne_eq]; omega
  have hcs : (child_size == 0) = false := by simp [hne]
  have hdone : ∀ rest i os, jsonl_internal_set_values_create_path_values
      (fun i value_buffer_size =>
        jsonl_internal_set_values_create_path fuel i [⟨path, some value⟩] value_buffer_size
          (depth + 1))
      0 [⟨path, some value⟩] depth 1 capacity rest i 1 os = some (os, []) := by
    intro rest i os
    unfold jsonl_internal_set_values_create_path_values
    simp
  unfold jsonl_internal_set_values_create_path_values
  simp only [Nat.zero_ne_one, beq_iff_eq, if_false, jsonl_create_path_contains_self,
    jsonl_create_path_not_listed_first, Nat.zero_add, hdone]
  by_cases h : path.length > depth + 1
  · simp only [h, if_true] at hcall ⊢
    simp only [hcall, hcs, hsz, Bool.false_eq_true, if_false]
    rw [if_neg hne, if_neg (by omega)]
  · simp only [h, if_false, Option.some.injEq] at hcall ⊢
    simp only [hcall, hcs, hsz, Bool.false_eq_true, if_false]
    rw [if_neg hne, if_neg (by omega)]

theorem jsonl_create_path_slots_single (fuel : Nat) (path : List jsonl_path_component_t)
    (value : jsonl_value_t) (depth capacity object_size child_size index : Nat)
    (child : jsonl_value_t) (hc : path[depth]? = some (.index index))
    (hi : index ≠ jsonl_size_max)
    (hchild : jsonl_uniform (jsonl_create_path_single_child fuel path value depth) child_size
      child) :
    jsonl_internal_set_values_create_path_slots
        (fun i value_buffer_size =>
          jsonl_internal_set_values_create_path fuel i [⟨path, some value⟩] value_buffer_size
            (depth + 1))
        0 [⟨path, some value⟩] depth 1 capacity [⟨path, some value⟩] 0 0 object_size
        (index + 1) (List.replicate (index + 1) none) =
      some (object_size + child_size,
        if object_size ≤ capacity then
          List.replicate index none ++
            [some (if child_size ≤ jsonl_remaining object_size capacity then some child
              else none)]
        else List.replicate (index + 1) none) := by
  have hcall := hchild.2 (jsonl_remaining object_size capacity)
  have hne := hchild.1
  unfold jsonl_create_path_single_child at hcall
  have hcs : (child_size == 0) = false := by simp [hne]
  have hdone : ∀ rest i os ao table, jsonl_internal_set_values_create_path_slots
      (fun i value_buffer_size =>
        jsonl_internal_set_values_create_path fuel i [⟨path, some value⟩] value_buffer_size
          (depth + 1))
      0 [⟨path, some value⟩] depth 1 capacity rest i 1 os ao table = some (os, table) := by
    intro rest i os ao table
    unfold jsonl_internal_set_values_create_path_slots
    simp
  have hstore : ∀ sub_value : Option jsonl_value_t,
      jsonl_internal_set_values_create_path_store (.index index) (index + 1)
        (List.replicate (index + 1) none) sub_value =
      some (index + 1, List.replicate index none ++ [some sub_value]) := by
    intro sub_value
    simp [jsonl_internal_set_values_create_path_store, jsonl_path_component_t.index_member, hi,
      jsonl_replicate_set_last]
  unfold jsonl_internal_set_values_create_path_slots
  simp only [Nat.zero_ne_one, beq_iff_eq, if_false, jsonl_create_path_contains_self,
    jsonl_create_path_not_listed_first, Nat.zero_add, hdone, hc, hstore]
  by_cases h : path.length > depth + 1
  · simp only [h, if_true] at hcall ⊢
    simp only [hcall, hcs, Bool.false_eq_true, if_false]
    by_cases hg : object_size ≤ capacity
    · simp only [hg, if_true, if_neg hne]
    · simp only [hg, if_false, if_neg hne]
  · simp only [h, if_false, Option.some.injEq] at hcall ⊢
    simp only [hcall, hcs, Bool.false_eq_true, if_false]
    by_cases hg : object_size ≤ capacity
    · simp only [hg, if_true, if_neg hne]
    · simp only [hg, if_false, if_neg hne]

theorem jsonl_create_path_single_name (fuel : Nat) (path : List jsonl_path_component_t)
    (value : jsonl_value_t) (depth child_size : Nat) (name : List Nat)
    (child : jsonl_value_t) (hc : path[depth]? = some (.name name)) (hl : path.length > depth)
    (hchild : jsonl_uniform (jsonl_create_path_single_child fuel path value depth) child_size
      child) :
    jsonl_uniform
      (fun capacity => jsonl_internal_set_values_create_path (fuel + 1) 0
        [⟨path, some value⟩] capacity depth)
      (40 + (jsonl_round_size jsonl_sizeof_object_entry +
        jsonl_round_size (name.length + 1)) + child_size)
      (.object [(name, child)]) := by
  have hne := hchild.1
  refine ⟨by omega, fun capacity => ?_⟩
  have hcount := jsonl_create_path_count_single path value depth false (.name name) hc
  have hsum : (if path.length > depth + 1 then 0 else 1) +
      (if path.length > depth + 1 then 1 else 0) = 1 := by split <;> rfl
  have hnames := jsonl_create_path_names_single path value depth 40 capacity
    (jsonl_round_size jsonl_sizeof_object_entry) name hc hl
  have hvalues := jsonl_create_path_values_single fuel path value depth capacity
    (40 + (jsonl_round_size jsonl_sizeof_object_entry +
      jsonl_round_size (name.length + 1))) child_size child hchild
  have htype : (jsonl_path_component_t.container_type (.name name) == JSONL_TYPE_ARRAY) =
      false := rfl
  simp only [jsonl_internal_set_values_create_path, List.getElem?_cons_zero, hc, htype, hcount,
    jsonl_create_path_count_array, jsonl_header_size, hsum, Nat.one_mul, hnames, hvalues, Bool.not_false,
    if_true, Bool.false_eq_true, if_false]
  rw [if_neg (by simp only [beq_iff_eq]; omega)]
  by_cases hfit : 40 + (jsonl_round_size jsonl_sizeof_object_entry +
      jsonl_round_size (name.length + 1)) + child_size ≤ capacity
  · have h1 : 40 ≤ capacity := by omega
    have h2 : 40 + jsonl_round_size jsonl_sizeof_object_entry +
        jsonl_round_size (name.length + 1) ≤ capacity := by omega
    have h3 : 40 + (jsonl_round_size jsonl_sizeof_object_entry +
        jsonl_round_size (name.length + 1)) ≤ capacity := by omega
    have h4 : child_size ≤ jsonl_remaining (40 + (jsonl_round_size jsonl_sizeof_object_entry + jsonl_round_size (name.length + 1))) capacity := by
      unfold jsonl_remaining; omega
    simp [h1, h2, h3, h4, hfit, jsonl_written, jsonl_object_entries, jsonl_collect]
  · simp [hfit]

theorem jsonl_create_path_single_index (fuel : Nat) (path : List jsonl_path_component_t)
    (value : jsonl_value_t) (depth child_size index : Nat)
    (child : jsonl_value_t) (hc : path[depth]? = some (.index index))
    (hi : index ≠ jsonl_size_max)
    (hchild : jsonl_uniform (jsonl_create_path_single_child fuel path value depth) child_size
      child) :
    jsonl_uniform
      (fun capacity => jsonl_internal_set_values_create_path (fuel + 1) 0
        [⟨path, some value⟩] capacity depth)
      (40 + jsonl_round_size ((index + 1) * jsonl_sizeof_pointer) + child_size + index * 40 +
        jsonl_round_size ((index + 1) * jsonl_sizeof_pointer))
      (.array (List.replicate index .null ++ [child])) := by
  have hne := hchild.1
  refine ⟨by omega, fun capacity => ?_⟩
  have hcount := jsonl_create_path_count_single path value depth true (.index index) hc
  have hsum : (if path.length > depth + 1 then 0 else 1) +
      (if path.length > depth + 1 then 1 else 0) = 1 := by split <;> rfl
  have hslots := jsonl_create_path_slots_single fuel path value depth capacity
    (40 + jsonl_round_size ((index + 1) * jsonl_sizeof_pointer)) child_size index child hc hi
    hchild
  have hbeq : (index == jsonl_size_max) = false := by simp [hi]
  have htype : (jsonl_path_component_t.container_type (.index index) == JSONL_TYPE_ARRAY) =
      true := rfl
  simp only [jsonl_internal_set_values_create_path, List.getElem?_cons_zero, hc, htype, hcount,
    jsonl_create_path_count_array, jsonl_path_component_t.index_member, hbeq,
    jsonl_header_size, hsum, Bool.not_true, if_true, Bool.false_eq_true, if_false,
    show index + 1 > 0 from Nat.succ_pos index, Nat.add_zero, hslots]
  rw [if_neg (by simp only [beq_iff_eq]; omega)]
  have hnull : (jsonl_internal_create_null_value 0).1 = 40 := by
    simp [jsonl_internal_create_null_value, jsonl_header_size]
  by_cases hplaced : 40 + jsonl_round_size ((index + 1) * jsonl_sizeof_pointer) + child_size ≤
      capacity
  · have htable : 40 + jsonl_round_size ((index + 1) * jsonl_sizeof_pointer) ≤ capacity := by
      omega
    have hrem : child_size ≤
        jsonl_remaining (40 + jsonl_round_size ((index + 1) * jsonl_sizeof_pointer))
          capacity := by
      unfold jsonl_remaining; omega
    have hfill := jsonl_create_path_fill_spec capacity (some child) index
      (40 + jsonl_round_size ((index + 1) * jsonl_sizeof_pointer) + child_size)
    simp only [hplaced, htable, hrem, if_true, hfill.1]
    by_cases hfit : 40 + jsonl_round_size ((index + 1) * jsonl_sizeof_pointer) + child_size +
        index * 40 + jsonl_round_size ((index + 1) * jsonl_sizeof_pointer) ≤ capacity
    · have h40 : 40 ≤ capacity := by omega
      have hmap : List.replicate index (some jsonl_value_t.null) ++ [some child] =
          (List.replicate index jsonl_value_t.null ++ [child]).map some := by
        simp [List.map_append, List.map_replicate]
      rw [hfill.2 (by omega), hmap, jsonl_collect_map_some]
      simp [hfit, h40]
    · simp [hfit]
  · have hfit : ¬ (40 + jsonl_round_size ((index + 1) * jsonl_sizeof_pointer) + child_size +
        index * 40 + jsonl_round_size ((index + 1) * jsonl_sizeof_pointer) ≤ capacity) := by
      omega
    simp [hplaced, hnull, hfit]

/-- Path creation for a batch of one write: the container built for the rest of the
path. -/
theorem jsonl_create_path_single (value : jsonl_value_t) (hv : value.valid = true) :
    ∀ (rest before : List jsonl_path_component_t) (fuel : Nat), rest ≠ [] →
      (∀ component ∈ rest, component ≠ .index jsonl_size_max) → rest.length ≤ fuel →
      ∃ size, jsonl_uniform
        (fun capacity => jsonl_internal_set_values_create_path fuel 0
          [⟨before ++ rest, some value⟩] capacity before.length)
        size (jsonl_created_value rest value) := by
  intro rest
  induction rest with
  | nil => intro _ _ h; exact absurd rfl h
  | cons component rest ih =>
      intro before fuel _ hs hf
      cases fuel with
      | zero => simp at hf
      | succ fuel =>
      have hcomp := jsonl_path_component_at before component rest
      have hlen : (before ++ component :: rest).length > before.length := by
        simp
      have hchild : ∃ child_size, jsonl_uniform
          (jsonl_create_path_single_child fuel (before ++ component :: rest) value
            before.length) child_size (jsonl_created_value rest value) := by
        by_cases hr : rest = []
        · subst hr
          refine ⟨value.size, ?_⟩
          have hcopy := jsonl_copy_value_uniform value hv
          refine ⟨hcopy.1, fun capacity => ?_⟩
          have := hcopy.2 capacity
          simp only [jsonl_create_path_single_child, List.length_append, List.length_cons,
            List.length_nil, Nat.zero_add, gt_iff_lt, lt_self_iff_false, if_false,
            jsonl_created_value]
          exact this
        · obtain ⟨child_size, hchild⟩ := ih (before ++ [component]) fuel hr
            (fun c hc => hs c (List.mem_cons_of_mem _ hc))
            (by simp only [List.length_cons] at hf; omega)
          refine ⟨child_size, hchild.1, fun capacity => ?_⟩
          have := hchild.2 capacity
          have hpos : 0 < rest.length := List.length_pos.mpr hr
          have hgt : (before ++ component :: rest).length > before.length + 1 := by
            simp only [List.length_append, List.length_cons]; omega
          simp only [jsonl_create_path_single_child, hgt, if_true]
          simp only [List.append_assoc, List.singleton_append, List.length_append,
            List.length_singleton] at this
          exact this
      obtain ⟨child_size, hchild⟩ := hchild
      have hsent := hs component (List.mem_cons_self _ _)
      cases component with
      | name name =>
          exact ⟨_, jsonl_create_path_single_name fuel _ value _ child_size name _ hcomp hlen
            hchild⟩
      | index index =>
          have hi : index ≠ jsonl_size_max := fun h => hsent (by rw [h])
          exact ⟨_, jsonl_create_path_single_index fuel _ value _ child_size index _ hcomp hi
            hchild⟩

/-- The object case of the patch engine, given what its loops find: the children are
patched in place and the added entries follow them. -/
theorem jsonl_set_values_object_assemble (set_value_table : List jsonl_set_value_t)
    (hw : ∀ s ∈ set_value_table, s.value.isSome = true) (fuel : Nat)
    (table : List (List Nat × jsonl_value_t)) (internal_path : List jsonl_path_component_t)
    (sizes : List Nat × jsonl_value_t → Nat)
    (result : List Nat × jsonl_value_t → jsonl_value_t)
    (added : List (List Nat × jsonl_value_t)) (added_size : Nat)
    (hfirst : jsonl_internal_set_values_first_pass internal_path (.object table)
      set_value_table 0 none = some (.indirect none))
    (hcount : jsonl_internal_set_values_object_count internal_path (.object table)
      set_value_table set_value_table 0 0 0 = some (0, added.length))
    (hpatch : ∀ e ∈ table,
      jsonl_uniform (jsonl_internal_set_values set_value_table fuel e.2
        (.name e.1 :: internal_path)) (sizes e) (result e))
    (hnames : ∀ capacity object_table_size, ∃ names,
      jsonl_internal_set_values_object_added_names internal_path (.object table)
        set_value_table added.length 40 capacity set_value_table 0 0 object_table_size =
        some (object_table_size + (added.map (fun e => jsonl_round_size (e.1.length + 1))).sum,
          names) ∧
      (40 + object_table_size + (added.map (fun e => jsonl_round_size (e.1.length + 1))).sum ≤
          capacity → names = added.map (fun e => some e.1)))
    (hvalues : ∀ capacity object_size, 0 < object_size → ∃ values,
      jsonl_internal_set_values_object_added_values internal_path (.object table)
        set_value_table added.length capacity set_value_table 0 0 object_size =
        some (object_size + added_size, values) ∧
      (object_size + added_size ≤ capacity → values = added.map (fun e => some e.2))) :
    jsonl_uniform
      (jsonl_internal_set_values set_value_table (fuel + 1) (.object table) internal_path)
      (40 + (jsonl_round_size ((table.length + added.length) * jsonl_sizeof_object_entry) +
          (table.map (fun e => jsonl_round_size (e.1.length + 1))).sum +
          (added.map (fun e => jsonl_round_size (e.1.length + 1))).sum) +
        (table.map sizes).sum + added_size)
      (.object (table.map (fun e => (e.1, result e)) ++ added)) := by
  refine ⟨by omega, fun capacity => ?_⟩
  unfold jsonl_internal_set_values
  simp only [hfirst, hcount, jsonl_size_sub_zero, jsonl_header_size]
  obtain ⟨names, hn, hnfit⟩ := jsonl_object_names_of_writes internal_path
    set_value_table table.length 40 capacity table 0
    (jsonl_round_size ((table.length + added.length) * jsonl_sizeof_object_entry)) hw
    (by omega)
  obtain ⟨added_names, han, hanfit⟩ := hnames capacity
    (jsonl_round_size ((table.length + added.length) * jsonl_sizeof_object_entry) +
      (table.map (fun e => jsonl_round_size (e.1.length + 1))).sum)
  obtain ⟨values, hv, hvfit⟩ := jsonl_object_values_spec
    (jsonl_internal_set_values set_value_table fuel) internal_path set_value_table
    table.length table sizes result 0 0
    (40 + (jsonl_round_size ((table.length + added.length) * jsonl_sizeof_object_entry) +
      (table.map (fun e => jsonl_round_size (e.1.length + 1))).sum +
      (added.map (fun e => jsonl_round_size (e.1.length + 1))).sum))
    hw (by omega) (by omega) hpatch capacity
  obtain ⟨added_values, hav, havfit⟩ := hvalues capacity
    (40 + (jsonl_round_size ((table.length + added.length) * jsonl_sizeof_object_entry) +
      (table.map (fun e => jsonl_round_size (e.1.length + 1))).sum +
      (added.map (fun e => jsonl_round_size (e.1.length + 1))).sum) +
      (table.map sizes).sum) (by omega)
  simp only [hn, han, hv, hav]
  rw [if_neg (by simp only [beq_iff_eq]; omega), if_neg (by simp only [beq_iff_eq]; omega)]
  by_cases hfit : 40 + (jsonl_round_size ((table.length + added.length) *
      jsonl_sizeof_object_entry) +
      (table.map (fun e => jsonl_round_size (e.1.length + 1))).sum +
      (added.map (fun e => jsonl_round_size (e.1.length + 1))).sum) +
      (table.map sizes).sum + added_size ≤ capacity
  · have h40 : 40 ≤ capacity := by omega
    rw [hnfit (by omega), hanfit (by omega), hvfit (by omega), havfit hfit]
    simp only [hfit, h40, and_self, if_true]
    have h1 : table.map (fun e => some e.1) ++ added.map (fun e => some e.1) =
        (table.map (fun e => (e.1, result e)) ++ added).map (fun e => some e.1) := by
      simp [List.map_append, List.map_map, Function.comp_def]
    have h2 : table.map (fun e => some (result e)) ++ added.map (fun e => some e.2) =
        (table.map (fun e => (e.1, result e)) ++ added).map (fun e => some e.2) := by
      simp [List.map_append, List.map_map, Function.comp_def]
    rw [h1, h2, jsonl_object_entries_map_some, jsonl_collect_map_some]
    rfl
  · simp [hfit]

/-- The array case of the patch engine for a batch that removes and appends nothing,
given what its main loop finds for each slot. -/
theorem jsonl_set_values_array_assemble (set_value_table : List jsonl_set_value_t)
    (fuel : Nat) (table : List jsonl_value_t) (internal_path : List jsonl_path_component_t)
    (sizes : Nat → Nat) (result : Nat → jsonl_value_t) (slots : Nat)
    (counts : jsonl_array_counts_t)
    (hfirst : jsonl_internal_set_values_first_pass internal_path (.array table)
      set_value_table 0 none = some (.indirect none))
    (hcount : jsonl_internal_set_values_array_count internal_path table.length
      set_value_table set_value_table 0 ⟨0, 0, 0, jsonl_size_max⟩ = some counts)
    (hremove : counts.remove_child_value_count = 0)
    (happend : counts.append_child_value_count = 0)
    (hslots : slots =
      if counts.set_child_value_highest_index != jsonl_size_max &&
          decide (table.length < counts.set_child_value_highest_index + 1) then
        counts.set_child_value_highest_index + 1
      else table.length)
    (hslot : ∀ j, j < slots → sizes j ≠ 0 ∧ ∀ remaining,
      jsonl_internal_set_values_array_slot (jsonl_internal_set_values set_value_table fuel)
        internal_path table set_value_table remaining j 0 =
        some (0, sizes j, if sizes j ≤ remaining then some (result j) else none)) :
    jsonl_uniform
      (jsonl_internal_set_values set_value_table (fuel + 1) (.array table) internal_path)
      (40 + jsonl_round_size (slots * jsonl_sizeof_pointer) +
        ((List.range' 0 slots).map sizes).sum)
      (.array ((List.range' 0 slots).map result)) := by
  refine ⟨by omega, fun capacity => ?_⟩
  unfold jsonl_internal_set_values
  simp only [hfirst, hcount, hremove, happend, jsonl_size_sub_zero, jsonl_header_size,
    Nat.add_zero, ← hslots, jsonl_internal_set_values_array_appended]
  obtain ⟨values, hv, hvfit⟩ := jsonl_array_values_spec
    (jsonl_internal_set_values set_value_table fuel) internal_path table set_value_table
    sizes result slots 0 (40 + jsonl_round_size (slots * jsonl_sizeof_pointer)) (by omega)
    (fun j _ hj => hslot j (by omega)) capacity
  simp only [hv, List.append_nil]
  rw [if_neg (by simp only [beq_iff_eq]; omega), if_neg (by simp only [beq_iff_eq]; omega)]
  by_cases hfit : 40 + jsonl_round_size (slots * jsonl_sizeof_pointer) +
      ((List.range' 0 slots).map sizes).sum ≤ capacity
  · have h40 : 40 + jsonl_round_size (slots * jsonl_sizeof_pointer) ≤ capacity := by omega
    rw [hvfit hfit]
    simp only [hfit, h40, and_self, if_true]
    have h1 : (List.range' 0 slots).map (fun j => some (result j)) =
        ((List.range' 0 slots).map result).map some := by
      simp [List.map_map, Function.comp_def]
    rw [h1, jsonl_collect_map_some]
    rfl
  · simp [hfit]

/-! ### One write -/

theorem jsonl_in_path_loop_self (internal_path : List jsonl_path_component_t) :
    ∀ rest : List jsonl_path_component_t,
      jsonl_internal_set_values_in_path_loop (internal_path.reverse ++ rest) internal_path =
        true := by
  induction internal_path with
  | nil => intro rest; rfl
  | cons component parent ih =>
      intro rest
      have hat : (parent.reverse ++ component :: rest)[parent.length]? = some component := by
        have := jsonl_path_component_at parent.reverse component rest
        rwa [List.length_reverse] at this
      have hrec := ih (component :: rest)
      simp only [List.reverse_cons, List.append_assoc, List.singleton_append,
        jsonl_internal_set_values_in_path_loop, hat, hrec, Bool.and_true]
      cases component with
      | name name => exact jsonl_name_equal_self name
      | index index => simp

theorem jsonl_in_path_self (internal_path rest : List jsonl_path_component_t) :
    jsonl_internal_set_values_is_set_value_in_path internal_path
      (internal_path.reverse ++ rest) = true := by
  unfold jsonl_internal_set_values_is_set_value_in_path
  simp [jsonl_in_path_loop_self]

theorem jsonl_in_path_other (internal_path rest : List jsonl_path_component_t)
    (component other : jsonl_path_component_t)
    (h : jsonl_path_component_differs other component) :
    jsonl_internal_set_values_is_set_value_in_path (other :: internal_path)
      (internal_path.reverse ++ component :: rest) = false := by
  have hat : (internal_path.reverse ++ component :: rest)[internal_path.length]? =
      some component := by
    have := jsonl_path_component_at internal_path.reverse component rest
    rwa [List.length_reverse] at this
  unfold jsonl_internal_set_values_is_set_value_in_path
  simp only [jsonl_internal_set_values_in_path_loop, hat]
  cases other with
  | name a =>
      cases component with
      | name b =>
          have : jsonl_name_equal a b = false := by
            cases hab : jsonl_name_equal a b
            · rfl
            · exact absurd ((jsonl_name_equal_iff a b).1 hab) h
          simp [this]
      | index b => simp
  | index a =>
      cases component with
      | name b => simp
      | index b =>
          have : (a == b) = false := by
            simp only [beq_eq_false_iff_ne, ne_eq]; exact h
          simp [this]

theorem jsonl_path_length_bound_single (set_value : jsonl_set_value_t) :
    jsonl_path_length_bound [set_value] = set_value.path.length := by
  simp [jsonl_path_length_bound]

theorem jsonl_first_pass_single_replace (internal_path : List jsonl_path_component_t)
    (source_value value : jsonl_value_t) :
    jsonl_internal_set_values_first_pass internal_path source_value
      [⟨internal_path.reverse, some value⟩] 0 none = some (.replace value) := by
  have h := jsonl_in_path_self internal_path []
  rw [List.append_nil] at h
  simp [jsonl_internal_set_values_first_pass, h]

theorem jsonl_first_pass_single (internal_path rest : List jsonl_path_component_t)
    (component : jsonl_path_component_t) (source_value value : jsonl_value_t) :
    jsonl_internal_set_values_first_pass internal_path source_value
      [⟨internal_path.reverse ++ component :: rest, some value⟩] 0 none =
      some (.indirect
        (if source_value.type != component.container_type then some 0 else none)) := by
  have h := jsonl_in_path_self internal_path (component :: rest)
  have hat : (internal_path.reverse ++ component :: rest)[internal_path.length]? =
      some component := by
    have := jsonl_path_component_at internal_path.reverse component rest
    rwa [List.length_reverse] at this
  have hlen : ((internal_path.reverse ++ component :: rest).length == internal_path.length) =
      false := by
    simp only [List.length_append, List.length_reverse, List.length_cons,
      beq_eq_false_iff_ne, ne_eq]
    omega
  simp only [jsonl_internal_set_values_first_pass, h, if_true, hlen, Bool.false_eq_true,
    if_false, Option.isNone_none, hat]
  by_cases ht : source_value.type = component.container_type
  · simp [ht]
  · have h1 : (source_value.type == component.container_type) = false := by
      simp only [beq_eq_false_iff_ne, ne_eq]; exact ht
    simp [h1, bne]

theorem jsonl_path_at_depth (internal_path rest : List jsonl_path_component_t)
    (component : jsonl_path_component_t) :
    (internal_path.reverse ++ component :: rest)[internal_path.length]? = some component := by
  have := jsonl_path_component_at internal_path.reverse component rest
  rwa [List.length_reverse] at this

theorem jsonl_object_count_single (internal_path rest : List jsonl_path_component_t)
    (name : List Nat) (table : List (List Nat × jsonl_value_t)) (value : jsonl_value_t) :
    jsonl_internal_set_values_object_count internal_path (.object table)
      [⟨internal_path.reverse ++ .name name :: rest, some value⟩]
      [⟨internal_path.reverse ++ .name name :: rest, some value⟩] 0 0 0 =
      some (0, if table.any (fun entry => jsonl_name_equal entry.1 name) then 0 else 1) := by
  have h := jsonl_in_path_self internal_path (.name name :: rest)
  have hat := jsonl_path_at_depth internal_path rest (.name name)
  have hlen : (internal_path.reverse ++ .name name :: rest).length > internal_path.length := by
    simp only [List.length_append, List.length_reverse, List.length_cons]
    omega
  simp only [jsonl_internal_set_values_object_count, h, hlen, decide_True, Bool.and_self,
    if_true, hat, jsonl_value_t.type, jsonl_path_component_t.container_type, beq_self_eq_true,
    Bool.true_and, jsonl_set_value_in_child_value, Option.isNone_some, Bool.false_and,
    Bool.false_eq_true, if_false, Option.isSome_some, jsonl_set_value_already_counted,
    List.take_zero, List.any_nil, Bool.not_false, Bool.or_true]
  split <;> rfl

theorem jsonl_object_added_names_single (internal_path rest : List jsonl_path_component_t)
    (name : List Nat) (table : List (List Nat × jsonl_value_t)) (value : jsonl_value_t)
    (hnew : table.any (fun entry => jsonl_name_equal entry.1 name) = false)
    (object_size capacity object_table_size : Nat) :
    jsonl_internal_set_values_object_added_names internal_path (.object table)
      [⟨internal_path.reverse ++ .name name :: rest, some value⟩] 1 object_size capacity
      [⟨internal_path.reverse ++ .name name :: rest, some value⟩] 0 0 object_table_size =
      some (object_table_size + jsonl_round_size (name.length + 1),
        [jsonl_written (object_size + object_table_size + jsonl_round_size (name.length + 1) ≤
          capacity) name]) := by
  have h := jsonl_in_path_self internal_path (.name name :: rest)
  have hat := jsonl_path_at_depth internal_path rest (.name name)
  have hlen : (internal_path.reverse ++ .name name :: rest).length > internal_path.length := by
    simp only [List.length_append, List.length_reverse, List.length_cons]
    omega
  unfold jsonl_internal_set_values_object_added_names
  simp only [Nat.zero_ne_one, beq_iff_eq, if_false, Option.isSome_some, h, hlen, decide_True,
    Bool.and_self, if_true, hat, jsonl_value_t.type, jsonl_path_component_t.container_type,
    beq_self_eq_true, Bool.true_and, jsonl_set_value_in_child_value, hnew, Bool.not_false,
    jsonl_set_value_already_counted, List.take_zero, List.any_nil,
    jsonl_path_component_t.name_length, jsonl_path_component_t.name_value]
  unfold jsonl_internal_set_values_object_added_names
  simp only [Nat.zero_add, beq_self_eq_true, if_true, jsonl_written]
  by_cases hg : object_size + object_table_size + jsonl_round_size (name.length + 1) ≤ capacity
  · simp [hg]
  · simp [hg]

theorem jsonl_set_values_single_added_uniform (internal_path rest : List jsonl_path_component_t)
    (component : jsonl_path_component_t) (value : jsonl_value_t) (hv : value.valid = true)
    (hs : ∀ c ∈ rest, c ≠ .index jsonl_size_max) :
    ∃ size, jsonl_uniform
      (jsonl_set_values_single_added (internal_path.reverse ++ component :: rest) value
        internal_path.length)
      size (jsonl_created_value rest value) := by
  by_cases hr : rest = []
  · subst hr
    refine ⟨value.size, ?_⟩
    have hcopy := jsonl_copy_value_uniform value hv
    refine ⟨hcopy.1, fun capacity => ?_⟩
    have := hcopy.2 capacity
    simp only [jsonl_set_values_single_added, List.length_append, List.length_reverse,
      List.length_cons, List.length_nil, Nat.zero_add, if_true, jsonl_created_value]
    exact this
  · obtain ⟨size, hsize⟩ := jsonl_create_path_single value hv rest
      (internal_path.reverse ++ [component])
      (internal_path.reverse ++ component :: rest).length hr hs
      (by simp only [List.length_append, List.length_cons]; omega)
    refine ⟨size, hsize.1, fun capacity => ?_⟩
    have := hsize.2 capacity
    have hpos : 0 < rest.length := List.length_pos.mpr hr
    have hne : ¬ ((internal_path.reverse ++ component :: rest).length =
        internal_path.length + 1) := by
      simp only [List.length_append, List.length_reverse, List.length_cons]; omega
    simp only [jsonl_set_values_single_added, hne, if_false]
    have hbefore : (internal_path.reverse ++ [component]).length = internal_path.length + 1 := by
      simp
    rw [List.append_assoc, List.singleton_append, hbefore] at this
    exact this

theorem jsonl_object_added_values_single (internal_path rest : List jsonl_path_component_t)
    (name : List Nat) (table : List (List Nat × jsonl_value_t)) (value : jsonl_value_t)
    (hnew : table.any (fun entry => jsonl_name_equal entry.1 name) = false)
    (child_size : Nat) (child : jsonl_value_t)
    (hchild : jsonl_uniform
      (jsonl_set_values_single_added (internal_path.reverse ++ .name name :: rest) value
        internal_path.length) child_size child)
    (capacity object_size : Nat) (hpos : 0 < object_size) :
    jsonl_internal_set_values_object_added_values internal_path (.object table)
      [⟨internal_path.reverse ++ .name name :: rest, some value⟩] 1 capacity
      [⟨internal_path.reverse ++ .name name :: rest, some value⟩] 0 0 object_size =
      some (object_size + child_size,
        [if jsonl_remaining object_size capacity != 0 then
          (if child_size ≤ jsonl_remaining object_size capacity then some child else none)
        else none]) := by
  have h := jsonl_in_path_self internal_path (.name name :: rest)
  have hat := jsonl_path_at_depth internal_path rest (.name name)
  have hcall := hchild.2 (jsonl_remaining object_size capacity)
  have hne := hchild.1
  unfold jsonl_set_values_single_added at hcall
  have hdone : ∀ rest2 i os, jsonl_internal_set_values_object_added_values internal_path
      (.object table) [⟨internal_path.reverse ++ .name name :: rest, some value⟩] 1 capacity
      rest2 i 1 os = some (os, []) := by
    intro rest2 i os
    unfold jsonl_internal_set_values_object_added_values
    simp
  unfold jsonl_internal_set_values_object_added_values
  simp only [Nat.zero_ne_one, beq_iff_eq, if_false, h, if_true, hat, jsonl_value_t.type,
    jsonl_path_component_t.container_type, beq_self_eq_true, Bool.true_and,
    jsonl_set_value_in_child_value, hnew, Bool.not_false, jsonl_set_value_already_counted,
    List.take_zero, List.any_nil, Nat.zero_add, hdone, jsonl_path_length_bound_single]
  by_cases hl : (internal_path.reverse ++ .name name :: rest).length = internal_path.length + 1
  · simp only [hl, if_true, Option.some.injEq] at hcall ⊢
    simp only [hcall]
    rw [if_neg hne, if_neg (by omega)]
  · simp only [hl, if_false] at hcall ⊢
    simp only [hcall]
    rw [if_neg hne, if_neg (by omega)]

theorem jsonl_array_count_single (internal_path rest : List jsonl_path_component_t)
    (index value_count : Nat) (value : jsonl_value_t) (hi : index ≠ jsonl_size_max) :
    jsonl_internal_set_values_array_count internal_path value_count
      [⟨internal_path.reverse ++ .index index :: rest, some value⟩]
      [⟨internal_path.reverse ++ .index index :: rest, some value⟩] 0
      ⟨0, 0, 0, jsonl_size_max⟩ = some ⟨0, 1, 0, index⟩ := by
  have h := jsonl_in_path_self internal_path (.index index :: rest)
  have hat := jsonl_path_at_depth internal_path rest (.index index)
  have hlen : (internal_path.reverse ++ .index index :: rest).length > internal_path.length := by
    simp only [List.length_append, List.length_reverse, List.length_cons]
    omega
  have hne : (index != jsonl_size_max) = true := by simp [hi]
  simp only [jsonl_internal_set_values_array_count, h, hlen, decide_True, Bool.and_self,
    if_true, hat, jsonl_path_component_t.index_member, hne, Option.isSome_some,
    jsonl_array_set_value_already_counted, List.take_zero, List.any_nil, Bool.not_false,
    jsonl_array_counts_set, beq_self_eq_true, Bool.true_or, Nat.zero_add]
  split <;> rfl

theorem jsonl_array_slot_single_other
    (patch : jsonl_value_t → List jsonl_path_component_t → Nat →
      Option (Nat × Option jsonl_value_t))
    (internal_path rest : List jsonl_path_component_t) (index : Nat) (value : jsonl_value_t)
    (table : List jsonl_value_t) (remaining j : Nat) (hj : j ≠ index) :
    jsonl_internal_set_values_array_slot patch internal_path table
      [⟨internal_path.reverse ++ .index index :: rest, some value⟩] remaining j 0 =
      match table[j]? with
      | some source_child =>
          (patch source_child (.index j :: internal_path) remaining).map
            (fun child => (0, child))
      | none => some (0, jsonl_internal_create_null_value remaining) := by
  have h := jsonl_in_path_self internal_path (.index index :: rest)
  have hat := jsonl_path_at_depth internal_path rest (.index index)
  have hne : (index == j) = false := by
    simp only [beq_eq_false_iff_ne, ne_eq]; exact fun h => hj h.symm
  have hw : ∀ s ∈ [(⟨internal_path.reverse ++ .index index :: rest, some value⟩ :
      jsonl_set_value_t)], s.value.isSome = true := by
    intro s hs
    rw [List.mem_singleton.1 hs]
    rfl
  unfold jsonl_internal_set_values_array_slot
  simp only [jsonl_internal_set_values_array_overwrite, Option.isSome_some, h, Bool.and_self,
    if_true, hat, hne, Bool.false_eq_true, if_false,
    jsonl_array_erase_of_writes internal_path _ _ _ _ _ hw, Nat.add_zero]

theorem jsonl_array_slot_single_same
    (patch : jsonl_value_t → List jsonl_path_component_t → Nat →
      Option (Nat × Option jsonl_value_t))
    (internal_path rest : List jsonl_path_component_t) (index : Nat) (value : jsonl_value_t)
    (table : List jsonl_value_t) (remaining : Nat) :
    jsonl_internal_set_values_array_slot patch internal_path table
      [⟨internal_path.reverse ++ .index index :: rest, some value⟩] remaining index 0 =
      if rest = [] then some (0, jsonl_internal_copy_value value remaining)
      else
        match table[index]? with
        | some source_child =>
            (patch source_child (.index index :: internal_path) remaining).map
              (fun child => (0, child))
        | none =>
            (jsonl_set_values_single_added (internal_path.reverse ++ .index index :: rest)
              value internal_path.length remaining).map (fun child => (0, child)) := by
  have h := jsonl_in_path_self internal_path (.index index :: rest)
  have hat := jsonl_path_at_depth internal_path rest (.index index)
  unfold jsonl_internal_set_values_array_slot
  simp only [jsonl_internal_set_values_array_overwrite, Option.isSome_some, h, Bool.and_self,
    if_true, hat, beq_self_eq_true, Nat.add_zero, jsonl_path_length_bound_single,
    Option.map_some']
  by_cases hr : rest = []
  · subst hr
    simp
  · have hpos : 0 < rest.length := List.length_pos.mpr hr
    have hgt : (internal_path.reverse ++ .index index :: rest).length >
        internal_path.length + 1 := by
      simp only [List.length_append, List.length_reverse, List.length_cons]; omega
    have hne : ¬ ((internal_path.reverse ++ .index index :: rest).length =
        internal_path.length + 1) := by omega
    simp only [hgt, if_true, hr, if_false, jsonl_set_values_single_added, hne]

theorem jsonl_range_map_modify (table : List jsonl_value_t) (index : Nat)
    (f : jsonl_value_t → jsonl_value_t) (written : jsonl_value_t) (h : index < table.length)
    (hr : ∀ child, table[index]? = some child → written = f child) :
    (List.range' 0 table.length).map
      (fun j => if j = index then written else table.getD j jsonl_value_t.null) =
      table.modify f index := by
  apply List.ext_getElem?
  intro n
  rw [List.getElem?_map, List.getElem?_modify]
  by_cases hn : n < table.length
  · rw [List.getElem?_range' 0 1 hn, List.getElem?_eq_getElem hn]
    simp only [Option.map_some', Nat.zero_add, Nat.one_mul, Option.map_eq_map]
    by_cases hni : n = index
    · subst hni
      simp [hr _ (List.getElem?_eq_getElem hn)]
    · have : ¬ index = n := fun h => hni h.symm
      simp [hni, this, List.getD_eq_getElem?_getD, List.getElem?_eq_getElem hn]
  · have h1 : (List.range' 0 table.length)[n]? = none := by
      apply List.getElem?_eq_none
      simp only [List.length_range']; omega
    have h2 : table[n]? = none := List.getElem?_eq_none (by omega)
    rw [h1, h2]
    rfl

theorem jsonl_range_map_extend (table : List jsonl_value_t) (index : Nat)
    (created : jsonl_value_t) (h : table.length ≤ index) :
    (List.range' 0 (index + 1)).map
      (fun j => if j = index then created else table.getD j jsonl_value_t.null) =
      table ++ List.replicate (index - table.length) jsonl_value_t.null ++ [created] := by
  apply List.ext_getElem?
  intro n
  rw [List.getElem?_map]
  by_cases hn : n < index + 1
  · rw [List.getElem?_range' 0 1 hn]
    simp only [Option.map_some', Nat.zero_add, Nat.one_mul]
    by_cases hni : n = index
    · subst hni
      rw [List.getElem?_append_right (by simp; omega)]
      have h0 : n - (table ++ List.replicate (n - table.length) jsonl_value_t.null).length =
          0 := by
        simp only [List.length_append, List.length_replicate]; omega
      rw [h0]
      simp
    · rw [List.getElem?_append_left (by simp; omega)]
      by_cases hnt : n < table.length
      · rw [List.getElem?_append_left hnt]
        simp [hni, List.getD_eq_getElem?_getD, List.getElem?_eq_getElem hnt]
      · rw [List.getElem?_append_right (by omega), List.getElem?_replicate]
        have : n - table.length < index - table.length := by omega
        have h3 : table[n]? = none := List.getElem?_eq_none (by omega)
        simp [hni, this, List.getD_eq_getElem?_getD, h3]
  · have h1 : (List.range' 0 (index + 1))[n]? = none := by
      apply List.getElem?_eq_none
      simp only [List.length_range']; omega
    rw [h1]
    symm
    apply List.getElem?_eq_none
    simp only [List.length_append, List.length_replicate, List.length_singleton]
    omega

theorem jsonl_written_value_nil (source_value value : jsonl_value_t) :
    jsonl_written_value source_value [] value = value := by
  cases source_value <;> rfl

theorem jsonl_written_value_mismatch (source_value value : jsonl_value_t)
    (component : jsonl_path_component_t) (rest : List jsonl_path_component_t)
    (h : source_value.type ≠ component.container_type) :
    jsonl_written_value source_value (component :: rest) value =
      jsonl_created_value (component :: rest) value := by
  cases source_value <;> cases component <;>
    first
    | rfl
    | exact absurd rfl h

theorem jsonl_any_name_equal (table : List (List Nat × jsonl_value_t)) (name : List Nat) :
    table.any (fun entry => jsonl_name_equal entry.1 name) =
      table.any (fun entry => entry.1 == name) := by
  induction table with
  | nil => rfl
  | cons e table ih =>
      simp only [List.any_cons, ih]
      congr 1
      cases h : jsonl_name_equal e.1 name
      · symm
        simp only [beq_eq_false_iff_ne, ne_eq]
        intro heq
        rw [(jsonl_name_equal_iff e.1 name).2 heq] at h
        cases h
      · symm
        simp only [beq_iff_eq]
        exact (jsonl_name_equal_iff e.1 name).1 h

/-- One write into a tree: the patch engine returns the tree that `jsonl_written_value`
describes, with a size that does not depend on the capacity. -/
theorem jsonl_internal_set_values_single (value : jsonl_value_t) (hv : value.valid = true) :
    ∀ (rest internal_path : List jsonl_path_component_t) (fuel : Nat)
      (source_value : jsonl_value_t),
      (∀ c ∈ rest, c ≠ .index jsonl_size_max) → source_value.valid = true →
      source_value.depth < fuel →
      ∃ size, jsonl_uniform
        (jsonl_internal_set_values [⟨internal_path.reverse ++ rest, some value⟩] fuel
          source_value internal_path)
        size (jsonl_written_value source_value rest value) := by
  intro rest
  induction rest with
  | nil =>
      intro internal_path fuel source_value _ _ hd
      cases fuel with
      | zero => omega
      | succ fuel =>
          have hcopy := jsonl_copy_value_uniform value hv
          refine ⟨value.size, hcopy.1, fun capacity => ?_⟩
          unfold jsonl_internal_set_values
          simp only [List.append_nil, jsonl_first_pass_single_replace, jsonl_written_value_nil]
          exact hcopy.2 capacity
  | cons component rest ih =>
      intro internal_path fuel source_value hs hsv hd
      cases fuel with
      | zero => omega
      | succ fuel =>
      have hfirst := jsonl_first_pass_single internal_path rest component source_value value
      by_cases ht : source_value.type = component.container_type
      · have hnone : (source_value.type != component.container_type) = false := by
          simp [bne, ht]
        have hw : ∀ s ∈ [(⟨internal_path.reverse ++ component :: rest, some value⟩ :
            jsonl_set_value_t)], s.value.isSome = true := by
          intro s hs
          rw [List.mem_singleton.1 hs]
          rfl
        have hrest : ∀ c ∈ rest, c ≠ .index jsonl_size_max :=
          fun c hc => hs c (List.mem_cons_of_mem _ hc)
        simp only [hnone, Bool.false_eq_true, if_false] at hfirst
        cases source_value with
        | object table =>
            cases component with
            | index index => exact absurd ht (by simp [jsonl_value_t.type, jsonl_path_component_t.container_type, JSONL_TYPE_OBJECT, JSONL_TYPE_ARRAY, JSONL_TYPE_STRING, JSONL_TYPE_NUMBER, JSONL_TYPE_BOOLEAN, JSONL_TYPE_NULL])
            | name name =>
            simp only [jsonl_value_t.valid] at hsv
            simp only [jsonl_value_t.depth] at hd
            have hchild : ∀ e ∈ table, jsonl_uniform
                (jsonl_internal_set_values
                  [⟨internal_path.reverse ++ .name name :: rest, some value⟩] fuel e.2
                  (.name e.1 :: internal_path))
                (jsonl_reported_size (jsonl_internal_set_values
                  [⟨internal_path.reverse ++ .name name :: rest, some value⟩] fuel e.2
                  (.name e.1 :: internal_path)))
                (if e.1 = name then jsonl_written_value e.2 rest value else e.2) := by
              intro e he
              have hev := jsonl_valid_of_mem_entries table hsv e he
              have hed : e.2.depth < fuel := by
                have := jsonl_depth_of_mem_entries table e he
                omega
              apply jsonl_uniform_of_exists
              by_cases hname : e.1 = name
              · have := ih (.name name :: internal_path) fuel e.2 hrest hev hed
                simp only [List.reverse_cons, List.append_assoc, List.singleton_append] at this
                simp only [hname, if_true]
                exact this
              · simp only [hname, if_false]
                exact ⟨_, jsonl_internal_set_values_outside _ hw fuel e.2
                  (.name e.1 :: internal_path)
                  (by
                    intro s hs
                    rw [List.mem_singleton.1 hs]
                    exact jsonl_in_path_other internal_path rest (.name name) (.name e.1) hname)
                  hev hed⟩
            have hcount := jsonl_object_count_single internal_path rest name table value
            by_cases hin : table.any (fun entry => jsonl_name_equal entry.1 name) = true
            · simp only [hin, if_true] at hcount
              have hasm := jsonl_set_values_object_assemble _ hw fuel table internal_path _ _
                [] 0 hfirst hcount hchild
                (fun capacity ots => ⟨[], by simp [jsonl_object_added_names_none],
                  fun _ => rfl⟩)
                (fun capacity os _ => ⟨[], by simp [jsonl_object_added_values_none],
                  fun _ => rfl⟩)
              have htree : jsonl_written_value (.object table) (.name name :: rest) value =
                  .object (table.map (fun e =>
                    (e.1, if e.1 = name then jsonl_written_value e.2 rest value else e.2)) ++
                    []) := by
                rw [jsonl_any_name_equal] at hin
                simp only [jsonl_written_value, hin, if_true, List.append_nil]
                congr 1
                apply List.map_congr_left
                intro e _
                by_cases hname : e.1 = name <;> simp [hname]
              rw [htree]
              exact ⟨_, hasm⟩
            · have hin : table.any (fun entry => jsonl_name_equal entry.1 name) = false := by
                simpa using hin
              simp only [hin, Bool.false_eq_true, if_false] at hcount
              obtain ⟨child_size, hadded⟩ := jsonl_set_values_single_added_uniform
                internal_path rest (.name name) value hv hrest
              have hasm := jsonl_set_values_object_assemble _ hw fuel table internal_path _ _
                [(name, jsonl_created_value rest value)] child_size hfirst hcount hchild
                (fun capacity ots => ⟨[jsonl_written
                    (40 + ots + jsonl_round_size (name.length + 1) ≤ capacity) name],
                  by
                    simp only [List.length_singleton, List.map_cons, List.map_nil,
                      List.sum_cons, List.sum_nil, Nat.add_zero]
                    exact jsonl_object_added_names_single internal_path rest name table value
                      hin 40 capacity ots,
                  fun hfit => by
                    simp only [List.map_cons, List.map_nil, List.sum_cons, List.sum_nil,
                      Nat.add_zero] at hfit
                    have : 40 + ots + jsonl_round_size (name.length + 1) ≤ capacity := by omega
                    simp [jsonl_written, this]⟩)
                (fun capacity os hpos => ⟨_,
                  jsonl_object_added_values_single internal_path rest name table value hin
                    child_size _ hadded capacity os hpos,
                  fun hfit => by
                    have h1 : child_size ≤ jsonl_remaining os capacity := by
                      unfold jsonl_remaining; omega
                    have h2 : jsonl_remaining os capacity ≠ 0 := by
                      have := hadded.1
                      omega
                    simp [h1, h2]⟩)
              have htree : jsonl_written_value (.object table) (.name name :: rest) value =
                  .object (table.map (fun e =>
                    (e.1, if e.1 = name then jsonl_written_value e.2 rest value else e.2)) ++
                    [(name, jsonl_created_value rest value)]) := by
                have hin2 := hin
                rw [jsonl_any_name_equal] at hin2
                simp only [jsonl_written_value, hin2, Bool.false_eq_true, if_false]
                congr 2
                symm
                have hid : ∀ e ∈ table, (fun e : List Nat × jsonl_value_t =>
                    (e.1, if e.1 = name then jsonl_written_value e.2 rest value else e.2)) e =
                    id e := by
                  intro e he
                  have hne : ¬ e.1 = name := by
                    intro heq
                    have := List.any_eq_false.1 hin2 e he
                    simp [heq] at this
                  simp [hne]
                rw [List.map_congr_left hid, List.map_id]
              rw [htree]
              exact ⟨_, hasm⟩
        | array table =>
            cases component with
            | name name => exact absurd ht (by simp [jsonl_value_t.type, jsonl_path_component_t.container_type, JSONL_TYPE_OBJECT, JSONL_TYPE_ARRAY, JSONL_TYPE_STRING, JSONL_TYPE_NUMBER, JSONL_TYPE_BOOLEAN, JSONL_TYPE_NULL])
            | index index =>
            have hi : index ≠ jsonl_size_max :=
              fun h => hs (.index index) (List.mem_cons_self _ _) (by rw [h])
            simp only [jsonl_value_t.valid] at hsv
            simp only [jsonl_value_t.depth] at hd
            have hcount := jsonl_array_count_single internal_path rest index table.length value
              hi
            have hsame : ∃ size, size ≠ 0 ∧ ∀ remaining,
                jsonl_internal_set_values_array_slot
                  (jsonl_internal_set_values
                    [⟨internal_path.reverse ++ .index index :: rest, some value⟩] fuel)
                  internal_path table
                  [⟨internal_path.reverse ++ .index index :: rest, some value⟩] remaining
                  index 0 =
                some (0, size, if size ≤ remaining then
                  some (match table[index]? with
                    | some child => jsonl_written_value child rest value
                    | none => jsonl_created_value rest value)
                  else none) := by
              by_cases hr : rest = []
              · subst hr
                have hcopy := jsonl_copy_value_uniform value hv
                refine ⟨value.size, hcopy.1, fun remaining => ?_⟩
                have hc := hcopy.2 remaining
                simp only [Option.some.injEq] at hc
                rw [jsonl_array_slot_single_same, if_pos rfl, hc]
                cases table[index]? <;>
                  simp [jsonl_written_value_nil, jsonl_created_value]
              · cases hget : table[index]? with
                | some child =>
                    have hmem : child ∈ table := List.getElem?_mem hget
                    obtain ⟨size, hsize⟩ := ih (.index index :: internal_path) fuel child hrest
                      (jsonl_valid_of_mem_values table hsv _ hmem)
                      (by have := jsonl_depth_of_mem_values table _ hmem; omega)
                    simp only [List.reverse_cons, List.append_assoc, List.singleton_append]
                      at hsize
                    refine ⟨size, hsize.1, fun remaining => ?_⟩
                    rw [jsonl_array_slot_single_same, if_neg hr, hget]
                    simp only [hsize.2 remaining, Option.map_some']
                | none =>
                    obtain ⟨size, hsize⟩ := jsonl_set_values_single_added_uniform
                      internal_path rest (.index index) value hv hrest
                    refine ⟨size, hsize.1, fun remaining => ?_⟩
                    rw [jsonl_array_slot_single_same, if_neg hr, hget]
                    simp only [hsize.2 remaining, Option.map_some']
            obtain ⟨same_size, hsame0, hsame⟩ := hsame
            have hasm := jsonl_set_values_array_assemble _ fuel table internal_path
              (fun j => if j = index then same_size
                else (table.getD j jsonl_value_t.null).size)
              (fun j => if j = index then
                  (match table[index]? with
                    | some child => jsonl_written_value child rest value
                    | none => jsonl_created_value rest value)
                else table.getD j jsonl_value_t.null)
              (if index < table.length then table.length else index + 1)
              ⟨0, 1, 0, index⟩ hfirst hcount rfl rfl
              (by
                have hne : (index != jsonl_size_max) = true := by simp [hi]
                simp only [hne, Bool.true_and]
                by_cases hlt : index < table.length
                · have : ¬ table.length < index + 1 := by omega
                  simp [hlt, this]
                · have : table.length < index + 1 := by omega
                  simp [hlt, this])
              (by
                intro j _
                by_cases hj : j = index
                · subst hj
                  simp only [if_true]
                  exact ⟨hsame0, hsame⟩
                · simp only [hj, if_false]
                  refine ⟨Nat.ne_of_gt (lt_of_lt_of_le (by decide)
                    (jsonl_size_ge_header (table.getD j jsonl_value_t.null))),
                    fun remaining => ?_⟩
                  rw [jsonl_array_slot_single_other _ _ _ _ _ _ _ _ hj]
                  cases hget : table[j]? with
                  | some child =>
                      have hmem : child ∈ table := List.getElem?_mem hget
                      have hframe := (jsonl_internal_set_values_outside _ hw fuel child
                        (.index j :: internal_path)
                        (by
                          intro s hs
                          rw [List.mem_singleton.1 hs]
                          exact jsonl_in_path_other internal_path rest (.index index)
                            (.index j) hj)
                        (jsonl_valid_of_mem_values table hsv _ hmem)
                        (by have := jsonl_depth_of_mem_values table _ hmem; omega)).2
                          remaining
                      simp only [hframe, Option.map_some', List.getD_eq_getElem?_getD, hget,
                        Option.getD_some]
                  | none =>
                      simp [jsonl_internal_create_null_value, jsonl_header_size,
                        List.getD_eq_getElem?_getD, hget, jsonl_value_t.size, jsonl_written])
            by_cases hlt : index < table.length
            · simp only [hlt, if_true] at hasm
              rw [jsonl_range_map_modify table index
                (fun child => jsonl_written_value child rest value) _ hlt
                (by intro child hchild; simp only [hchild])] at hasm
              simp only [jsonl_written_value, hlt, if_true]
              exact ⟨_, hasm⟩
            · have hnone : table[index]? = none := List.getElem?_eq_none (by omega)
              simp only [hlt, if_false, hnone] at hasm
              rw [jsonl_range_map_extend table index _ (by omega)] at hasm
              simp only [jsonl_written_value, hlt, if_false]
              exact ⟨_, hasm⟩
        | string _ => cases component <;> exact absurd ht (by simp [jsonl_value_t.type, jsonl_path_component_t.container_type, JSONL_TYPE_OBJECT, JSONL_TYPE_ARRAY, JSONL_TYPE_STRING, JSONL_TYPE_NUMBER, JSONL_TYPE_BOOLEAN, JSONL_TYPE_NULL])
        | number _ => cases component <;> exact absurd ht (by simp [jsonl_value_t.type, jsonl_path_component_t.container_type, JSONL_TYPE_OBJECT, JSONL_TYPE_ARRAY, JSONL_TYPE_STRING, JSONL_TYPE_NUMBER, JSONL_TYPE_BOOLEAN, JSONL_TYPE_NULL])
        | boolean _ => cases component <;> exact absurd ht (by simp [jsonl_value_t.type, jsonl_path_component_t.container_type, JSONL_TYPE_OBJECT, JSONL_TYPE_ARRAY, JSONL_TYPE_STRING, JSONL_TYPE_NUMBER, JSONL_TYPE_BOOLEAN, JSONL_TYPE_NULL])
        | null => cases component <;> exact absurd ht (by simp [jsonl_value_t.type, jsonl_path_component_t.container_type, JSONL_TYPE_OBJECT, JSONL_TYPE_ARRAY, JSONL_TYPE_STRING, JSONL_TYPE_NUMBER, JSONL_TYPE_BOOLEAN, JSONL_TYPE_NULL])
        | unknown t => simp [jsonl_value_t.valid] at hsv
      · obtain ⟨size, hsize⟩ := jsonl_create_path_single value hv (component :: rest)
          internal_path.reverse (internal_path.reverse ++ component :: rest).length
          (by simp) hs (by simp)
        refine ⟨size, hsize.1, fun capacity => ?_⟩
        have hne : (source_value.type != component.container_type) = true := by
          simp [bne, ht]
        have := hsize.2 capacity
        rw [List.length_reverse] at this
        unfold jsonl_internal_set_values
        simp only [hfirst, hne, if_true, jsonl_path_length_bound_single,
          jsonl_written_value_mismatch source_value value component rest ht]
        exact this

/-! ### Reading back what one write wrote -/

theorem jsonl_set_values_of_writes (value_tree : jsonl_value_t)
    (set_value_table : List jsonl_set_value_t) (capacity : Nat)
    (hw : ∀ s ∈ set_value_table, s.value.isSome = true) :
    jsonl_set_values value_tree set_value_table capacity =
      jsonl_internal_set_values set_value_table (value_tree.depth + 1) value_tree []
        capacity := by
  unfold jsonl_set_values
  have : set_value_table.any
      (fun set_value => set_value.path.length == 0 && set_value.value.isNone) = false := by
    rw [List.any_eq_false]
    intro s hs
    have := hw s hs
    cases h : s.value <;> simp_all
  simp [this]

/-! ### Sizes within `size_t` -/

theorem jsonl_size_fits_le (call : Nat → Option (Nat × Option jsonl_value_t)) (size : Nat)
    (tree : Option jsonl_value_t) (hfit : jsonl_size_fits call = true)
    (h : call 0 = some (size, tree)) : size ≤ jsonl_size_max := by
  unfold jsonl_size_fits at hfit
  rw [h] at hfit
  simpa using hfit

/-! ### The printer -/

theorem jsonl_text_writes_append (first second : List Nat) :
    ∀ offset, jsonl_text_writes offset (first ++ second) =
      jsonl_text_writes offset first ++ jsonl_text_writes (offset + first.length) second := by
  induction first with
  | nil => intro offset; rfl
  | cons byte first ih =>
      intro offset
      have hoff : offset + 1 + first.length = offset + (first.length + 1) := by omega
      rw [List.cons_append]
      simp only [jsonl_text_writes, ih, List.length_cons, hoff, List.cons_append]

theorem jsonl_shift_text_writes (shift : Nat) (text : List Nat) :
    ∀ offset, jsonl_shift_writes shift (jsonl_text_writes offset text) =
      jsonl_text_writes (shift + offset) text := by
  induction text with
  | nil => intro offset; rfl
  | cons byte text ih =>
      intro offset
      have := ih (offset + 1)
      simp only [jsonl_shift_writes] at this
      simp only [jsonl_shift_writes, jsonl_text_writes, List.map_cons, this, Nat.add_assoc]

theorem jsonl_print_indent_text (depth : Nat) :
    ∀ offset, jsonl_print_indent offset depth =
      jsonl_text_writes offset (List.replicate depth 9) := by
  induction depth with
  | zero => intro offset; rfl
  | succ depth ih =>
      intro offset
      have h := ih (offset + 1)
      unfold jsonl_print_indent at h ⊢
      rw [List.range_succ_eq_map, List.map_cons, List.map_map, List.replicate_succ,
        jsonl_text_writes, ← h]
      congr 1
      apply List.map_congr_left
      intro i _
      simp only [Function.comp, Nat.succ_eq_add_one]
      congr 1
      omega

theorem jsonl_apply_text_writes (text : List Nat) :
    ∀ (offset : Nat) (buffer : Nat → Nat) (i : Nat),
      jsonl_apply_writes buffer (jsonl_text_writes offset text) i =
        if offset ≤ i ∧ i < offset + text.length then text.getD (i - offset) 0
        else buffer i := by
  induction text with
  | nil =>
      intro offset buffer i
      have : ¬ (offset ≤ i ∧ i < offset + ([] : List Nat).length) := by
        simp only [List.length_nil]; omega
      simp only [jsonl_text_writes, jsonl_apply_writes, this, if_false]
  | cons byte text ih =>
      intro offset buffer i
      simp only [jsonl_text_writes, jsonl_apply_writes, ih, List.length_cons]
      by_cases h1 : offset + 1 ≤ i ∧ i < offset + 1 + text.length
      · have h2 : offset ≤ i ∧ i < offset + (text.length + 1) := by omega
        have h3 : i - offset = (i - (offset + 1)) + 1 := by omega
        simp only [h1, h2, and_self, if_true, h3, List.getD_cons_succ]
      · by_cases h4 : i = offset
        · have h2 : offset ≤ i ∧ i < offset + (text.length + 1) := by omega
          have h3 : i - offset = 0 := by omega
          simp [h1, h2, h4]
        · have h2 : ¬ (offset ≤ i ∧ i < offset + (text.length + 1)) := by omega
          simp [h1, h2, h4]

theorem jsonl_buffer_text_of_writes (text : List Nat) (buffer : Nat → Nat) :
    jsonl_buffer_text (jsonl_apply_writes buffer (jsonl_text_writes 0 text)) text.length =
      text := by
  unfold jsonl_buffer_text
  apply List.ext_getElem
  · simp
  · intro i h1 h2
    simp only [List.getElem_map, List.getElem_range, jsonl_apply_text_writes]
    have : 0 ≤ i ∧ i < 0 + text.length := by omega
    simp only [this, and_self, if_true, Nat.sub_zero, List.getD_eq_getElem?_getD,
      List.getElem?_eq_getElem h2, Option.getD_some]

theorem jsonl_print_number_digits_text (part : Nat) :
    ∀ (count shift : Nat), ∃ text : List Nat, text.length = count ∧
      ∀ offset, jsonl_print_number_digits part count shift offset =
        jsonl_text_writes offset text := by
  intro count
  induction count with
  | zero => exact fun shift => ⟨[], rfl, fun offset => rfl⟩
  | succ count ih =>
      intro shift
      obtain ⟨text, hlen, htext⟩ := ih (shift / 10)
      refine ⟨(48 + (part / shift) % 10) % 256 :: text, by simp [hlen], fun offset => ?_⟩
      simp only [jsonl_print_number_digits, htext, jsonl_text_writes]

theorem jsonl_print_number_decimal_count_ge (decimal_part : Nat) :
    ∀ fuel decimal_count decimal_shift,
      decimal_count ≤
        (jsonl_print_number_decimal_count decimal_part fuel decimal_count decimal_shift).1 := by
  intro fuel
  induction fuel with
  | zero => intro dc ds; exact le_refl _
  | succ fuel ih =>
      intro dc ds
      unfold jsonl_print_number_decimal_count
      split
      · exact le_trans (Nat.le_succ _) (ih _ _)
      · exact le_refl _

theorem jsonl_print_number_value_text (pf : jsonl_platform_t)
    (number_value : jsonl_number_value_t) :
    ∃ text, text ≠ [] ∧ jsonl_prints (jsonl_print_number_value pf number_value) text := by
  unfold jsonl_prints jsonl_print_number_value
  simp only []
  generalize hsign : (if pf.double_lt_zero number_value.value = true then (1 : Nat) else 0) =
    sign_bit
  have hsign2 : sign_bit = 0 ∨ sign_bit = 1 := by
    rw [← hsign]; split <;> simp
  generalize (if sign_bit = 1 then pf.double_neg number_value.value
    else number_value.value) = value
  generalize pf.double_to_uint64 value % 2 ^ 64 = decimal_part
  have hcount := jsonl_print_number_decimal_count_ge decimal_part 19 1 1
  generalize jsonl_print_number_decimal_count decimal_part 19 1 1 = counted at hcount
  generalize pf.double_to_uint64 (pf.double_mul (pf.double_sub value
    (pf.double_of_uint64 decimal_part)) jsonl_double_1e19) % 2 ^ 64 = fraction_part
  generalize (if fraction_part ≠ 0 then
    jsonl_print_number_fraction_count fraction_part (List.range' 1 18) 1 100000000000000000
    else 0) = fraction_count
  obtain ⟨dtext, hdlen, hdtext⟩ := jsonl_print_number_digits_text decimal_part counted.1
    counted.2
  obtain ⟨ftext, hflen, hftext⟩ := jsonl_print_number_digits_text fraction_part fraction_count
    1000000000000000000
  refine ⟨(if sign_bit = 1 then [45] else []) ++ dtext ++
    (if fraction_count ≠ 0 then 46 :: ftext else []), ?_, fun capacity => ?_⟩
  · intro h
    have := congrArg List.length h
    simp only [List.length_append, hdlen, List.length_nil] at this
    omega
  · have hlen : ((if sign_bit = 1 then [45] else []) ++ dtext ++
        (if fraction_count ≠ 0 then 46 :: ftext else [])).length =
        sign_bit + counted.1 + (if fraction_count ≠ 0 then 1 + fraction_count else 0) := by
      rcases hsign2 with h | h <;> by_cases hf : fraction_count = 0 <;>
        simp [h, hf, hdlen, hflen] <;> omega
    refine ⟨hlen.symm, fun hfit => ?_⟩
    rw [hlen] at hfit
    simp only [ge_iff_le, hfit, if_true, hdtext, hftext]
    rw [jsonl_text_writes_append, jsonl_text_writes_append]
    rcases hsign2 with h | h <;> by_cases hf : fraction_count = 0 <;>
      simp [h, hf, hdlen, hflen, jsonl_text_writes, Nat.add_comm, Nat.add_assoc]

theorem jsonl_print_string_value_loop_text (pf : jsonl_platform_t) :
    ∀ string : List Nat, ∃ text : List Nat, ∀ capacity printed_string_length,
      (jsonl_print_string_value_loop pf capacity string printed_string_length).1 =
        printed_string_length + text.length ∧
      (printed_string_length + text.length < capacity →
        (jsonl_print_string_value_loop pf capacity string printed_string_length).2 =
          jsonl_text_writes (1 + printed_string_length) text) := by
  intro string
  induction string with
  | nil =>
      exact ⟨[], fun capacity psl => ⟨rfl, fun _ => rfl⟩⟩
  | cons character string ih =>
      obtain ⟨rest, hrest⟩ := ih
      cases hindex : jsonl_escaped_character_index character with
      | none =>
          by_cases hlow : jsonl_char_less_than_0x20 pf character = true
          · refine ⟨[92, 117, 48, 48, jsonl_print_high_digit pf character,
              jsonl_print_low_digit character] ++ rest, fun capacity psl => ?_⟩
            obtain ⟨h1, h2⟩ := hrest capacity (psl + 6)
            simp only [jsonl_print_string_value_loop, hindex, hlow, if_true, h1,
              List.length_append, List.length_cons, List.length_nil]
            refine ⟨by omega, fun hfit => ?_⟩
            have hg : psl + 5 < capacity := by omega
            rw [h2 (by omega), jsonl_text_writes_append]
            simp only [hg, if_true, jsonl_text_writes, List.length_cons, List.length_nil,
              List.cons_append, List.nil_append, Nat.add_assoc]
          · refine ⟨[character] ++ rest, fun capacity psl => ?_⟩
            obtain ⟨h1, h2⟩ := hrest capacity (psl + 1)
            simp only [jsonl_print_string_value_loop, hindex, hlow, Bool.false_eq_true,
              if_false, h1, List.length_append, List.length_cons, List.length_nil]
            refine ⟨by omega, fun hfit => ?_⟩
            have hg : psl < capacity := by omega
            rw [h2 (by omega), jsonl_text_writes_append]
            simp only [hg, if_true, jsonl_text_writes, List.length_cons, List.length_nil,
              List.cons_append, List.nil_append, Nat.add_assoc]
      | some entry =>
          refine ⟨[92, entry.1] ++ rest, fun capacity psl => ?_⟩
          obtain ⟨h1, h2⟩ := hrest capacity (psl + 2)
          simp only [jsonl_print_string_value_loop, hindex, h1,
            List.length_append, List.length_cons, List.length_nil]
          refine ⟨by omega, fun hfit => ?_⟩
          have hg : psl + 1 < capacity := by omega
          rw [h2 (by omega), jsonl_text_writes_append]
          simp only [hg, if_true, jsonl_text_writes, List.length_cons, List.length_nil,
            List.cons_append, List.nil_append, Nat.add_assoc]

theorem jsonl_print_string_value_text (pf : jsonl_platform_t) (string : List Nat) :
    ∃ text : List Nat, 2 ≤ text.length ∧
      jsonl_prints (jsonl_print_string_value pf string) text := by
  obtain ⟨body, hbody⟩ := jsonl_print_string_value_loop_text pf string
  refine ⟨34 :: (body ++ [34]), by simp, fun capacity => ?_⟩
  obtain ⟨h1, h2⟩ := hbody capacity 0
  simp only [jsonl_print_string_value, h1, List.length_cons, List.length_append,
    List.length_nil, Nat.zero_add]
  refine ⟨by omega, fun hfit => ?_⟩
  have hg1 : capacity ≠ 0 := by omega
  have hg2 : 1 + body.length < capacity := by omega
  rw [h2 (by omega)]
  simp only [hg1, hg2, ne_eq, not_false_eq_true, if_true, jsonl_text_writes,
    jsonl_text_writes_append, List.cons_append, List.nil_append, Nat.add_zero, Nat.zero_add]

theorem jsonl_text_writes_none (offset : Nat) : jsonl_text_writes offset [] = [] := rfl

theorem jsonl_text_writes_one (offset a : Nat) :
    jsonl_text_writes offset [a] = [(offset, a)] := rfl

theorem jsonl_text_writes_three (offset a b c : Nat) :
    jsonl_text_writes offset [a, b, c] = [(offset, a), (offset + 1, b), (offset + 2, c)] :=
  rfl

theorem jsonl_internal_print_object_loop_step (pf : jsonl_platform_t) (name : List Nat)
    (value : jsonl_value_t) (table : List (List Nat × jsonl_value_t)) (depth : Nat)
    (ntext ctext rtext : List Nat)
    (hname : jsonl_prints (jsonl_print_string_value pf name) ntext)
    (hne : ctext ≠ [])
    (hchild : jsonl_prints (fun capacity => jsonl_internal_print pf value capacity (depth + 1))
      ctext)
    (hrest : ∀ capacity object_size, 0 < object_size →
      (jsonl_internal_print_object_loop pf table capacity depth object_size).1 =
        object_size + rtext.length ∧
      (object_size + rtext.length ≤ capacity →
        (jsonl_internal_print_object_loop pf table capacity depth object_size).2 =
          jsonl_text_writes object_size rtext)) :
    ∀ capacity object_size, 0 < object_size →
      (jsonl_internal_print_object_loop pf ((name, value) :: table) capacity depth
        object_size).1 =
        object_size + (List.replicate (depth + 1) 9 ++ ntext ++ [32, 58, 32] ++ ctext ++
          (if table.isEmpty then [] else [44]) ++ [10] ++ rtext).length ∧
      (object_size + (List.replicate (depth + 1) 9 ++ ntext ++ [32, 58, 32] ++ ctext ++
          (if table.isEmpty then [] else [44]) ++ [10] ++ rtext).length ≤ capacity →
        (jsonl_internal_print_object_loop pf ((name, value) :: table) capacity depth
          object_size).2 =
          jsonl_text_writes object_size (List.replicate (depth + 1) 9 ++ ntext ++
            [32, 58, 32] ++ ctext ++ (if table.isEmpty then [] else [44]) ++ [10] ++
            rtext)) := by
  intro capacity object_size hpos
  obtain ⟨hn1, hn2⟩ := hname (jsonl_remaining (object_size + (depth + 1)) capacity)
  obtain ⟨hc1, hc2⟩ := hchild
    (jsonl_remaining (object_size + (depth + 1) + ntext.length + 3) capacity)
  have hclen : ctext.length ≠ 0 := fun h => hne (List.length_eq_zero.1 h)
  simp only [] at hc1 hc2
  simp only [jsonl_internal_print_object_loop, hn1, hc1, hclen, if_false]
  cases table with
  | nil =>
      obtain ⟨hr1, hr2⟩ := hrest capacity
        (object_size + (depth + 1) + ntext.length + 3 + ctext.length + 1) (by omega)
      simp only [List.isEmpty_nil, if_true, hr1, List.length_append, List.length_replicate,
        List.length_cons, List.length_nil]
      refine ⟨by omega, fun hfit => ?_⟩
      have hg1 : object_size + 1 < capacity := by omega
      have hg2 : object_size + (depth + 1) + ntext.length + 2 < capacity := by omega
      have hg3 : object_size + (depth + 1) + ntext.length + 3 + ctext.length < capacity := by
        omega
      have hg4 : ntext.length ≤ jsonl_remaining (object_size + (depth + 1)) capacity := by
        unfold jsonl_remaining; omega
      have hg5 : ctext.length ≤
          jsonl_remaining (object_size + (depth + 1) + ntext.length + 3) capacity := by
        unfold jsonl_remaining; omega
      rw [hn2 hg4, hc2 hg5, hr2 (by omega)]
      simp only [hg1, hg2, hg3, if_true]
      simp only [jsonl_print_indent_text, jsonl_shift_text_writes, jsonl_text_writes_append,
        List.length_append, List.length_replicate, List.length_singleton, List.length_nil,
        show ([32, 58, 32] : List Nat).length = 3 from rfl]
      simp only [jsonl_text_writes_three, jsonl_text_writes_one, jsonl_text_writes_none,
        Nat.add_assoc, Nat.zero_add, Nat.add_zero, List.append_assoc, List.cons_append,
        List.nil_append, List.append_nil]
  | cons e table =>
      obtain ⟨hr1, hr2⟩ := hrest capacity
        (object_size + (depth + 1) + ntext.length + 3 + ctext.length + 1 + 1) (by omega)
      simp only [List.isEmpty_cons, Bool.false_eq_true, if_false, hr1, List.length_append,
        List.length_replicate, List.length_cons, List.length_nil]
      refine ⟨by omega, fun hfit => ?_⟩
      have hg1 : object_size + 1 < capacity := by omega
      have hg2 : object_size + (depth + 1) + ntext.length + 2 < capacity := by omega
      have hg3 : object_size + (depth + 1) + ntext.length + 3 + ctext.length < capacity := by
        omega
      have hg6 : object_size + (depth + 1) + ntext.length + 3 + ctext.length + 1 <
          capacity := by omega
      have hg4 : ntext.length ≤ jsonl_remaining (object_size + (depth + 1)) capacity := by
        unfold jsonl_remaining; omega
      have hg5 : ctext.length ≤
          jsonl_remaining (object_size + (depth + 1) + ntext.length + 3) capacity := by
        unfold jsonl_remaining; omega
      rw [hn2 hg4, hc2 hg5, hr2 (by omega)]
      simp only [hg1, hg2, hg3, hg6, if_true]
      simp only [jsonl_print_indent_text, jsonl_shift_text_writes, jsonl_text_writes_append,
        List.length_append, List.length_replicate, List.length_singleton, List.length_nil,
        show ([32, 58, 32] : List Nat).length = 3 from rfl]
      simp only [jsonl_text_writes_three, jsonl_text_writes_one, jsonl_text_writes_none,
        Nat.add_assoc, Nat.zero_add, Nat.add_zero, List.append_assoc, List.cons_append,
        List.nil_append, List.append_nil]

theorem jsonl_internal_print_array_loop_step (pf : jsonl_platform_t)
    (value : jsonl_value_t) (table : List jsonl_value_t) (depth : Nat)
    (ctext rtext : List Nat) (hne : ctext ≠ [])
    (hchild : jsonl_prints (fun capacity => jsonl_internal_print pf value capacity (depth + 1))
      ctext)
    (hrest : ∀ capacity array_size, 0 < array_size →
      (jsonl_internal_print_array_loop pf table capacity depth array_size).1 =
        array_size + rtext.length ∧
      (array_size + rtext.length ≤ capacity →
        (jsonl_internal_print_array_loop pf table capacity depth array_size).2 =
          jsonl_text_writes array_size rtext)) :
    ∀ capacity array_size, 0 < array_size →
      (jsonl_internal_print_array_loop pf (value :: table) capacity depth array_size).1 =
        array_size + (List.replicate (depth + 1) 9 ++ ctext ++
          (if table.isEmpty then [] else [44]) ++ [10] ++ rtext).length ∧
      (array_size + (List.replicate (depth + 1) 9 ++ ctext ++
          (if table.isEmpty then [] else [44]) ++ [10] ++ rtext).length ≤ capacity →
        (jsonl_internal_print_array_loop pf (value :: table) capacity depth array_size).2 =
          jsonl_text_writes array_size (List.replicate (depth + 1) 9 ++ ctext ++
            (if table.isEmpty then [] else [44]) ++ [10] ++ rtext)) := by
  intro capacity array_size hpos
  obtain ⟨hc1, hc2⟩ := hchild (jsonl_remaining (array_size + (depth + 1)) capacity)
  have hclen : ctext.length ≠ 0 := fun h => hne (List.length_eq_zero.1 h)
  simp only [] at hc1 hc2
  simp only [jsonl_internal_print_array_loop, hc1, hclen, if_false]
  cases table with
  | nil =>
      obtain ⟨hr1, hr2⟩ := hrest capacity
        (array_size + (depth + 1) + ctext.length + 1) (by omega)
      simp only [List.isEmpty_nil, if_true, hr1, List.length_append, List.length_replicate,
        List.length_singleton, List.length_nil]
      refine ⟨by omega, fun hfit => ?_⟩
      have hg1 : array_size + 1 < capacity := by omega
      have hg3 : array_size + (depth + 1) + ctext.length < capacity := by omega
      have hg5 : ctext.length ≤ jsonl_remaining (array_size + (depth + 1)) capacity := by
        unfold jsonl_remaining; omega
      rw [hc2 hg5, hr2 (by omega)]
      simp only [hg1, hg3, if_true]
      simp only [jsonl_print_indent_text, jsonl_shift_text_writes, jsonl_text_writes_append,
        List.length_append, List.length_replicate, List.length_singleton, List.length_nil]
      simp only [jsonl_text_writes_one, jsonl_text_writes_none,
        Nat.add_assoc, Nat.zero_add, Nat.add_zero, List.append_assoc, List.cons_append,
        List.nil_append, List.append_nil]
  | cons e table =>
      obtain ⟨hr1, hr2⟩ := hrest capacity
        (array_size + (depth + 1) + ctext.length + 1 + 1) (by omega)
      simp only [List.isEmpty_cons, Bool.false_eq_true, if_false, hr1, List.length_append,
        List.length_replicate, List.length_singleton, List.length_nil]
      refine ⟨by omega, fun hfit => ?_⟩
      have hg1 : array_size + 1 < capacity := by omega
      have hg3 : array_size + (depth + 1) + ctext.length < capacity := by omega
      have hg6 : array_size + (depth + 1) + ctext.length + 1 < capacity := by omega
      have hg5 : ctext.length ≤ jsonl_remaining (array_size + (depth + 1)) capacity := by
        unfold jsonl_remaining; omega
      rw [hc2 hg5, hr2 (by omega)]
      simp only [hg1, hg3, hg6, if_true]
      simp only [jsonl_print_indent_text, jsonl_shift_text_writes, jsonl_text_writes_append,
        List.length_append, List.length_replicate, List.length_singleton, List.length_nil]
      simp only [jsonl_text_writes_one, jsonl_text_writes_none,
        Nat.add_assoc, Nat.zero_add, Nat.add_zero, List.append_assoc, List.cons_append,
        List.nil_append, List.append_nil]

theorem jsonl_internal_print_container (opening closing depth : Nat)
    (entries : Nat → Nat × List (Nat × Nat)) (inner : List Nat)
    (hentries : ∀ capacity,
      (entries capacity).1 = 2 + inner.length ∧
      (2 + inner.length ≤ capacity → (entries capacity).2 = jsonl_text_writes 2 inner)) :
    jsonl_prints
      (fun capacity =>
        if (entries capacity).1 = 0 then
          (0, (if 1 < capacity then [(0, opening), (1, 10)] else []) ++ (entries capacity).2)
        else
          ((entries capacity).1 + depth + 1,
            (if 1 < capacity then [(0, opening), (1, 10)] else []) ++ (entries capacity).2 ++
              (if (entries capacity).1 + depth < capacity then
                jsonl_print_indent (entries capacity).1 depth ++
                  [((entries capacity).1 + depth, closing)]
              else [])))
      ([opening, 10] ++ inner ++ List.replicate depth 9 ++ [closing]) := by
  intro capacity
  obtain ⟨h1, h2⟩ := hentries capacity
  have hne : ¬ (2 + inner.length = 0) := by omega
  simp only [h1, hne, if_false, List.length_append, List.length_replicate,
    List.length_singleton, show ([opening, 10] : List Nat).length = 2 from rfl]
  refine ⟨trivial, fun hfit => ?_⟩
  have hg1 : 1 < capacity := by omega
  have hg2 : 2 + inner.length + depth < capacity := by omega
  rw [h2 (by omega)]
  simp only [hg1, hg2, if_true]
  simp only [jsonl_print_indent_text, jsonl_text_writes_append,
    List.length_append, List.length_replicate, List.length_singleton,
    show ([opening, 10] : List Nat).length = 2 from rfl]
  simp only [jsonl_text_writes_one, show jsonl_text_writes 0 [opening, 10] =
    [(0, opening), (1, 10)] from rfl,
    Nat.add_assoc, Nat.zero_add, Nat.add_zero, List.append_assoc, List.cons_append,
    List.nil_append, List.append_nil]

mutual
theorem jsonl_internal_print_text (pf : jsonl_platform_t) (value : jsonl_value_t)
    (hv : value.valid = true) (depth : Nat) :
    ∃ text, text ≠ [] ∧
      jsonl_prints (fun capacity => jsonl_internal_print pf value capacity depth) text := by
  cases value with
  | object table =>
      simp only [jsonl_value_t.valid] at hv
      obtain ⟨inner, hinner⟩ := jsonl_internal_print_object_loop_text pf table hv depth
      refine ⟨[123, 10] ++ inner ++ List.replicate depth 9 ++ [125], by simp, ?_⟩
      have := jsonl_internal_print_container 123 125 depth
        (fun capacity => jsonl_internal_print_object_loop pf table capacity depth 2) inner
        (fun capacity => hinner capacity 2 (by decide))
      simpa only [jsonl_internal_print] using this
  | array table =>
      simp only [jsonl_value_t.valid] at hv
      obtain ⟨inner, hinner⟩ := jsonl_internal_print_array_loop_text pf table hv depth
      refine ⟨[91, 10] ++ inner ++ List.replicate depth 9 ++ [93], by simp, ?_⟩
      have := jsonl_internal_print_container 91 93 depth
        (fun capacity => jsonl_internal_print_array_loop pf table capacity depth 2) inner
        (fun capacity => hinner capacity 2 (by decide))
      simpa only [jsonl_internal_print] using this
  | string string =>
      obtain ⟨text, hlen, htext⟩ := jsonl_print_string_value_text pf string
      refine ⟨text, fun h => by rw [h] at hlen; simp at hlen, ?_⟩
      simpa only [jsonl_internal_print] using htext
  | number number =>
      obtain ⟨text, hne, htext⟩ := jsonl_print_number_value_text pf number
      refine ⟨text, hne, ?_⟩
      simpa only [jsonl_internal_print] using htext
  | boolean b =>
      cases b with
      | true =>
          refine ⟨[116, 114, 117, 101], by simp, fun capacity => ⟨rfl, fun hfit => ?_⟩⟩
          have : capacity > 3 := hfit
          simp only [jsonl_internal_print, this, if_true]
          rfl
      | false =>
          refine ⟨[102, 97, 108, 115, 101], by simp, fun capacity => ⟨rfl, fun hfit => ?_⟩⟩
          have : capacity > 4 := hfit
          simp only [jsonl_internal_print, this, if_true]
          rfl
  | null =>
      refine ⟨[110, 117, 108, 108], by simp, fun capacity => ⟨rfl, fun hfit => ?_⟩⟩
      have : capacity > 3 := hfit
      simp only [jsonl_internal_print, this, if_true]
      rfl
  | unknown t => simp [jsonl_value_t.valid] at hv
theorem jsonl_internal_print_object_loop_text (pf : jsonl_platform_t)
    (table : List (List Nat × jsonl_value_t)) (hv : jsonl_value_t.valid_entries table = true)
    (depth : Nat) :
    ∃ text : List Nat, ∀ capacity object_size, 0 < object_size →
      (jsonl_internal_print_object_loop pf table capacity depth object_size).1 =
        object_size + text.length ∧
      (object_size + text.length ≤ capacity →
        (jsonl_internal_print_object_loop pf table capacity depth object_size).2 =
          jsonl_text_writes object_size text) := by
  cases table with
  | nil =>
      exact ⟨[], fun capacity object_size _ => ⟨rfl, fun _ => rfl⟩⟩
  | cons e table =>
      obtain ⟨name, value⟩ := e
      simp only [jsonl_value_t.valid_entries, Bool.and_eq_true] at hv
      obtain ⟨ntext, _, hname⟩ := jsonl_print_string_value_text pf name
      obtain ⟨ctext, hne, hchild⟩ := jsonl_internal_print_text pf value hv.1 (depth + 1)
      obtain ⟨rtext, hrest⟩ := jsonl_internal_print_object_loop_text pf table hv.2 depth
      exact ⟨_, jsonl_internal_print_object_loop_step pf name value table depth ntext ctext
        rtext hname hne hchild hrest⟩
theorem jsonl_internal_print_array_loop_text (pf : jsonl_platform_t)
    (table : List jsonl_value_t) (hv : jsonl_value_t.valid_values table = true)
    (depth : Nat) :
    ∃ text : List Nat, ∀ capacity array_size, 0 < array_size →
      (jsonl_internal_print_array_loop pf table capacity depth array_size).1 =
        array_size + text.length ∧
      (array_size + text.length ≤ capacity →
        (jsonl_internal_print_array_loop pf table capacity depth array_size).2 =
          jsonl_text_writes array_size text) := by
  cases table with
  | nil =>
      exact ⟨[], fun capacity array_size _ => ⟨rfl, fun _ => rfl⟩⟩
  | cons value table =>
      simp only [jsonl_value_t.valid_values, Bool.and_eq_true] at hv
      obtain ⟨ctext, hne, hchild⟩ := jsonl_internal_print_text pf value hv.1 (depth + 1)
      obtain ⟨rtext, hrest⟩ := jsonl_internal_print_array_loop_text pf table hv.2 depth
      exact ⟨_, jsonl_internal_print_array_loop_step pf value table depth ctext rtext hne
        hchild hrest⟩
end

/-! ### The parser: quoted strings -/

theorem jsonl_quoted_string_lenght_loop_spec :
    ∀ (read : List Nat) (escape : Bool) (offset : Nat),
      jsonl_quoted_string_lenght_loop read escape offset ≠ 0 →
      offset < jsonl_quoted_string_lenght_loop read escape offset ∧
        jsonl_quoted_string_lenght_loop read escape offset ≤ offset + read.length ∧
        read[jsonl_quoted_string_lenght_loop read escape offset - offset - 1]? = some 34 := by
  intro read
  induction read with
  | nil => intro escape offset h; exact absurd rfl h
  | cons character read ih =>
      intro escape offset h
      unfold jsonl_quoted_string_lenght_loop at h ⊢
      cases hq : (!escape && character == 34)
      · simp only [hq, Bool.false_eq_true, if_false, List.length_cons] at h ⊢
        obtain ⟨h1, h2, h3⟩ := ih (character == 92) (offset + 1) h
        refine ⟨by omega, by omega, ?_⟩
        have : jsonl_quoted_string_lenght_loop read (character == 92) (offset + 1) - offset - 1 =
            (jsonl_quoted_string_lenght_loop read (character == 92) (offset + 1) -
              (offset + 1) - 1) + 1 := by omega
        rw [this, List.getElem?_cons_succ]
        exact h3
      · simp only [if_true, List.length_cons]
        have hc : character = 34 := by
          simp only [Bool.and_eq_true, beq_iff_eq] at hq
          exact hq.2
        refine ⟨by omega, by omega, ?_⟩
        have : offset + 1 - offset - 1 = 0 := by omega
        rw [this, hc]
        simp

theorem jsonl_quoted_string_lenght_spec (json_text : List Nat)
    (h : jsonl_quoted_string_lenght json_text ≠ 0) :
    2 ≤ jsonl_quoted_string_lenght json_text ∧
      jsonl_quoted_string_lenght json_text ≤ json_text.length ∧
      json_text[jsonl_quoted_string_lenght json_text - 1]? = some 34 := by
  cases json_text with
  | nil => exact absurd rfl h
  | cons character read =>
      unfold jsonl_quoted_string_lenght at h ⊢
      cases hc : (character != 34)
      case true => simp [hc] at h
      case false =>
        simp only [hc, Bool.false_eq_true, if_false, List.length_cons] at h ⊢
        obtain ⟨h1, h2, h3⟩ := jsonl_quoted_string_lenght_loop_spec read false 1 h
        refine ⟨by omega, by omega, ?_⟩
        have : jsonl_quoted_string_lenght_loop read false 1 - 1 =
            (jsonl_quoted_string_lenght_loop read false 1 - 1 - 1) + 1 := by omega
        rw [this, List.getElem?_cons_succ]
        exact h3

theorem jsonl_quoted_string_lenght_loop_take :
    ∀ (read : List Nat) (escape : Bool) (offset count : Nat),
      jsonl_quoted_string_lenght_loop read escape offset ≠ 0 →
      jsonl_quoted_string_lenght_loop read escape offset ≤ offset + count →
      jsonl_quoted_string_lenght_loop (read.take count) escape offset =
        jsonl_quoted_string_lenght_loop read escape offset := by
  intro read
  induction read with
  | nil => intro escape offset count h; exact absurd rfl h
  | cons character read ih =>
      intro escape offset count h hle
      cases count with
      | zero =>
          have := (jsonl_quoted_string_lenght_loop_spec (character :: read) escape offset h).1
          omega
      | succ count =>
          rw [List.take_succ_cons]
          unfold jsonl_quoted_string_lenght_loop at h hle ⊢
          cases hq : (!escape && character == 34)
          · simp only [hq, Bool.false_eq_true, if_false] at h hle ⊢
            exact ih (character == 92) (offset + 1) count h (by omega)
          · simp only [if_true]

theorem jsonl_quoted_string_lenght_take (json_text : List Nat) (count : Nat)
    (h : jsonl_quoted_string_lenght json_text ≠ 0)
    (hle : jsonl_quoted_string_lenght json_text ≤ count) :
    jsonl_quoted_string_lenght (json_text.take count) =
      jsonl_quoted_string_lenght json_text := by
  cases json_text with
  | nil => exact absurd rfl h
  | cons character read =>
      cases count with
      | zero =>
          have := (jsonl_quoted_string_lenght_spec (character :: read) h).1
          omega
      | succ count =>
          rw [List.take_succ_cons]
          unfold jsonl_quoted_string_lenght at h hle ⊢
          cases hc : (character != 34)
          case true => simp [hc] at h
          case false =>
            simp only [hc, Bool.false_eq_true, if_false] at h hle ⊢
            exact jsonl_quoted_string_lenght_loop_take read false 1 count h (by omega)

theorem jsonl_decode_store_fits (string_buffer_size string_length : Nat) (buffer : List Nat)
    (character : Nat) (h : string_length < string_buffer_size) :
    jsonl_decode_store string_buffer_size string_length buffer character =
      buffer ++ [character] := by
  simp [jsonl_decode_store, h]

theorem jsonl_decode_quoted_string_loop_step (fuel remaining : Nat) (read bytes : List Nat)
    (hrec : ∀ string_buffer_size string_length buffer, ∃ out,
      jsonl_decode_quoted_string_loop string_buffer_size fuel remaining read string_length
        buffer = some (string_length + bytes.length, out) ∧
      (string_length + bytes.length ≤ string_buffer_size → out = buffer ++ bytes))
    (new : List Nat) (string_buffer_size string_length : Nat) (buffer stored : List Nat)
    (hstored : string_length + new.length ≤ string_buffer_size → stored = buffer ++ new) :
    ∃ out,
      jsonl_decode_quoted_string_loop string_buffer_size fuel remaining read
        (string_length + new.length) stored =
        some (string_length + (new ++ bytes).length, out) ∧
      (string_length + (new ++ bytes).length ≤ string_buffer_size →
        out = buffer ++ (new ++ bytes)) := by
  obtain ⟨out, h1, h2⟩ := hrec string_buffer_size (string_length + new.length) stored
  refine ⟨out, ?_, fun hfit => ?_⟩
  · rw [h1, List.length_append, Nat.add_assoc]
  · rw [List.length_append] at hfit
    rw [h2 (by omega), hstored (by omega), List.append_assoc]

theorem jsonl_decode_quoted_string_loop_total :
    ∀ (fuel remaining : Nat) (read : List Nat), remaining ≤ fuel →
      read[remaining]? = some 34 →
      ∃ bytes : List Nat, ∀ string_buffer_size string_length buffer, ∃ out,
        jsonl_decode_quoted_string_loop string_buffer_size fuel remaining read string_length
          buffer = some (string_length + bytes.length, out) ∧
        (string_length + bytes.length ≤ string_buffer_size → out = buffer ++ bytes) := by
  intro fuel
  induction fuel with
  | zero =>
      intro remaining read hfuel _
      have h0 : remaining = 0 := by omega
      subst h0
      exact ⟨[], fun bufsize len buffer => ⟨buffer, by
        simp [jsonl_decode_quoted_string_loop], fun _ => by simp⟩⟩
  | succ fuel ih =>
      intro remaining read hfuel hquote
      by_cases h0 : remaining = 0
      · subst h0
        exact ⟨[], fun bufsize len buffer => ⟨buffer, by
          simp [jsonl_decode_quoted_string_loop], fun _ => by simp⟩⟩
      · have hdrop : ∀ k, k ≤ remaining → (read.drop k)[remaining - k]? = some 34 := by
          intro k hk
          rw [List.getElem?_drop]
          have : k + (remaining - k) = remaining := by omega
          rw [this]
          exact hquote
        have hlen : remaining < read.length := by
          by_contra hcon
          rw [List.getElem?_eq_none (by omega)] at hquote
          cases hquote
        have hrec : ∀ k, 1 ≤ k → k ≤ remaining → ∃ bytes : List Nat,
            ∀ string_buffer_size string_length buffer, ∃ out,
              jsonl_decode_quoted_string_loop string_buffer_size fuel (remaining - k)
                (read.drop k) string_length buffer =
                some (string_length + bytes.length, out) ∧
              (string_length + bytes.length ≤ string_buffer_size → out = buffer ++ bytes) :=
          fun k hk1 hk2 => ih (remaining - k) (read.drop k) (by omega) (hdrop k hk2)
        cases read with
        | nil => simp at hlen
        | cons character after =>
            cases hplain : (character != 92 || remaining == 1) with
            | true =>
              obtain ⟨bytes, hbytes⟩ := hrec 1 (le_refl _) (by omega)
              refine ⟨[character] ++ bytes, fun bufsize len buffer => ?_⟩
              have := jsonl_decode_quoted_string_loop_step fuel (remaining - 1) after bytes
                hbytes [character] bufsize len buffer
                (jsonl_decode_store bufsize len buffer character)
                (fun hfit => jsonl_decode_store_fits _ _ _ _ (by
                  simp only [List.length_singleton] at hfit; omega))
              unfold jsonl_decode_quoted_string_loop
              simp only [h0, if_false, hplain, if_true]
              exact this
            | false =>
              have hrem2 : 2 ≤ remaining := by
                simp only [Bool.or_eq_false_iff, beq_eq_false_iff_ne, ne_eq] at hplain
                omega
              have hnot2 : ¬ remaining < 2 := by omega
              cases after with
              | nil => simp only [List.length_cons, List.length_nil] at hlen; omega
              | cons escaped after2 =>
                  obtain ⟨bytes1, hbytes1⟩ := hrec 1 (le_refl _) (by omega)
                  obtain ⟨bytes2, hbytes2⟩ := hrec 2 (by omega) hrem2
                  have hsimple : ∀ unescaped : Nat, ∃ bytes : List Nat,
                      ∀ string_buffer_size string_length buffer, ∃ out,
                        jsonl_decode_quoted_string_loop string_buffer_size fuel (remaining - 2)
                          ((character :: escaped :: after2).drop 2) (string_length + 1)
                          (jsonl_decode_store string_buffer_size string_length buffer
                            unescaped) =
                          some (string_length + bytes.length, out) ∧
                        (string_length + bytes.length ≤ string_buffer_size →
                          out = buffer ++ bytes) := by
                    intro unescaped
                    refine ⟨[unescaped] ++ bytes2, fun bufsize len buffer => ?_⟩
                    exact jsonl_decode_quoted_string_loop_step fuel (remaining - 2) _ bytes2
                      hbytes2 [unescaped] bufsize len buffer
                      (jsonl_decode_store bufsize len buffer unescaped)
                      (fun hfit => jsonl_decode_store_fits _ _ _ _ (by
                        simp only [List.length_singleton] at hfit; omega))
                  have hback : ∃ bytes : List Nat,
                      ∀ string_buffer_size string_length buffer, ∃ out,
                        jsonl_decode_quoted_string_loop string_buffer_size fuel (remaining - 1)
                          ((character :: escaped :: after2).drop 1) (string_length + 1)
                          (jsonl_decode_store string_buffer_size string_length buffer 92) =
                          some (string_length + bytes.length, out) ∧
                        (string_length + bytes.length ≤ string_buffer_size →
                          out = buffer ++ bytes) := by
                    refine ⟨[92] ++ bytes1, fun bufsize len buffer => ?_⟩
                    exact jsonl_decode_quoted_string_loop_step fuel (remaining - 1) _ bytes1
                      hbytes1 [92] bufsize len buffer
                      (jsonl_decode_store bufsize len buffer 92)
                      (fun hfit => jsonl_decode_store_fits _ _ _ _ (by
                        simp only [List.length_singleton] at hfit; omega))
                  cases h39 : (escaped == 39) with
                  | true =>
                      obtain ⟨bytes, hb⟩ := hsimple 39
                      refine ⟨bytes, fun bufsize len buffer => ?_⟩
                      unfold jsonl_decode_quoted_string_loop
                      simp only [h0, if_false, hplain, Bool.false_eq_true, h39, hnot2, if_true]
                      exact hb bufsize len buffer
                  | false =>
                  cases h34 : (escaped == 34) with
                  | true =>
                      obtain ⟨bytes, hb⟩ := hsimple 34
                      refine ⟨bytes, fun bufsize len buffer => ?_⟩
                      unfold jsonl_decode_quoted_string_loop
                      simp only [h0, if_false, hplain, Bool.false_eq_true, h39, h34, hnot2, if_true]
                      exact hb bufsize len buffer
                  | false =>
                  cases h92 : (escaped == 92) with
                  | true =>
                      obtain ⟨bytes, hb⟩ := hsimple 92
                      refine ⟨bytes, fun bufsize len buffer => ?_⟩
                      unfold jsonl_decode_quoted_string_loop
                      simp only [h0, if_false, hplain, Bool.false_eq_true, h39, h34, h92, hnot2, if_true]
                      exact hb bufsize len buffer
                  | false =>
                  cases h110 : (escaped == 110) with
                  | true =>
                      obtain ⟨bytes, hb⟩ := hsimple 10
                      refine ⟨bytes, fun bufsize len buffer => ?_⟩
                      unfold jsonl_decode_quoted_string_loop
                      simp only [h0, if_false, hplain, Bool.false_eq_true, h39, h34, h92, h110, hnot2, if_true]
                      exact hb bufsize len buffer
                  | false =>
                  cases h114 : (escaped == 114) with
                  | true =>
                      obtain ⟨bytes, hb⟩ := hsimple 13
                      refine ⟨bytes, fun bufsize len buffer => ?_⟩
                      unfold jsonl_decode_quoted_string_loop
                      simp only [h0, if_false, hplain, Bool.false_eq_true, h39, h34, h92, h110, h114, hnot2, if_true]
                      exact hb bufsize len buffer
                  | false =>
                  cases h116 : (escaped == 116) with
                  | true =>
                      obtain ⟨bytes, hb⟩ := hsimple 9
                      refine ⟨bytes, fun bufsize len buffer => ?_⟩
                      unfold jsonl_decode_quoted_string_loop
                      simp only [h0, if_false, hplain, Bool.false_eq_true, h39, h34, h92, h110, h114, h116, hnot2, if_true]
                      exact hb bufsize len buffer
                  | false =>
                  cases h98 : (escaped == 98) with
                  | true =>
                      obtain ⟨bytes, hb⟩ := hsimple 8
                      refine ⟨bytes, fun bufsize len buffer => ?_⟩
                      unfold jsonl_decode_quoted_string_loop
                      simp only [h0, if_false, hplain, Bool.false_eq_true, h39, h34, h92, h110, h114, h116, h98, hnot2, if_true]
                      exact hb bufsize len buffer
                  | false =>
                  cases h102 : (escaped == 102) with
                  | true =>
                      obtain ⟨bytes, hb⟩ := hsimple 12
                      refine ⟨bytes, fun bufsize len buffer => ?_⟩
                      unfold jsonl_decode_quoted_string_loop
                      simp only [h0, if_false, hplain, Bool.false_eq_true, h39, h34, h92, h110, h114, h116, h98, h102, hnot2, if_true]
                      exact hb bufsize len buffer
                  | false =>
                  cases h117 : (escaped == 117) with
                  | false =>
                      obtain ⟨bytes, hb⟩ := hback
                      refine ⟨bytes, fun bufsize len buffer => ?_⟩
                      unfold jsonl_decode_quoted_string_loop
                      simp only [h0, if_false, hplain, Bool.false_eq_true, h39, h34, h92, h110, h114, h116, h98, h102, h117]
                      exact hb bufsize len buffer
                  | true =>
                      cases hU : (remaining != 5 &&
                          jsonl_is_hex_value ((character :: escaped :: after2).getD 2 0) &&
                          jsonl_is_hex_value ((character :: escaped :: after2).getD 3 0) &&
                          jsonl_is_hex_value ((character :: escaped :: after2).getD 4 0) &&
                          jsonl_is_hex_value ((character :: escaped :: after2).getD 5 0)) with
                      | false =>
                          obtain ⟨bytes, hb⟩ := hback
                          refine ⟨bytes, fun bufsize len buffer => ?_⟩
                          unfold jsonl_decode_quoted_string_loop
                          simp only [h0, if_false, hplain, Bool.false_eq_true, h39, h34, h92, h110, h114, h116, h98, h102, h117, hU, if_true]
                          exact hb bufsize len buffer
                      | true =>
                          have h6 : 6 ≤ remaining := by
                            by_contra hcon
                            simp only [Bool.and_eq_true, bne_iff_ne, ne_eq] at hU
                            have hcases : remaining = 2 ∨ remaining = 3 ∨ remaining = 4 := by omega
                            have hget : (character :: escaped :: after2).getD remaining 0 = 34 := by
                              rw [List.getD_eq_getElem?_getD, hquote]
                              rfl
                            have hnothex : jsonl_is_hex_value 34 = false := by decide
                            rcases hcases with h | h | h
                            · rw [h] at hget
                              rw [hget, hnothex] at hU
                              simp at hU
                            · rw [h] at hget
                              rw [hget, hnothex] at hU
                              simp at hU
                            · rw [h] at hget
                              rw [hget, hnothex] at hU
                              simp at hU
                          have hnot6 : ¬ remaining < 6 := by omega
                          obtain ⟨bytes6, hbytes6⟩ := hrec 6 (by omega) h6
                          generalize hu :
                            (jsonl_hex_value ((character :: escaped :: after2).getD 2 0) <<< 12) |||
                            (jsonl_hex_value ((character :: escaped :: after2).getD 3 0) <<< 8) |||
                            (jsonl_hex_value ((character :: escaped :: after2).getD 4 0) <<< 4) |||
                            jsonl_hex_value ((character :: escaped :: after2).getD 5 0) = unicode_character
                          by_cases hbig : unicode_character > 2047
                          · refine ⟨[(unicode_character / 4096) % 256 ||| 224,
                              (unicode_character / 64) % 64 ||| 128, unicode_character % 64 ||| 128] ++
                              bytes6, fun bufsize len buffer => ?_⟩
                            have := jsonl_decode_quoted_string_loop_step fuel (remaining - 6) _ bytes6
                              hbytes6 [(unicode_character / 4096) % 256 ||| 224,
                                (unicode_character / 64) % 64 ||| 128, unicode_character % 64 ||| 128]
                              bufsize len buffer
                              (jsonl_decode_store bufsize (len + 2)
                                (jsonl_decode_store bufsize (len + 1)
                                  (jsonl_decode_store bufsize len buffer
                                    ((unicode_character / 4096) % 256 ||| 224))
                                  ((unicode_character / 64) % 64 ||| 128))
                                (unicode_character % 64 ||| 128))
                              (fun hfit => by
                                have hfit3 : len + 3 ≤ bufsize := hfit
                                rw [jsonl_decode_store_fits _ _ _ _ (by omega : len < bufsize),
                                  jsonl_decode_store_fits _ _ _ _ (by omega : len + 1 < bufsize),
                                  jsonl_decode_store_fits _ _ _ _ (by omega : len + 2 < bufsize)]
                                simp)
                            unfold jsonl_decode_quoted_string_loop
                            simp only [h0, if_false, hplain, Bool.false_eq_true, h39, h34, h92, h110, h114, h116, h98, h102, h117, hU, if_true, hu,
                              hnot6, hbig]
                            exact this
                          · by_cases hmid : unicode_character > 127
                            · refine ⟨[(unicode_character / 64) % 256 ||| 192,
                                unicode_character % 64 ||| 128] ++ bytes6, fun bufsize len buffer => ?_⟩
                              have := jsonl_decode_quoted_string_loop_step fuel (remaining - 6) _ bytes6
                                hbytes6 [(unicode_character / 64) % 256 ||| 192,
                                  unicode_character % 64 ||| 128]
                                bufsize len buffer
                                (jsonl_decode_store bufsize (len + 1)
                                  (jsonl_decode_store bufsize len buffer
                                    ((unicode_character / 64) % 256 ||| 192))
                                  (unicode_character % 64 ||| 128))
                                (fun hfit => by
                                  have hfit2 : len + 2 ≤ bufsize := hfit
                                  rw [jsonl_decode_store_fits _ _ _ _ (by omega : len < bufsize),
                                    jsonl_decode_store_fits _ _ _ _ (by omega : len + 1 < bufsize)]
                                  simp)
                              unfold jsonl_decode_quoted_string_loop
                              simp only [h0, if_false, hplain, Bool.false_eq_true, h39, h34, h92, h110, h114, h116, h98, h102, h117, hU, if_true, hu,
                                hnot6, hbig, hmid]
                              exact this
                            · refine ⟨[unicode_character % 256] ++ bytes6, fun bufsize len buffer => ?_⟩
                              have := jsonl_decode_quoted_string_loop_step fuel (remaining - 6) _ bytes6
                                hbytes6 [unicode_character % 256] bufsize len buffer
                                (jsonl_decode_store bufsize len buffer (unicode_character % 256))
                                (fun hfit => jsonl_decode_store_fits _ _ _ _ (by
                                  simp only [List.length_singleton] at hfit; omega))
                              unfold jsonl_decode_quoted_string_loop
                              simp only [h0, if_false, hplain, Bool.false_eq_true, h39, h34, h92, h110, h114, h116, h98, h102, h117, hU, if_true, hu,
                                hnot6, hbig, hmid]
                              exact this

theorem jsonl_decode_quoted_string_total (json_text : List Nat) :
    ∃ bytes : List Nat, ∀ string_buffer_size, ∃ out,
      jsonl_decode_quoted_string json_text string_buffer_size =
        some (jsonl_quoted_string_lenght json_text, bytes.length, out) ∧
      (bytes.length ≤ string_buffer_size → out = bytes) := by
  by_cases h : jsonl_quoted_string_lenght json_text = 0
  · refine ⟨[], fun bufsize => ⟨[], ?_, fun _ => rfl⟩⟩
    simp [jsonl_decode_quoted_string, h]
  · obtain ⟨h1, h2, h3⟩ := jsonl_quoted_string_lenght_spec json_text h
    have hquote : (json_text.drop 1)[jsonl_quoted_string_lenght json_text - 2]? = some 34 := by
      rw [List.getElem?_drop]
      have : 1 + (jsonl_quoted_string_lenght json_text - 2) =
          jsonl_quoted_string_lenght json_text - 1 := by omega
      rw [this]
      exact h3
    obtain ⟨bytes, hbytes⟩ := jsonl_decode_quoted_string_loop_total
      (jsonl_quoted_string_lenght json_text - 2) (jsonl_quoted_string_lenght json_text - 2)
      (json_text.drop 1) (le_refl _) hquote
    refine ⟨bytes, fun bufsize => ?_⟩
    obtain ⟨out, ho1, ho2⟩ := hbytes bufsize 0 []
    refine ⟨out, ?_, fun hfit => ?_⟩
    · simp only [jsonl_decode_quoted_string, h, if_false, ho1, Option.map_some', Nat.zero_add]
    · rw [ho2 (by omega)]
      rfl

/-! ### The parser: spans and counting -/

theorem jsonl_container_text_size_loop_take (opening closing : Nat) :
    ∀ (fuel : Nat) (read : List Nat) (offset depth size : Nat),
      jsonl_container_text_size_loop opening closing fuel read offset depth = size →
      size ≠ 0 →
      offset < size ∧ size ≤ offset + read.length ∧
        ∀ other_fuel, size - offset ≤ other_fuel →
          jsonl_container_text_size_loop opening closing other_fuel
            (read.take (size - offset)) offset depth = size := by
  intro fuel
  induction fuel with
  | zero =>
      intro read offset depth size h hne
      simp only [jsonl_container_text_size_loop] at h
      exact absurd h.symm hne
  | succ fuel ih =>
      intro read offset depth size h hne
      cases read with
      | nil =>
          simp only [jsonl_container_text_size_loop] at h
          exact absurd h.symm hne
      | cons character after =>
          simp only [jsonl_container_text_size_loop] at h
          cases hclose : (character == closing) with
          | true =>
              simp only [hclose, if_true] at h
              cases hdepth : (depth - 1 == 0) with
              | true =>
                  simp only [hdepth, if_true] at h
                  subst h
                  refine ⟨by omega, by simp only [List.length_cons]; omega, ?_⟩
                  intro other_fuel hf
                  have h1 : offset + 1 - offset = 1 := by omega
                  rw [h1] at hf ⊢
                  obtain ⟨f, rfl⟩ : ∃ f, other_fuel = f + 1 := ⟨other_fuel - 1, by omega⟩
                  simp only [List.take_succ_cons, List.take_zero,
                    jsonl_container_text_size_loop, hclose, hdepth, if_true]
              | false =>
                  simp only [hdepth, Bool.false_eq_true, if_false] at h
                  obtain ⟨h1, h2, h3⟩ := ih after (offset + 1) (depth - 1) size h hne
                  refine ⟨by omega, by simp only [List.length_cons]; omega, ?_⟩
                  intro other_fuel hf
                  obtain ⟨f, rfl⟩ : ∃ f, other_fuel = f + 1 := ⟨other_fuel - 1, by omega⟩
                  obtain ⟨k, hk⟩ : ∃ k, size - offset = k + 1 := ⟨size - offset - 1, by omega⟩
                  have hk2 : size - (offset + 1) = k := by omega
                  rw [hk, List.take_succ_cons]
                  simp only [jsonl_container_text_size_loop, hclose, hdepth, if_true,
                    Bool.false_eq_true, if_false]
                  rw [← hk2]
                  exact h3 f (by omega)
          | false =>
              simp only [hclose, Bool.false_eq_true, if_false] at h
              cases hopen : (character == opening) with
              | true =>
                  simp only [hopen, if_true] at h
                  obtain ⟨h1, h2, h3⟩ := ih after (offset + 1) (depth + 1) size h hne
                  refine ⟨by omega, by simp only [List.length_cons]; omega, ?_⟩
                  intro other_fuel hf
                  obtain ⟨f, rfl⟩ : ∃ f, other_fuel = f + 1 := ⟨other_fuel - 1, by omega⟩
                  obtain ⟨k, hk⟩ : ∃ k, size - offset = k + 1 := ⟨size - offset - 1, by omega⟩
                  have hk2 : size - (offset + 1) = k := by omega
                  rw [hk, List.take_succ_cons]
                  simp only [jsonl_container_text_size_loop, hclose, hopen, if_true,
                    Bool.false_eq_true, if_false]
                  rw [← hk2]
                  exact h3 f (by omega)
              | false =>
                  simp only [hopen, Bool.false_eq_true, if_false] at h
                  cases hquote : (character == 34) with
                  | true =>
                      simp only [hquote, if_true] at h
                      cases hq : (jsonl_quoted_string_lenght (character :: after) != 0) with
                      | false =>
                          simp only [hq, Bool.false_eq_true, if_false] at h
                          exact absurd h.symm hne
                      | true =>
                          simp only [hq, if_true] at h
                          have hq0 : jsonl_quoted_string_lenght (character :: after) ≠ 0 := by
                            simpa using hq
                          obtain ⟨q1, q2, _⟩ := jsonl_quoted_string_lenght_spec _ hq0
                          obtain ⟨h1, h2, h3⟩ := ih _ _ depth size h hne
                          rw [List.length_drop] at h2
                          refine ⟨by omega, by omega, ?_⟩
                          intro other_fuel hf
                          obtain ⟨f, rfl⟩ : ∃ f, other_fuel = f + 1 :=
                            ⟨other_fuel - 1, by omega⟩
                          obtain ⟨k, hk⟩ : ∃ k, size - offset = k + 1 :=
                            ⟨size - offset - 1, by omega⟩
                          have htake := jsonl_quoted_string_lenght_take (character :: after)
                            (k + 1) hq0 (by omega)
                          rw [hk]
                          rw [List.take_succ_cons] at htake ⊢
                          have hq2 : (jsonl_quoted_string_lenght
                              (character :: List.take k after) != 0) = true := by
                            rw [htake]; exact hq
                          simp only [jsonl_container_text_size_loop, hclose, hopen, hquote,
                            if_true, Bool.false_eq_true, if_false, hq2]
                          rw [htake, ← List.take_succ_cons, List.drop_take]
                          have hk3 : k + 1 - jsonl_quoted_string_lenght (character :: after) =
                              size - (offset + jsonl_quoted_string_lenght (character :: after))
                              := by omega
                          rw [hk3]
                          exact h3 f (by omega)
                  | false =>
                      simp only [hquote, Bool.false_eq_true, if_false] at h
                      obtain ⟨h1, h2, h3⟩ := ih after (offset + 1) depth size h hne
                      refine ⟨by omega, by simp only [List.length_cons]; omega, ?_⟩
                      intro other_fuel hf
                      obtain ⟨f, rfl⟩ : ∃ f, other_fuel = f + 1 := ⟨other_fuel - 1, by omega⟩
                      obtain ⟨k, hk⟩ : ∃ k, size - offset = k + 1 :=
                        ⟨size - offset - 1, by omega⟩
                      have hk2 : size - (offset + 1) = k := by omega
                      rw [hk, List.take_succ_cons]
                      simp only [jsonl_container_text_size_loop, hclose, hopen, hquote,
                        if_true, Bool.false_eq_true, if_false]
                      rw [← hk2]
                      exact h3 f (by omega)

theorem jsonl_object_text_size_take (json_text : List Nat)
    (h : jsonl_object_text_size json_text ≠ 0) :
    2 ≤ jsonl_object_text_size json_text ∧
      jsonl_object_text_size json_text ≤ json_text.length ∧
      jsonl_object_text_size (json_text.take (jsonl_object_text_size json_text)) =
        jsonl_object_text_size json_text := by
  unfold jsonl_object_text_size at h ⊢
  split at h
  · rename_i read
    obtain ⟨h1, h2, h3⟩ := jsonl_container_text_size_loop_take 123 125 read.length read 1 1 _
      rfl h
    refine ⟨by omega, by simp only [List.length_cons]; omega, ?_⟩
    obtain ⟨k, hk⟩ : ∃ k, jsonl_container_text_size_loop 123 125 read.length read 1 1 = k + 1 :=
      ⟨_, (Nat.succ_pred_eq_of_pos (by omega)).symm⟩
    rw [hk, List.take_succ_cons]
    have hlen : (List.take k read).length = k := by
      rw [List.length_take]; omega
    have := h3 k (by omega)
    rw [hk] at this
    simp only [Nat.add_sub_cancel] at this
    show jsonl_container_text_size_loop 123 125 (List.take k read).length (List.take k read) 1 1 =
      k + 1
    rw [hlen, this]
  · exact absurd rfl h

theorem jsonl_array_text_size_take (json_text : List Nat)
    (h : jsonl_array_text_size json_text ≠ 0) :
    2 ≤ jsonl_array_text_size json_text ∧
      jsonl_array_text_size json_text ≤ json_text.length ∧
      jsonl_array_text_size (json_text.take (jsonl_array_text_size json_text)) =
        jsonl_array_text_size json_text := by
  unfold jsonl_array_text_size at h ⊢
  split at h
  · rename_i read
    obtain ⟨h1, h2, h3⟩ := jsonl_container_text_size_loop_take 91 93 read.length read 1 1 _
      rfl h
    refine ⟨by omega, by simp only [List.length_cons]; omega, ?_⟩
    obtain ⟨k, hk⟩ : ∃ k, jsonl_container_text_size_loop 91 93 read.length read 1 1 = k + 1 :=
      ⟨_, (Nat.succ_pred_eq_of_pos (by omega)).symm⟩
    rw [hk, List.take_succ_cons]
    have hlen : (List.take k read).length = k := by
      rw [List.length_take]; omega
    have := h3 k (by omega)
    rw [hk] at this
    simp only [Nat.add_sub_cancel] at this
    show jsonl_container_text_size_loop 91 93 (List.take k read).length (List.take k read) 1 1 =
      k + 1
    rw [hlen, this]
  · exact absurd rfl h

theorem jsonl_decide_value_type_spec (json_text : List Nat) :
    ((jsonl_decide_value_type json_text).1 = JSONL_TYPE_NULL ∧
        (jsonl_decide_value_type json_text).2 ≠ 0) ∨
      ((jsonl_decide_value_type json_text).1 = JSONL_TYPE_BOOLEAN ∧
        (jsonl_decide_value_type json_text).2 ≠ 0) ∨
      ((jsonl_decide_value_type json_text).1 = JSONL_TYPE_OBJECT ∧
        (jsonl_decide_value_type json_text).2 = jsonl_object_text_size json_text ∧
        jsonl_object_text_size json_text ≠ 0) ∨
      ((jsonl_decide_value_type json_text).1 = JSONL_TYPE_ARRAY ∧
        (jsonl_decide_value_type json_text).2 = jsonl_array_text_size json_text ∧
        jsonl_array_text_size json_text ≠ 0) ∨
      ((jsonl_decide_value_type json_text).1 = JSONL_TYPE_NUMBER ∧
        (jsonl_decide_value_type json_text).2 ≠ 0) ∨
      ((jsonl_decide_value_type json_text).1 = JSONL_TYPE_STRING ∧
        (jsonl_decide_value_type json_text).2 ≠ 0) ∨
      (jsonl_decide_value_type json_text).1 = JSONL_TYPE_ERROR := by
  unfold jsonl_decide_value_type
  split
  · exact Or.inl ⟨rfl, by decide⟩
  · split
    · rename_i h
      exact Or.inr (Or.inl ⟨rfl, by simpa using h⟩)
    · split
      · rename_i h
        exact Or.inr (Or.inr (Or.inl ⟨rfl, rfl, by simpa using h⟩))
      · split
        · rename_i h
          exact Or.inr (Or.inr (Or.inr (Or.inl ⟨rfl, rfl, by simpa using h⟩)))
        · split
          · rename_i h
            exact Or.inr (Or.inr (Or.inr (Or.inr (Or.inl ⟨rfl, by simpa using h⟩))))
          · split
            · rename_i h
              exact Or.inr (Or.inr (Or.inr (Or.inr (Or.inr (Or.inl ⟨rfl, by simpa using h⟩)))))
            · exact Or.inr (Or.inr (Or.inr (Or.inr (Or.inr (Or.inr rfl)))))

/-! ### The parser: the loops of the tree builder -/

theorem jsonl_create_tree_from_text_object_loop_done
    (child : List Nat → Nat → Option (Nat × Nat × Option jsonl_value_t))
    (sub_value_count fuel remaining : Nat) (read : List Nat) (expecting : Bool) :
    jsonl_parses_children (fun capacity value_size table =>
      jsonl_create_tree_from_text_object_loop child capacity sub_value_count fuel remaining
        read sub_value_count expecting value_size table) := by
  refine Or.inr ⟨0, [], fun capacity value_size table => ⟨[], ?_, fun _ => rfl⟩⟩
  cases fuel <;> simp [jsonl_create_tree_from_text_object_loop]

theorem jsonl_count_loop_end (object_count : Nat) (expecting : Bool) (sub_value_count : Nat)
    (h : (if (object_count == 0 || !expecting) = true then object_count else jsonl_size_max) =
      sub_value_count) (hne : sub_value_count ≠ jsonl_size_max) :
    object_count = sub_value_count := by
  split at h
  · exact h
  · exact absurd h.symm hne

theorem jsonl_take_cons_eq (read : List Nat) (remaining : Nat) (character : Nat)
    (counted : List Nat) (h : read.take remaining = character :: counted) :
    ∃ after left, read = character :: after ∧ remaining = left + 1 ∧
      after.take left = counted := by
  cases remaining with
  | zero => simp at h
  | succ left =>
      cases read with
      | nil => simp at h
      | cons first after =>
          rw [List.take_succ_cons] at h
          injection h with h1 h2
          exact ⟨after, left, by rw [h1], rfl, h2⟩

theorem jsonl_create_tree_from_text_object_loop_total
    (child : List Nat → Nat → Option (Nat × Nat × Option jsonl_value_t)) (bound : Nat)
    (hchild : ∀ text : List Nat, text.length ≤ bound →
      jsonl_parses (child text) (jsonl_decide_value_type text).2) :
    ∀ (count_fuel : Nat) (counted : List Nat) (object_count : Nat) (expecting : Bool)
      (sub_value_count : Nat),
      jsonl_count_object_name_value_pairs_loop count_fuel counted object_count expecting =
        sub_value_count →
      sub_value_count ≠ jsonl_size_max →
      ∀ (fuel remaining : Nat) (read : List Nat), read.take remaining = counted →
        count_fuel ≤ fuel → read.length ≤ bound →
        jsonl_parses_children (fun capacity value_size table =>
          jsonl_create_tree_from_text_object_loop child capacity sub_value_count fuel
            remaining read object_count expecting value_size table) := by
  intro count_fuel
  induction count_fuel with
  | zero =>
      intro counted object_count expecting sub_value_count hcount hne fuel remaining read _ _ _
      simp only [jsonl_count_object_name_value_pairs_loop] at hcount
      rw [jsonl_count_loop_end _ _ _ hcount hne]
      exact jsonl_create_tree_from_text_object_loop_done child _ _ _ _ _
  | succ count_fuel ih =>
      intro counted object_count expecting sub_value_count hcount hne fuel remaining read
        htake hfuel hbound
      by_cases hidx : object_count = sub_value_count
      · rw [hidx]
        exact jsonl_create_tree_from_text_object_loop_done child _ _ _ _ _
      have hidx2 : (object_count == sub_value_count) = false := by
        simp only [beq_eq_false_iff_ne, ne_eq]; exact hidx
      cases counted with
      | nil =>
          simp only [jsonl_count_object_name_value_pairs_loop] at hcount
          exact absurd (jsonl_count_loop_end _ _ _ hcount hne) hidx
      | cons character counted_after =>
          obtain ⟨after, left, rfl, rfl, hafter⟩ := jsonl_take_cons_eq _ _ _ _ htake
          obtain ⟨fuel, rfl⟩ : ∃ f, fuel = f + 1 := ⟨fuel - 1, by omega⟩
          have hstep : ∀ (next_count : Nat) (next_expecting : Bool),
              jsonl_count_object_name_value_pairs_loop count_fuel counted_after next_count
                next_expecting = sub_value_count →
              jsonl_parses_children (fun capacity value_size table =>
                jsonl_create_tree_from_text_object_loop child capacity sub_value_count fuel
                  (left + 1 - 1) after next_count next_expecting value_size table) := by
            intro next_count next_expecting h
            exact ih counted_after next_count next_expecting sub_value_count h hne fuel
              (left + 1 - 1) after (by simpa using hafter) (by omega)
              (by simp only [List.length_cons] at hbound; omega)
          simp only [jsonl_count_object_name_value_pairs_loop] at hcount
          cases expecting with
          | false =>
              simp only [Bool.false_eq_true, if_false] at hcount
              cases hcomma : (character == 44) with
              | true =>
                  simp only [hcomma, if_true] at hcount
                  have := hstep object_count true hcount
                  simpa only [jsonl_create_tree_from_text_object_loop, hidx2,
                    Bool.false_eq_true, if_false, hcomma, if_true] using this
              | false =>
                  simp only [hcomma, Bool.false_eq_true, if_false] at hcount
                  cases hspace : (!jsonl_is_white_space character) with
                  | true =>
                      simp only [hspace, if_true] at hcount
                      exact absurd hcount.symm hne
                  | false =>
                      simp only [hspace, Bool.false_eq_true, if_false] at hcount
                      have := hstep object_count false hcount
                      simpa only [jsonl_create_tree_from_text_object_loop, hidx2,
                        Bool.false_eq_true, if_false, hcomma, hspace] using this
          | true =>
              simp only [if_true] at hcount
              cases hquote : (character == 34) with
              | false =>
                  simp only [hquote, Bool.false_eq_true, if_false] at hcount
                  cases hspace : jsonl_is_white_space character with
                  | false =>
                      simp only [hspace, Bool.false_eq_true, if_false] at hcount
                      exact absurd hcount.symm hne
                  | true =>
                      simp only [hspace, if_true] at hcount
                      have := hstep object_count true hcount
                      simpa only [jsonl_create_tree_from_text_object_loop, hidx2,
                        Bool.false_eq_true, if_false, hquote, hspace, if_true] using this
              | true =>
                  simp only [hquote, if_true] at hcount
                  have htake2 : (character :: after).take (left + 1) =
                      character :: counted_after := by
                    rw [List.take_succ_cons, hafter]
                  generalize hpair : jsonl_name_value_pair_size (character :: counted_after) =
                    pair at hcount
                  cases hsize : (pair.size == 0) with
                  | true =>
                      simp only [hsize, if_true] at hcount
                      exact absurd hcount.symm hne
                  | false =>
                  simp only [hsize, Bool.false_eq_true, if_false] at hcount
                  have hrest := ih ((character :: counted_after).drop pair.size)
                    (object_count + 1) false sub_value_count hcount hne fuel
                    (left + 1 - pair.size) ((character :: after).drop pair.size)
                    (by rw [← htake2, List.drop_take]) (by omega)
                    (by rw [List.length_drop]; omega)
                  obtain ⟨bytes, hbytes⟩ := jsonl_decode_quoted_string_total
                    ((character :: after).take pair.name_size)
                  by_cases hd : jsonl_quoted_string_lenght
                      ((character :: after).take pair.name_size) = 0
                  · refine Or.inl (fun capacity value_size table => ?_)
                    obtain ⟨out, ho, _⟩ := hbytes (jsonl_remaining value_size capacity)
                    simp only [jsonl_create_tree_from_text_object_loop, hidx2, Bool.false_eq_true,
                      if_false, hquote, if_true, htake2, hpair, hsize, ho, hd, beq_self_eq_true]
                  · have hd2 : (jsonl_quoted_string_lenght
                        ((character :: after).take pair.name_size) == 0) = false := by
                      simp only [beq_eq_false_iff_ne, ne_eq]; exact hd
                    rcases hchild (((character :: after).drop pair.value_offset).take
                        pair.value_size)
                        (by
                          simp only [List.length_take, List.length_drop, List.length_cons]
                            at hbound ⊢
                          omega) with
                      hfail | ⟨hvts, tree_size, tree, hts, hcall⟩
                    · refine Or.inl (fun capacity value_size table => ?_)
                      obtain ⟨out, ho, _⟩ := hbytes (jsonl_remaining value_size capacity)
                      simp only [jsonl_create_tree_from_text_object_loop, hidx2,
                        Bool.false_eq_true, if_false, hquote, if_true, htake2, hpair, hsize, ho,
                        hd2, hfail, beq_self_eq_true]
                    · have hvts2 : ((jsonl_decide_value_type
                          (((character :: after).drop pair.value_offset).take
                            pair.value_size)).2 == 0) = false := by
                        simp only [beq_eq_false_iff_ne, ne_eq]; exact hvts
                      rcases hrest with hrfail | ⟨added, children, hradd⟩
                      · refine Or.inl (fun capacity value_size table => ?_)
                        obtain ⟨out, ho, _⟩ := hbytes (jsonl_remaining value_size capacity)
                        simp only [jsonl_create_tree_from_text_object_loop, hidx2,
                          Bool.false_eq_true, if_false, hquote, if_true, htake2, hpair, hsize,
                          ho, hd2, hcall, hvts2, hrfail]
                      · refine Or.inr ⟨jsonl_round_size (bytes.length + 1) + tree_size + added,
                          (bytes, tree) :: children, fun capacity value_size table => ?_⟩
                        obtain ⟨out, ho, hofit⟩ := hbytes (jsonl_remaining value_size capacity)
                        simp only [jsonl_create_tree_from_text_object_loop, hidx2,
                          Bool.false_eq_true, if_false, hquote, if_true, htake2, hpair, hsize,
                          ho, hd2, hcall, hvts2]
                        obtain ⟨placed, hp, hpfit⟩ := hradd capacity
                          (value_size + jsonl_round_size (bytes.length + 1) + tree_size)
                          (table ++
                            [if value_size + jsonl_round_size (bytes.length + 1) ≤ capacity then
                              (if tree_size ≤ jsonl_remaining
                                  (value_size + jsonl_round_size (bytes.length + 1))
                                  capacity then some tree else none).map
                                (fun v => (out, v)) else none])
                        refine ⟨(if value_size + jsonl_round_size (bytes.length + 1) ≤
                            capacity then
                              (if tree_size ≤ jsonl_remaining
                                  (value_size + jsonl_round_size (bytes.length + 1))
                                  capacity then some tree else none).map
                                (fun v => (out, v)) else none) :: placed, ?_, fun hfit => ?_⟩
                        · simp only [] at hp
                          rw [hp]
                          simp only [List.append_assoc, List.singleton_append, Nat.add_assoc]
                        · have hround := jsonl_round_size_ge (bytes.length + 1)
                          have h1 : value_size + jsonl_round_size (bytes.length + 1) ≤
                              capacity := by omega
                          have h2 : tree_size ≤ jsonl_remaining
                              (value_size + jsonl_round_size (bytes.length + 1)) capacity := by
                            unfold jsonl_remaining; omega
                          have h3 : bytes.length ≤ jsonl_remaining value_size capacity := by
                            unfold jsonl_remaining; omega
                          rw [hpfit (by omega), hofit h3]
                          simp only [h1, h2, if_true, Option.map_some', List.map_cons]

theorem jsonl_create_tree_from_text_array_loop_done
    (child : List Nat → Nat → Option (Nat × Nat × Option jsonl_value_t))
    (sub_value_count fuel remaining : Nat) (read : List Nat) (expecting : Bool) :
    jsonl_parses_children (fun capacity value_size table =>
      jsonl_create_tree_from_text_array_loop child capacity sub_value_count fuel remaining
        read sub_value_count expecting value_size table) := by
  refine Or.inr ⟨0, [], fun capacity value_size table => ⟨[], ?_, fun _ => rfl⟩⟩
  cases fuel <;> simp [jsonl_create_tree_from_text_array_loop]

theorem jsonl_create_tree_from_text_array_loop_total
    (child : List Nat → Nat → Option (Nat × Nat × Option jsonl_value_t)) (bound : Nat)
    (hchild : ∀ text : List Nat, text.length ≤ bound →
      jsonl_parses (child text) (jsonl_decide_value_type text).2) :
    ∀ (count_fuel : Nat) (counted : List Nat) (object_count : Nat) (expecting : Bool)
      (sub_value_count : Nat),
      jsonl_count_array_values_loop count_fuel counted object_count expecting =
        sub_value_count →
      sub_value_count ≠ jsonl_size_max →
      ∀ (fuel remaining : Nat) (read : List Nat), read.take remaining = counted →
        count_fuel ≤ fuel → read.length ≤ bound →
        jsonl_parses_children (fun capacity value_size table =>
          jsonl_create_tree_from_text_array_loop child capacity sub_value_count fuel
            remaining read object_count expecting value_size table) := by
  intro count_fuel
  induction count_fuel with
  | zero =>
      intro counted object_count expecting sub_value_count hcount hne fuel remaining read _ _ _
      simp only [jsonl_count_array_values_loop] at hcount
      rw [jsonl_count_loop_end _ _ _ hcount hne]
      exact jsonl_create_tree_from_text_array_loop_done child _ _ _ _ _
  | succ count_fuel ih =>
      intro counted object_count expecting sub_value_count hcount hne fuel remaining read
        htake hfuel hbound
      by_cases hidx : object_count = sub_value_count
      · rw [hidx]
        exact jsonl_create_tree_from_text_array_loop_done child _ _ _ _ _
      have hidx2 : (object_count == sub_value_count) = false := by
        simp only [beq_eq_false_iff_ne, ne_eq]; exact hidx
      cases counted with
      | nil =>
          simp only [jsonl_count_array_values_loop] at hcount
          exact absurd (jsonl_count_loop_end _ _ _ hcount hne) hidx
      | cons character counted_after =>
          obtain ⟨after, left, rfl, rfl, hafter⟩ := jsonl_take_cons_eq _ _ _ _ htake
          obtain ⟨fuel, rfl⟩ : ∃ f, fuel = f + 1 := ⟨fuel - 1, by omega⟩
          have hstep : ∀ (next_count : Nat) (next_expecting : Bool),
              jsonl_count_array_values_loop count_fuel counted_after next_count
                next_expecting = sub_value_count →
              jsonl_parses_children (fun capacity value_size table =>
                jsonl_create_tree_from_text_array_loop child capacity sub_value_count fuel
                  (left + 1 - 1) after next_count next_expecting value_size table) := by
            intro next_count next_expecting h
            exact ih counted_after next_count next_expecting sub_value_count h hne fuel
              (left + 1 - 1) after (by simpa using hafter) (by omega)
              (by simp only [List.length_cons] at hbound; omega)
          simp only [jsonl_count_array_values_loop] at hcount
          cases expecting with
          | false =>
              simp only [Bool.false_eq_true, if_false] at hcount
              cases hcomma : (character == 44) with
              | true =>
                  simp only [hcomma, if_true] at hcount
                  have := hstep object_count true hcount
                  simpa only [jsonl_create_tree_from_text_array_loop, hidx2,
                    Bool.false_eq_true, if_false, hcomma, if_true] using this
              | false =>
                  simp only [hcomma, Bool.false_eq_true, if_false] at hcount
                  cases hspace : (!jsonl_is_white_space character) with
                  | true =>
                      simp only [hspace, if_true] at hcount
                      exact absurd hcount.symm hne
                  | false =>
                      simp only [hspace, Bool.false_eq_true, if_false] at hcount
                      have := hstep object_count false hcount
                      simpa only [jsonl_create_tree_from_text_array_loop, hidx2,
                        Bool.false_eq_true, if_false, hcomma, hspace] using this
          | true =>
              simp only [if_true] at hcount
              cases hspace : jsonl_is_white_space character with
              | true =>
                  simp only [hspace, if_true] at hcount
                  have := hstep object_count true hcount
                  simpa only [jsonl_create_tree_from_text_array_loop, hidx2,
                    Bool.false_eq_true, if_false, hspace, if_true] using this
              | false =>
                  simp only [hspace, Bool.false_eq_true, if_false] at hcount
                  have htake2 : (character :: after).take (left + 1) =
                      character :: counted_after := by
                    rw [List.take_succ_cons, hafter]
                  cases htype : ((jsonl_decide_value_type (character :: counted_after)).1 ==
                      JSONL_TYPE_ERROR) with
                  | true =>
                      simp only [htype, if_true] at hcount
                      exact absurd hcount.symm hne
                  | false =>
                  simp only [htype, Bool.false_eq_true, if_false] at hcount
                  have hrest := ih _ (object_count + 1) false sub_value_count hcount hne fuel
                    (left + 1 - (jsonl_decide_value_type (character :: counted_after)).2)
                    ((character :: after).drop
                      (jsonl_decide_value_type (character :: counted_after)).2)
                    (by rw [← htake2, List.drop_take]) (by omega)
                    (by rw [List.length_drop]; omega)
                  rcases hchild (character :: counted_after)
                      (by
                        rw [← htake2]
                        simp only [List.length_take, List.length_cons] at hbound ⊢
                        omega) with
                    hfail | ⟨hvts, tree_size, tree, hts, hcall⟩
                  · refine Or.inl (fun capacity value_size table => ?_)
                    simp only [jsonl_create_tree_from_text_array_loop, hidx2,
                      Bool.false_eq_true, if_false, hspace, if_true, htake2, hfail,
                      beq_self_eq_true]
                  · have hvts2 : ((jsonl_decide_value_type (character :: counted_after)).2 ==
                        0) = false := by
                      simp only [beq_eq_false_iff_ne, ne_eq]; exact hvts
                    rcases hrest with hrfail | ⟨added, children, hradd⟩
                    · refine Or.inl (fun capacity value_size table => ?_)
                      simp only [jsonl_create_tree_from_text_array_loop, hidx2,
                        Bool.false_eq_true, if_false, hspace, if_true, htake2, hcall, hvts2,
                        hrfail]
                    · refine Or.inr ⟨tree_size + added, tree :: children,
                        fun capacity value_size table => ?_⟩
                      simp only [jsonl_create_tree_from_text_array_loop, hidx2,
                        Bool.false_eq_true, if_false, hspace, if_true, htake2, hcall, hvts2]
                      obtain ⟨placed, hp, hpfit⟩ := hradd capacity (value_size + tree_size)
                        (table ++
                          [if value_size ≤ capacity then
                            (if tree_size ≤ jsonl_remaining value_size capacity then some tree
                              else none) else none])
                      refine ⟨(if value_size ≤ capacity then
                          (if tree_size ≤ jsonl_remaining value_size capacity then some tree
                            else none) else none) :: placed, ?_, fun hfit => ?_⟩
                      · simp only [] at hp
                        rw [hp]
                        simp only [List.append_assoc, List.singleton_append, Nat.add_assoc]
                      · have h1 : value_size ≤ capacity := by omega
                        have h2 : tree_size ≤ jsonl_remaining value_size capacity := by
                          unfold jsonl_remaining; omega
                        rw [hpfit (by omega)]
                        simp only [h1, h2, if_true, List.map_cons]

/-! ### The parser: the tree builder -/

theorem jsonl_written_decide {α : Type} (p : Prop) [Decidable p] (a : α) :
    jsonl_written (decide p) a = if p then some a else none := by
  by_cases h : p <;> simp [jsonl_written, h]

theorem jsonl_parses_leaf (call : Nat → Option (Nat × Nat × Option jsonl_value_t))
    (value_text_size tree_size : Nat) (tree : jsonl_value_t) (h1 : value_text_size ≠ 0)
    (h2 : tree_size ≠ 0)
    (h : ∀ capacity, call capacity =
      some (value_text_size, tree_size, if tree_size ≤ capacity then some tree else none)) :
    jsonl_parses call value_text_size :=
  Or.inr ⟨h1, tree_size, tree, h2, h⟩

theorem jsonl_create_tree_from_text_parses (pf : jsonl_platform_t) :
    ∀ (fuel : Nat) (json_text : List Nat), json_text.length < fuel →
      jsonl_parses (jsonl_create_tree_from_text pf fuel json_text)
        (jsonl_decide_value_type json_text).2 := by
  intro fuel
  induction fuel with
  | zero => intro json_text h; omega
  | succ fuel ih =>
      intro json_text hlen
      rcases jsonl_decide_value_type_spec json_text with
        ⟨ht, hs⟩ | ⟨ht, hs⟩ | ⟨ht, hs, hsize⟩ | ⟨ht, hs, hsize⟩ | ⟨ht, hs⟩ | ⟨ht, hs⟩ | ht
      · -- null
        refine jsonl_parses_leaf _ _ 40 .null hs (by decide) (fun capacity => ?_)
        simp only [jsonl_create_tree_from_text, ht, JSONL_TYPE_NULL, JSONL_TYPE_OBJECT,
          JSONL_TYPE_ARRAY, JSONL_TYPE_STRING, JSONL_TYPE_NUMBER, JSONL_TYPE_BOOLEAN,
          Nat.reduceBEq, Bool.false_eq_true, if_false, if_true, jsonl_header_size,
          jsonl_written_decide]
      · -- boolean
        cases hd : ((jsonl_decode_boolean
            (json_text.take (jsonl_decide_value_type json_text).2)).1 == 0) with
        | true =>
            refine Or.inl (fun capacity => ?_)
            simp only [jsonl_create_tree_from_text, ht, JSONL_TYPE_NULL, JSONL_TYPE_OBJECT,
              JSONL_TYPE_ARRAY, JSONL_TYPE_STRING, JSONL_TYPE_NUMBER, JSONL_TYPE_BOOLEAN,
              Nat.reduceBEq, Bool.false_eq_true, if_false, if_true, hd]
        | false =>
            refine jsonl_parses_leaf _ _ 40 (.boolean (jsonl_decode_boolean
              (json_text.take (jsonl_decide_value_type json_text).2)).2) hs (by decide)
              (fun capacity => ?_)
            simp only [jsonl_create_tree_from_text, ht, JSONL_TYPE_NULL, JSONL_TYPE_OBJECT,
              JSONL_TYPE_ARRAY, JSONL_TYPE_STRING, JSONL_TYPE_NUMBER, JSONL_TYPE_BOOLEAN,
              Nat.reduceBEq, Bool.false_eq_true, if_false, if_true, hd, jsonl_header_size,
              jsonl_written_decide]
      · -- object
        obtain ⟨hv2, hvle, hstable⟩ := jsonl_object_text_size_take json_text hsize
        rw [hs]
        have hcounted : jsonl_count_object_name_value_pairs (json_text.take (jsonl_object_text_size json_text)) =
            jsonl_count_object_name_value_pairs_loop
              (((json_text.take (jsonl_object_text_size json_text)).take
                (jsonl_object_text_size json_text - 1)).drop 1).length
              (((json_text.take (jsonl_object_text_size json_text)).take
                (jsonl_object_text_size json_text - 1)).drop 1) 0 true := by
          have hne : (jsonl_object_text_size json_text == 0) = false := by
            simp only [beq_eq_false_iff_ne, ne_eq]; exact hsize
          simp only [jsonl_count_object_name_value_pairs, hstable, hne, Bool.false_eq_true, if_false]
        generalize hcount : jsonl_count_object_name_value_pairs (json_text.take (jsonl_object_text_size json_text)) =
          sub_value_count at hcounted
        cases hmax : (sub_value_count == jsonl_size_max) with
        | true =>
            refine Or.inl (fun capacity => ?_)
            simp only [jsonl_create_tree_from_text, ht, hs, hcount, JSONL_TYPE_NULL,
              JSONL_TYPE_OBJECT, JSONL_TYPE_ARRAY, JSONL_TYPE_STRING, JSONL_TYPE_NUMBER,
              JSONL_TYPE_BOOLEAN, Nat.reduceBEq, Bool.false_eq_true, if_false, if_true,
              jsonl_header_size, hmax]
        | false =>
            have hmax2 : sub_value_count ≠ jsonl_size_max := by
              simpa using hmax
            have hpos : 1 ≤ json_text.length := by omega
            have hloop := jsonl_create_tree_from_text_object_loop_total (jsonl_create_tree_from_text pf fuel)
              (json_text.length - 1)
              (fun text htext => ih text (by omega))
              _ _ 0 true sub_value_count hcounted.symm hmax2
              (jsonl_object_text_size json_text) (jsonl_object_text_size json_text - 2)
              ((json_text.take (jsonl_object_text_size json_text)).drop 1)
              (by
                have h2 : jsonl_object_text_size json_text - 2 =
                    jsonl_object_text_size json_text - 1 - 1 := by
                  omega
                rw [h2, ← List.drop_take])
              (by
                simp only [List.length_drop, List.length_take]
                omega)
              (by
                simp only [List.length_drop, List.length_take]
                omega)
            rcases hloop with hfail | ⟨added, children, hadd⟩
            · refine Or.inl (fun capacity => ?_)
              simp only [jsonl_create_tree_from_text, ht, hs, hcount, JSONL_TYPE_NULL,
                JSONL_TYPE_OBJECT, JSONL_TYPE_ARRAY, JSONL_TYPE_STRING, JSONL_TYPE_NUMBER,
                JSONL_TYPE_BOOLEAN, Nat.reduceBEq, Bool.false_eq_true, if_false, if_true,
                jsonl_header_size, hmax, hfail, beq_self_eq_true]
            · refine jsonl_parses_leaf _ _
                (40 + jsonl_round_size (sub_value_count * jsonl_sizeof_object_entry) + added)
                (jsonl_value_t.object children) hsize (by omega) (fun capacity => ?_)
              obtain ⟨placed, hp, hpfit⟩ := hadd capacity
                (40 + jsonl_round_size (sub_value_count * jsonl_sizeof_object_entry)) []
              simp only [] at hp
              simp only [jsonl_create_tree_from_text, ht, hs, hcount, JSONL_TYPE_NULL,
                JSONL_TYPE_OBJECT, JSONL_TYPE_ARRAY, JSONL_TYPE_STRING, JSONL_TYPE_NUMBER,
                JSONL_TYPE_BOOLEAN, Nat.reduceBEq, Bool.false_eq_true, if_false, if_true,
                jsonl_header_size, hmax, hp, List.nil_append]
              rw [if_neg (by simp only [beq_iff_eq]; omega)]
              by_cases hfit : 40 + jsonl_round_size (sub_value_count * jsonl_sizeof_object_entry) + added ≤ capacity
              · have h40 : 40 + jsonl_round_size (sub_value_count * jsonl_sizeof_object_entry) ≤ capacity := by omega
                rw [hpfit hfit, jsonl_collect_map_some]
                simp only [hfit, h40, and_self, if_true, Option.map_some']
              · simp only [hfit, and_false, if_false]
      · -- array
        obtain ⟨hv2, hvle, hstable⟩ := jsonl_array_text_size_take json_text hsize
        rw [hs]
        have hcounted : jsonl_count_array_values (json_text.take (jsonl_array_text_size json_text)) =
            jsonl_count_array_values_loop
              (((json_text.take (jsonl_array_text_size json_text)).take
                (jsonl_array_text_size json_text - 1)).drop 1).length
              (((json_text.take (jsonl_array_text_size json_text)).take
                (jsonl_array_text_size json_text - 1)).drop 1) 0 true := by
          have hne : (jsonl_array_text_size json_text == 0) = false := by
            simp only [beq_eq_false_iff_ne, ne_eq]; exact hsize
          simp only [jsonl_count_array_values, hstable, hne, Bool.false_eq_true, if_false]
        generalize hcount : jsonl_count_array_values (json_text.take (jsonl_array_text_size json_text)) =
          sub_value_count at hcounted
        cases hmax : (sub_value_count == jsonl_size_max) with
        | true =>
            refine Or.inl (fun capacity => ?_)
            simp only [jsonl_create_tree_from_text, ht, hs, hcount, JSONL_TYPE_NULL,
              JSONL_TYPE_OBJECT, JSONL_TYPE_ARRAY, JSONL_TYPE_STRING, JSONL_TYPE_NUMBER,
              JSONL_TYPE_BOOLEAN, Nat.reduceBEq, Bool.false_eq_true, if_false, if_true,
              jsonl_header_size, hmax]
        | false =>
            have hmax2 : sub_value_count ≠ jsonl_size_max := by
              simpa using hmax
            have hpos : 1 ≤ json_text.length := by omega
            have hloop := jsonl_create_tree_from_text_array_loop_total (jsonl_create_tree_from_text pf fuel)
              (json_text.length - 1)
              (fun text htext => ih text (by omega))
              _ _ 0 true sub_value_count hcounted.symm hmax2
              (jsonl_array_text_size json_text) (jsonl_array_text_size json_text - 2)
              ((json_text.take (jsonl_array_text_size json_text)).drop 1)
              (by
                have h2 : jsonl_array_text_size json_text - 2 =
                    jsonl_array_text_size json_text - 1 - 1 := by
                  omega
                rw [h2, ← List.drop_take])
              (by
                simp only [List.length_drop, List.length_take]
                omega)
              (by
                simp only [List.length_drop, List.length_take]
                omega)
            rcases hloop with hfail | ⟨added, children, hadd⟩
            · refine Or.inl (fun capacity => ?_)
              simp only [jsonl_create_tree_from_text, ht, hs, hcount, JSONL_TYPE_NULL,
                JSONL_TYPE_OBJECT, JSONL_TYPE_ARRAY, JSONL_TYPE_STRING, JSONL_TYPE_NUMBER,
                JSONL_TYPE_BOOLEAN, Nat.reduceBEq, Bool.false_eq_true, if_false, if_true,
                jsonl_header_size, hmax, hfail, beq_self_eq_true]
            · refine jsonl_parses_leaf _ _
                (40 + jsonl_round_size (sub_value_count * jsonl_sizeof_pointer) + added)
                (jsonl_value_t.array children) hsize (by omega) (fun capacity => ?_)
              obtain ⟨placed, hp, hpfit⟩ := hadd capacity
                (40 + jsonl_round_size (sub_value_count * jsonl_sizeof_pointer)) []
              simp only [] at hp
              simp only [jsonl_create_tree_from_text, ht, hs, hcount, JSONL_TYPE_NULL,
                JSONL_TYPE_OBJECT, JSONL_TYPE_ARRAY, JSONL_TYPE_STRING, JSONL_TYPE_NUMBER,
                JSONL_TYPE_BOOLEAN, Nat.reduceBEq, Bool.false_eq_true, if_false, if_true,
                jsonl_header_size, hmax, hp, List.nil_append]
              rw [if_neg (by simp only [beq_iff_eq]; omega)]
              by_cases hfit : 40 + jsonl_round_size (sub_value_count * jsonl_sizeof_pointer) + added ≤ capacity
              · have h40 : 40 + jsonl_round_size (sub_value_count * jsonl_sizeof_pointer) ≤ capacity := by omega
                rw [hpfit hfit, jsonl_collect_map_some]
                simp only [hfit, h40, and_self, if_true, Option.map_some']
              · simp only [hfit, and_false, if_false]
      · -- number
        cases hd : ((jsonl_decode_number pf
            (json_text.take (jsonl_decide_value_type json_text).2)).1 == 0) with
        | true =>
            refine Or.inl (fun capacity => ?_)
            simp only [jsonl_create_tree_from_text, ht, JSONL_TYPE_NULL, JSONL_TYPE_OBJECT,
              JSONL_TYPE_ARRAY, JSONL_TYPE_STRING, JSONL_TYPE_NUMBER, JSONL_TYPE_BOOLEAN,
              Nat.reduceBEq, Bool.false_eq_true, if_false, if_true, hd]
        | false =>
            refine jsonl_parses_leaf _ _ 40 (.number (jsonl_decode_number pf
              (json_text.take (jsonl_decide_value_type json_text).2)).2) hs (by decide)
              (fun capacity => ?_)
            simp only [jsonl_create_tree_from_text, ht, JSONL_TYPE_NULL, JSONL_TYPE_OBJECT,
              JSONL_TYPE_ARRAY, JSONL_TYPE_STRING, JSONL_TYPE_NUMBER, JSONL_TYPE_BOOLEAN,
              Nat.reduceBEq, Bool.false_eq_true, if_false, if_true, hd, jsonl_header_size,
              jsonl_written_decide]
      · -- string
        obtain ⟨bytes, hbytes⟩ := jsonl_decode_quoted_string_total
          (json_text.take (jsonl_decide_value_type json_text).2)
        cases hd : (jsonl_quoted_string_lenght
            (json_text.take (jsonl_decide_value_type json_text).2) == 0) with
        | true =>
            refine Or.inl (fun capacity => ?_)
            obtain ⟨out, ho, _⟩ := hbytes (jsonl_remaining 40 capacity)
            simp only [jsonl_create_tree_from_text, ht, JSONL_TYPE_NULL, JSONL_TYPE_OBJECT,
              JSONL_TYPE_ARRAY, JSONL_TYPE_STRING, JSONL_TYPE_NUMBER, JSONL_TYPE_BOOLEAN,
              Nat.reduceBEq, Bool.false_eq_true, if_false, if_true, jsonl_header_size, ho, hd]
        | false =>
            refine jsonl_parses_leaf _ _ (40 + jsonl_round_size (bytes.length + 1))
              (.string bytes) hs (by omega) (fun capacity => ?_)
            obtain ⟨out, ho, hofit⟩ := hbytes (jsonl_remaining 40 capacity)
            simp only [jsonl_create_tree_from_text, ht, JSONL_TYPE_NULL, JSONL_TYPE_OBJECT,
              JSONL_TYPE_ARRAY, JSONL_TYPE_STRING, JSONL_TYPE_NUMBER, JSONL_TYPE_BOOLEAN,
              Nat.reduceBEq, Bool.false_eq_true, if_false, if_true, jsonl_header_size, ho, hd,
              jsonl_written_decide]
            by_cases hfit : 40 + jsonl_round_size (bytes.length + 1) ≤ capacity
            · have hround := jsonl_round_size_ge (bytes.length + 1)
              rw [hofit (by unfold jsonl_remaining; omega)]
            · simp only [hfit, if_false]
      · -- no value
        refine Or.inl (fun capacity => ?_)
        simp only [jsonl_create_tree_from_text, ht, JSONL_TYPE_NULL, JSONL_TYPE_OBJECT,
          JSONL_TYPE_ARRAY, JSONL_TYPE_STRING, JSONL_TYPE_NUMBER, JSONL_TYPE_BOOLEAN,
          JSONL_TYPE_ERROR, Nat.reduceBEq, Bool.false_eq_true, if_false]

/-! ## The claims -/

/-- C1 (the code at the failing input): the text `"\n"` parses to the string of the one
byte 10; `jsonl_print` stores for it a backslash followed by the byte 10 itself, not by
`n` (line 1261 stores `.character` where `.escaped` is meant); that text parses to the
string of the two bytes 92 and 10, so the round trip does not give the tree back. -/
theorem jsonl_print_escape_not_round_trip (pf : jsonl_platform_t) :
    jsonl_parse_text pf [34, 92, 110, 34] 64 = some (48, some (.string [10])) ∧
      jsonl_print pf (.string [10]) 4 = (4, [(0, 34), (1, 92), (2, 10), (3, 34)]) ∧
      jsonl_parse_text pf [34, 92, 10, 34] 64 = some (48, some (.string [92, 10])) :=
  ⟨rfl, rfl, rfl⟩

/-- C4 (the code at the failing input): for the empty object and the two writes
`a[5] = true` and `a[2] = false`, `jsonl_set_values` reports the size 280 for the
capacity 0, and for the capacity 320 it stores the first value outside the table of 3
slots that path creation sized from the index of the last write (line 1718). -/
theorem jsonl_set_values_create_path_out_of_table :
    jsonl_set_values (.object [])
        [⟨[.name [97], .index 5], some (.boolean true)⟩,
          ⟨[.name [97], .index 2], some (.boolean false)⟩] 0 = some (280, none) ∧
      jsonl_set_values (.object [])
        [⟨[.name [97], .index 5], some (.boolean true)⟩,
          ⟨[.name [97], .index 2], some (.boolean false)⟩] 320 = none :=
  ⟨rfl, rfl⟩

/-- C6: the empty batch applied to a valid tree returns a non-zero size, the same for
every capacity, and the buffer then holds the tree itself. -/
theorem jsonl_set_values_empty_batch (value_tree : jsonl_value_t)
    (ht : value_tree.valid = true) :
    ∃ size, size ≠ 0 ∧ ∀ capacity, jsonl_set_values value_tree [] capacity =
      some (size, if size ≤ capacity then some value_tree else none) := by
  have h := jsonl_internal_set_values_outside [] (by intro s hs; cases hs)
    (value_tree.depth + 1) value_tree [] (by intro s hs; cases hs) ht (Nat.lt_succ_self _)
  refine ⟨value_tree.size, h.1, fun capacity => ?_⟩
  rw [jsonl_set_values_of_writes _ _ _ (by intro s hs; cases hs)]
  exact h.2 capacity

theorem jsonl_set_values_empty_batch_witness :
    (jsonl_value_t.object [([97], .array [.boolean true, .null])]).valid = true ∧
    ∃ size, size ≠ 0 ∧ ∀ capacity,
      jsonl_set_values (.object [([97], .array [.boolean true, .null])]) [] capacity =
        some (size,
          if size ≤ capacity then some (.object [([97], .array [.boolean true, .null])])
          else none) :=
  ⟨rfl, jsonl_set_values_empty_batch _ rfl⟩

/-- C7 (the code at the failing input): deleting the key `a` of the element 0 of the
array `[{"a":true,"b":false}]` gives `[null]`: the whole element is erased, because the
erase loop of the array case (line 2165) does not test that the path of the delete ends
at the element. -/
theorem jsonl_set_values_nested_delete_erases_element :
    jsonl_set_values
        (.array [.object [([97], .boolean true), ([98], .boolean false)]])
        [⟨[.index 0, .name [97]], none⟩] 1000 =
      some (88, some (.array [.null])) :=
  rfl

/-- C8 (the code at the failing input): for `{"x":{"a":true,"b":false}}` and the batch
that writes `y.z = null` and deletes `x.a`, the entry `b` of `x` comes out paired with
`true`, the value of the deleted `a`: the value loop (line 1999) tests the operation at
the index of the child where the name loop (line 1934) tests the delete itself. -/
theorem jsonl_set_values_delete_shifts_values :
    jsonl_set_values
        (.object [([120], .object [([97], .boolean true), ([98], .boolean false)])])
        [⟨[.name [121], .name [122]], some .null⟩, ⟨[.name [120], .name [97]], none⟩] 1000 =
      some (328, some (.object [([120], .object [([98], .boolean true)]),
        ([121], .object [([122], .null)])])) :=
  rfl

/-- C9: a batch that holds a delete of the root makes `jsonl_set_values` return 0, for
every tree, every other operation and every capacity. -/
theorem jsonl_set_values_root_delete (value_tree : jsonl_value_t)
    (set_value_table : List jsonl_set_value_t) (capacity : Nat)
    (h : ∃ set_value ∈ set_value_table,
      set_value.path.length = 0 ∧ set_value.value = none) :
    jsonl_set_values value_tree set_value_table capacity = some (0, none) := by
  obtain ⟨set_value, hmem, hpath, hvalue⟩ := h
  have hany : set_value_table.any
      (fun set_value => set_value.path.length == 0 && set_value.value.isNone) = true := by
    rw [List.any_eq_true]
    exact ⟨set_value, hmem, by simp [hpath, hvalue]⟩
  simp [jsonl_set_values, hany]

theorem jsonl_set_values_root_delete_witness :
    (∃ set_value ∈ [(⟨[.name [97]], some .null⟩ : jsonl_set_value_t), ⟨[], none⟩],
      set_value.path.length = 0 ∧ set_value.value = none) ∧
    jsonl_set_values (.object [([97], .boolean true)])
      [⟨[.name [97]], some .null⟩, ⟨[], none⟩] 1000 = some (0, none) :=
  ⟨⟨⟨[], none⟩, by simp, rfl, rfl⟩,
    jsonl_set_values_root_delete _ _ _ ⟨⟨[], none⟩, by simp, rfl, rfl⟩⟩

theorem jsonl_created_value_names (value : jsonl_value_t) (names : List (List Nat)) :
    jsonl_created_value (names.map .name) value =
      names.foldr (fun name inner => .object [(name, inner)]) value := by
  induction names with
  | nil => rfl
  | cons name names ih => simp only [List.map_cons, jsonl_created_value, ih, List.foldr_cons]

/-- C10: one write of a valid value into the empty object at a path of `k ≥ 1` names
returns a non-zero size, the same for every capacity, and builds the `k` nested
single-entry objects whose innermost value is the value. -/
theorem jsonl_set_values_creates_nested_objects (names : List (List Nat))
    (value : jsonl_value_t) (hn : names ≠ []) (hv : value.valid = true) :
    ∃ size, size ≠ 0 ∧ ∀ capacity,
      jsonl_set_values (.object []) [⟨names.map .name, some value⟩] capacity =
        some (size,
          if size ≤ capacity then
            some (names.foldr (fun name inner => .object [(name, inner)]) value)
          else none) := by
  obtain ⟨size, hsize⟩ := jsonl_internal_set_values_single value hv (names.map .name) []
    ((jsonl_value_t.object []).depth + 1) (.object [])
    (by
      intro c hc
      obtain ⟨name, _, rfl⟩ := List.mem_map.1 hc
      intro h
      cases h)
    rfl (Nat.lt_succ_self _)
  have htree : jsonl_written_value (.object []) (names.map .name) value =
      names.foldr (fun name inner => .object [(name, inner)]) value := by
    cases names with
    | nil => exact absurd rfl hn
    | cons name names =>
        rw [← jsonl_created_value_names]
        simp [jsonl_written_value, jsonl_created_value]
  refine ⟨size, hsize.1, fun capacity => ?_⟩
  rw [jsonl_set_values_of_writes _ _ _ (by
    intro s hs
    rw [List.mem_singleton.1 hs]
    rfl)]
  have := hsize.2 capacity
  simp only [List.reverse_nil, List.nil_append, htree] at this
  exact this

theorem jsonl_set_values_creates_nested_objects_witness :
    ([[97], [98], [99]] ≠ ([] : List (List Nat)) ∧
      (jsonl_value_t.string [120]).valid = true) ∧
    ∃ size, size ≠ 0 ∧ ∀ capacity,
      jsonl_set_values (.object [])
          [⟨[.name [97], .name [98], .name [99]], some (.string [120])⟩] capacity =
        some (size,
          if size ≤ capacity then
            some (.object [([97], .object [([98], .object [([99], .string [120])])])])
          else none) :=
  ⟨⟨by decide, rfl⟩,
    jsonl_set_values_creates_nested_objects [[97], [98], [99]] (.string [120]) (by decide)
      rfl⟩

/-- C3: for every text, `jsonl_parse_text` returns for every capacity: either 0 for
every capacity, or one non-zero size for every capacity, and then the buffer holds the
complete tree (one tree, the same for all of them) whenever the size is at most the
capacity. -/
theorem jsonl_parse_text_size_independent (pf : jsonl_platform_t) (json_text : List Nat) :
    (∀ capacity, jsonl_parse_text pf json_text capacity = some (0, none)) ∨
      ∃ size tree, size ≠ 0 ∧ ∀ capacity,
        jsonl_parse_text pf json_text capacity =
          some (size, if size ≤ capacity then some tree else none) := by
  have hlen : (json_text.drop (jsonl_white_space_length json_text)).length <
      json_text.length + 1 := by
    rw [List.length_drop]; omega
  rcases jsonl_create_tree_from_text_parses pf (json_text.length + 1)
      (json_text.drop (jsonl_white_space_length json_text)) hlen with
    hfail | ⟨hsize, tree_size, tree, hne, hcall⟩
  · refine Or.inl (fun capacity => ?_)
    simp [jsonl_parse_text, hfail]
  · refine Or.inr ⟨tree_size, tree, hne, fun capacity => ?_⟩
    simp [jsonl_parse_text, hcall, hsize]

/-- C5: for a tree whose nodes all have a valid kind, `jsonl_print` returns the length
of one non-empty text for every capacity, and for every capacity that is at least that
length and every initial content of the buffer, the first bytes of the buffer are
exactly that text afterwards. -/
theorem jsonl_print_complete_text (pf : jsonl_platform_t) (value_tree : jsonl_value_t)
    (hv : value_tree.valid = true) :
    ∃ text : List Nat, text ≠ [] ∧
      (∀ capacity, (jsonl_print pf value_tree capacity).1 = text.length) ∧
      ∀ capacity (buffer : Nat → Nat), text.length ≤ capacity →
        jsonl_buffer_text (jsonl_apply_writes buffer (jsonl_print pf value_tree capacity).2)
          text.length = text := by
  obtain ⟨text, hne, htext⟩ := jsonl_internal_print_text pf value_tree hv 0
  refine ⟨text, hne, fun capacity => (htext capacity).1, fun capacity buffer hfit => ?_⟩
  have := (htext capacity).2 hfit
  simp only [] at this
  unfold jsonl_print
  rw [this]
  exact jsonl_buffer_text_of_writes text buffer

theorem jsonl_print_complete_text_witness :
    (jsonl_value_t.object [([97], .array [.boolean true, .string [10]])]).valid = true ∧
    ∃ text : List Nat, text ≠ [] ∧
      (∀ capacity, (jsonl_print jsonl_example_platform
        (.object [([97], .array [.boolean true, .string [10]])]) capacity).1 = text.length) ∧
      ∀ capacity (buffer : Nat → Nat), text.length ≤ capacity →
        jsonl_buffer_text (jsonl_apply_writes buffer (jsonl_print jsonl_example_platform
          (.object [([97], .array [.boolean true, .string [10]])]) capacity).2)
          text.length = text :=
  ⟨rfl, jsonl_print_complete_text jsonl_example_platform _ rfl⟩

/-! ### Batches with removals, outside the path of a node -/

theorem jsonl_child_removed_outside (internal_path : List jsonl_path_component_t)
    (name : List Nat) (set_value_table : List jsonl_set_value_t)
    (hp : ∀ s ∈ set_value_table,
      jsonl_internal_set_values_is_set_value_in_path internal_path s.path = false) :
    jsonl_internal_set_values_child_removed internal_path name set_value_table = false := by
  induction set_value_table with
  | nil => rfl
  | cons s rest ih =>
      have hs := hp s (List.mem_cons_self _ _)
      simp only [jsonl_internal_set_values_child_removed, hs, Bool.and_false, Bool.false_and,
        Bool.false_eq_true, if_false]
      exact ih (fun t ht => hp t (List.mem_cons_of_mem _ ht))

theorem jsonl_child_value_removed_short (internal_path : List jsonl_path_component_t)
    (whole : List jsonl_set_value_t) (i : Nat) (name : List Nat)
    (set_value_table : List jsonl_set_value_t)
    (hs : ∀ s ∈ set_value_table,
      s.value.isSome = true ∨ s.path.length ≤ internal_path.length) :
    jsonl_internal_set_values_child_value_removed internal_path whole i name set_value_table =
      some false := by
  induction set_value_table with
  | nil => rfl
  | cons s rest ih =>
      have hcond : (s.value.isNone && s.path.length == internal_path.length + 1) = false := by
        rcases hs s (List.mem_cons_self _ _) with h | h
        · cases hv : s.value with
          | none => rw [hv] at h; cases h
          | some v => rfl
        · have : (s.path.length == internal_path.length + 1) = false := by
            simp only [beq_eq_false_iff_ne, ne_eq]; omega
          rw [this, Bool.and_false]
      simp only [jsonl_internal_set_values_child_value_removed, hcond, Bool.false_eq_true,
        if_false]
      exact ih (fun t ht => hs t (List.mem_cons_of_mem _ ht))

theorem jsonl_array_erase_match_outside (internal_path : List jsonl_path_component_t)
    (target : Nat) (set_value_table : List jsonl_set_value_t)
    (hp : ∀ s ∈ set_value_table,
      jsonl_internal_set_values_is_set_value_in_path internal_path s.path = false) :
    jsonl_internal_set_values_array_erase_match internal_path target set_value_table =
      some false := by
  induction set_value_table with
  | nil => rfl
  | cons s rest ih =>
      have hs := hp s (List.mem_cons_self _ _)
      simp only [jsonl_internal_set_values_array_erase_match, hs, Bool.and_false,
        Bool.false_eq_true, if_false]
      exact ih (fun t ht => hp t (List.mem_cons_of_mem _ ht))

/-- The erase loop stops at once where no removal names the slot it looks at. -/
theorem jsonl_array_erase_none (internal_path : List jsonl_path_component_t)
    (set_value_table : List jsonl_set_value_t) (value_count i fuel erased : Nat)
    (h : i + erased < value_count →
      jsonl_internal_set_values_array_erase_match internal_path (i + erased) set_value_table =
        some false) :
    jsonl_internal_set_values_array_erase internal_path set_value_table value_count i fuel erased =
      some erased := by
  cases fuel with
  | zero => rfl
  | succ fuel =>
      simp only [jsonl_internal_set_values_array_erase]
      by_cases hlt : i + erased < value_count
      · simp only [hlt, if_true, h hlt]
      · simp only [hlt, if_false]

theorem jsonl_object_names_kept (internal_path : List jsonl_path_component_t)
    (set_value_table : List jsonl_set_value_t) (n object_size capacity : Nat)
    (table : List (List Nat × jsonl_value_t)) (c object_table_size : Nat)
    (hk : ∀ e ∈ table,
      jsonl_internal_set_values_child_removed internal_path e.1 set_value_table = false)
    (hn : n = c + table.length) :
    ∃ names, jsonl_internal_set_values_object_names internal_path set_value_table n object_size
        capacity table c object_table_size =
        some (object_table_size + (table.map (fun e => jsonl_round_size (e.1.length + 1))).sum,
          names) ∧
      (object_size + object_table_size +
          (table.map (fun e => jsonl_round_size (e.1.length + 1))).sum ≤ capacity →
        names = table.map (fun e => some e.1)) := by
  induction table generalizing c object_table_size with
  | nil =>
      refine ⟨[], ?_, fun _ => rfl⟩
      unfold jsonl_internal_set_values_object_names
      simp [hn]
  | cons e table ih =>
      obtain ⟨name, v⟩ := e
      obtain ⟨names, h1, h2⟩ := ih (c + 1)
        (object_table_size + jsonl_round_size (name.length + 1))
        (fun e he => hk e (List.mem_cons_of_mem _ he))
        (by simp only [List.length_cons] at hn; omega)
      refine ⟨jsonl_written (object_size + object_table_size +
        jsonl_round_size (name.length + 1) ≤ capacity) name :: names, ?_, ?_⟩
      · unfold jsonl_internal_set_values_object_names
        have hc : (c == n) = false := by
          simp only [List.length_cons] at hn
          simp only [beq_eq_false_iff_ne, ne_eq]
          omega
        simp only [hc, Bool.false_eq_true, if_false, hk (name, v) (List.mem_cons_self _ _), h1,
          List.map_cons, List.sum_cons]
        congr 2
        omega
      · intro hfit
        simp only [List.map_cons, List.sum_cons] at hfit
        rw [h2 (by omega)]
        simp [jsonl_written]
        omega

theorem jsonl_object_values_kept
    (patch : jsonl_value_t → List jsonl_path_component_t → Nat →
      Option (Nat × Option jsonl_value_t))
    (internal_path : List jsonl_path_component_t) (set_value_table : List jsonl_set_value_t)
    (n : Nat) (table : List (List Nat × jsonl_value_t))
    (sizes : List Nat × jsonl_value_t → Nat)
    (result : List Nat × jsonl_value_t → jsonl_value_t) (i c object_size : Nat)
    (hk : ∀ j, ∀ e ∈ table,
      jsonl_internal_set_values_child_value_removed internal_path set_value_table j e.1
        set_value_table = some false)
    (hn : n = c + table.length) (hpos : 0 < object_size)
    (hpatch : ∀ e ∈ table,
      jsonl_uniform (patch e.2 (.name e.1 :: internal_path)) (sizes e) (result e)) :
    ∀ capacity, ∃ values,
      jsonl_internal_set_values_object_values patch internal_path set_value_table n capacity
        table i c object_size = some (object_size + (table.map sizes).sum, values) ∧
      (object_size + (table.map sizes).sum ≤ capacity →
        values = table.map (fun e => some (result e))) := by
  induction table generalizing i c object_size with
  | nil =>
      refine fun capacity => ⟨[], ?_, fun _ => rfl⟩
      unfold jsonl_internal_set_values_object_values
      simp [hn]
  | cons e table ih =>
      obtain ⟨name, v⟩ := e
      obtain ⟨hsize, hcall⟩ := hpatch (name, v) (List.mem_cons_self _ _)
      generalize hsz : sizes (name, v) = size at hsize hcall
      have hloop := ih (i + 1) (c + 1) (object_size + size)
        (fun j e he => hk j e (List.mem_cons_of_mem _ he))
        (by simp only [List.length_cons] at hn; omega) (by omega)
        (fun e he => hpatch e (List.mem_cons_of_mem _ he))
      generalize htot : object_size + size + (table.map sizes).sum = total at hloop
      have htotal : object_size + size ≤ total := by omega
      intro capacity
      simp only [List.map_cons, List.sum_cons, hsz]
      have htot2 : object_size + (size + (table.map sizes).sum) = total := by omega
      rw [htot2]
      obtain ⟨values, hvalues, hfits⟩ := hloop capacity
      refine ⟨(if jsonl_remaining object_size capacity != 0 then
          (if size ≤ jsonl_remaining object_size capacity then some (result (name, v)) else none)
        else none) :: values, ?_, ?_⟩
      · unfold jsonl_internal_set_values_object_values
        have hc : (c == n) = false := by
          simp only [List.length_cons] at hn
          simp only [beq_eq_false_iff_ne, ne_eq]
          omega
        have hs : (size == 0) = false := by simp [hsize]
        have ht : (total == 0) = false := by
          simp only [beq_eq_false_iff_ne, ne_eq]; omega
        simp only [hc, Bool.false_eq_true, if_false,
          hk i (name, v) (List.mem_cons_self _ _), hcall, hs, hvalues, ht]
      · intro hfit
        rw [hfits hfit]
        have h1 : size ≤ jsonl_remaining object_size capacity := by
          unfold jsonl_remaining; omega
        have h2 : jsonl_remaining object_size capacity ≠ 0 := by omega
        simp [h1, h2]

/-- A batch none of whose operations lies in the path of a node, and whose removals have
paths no longer than the path of the node: the node is copied. -/
theorem jsonl_internal_set_values_untouched (set_value_table : List jsonl_set_value_t) :
    ∀ (fuel : Nat) (source_value : jsonl_value_t) (internal_path : List jsonl_path_component_t),
      (∀ s ∈ set_value_table,
        jsonl_internal_set_values_is_set_value_in_path internal_path s.path = false) →
      (∀ s ∈ set_value_table,
        s.value.isSome = true ∨ s.path.length ≤ internal_path.length) →
      source_value.valid = true → source_value.depth < fuel →
      jsonl_uniform (jsonl_internal_set_values set_value_table fuel source_value internal_path)
        source_value.size source_value := by
  intro fuel
  induction fuel with
  | zero => intro s ip _ _ _ h; omega
  | succ fuel ih =>
      intro source_value internal_path hp hshort hv hd
      have hshort2 : ∀ (component : jsonl_path_component_t), ∀ s ∈ set_value_table,
          s.value.isSome = true ∨ s.path.length ≤ (component :: internal_path).length := by
        intro component s hs
        rcases hshort s hs with h | h
        · exact Or.inl h
        · exact Or.inr (by simp only [List.length_cons]; omega)
      refine ⟨by have := jsonl_size_ge_header source_value; omega, fun capacity => ?_⟩
      unfold jsonl_internal_set_values
      rw [jsonl_first_pass_outside internal_path source_value set_value_table 0 none hp]
      cases source_value with
      | object table =>
          simp only [jsonl_value_t.valid] at hv
          simp only [jsonl_value_t.depth] at hd
          simp only [jsonl_object_count_outside internal_path _ set_value_table set_value_table
            0 0 0 hp, jsonl_size_sub_zero, Nat.add_zero, jsonl_object_added_names_none,
            jsonl_object_added_values_none, List.append_nil]
          obtain ⟨names, hnames, hnfit⟩ := jsonl_object_names_kept internal_path
            set_value_table table.length (jsonl_round_size jsonl_sizeof_value) capacity table 0
            (jsonl_round_size (table.length * jsonl_sizeof_object_entry))
            (fun e _ => jsonl_child_removed_outside internal_path e.1 set_value_table hp)
            (by omega)
          obtain ⟨values, hvalues, hvfit⟩ := jsonl_object_values_kept
            (jsonl_internal_set_values set_value_table fuel) internal_path set_value_table
            table.length table (fun e => e.2.size) (fun e => e.2) 0 0
            (jsonl_round_size jsonl_sizeof_value +
              (jsonl_round_size (table.length * jsonl_sizeof_object_entry) +
                (table.map (fun e => jsonl_round_size (e.1.length + 1))).sum))
            (fun j e _ => jsonl_child_value_removed_short internal_path set_value_table j e.1
              set_value_table hshort)
            (by omega) (by rw [jsonl_header_size]; omega)
            (fun e he => ih e.2 (.name e.1 :: internal_path)
              (fun s hs => jsonl_in_path_parent _ _ _ (hp s hs))
              (hshort2 _)
              (jsonl_valid_of_mem_entries table hv e he)
              (by have := jsonl_depth_of_mem_entries table e he; omega)) capacity
          simp only [hnames, hvalues]
          have hsz := jsonl_size_entries_eq table
          have hne : (jsonl_round_size jsonl_sizeof_value +
              (jsonl_round_size (table.length * jsonl_sizeof_object_entry) +
                (table.map (fun e => jsonl_round_size (e.1.length + 1))).sum) +
              (table.map (fun e => e.2.size)).sum == 0) = false := by
            rw [jsonl_header_size]; simp only [beq_eq_false_iff_ne, ne_eq]; omega
          have hsame : jsonl_round_size jsonl_sizeof_value +
              (jsonl_round_size (table.length * jsonl_sizeof_object_entry) +
                (table.map (fun e => jsonl_round_size (e.1.length + 1))).sum) +
              (table.map (fun e => e.2.size)).sum = (jsonl_value_t.object table).size := by
            simp only [jsonl_value_t.size, hsz]; omega
          simp only [hne, Bool.false_eq_true, if_false]
          rw [hsame] at hvfit ⊢
          by_cases hfit : (jsonl_value_t.object table).size ≤ capacity
          · have hfit2 : jsonl_round_size jsonl_sizeof_value ≤ capacity := by
              have := jsonl_size_ge_header (jsonl_value_t.object table)
              rw [jsonl_header_size]; omega
            rw [hvfit hfit, hnfit (by rw [← hsame] at hfit; omega)]
            simp only [hfit, hfit2, and_self, if_true]
            rw [jsonl_object_entries_map_some, jsonl_collect_map_some]
            rfl
          · simp [hfit]
      | array table =>
          simp only [jsonl_value_t.valid] at hv
          simp only [jsonl_value_t.depth] at hd
          simp only [jsonl_array_count_outside internal_path _ set_value_table set_value_table
            0 _ hp, jsonl_size_sub_zero, bne_self_eq_false, Bool.false_and, Bool.false_eq_true,
            if_false, Nat.add_zero, jsonl_internal_set_values_array_appended]
          obtain ⟨values, hvalues, hvfit⟩ := jsonl_array_values_spec
            (jsonl_internal_set_values set_value_table fuel) internal_path table set_value_table
            (fun j => (table.getD j jsonl_value_t.null).size)
            (fun j => table.getD j jsonl_value_t.null) table.length 0
            (jsonl_round_size jsonl_sizeof_value +
              jsonl_round_size (table.length * jsonl_sizeof_pointer))
            (by rw [jsonl_header_size]; omega)
            (by
              intro j _ hj
              have hj : j < table.length := by omega
              refine ⟨Nat.ne_of_gt (lt_of_lt_of_le (by decide)
                (jsonl_size_ge_header (table.getD j jsonl_value_t.null))), fun remaining => ?_⟩
              have hget : table[j]? = some (table.getD j jsonl_value_t.null) := by
                simp [List.getD_eq_getElem?_getD, List.getElem?_eq_getElem hj]
              have hmem : table.getD j jsonl_value_t.null ∈ table := by
                simp only [List.getD_eq_getElem?_getD, List.getElem?_eq_getElem hj,
                  Option.getD_some]
                exact List.getElem_mem hj
              have hchild := (ih (table.getD j jsonl_value_t.null) (.index j :: internal_path)
                (fun s hs => jsonl_in_path_parent _ _ _ (hp s hs))
                (hshort2 _)
                (jsonl_valid_of_mem_values table hv _ hmem)
                (by have := jsonl_depth_of_mem_values table _ hmem; omega)).2 remaining
              unfold jsonl_internal_set_values_array_slot
              simp only [jsonl_array_overwrite_outside internal_path j set_value_table 0 hp,
                jsonl_array_erase_none internal_path set_value_table _ _ _ _
                  (fun _ => jsonl_array_erase_match_outside internal_path _ set_value_table hp),
                Nat.add_zero, hget, hchild, Option.map_some'])
            capacity
          simp only [hvalues, jsonl_range_map_size]
          have hsz := jsonl_size_values_eq table
          have hne : (jsonl_round_size jsonl_sizeof_value +
              jsonl_round_size (table.length * jsonl_sizeof_pointer) +
              (table.map (fun v => v.size)).sum == 0) = false := by
            rw [jsonl_header_size]; simp only [beq_eq_false_iff_ne, ne_eq]; omega
          have hsame : jsonl_round_size jsonl_sizeof_value +
              jsonl_round_size (table.length * jsonl_sizeof_pointer) +
              (table.map (fun v => v.size)).sum = (jsonl_value_t.array table).size := by
            simp only [jsonl_value_t.size, hsz]
          simp only [hne, Bool.false_eq_true, if_false, List.append_nil]
          rw [jsonl_range_map_size, jsonl_range_map_getElem] at hvfit
          rw [hsame] at hvfit ⊢
          by_cases hfit : (jsonl_value_t.array table).size ≤ capacity
          · have hfit2 : jsonl_round_size jsonl_sizeof_value +
                jsonl_round_size (table.length * jsonl_sizeof_pointer) ≤ capacity := by
              rw [← hsame] at hfit; omega
            rw [hvfit hfit]
            simp only [hfit, hfit2, and_self, if_true]
            rw [jsonl_collect_map_some]
            rfl
          · simp [hfit]
      | string value => simp [jsonl_value_t.size, jsonl_written]
      | number n => simp [jsonl_value_t.size, jsonl_written]
      | boolean b => simp [jsonl_value_t.size, jsonl_written]
      | null => simp [jsonl_value_t.size, jsonl_written]
      | unknown t => simp [jsonl_value_t.valid] at hv

/-! ### The array case with removals and appended values -/

/-- The array case of the patch engine, given what its main loop finds for each slot and
what its append loop places. -/
theorem jsonl_set_values_array_assemble_counts (set_value_table : List jsonl_set_value_t)
    (fuel : Nat) (table : List jsonl_value_t) (internal_path : List jsonl_path_component_t)
    (sizes : Nat → Nat) (result : Nat → jsonl_value_t) (slots : Nat)
    (counts : jsonl_array_counts_t) (appended_size : Nat) (appended : List jsonl_value_t)
    (hfirst : jsonl_internal_set_values_first_pass internal_path (.array table)
      set_value_table 0 none = some (.indirect none))
    (hcount : jsonl_internal_set_values_array_count internal_path table.length
      set_value_table set_value_table 0 ⟨0, 0, 0, jsonl_size_max⟩ = some counts)
    (hslots : slots =
      if counts.set_child_value_highest_index != jsonl_size_max &&
          decide (jsonl_size_sub table.length counts.remove_child_value_count <
            counts.set_child_value_highest_index + 1) then
        counts.set_child_value_highest_index + 1
      else jsonl_size_sub table.length counts.remove_child_value_count)
    (hslot : ∀ j, j < slots → sizes j ≠ 0 ∧ ∀ remaining,
      jsonl_internal_set_values_array_slot (jsonl_internal_set_values set_value_table fuel)
        internal_path table set_value_table remaining j 0 =
        some (0, sizes j, if sizes j ≤ remaining then some (result j) else none))
    (happended : ∀ capacity object_size, 0 < object_size → ∃ placed,
      jsonl_internal_set_values_array_appended internal_path set_value_table capacity
        counts.append_child_value_count 0 object_size =
        some (object_size + appended_size, placed) ∧
      (object_size + appended_size ≤ capacity → placed = appended.map some)) :
    jsonl_uniform
      (jsonl_internal_set_values set_value_table (fuel + 1) (.array table) internal_path)
      (40 + jsonl_round_size ((slots + counts.append_child_value_count) * jsonl_sizeof_pointer) +
        ((List.range' 0 slots).map sizes).sum + appended_size)
      (.array ((List.range' 0 slots).map result ++ appended)) := by
  refine ⟨by omega, fun capacity => ?_⟩
  unfold jsonl_internal_set_values
  simp only [hfirst, hcount, jsonl_header_size, ← hslots]
  obtain ⟨values, hv, hvfit⟩ := jsonl_array_values_spec
    (jsonl_internal_set_values set_value_table fuel) internal_path table set_value_table
    sizes result slots 0
    (40 + jsonl_round_size ((slots + counts.append_child_value_count) * jsonl_sizeof_pointer))
    (by omega) (fun j _ hj => hslot j (by omega)) capacity
  obtain ⟨placed, hp, hpfit⟩ := happended capacity
    (40 + jsonl_round_size ((slots + counts.append_child_value_count) * jsonl_sizeof_pointer) +
      ((List.range' 0 slots).map sizes).sum) (by omega)
  simp only [hv, hp]
  rw [if_neg (by simp only [beq_iff_eq]; omega), if_neg (by simp only [beq_iff_eq]; omega)]
  by_cases hfit : 40 +
      jsonl_round_size ((slots + counts.append_child_value_count) * jsonl_sizeof_pointer) +
      ((List.range' 0 slots).map sizes).sum + appended_size ≤ capacity
  · have h40 : 40 +
        jsonl_round_size ((slots + counts.append_child_value_count) * jsonl_sizeof_pointer) ≤
        capacity := by omega
    rw [hvfit (by omega), hpfit hfit]
    simp only [hfit, h40, and_self, if_true]
    have h1 : (List.range' 0 slots).map (fun j => some (result j)) ++ appended.map some =
        ((List.range' 0 slots).map result ++ appended).map some := by
      simp [List.map_map, Function.comp_def]
    rw [h1, jsonl_collect_map_some]
    rfl
  · simp [hfit]

theorem jsonl_range_map_front (table extra : List jsonl_value_t) :
    (List.range' 0 table.length).map (fun j => (table ++ extra).getD j jsonl_value_t.null) =
      table := by
  apply List.ext_getElem
  · simp
  · intro n h1 h2
    simp only [List.length_map, List.length_range'] at h1
    simp [List.getD_eq_getElem?_getD, List.getElem?_append_left h1,
      List.getElem?_eq_getElem h1]

theorem jsonl_array_appended_none (internal_path : List jsonl_path_component_t)
    (set_value_table : List jsonl_set_value_t) (capacity object_size : Nat) :
    ∃ placed, jsonl_internal_set_values_array_appended internal_path set_value_table capacity
        0 0 object_size = some (object_size + 0, placed) ∧
      (object_size + 0 ≤ capacity → placed = ([] : List jsonl_value_t).map some) :=
  ⟨[], by simp [jsonl_internal_set_values_array_appended], fun _ => rfl⟩

/-! ### One append to a root array, one removal of its last element -/

/-- One write at the append sentinel of a root array adds a copy of the value after the
elements. -/
theorem jsonl_internal_set_values_append_root (table : List jsonl_value_t)
    (value : jsonl_value_t) (ht : (jsonl_value_t.array table).valid = true)
    (hv : value.valid = true) (hn : table.length < jsonl_size_max) (fuel : Nat)
    (hd : (jsonl_value_t.array table).depth ≤ fuel) :
    ∃ size, jsonl_uniform
      (jsonl_internal_set_values [⟨[.index jsonl_size_max], some value⟩] (fuel + 1)
        (.array table) [])
      size (.array (table ++ [value])) := by
  have hw : ∀ s ∈ [(⟨[.index jsonl_size_max], some value⟩ : jsonl_set_value_t)],
      s.value.isSome = true := by
    intro s hs
    rw [List.mem_singleton.1 hs]
    rfl
  simp only [jsonl_value_t.valid] at ht
  simp only [jsonl_value_t.depth] at hd
  have h := jsonl_set_values_array_assemble_counts
    [⟨[.index jsonl_size_max], some value⟩] fuel table []
    (fun j => (table.getD j jsonl_value_t.null).size)
    (fun j => table.getD j jsonl_value_t.null) table.length ⟨0, 0, 1, jsonl_size_max⟩
    value.size [value]
    (by
      have := jsonl_first_pass_single [] [] (.index jsonl_size_max) (.array table) value
      simpa [jsonl_value_t.type, jsonl_path_component_t.container_type] using this)
    (by
      have hin : jsonl_internal_set_values_is_set_value_in_path []
          [jsonl_path_component_t.index jsonl_size_max] = true := rfl
      simp [jsonl_internal_set_values_array_count, hin,
        jsonl_path_component_t.index_member])
    (by simp [jsonl_size_sub_zero])
    (by
      intro j hj
      have hmem : table.getD j jsonl_value_t.null ∈ table := by
        simp only [List.getD_eq_getElem?_getD, List.getElem?_eq_getElem hj, Option.getD_some]
        exact List.getElem_mem hj
      refine ⟨Nat.ne_of_gt (lt_of_lt_of_le (by decide)
        (jsonl_size_ge_header (table.getD j jsonl_value_t.null))), fun remaining => ?_⟩
      have hother := jsonl_array_slot_single_other
        (jsonl_internal_set_values [⟨[.index jsonl_size_max], some value⟩] fuel) [] []
        jsonl_size_max value table remaining j (by omega)
      simp only [List.reverse_nil, List.nil_append] at hother
      rw [hother]
      have hget : table[j]? = some (table.getD j jsonl_value_t.null) := by
        simp [List.getD_eq_getElem?_getD, List.getElem?_eq_getElem hj]
      have hchild := (jsonl_internal_set_values_outside
        [⟨[.index jsonl_size_max], some value⟩] hw fuel (table.getD j jsonl_value_t.null)
        [.index j]
        (by
          intro s hs
          rw [List.mem_singleton.1 hs]
          have := jsonl_in_path_other [] [] (.index jsonl_size_max) (.index j)
            (by
              show j ≠ jsonl_size_max
              omega)
          simpa using this)
        (jsonl_valid_of_mem_values table ht _ hmem)
        (by have := jsonl_depth_of_mem_values table _ hmem; omega)).2 remaining
      simp only [hget, hchild, Option.map_some'])
    (by
      intro capacity object_size hpos
      have hin : jsonl_internal_set_values_is_set_value_in_path []
          [jsonl_path_component_t.index jsonl_size_max] = true := rfl
      refine ⟨[if value.size ≤ jsonl_remaining object_size capacity then some value else none],
        ?_, ?_⟩
      · have hne : (value.size == 0) = false := by
          have := jsonl_size_ge_header value
          simp only [beq_eq_false_iff_ne, ne_eq]; omega
        have hne2 : (object_size + value.size == 0) = false := by
          simp only [beq_eq_false_iff_ne, ne_eq]; omega
        simp only [jsonl_internal_set_values_array_appended, List.drop_zero,
          jsonl_internal_set_values_array_append_find, Option.isSome_some, hin, Bool.and_self,
          if_true, List.length_nil, List.getElem?_cons_zero, beq_self_eq_true,
          List.length_singleton, Nat.zero_add, Nat.lt_irrefl, if_false, Option.map_some',
          jsonl_copy_value_spec value _ hv, hne, hne2, Bool.false_eq_true]
        by_cases hrem : jsonl_remaining object_size capacity = 0
        · have hz : value.size ≠ 0 := by
            have := jsonl_size_ge_header value
            omega
          simp [hrem, hz]
        · simp [hrem]
      · intro hfit
        have : value.size ≤ jsonl_remaining object_size capacity := by
          unfold jsonl_remaining; omega
        simp [this])
  have hpre := jsonl_range_map_front table []
  simp only [List.append_nil] at hpre
  rw [hpre] at h
  exact ⟨_, h⟩

/-- One removal at the index of the last element of a root array leaves the elements
before it. -/
theorem jsonl_internal_set_values_remove_last_root (table : List jsonl_value_t)
    (value : jsonl_value_t) (ht : (jsonl_value_t.array (table ++ [value])).valid = true)
    (hn : table.length < jsonl_size_max) (fuel : Nat)
    (hd : (jsonl_value_t.array (table ++ [value])).depth ≤ fuel) :
    ∃ size, jsonl_uniform
      (jsonl_internal_set_values [⟨[.index table.length], none⟩] (fuel + 1)
        (.array (table ++ [value])) [])
      size (.array table) := by
  simp only [jsonl_value_t.valid] at ht
  simp only [jsonl_value_t.depth] at hd
  have hin : jsonl_internal_set_values_is_set_value_in_path []
      [jsonl_path_component_t.index table.length] = true := rfl
  have hmax : (table.length != jsonl_size_max) = true := by
    simp only [bne_iff_ne, ne_eq]; omega
  have h := jsonl_set_values_array_assemble_counts
    [⟨[.index table.length], none⟩] fuel (table ++ [value]) []
    (fun j => ((table ++ [value]).getD j jsonl_value_t.null).size)
    (fun j => (table ++ [value]).getD j jsonl_value_t.null) table.length
    ⟨1, 0, 0, jsonl_size_max⟩ 0 []
    (by simp [jsonl_internal_set_values_first_pass])
    (by
      simp [jsonl_internal_set_values_array_count, hin, jsonl_path_component_t.index_member,
        hmax])
    (by simp [jsonl_size_sub])
    (by
      intro j hj
      have hj2 : j < (table ++ [value]).length := by
        simp only [List.length_append, List.length_singleton]; omega
      have hmem : (table ++ [value]).getD j jsonl_value_t.null ∈ table ++ [value] := by
        simp only [List.getD_eq_getElem?_getD, List.getElem?_eq_getElem hj2, Option.getD_some]
        exact List.getElem_mem hj2
      refine ⟨Nat.ne_of_gt (lt_of_lt_of_le (by decide)
        (jsonl_size_ge_header ((table ++ [value]).getD j jsonl_value_t.null))),
        fun remaining => ?_⟩
      have hget : (table ++ [value])[j]? =
          some ((table ++ [value]).getD j jsonl_value_t.null) := by
        simp [List.getD_eq_getElem?_getD, List.getElem?_eq_getElem hj2]
      have hne : (table.length == j) = false := by
        simp only [beq_eq_false_iff_ne, ne_eq]; omega
      have hchild := (jsonl_internal_set_values_untouched
        [⟨[.index table.length], none⟩] fuel
        ((table ++ [value]).getD j jsonl_value_t.null) [.index j]
        (by
          intro s hs
          rw [List.mem_singleton.1 hs]
          simp [jsonl_internal_set_values_is_set_value_in_path,
            jsonl_internal_set_values_in_path_loop]
          omega)
        (by
          intro s hs
          rw [List.mem_singleton.1 hs]
          exact Or.inr (le_refl _))
        (jsonl_valid_of_mem_values _ ht _ hmem)
        (by have := jsonl_depth_of_mem_values (table ++ [value]) _ hmem; omega)).2 remaining
      have hmatch : jsonl_internal_set_values_array_erase_match [] j
          [⟨[.index table.length], none⟩] = some false := by
        simp [jsonl_internal_set_values_array_erase_match, hin, hne]
      have herase := jsonl_array_erase_none [] [⟨[.index table.length], none⟩]
        (table ++ [value]).length j (table ++ [value]).length 0 (fun _ => hmatch)
      unfold jsonl_internal_set_values_array_slot
      simp only [jsonl_internal_set_values_array_overwrite, Option.isSome_none,
        Bool.false_and, Bool.false_eq_true, if_false, herase, Nat.add_zero, hget, hchild,
        Option.map_some'])
    (fun capacity object_size _ => jsonl_array_appended_none [] _ capacity object_size)
  rw [jsonl_range_map_front, List.append_nil] at h
  exact ⟨_, h⟩

/-! ### The scan of a number text and the grammar -/

theorem jsonl_is_decimal_value_iff (c : Nat) :
    jsonl_is_decimal_value c = true ↔ 48 ≤ c ∧ c ≤ 57 := by
  simp [jsonl_is_decimal_value]

theorem jsonl_digits_takeWhile (digits rest : List Nat)
    (hd : ∀ c ∈ digits, 48 ≤ c ∧ c ≤ 57) (hr : jsonl_no_digit_ahead rest) :
    (digits ++ rest).takeWhile jsonl_is_decimal_value = digits ∧
      (digits ++ rest).dropWhile jsonl_is_decimal_value = rest := by
  induction digits with
  | nil =>
      cases rest with
      | nil => exact ⟨rfl, rfl⟩
      | cons c tail =>
          have := hr c rfl
          simp [List.takeWhile, List.dropWhile, this]
  | cons d digits ih =>
      have hdd : jsonl_is_decimal_value d = true :=
        (jsonl_is_decimal_value_iff d).2 (hd d (List.mem_cons_self _ _))
      obtain ⟨h1, h2⟩ := ih (fun c hc => hd c (List.mem_cons_of_mem _ hc))
      simp [List.takeWhile, List.dropWhile, hdd, h1, h2]

theorem jsonl_takeWhile_digits (read : List Nat) :
    (∀ c ∈ read.takeWhile jsonl_is_decimal_value, 48 ≤ c ∧ c ≤ 57) ∧
      jsonl_no_digit_ahead (read.dropWhile jsonl_is_decimal_value) := by
  induction read with
  | nil => exact ⟨by simp, by intro c hc; simp at hc⟩
  | cons d read ih =>
      by_cases hd : jsonl_is_decimal_value d = true
      · simp only [List.takeWhile, List.dropWhile, hd]
        refine ⟨?_, ih.2⟩
        intro c hc
        rcases List.mem_cons.1 hc with rfl | hc
        · exact (jsonl_is_decimal_value_iff _).1 hd
        · exact ih.1 c hc
      · have hd2 : jsonl_is_decimal_value d = false := by
          cases h : jsonl_is_decimal_value d
          · rfl
          · exact absurd h hd
        simp only [List.takeWhile, List.dropWhile, hd2]
        refine ⟨by simp, ?_⟩
        intro c hc
        simp only [List.head?_cons, Option.some.injEq] at hc
        rw [← hc]
        exact hd2

theorem jsonl_number_end_no_digit (rest : List Nat) (h : jsonl_number_end rest) :
    jsonl_no_digit_ahead rest ∧ rest.head? ≠ some 46 ∧ rest.head? ≠ some 69 ∧
      rest.head? ≠ some 101 := by
  rcases h with rfl | ⟨c, tail, rfl, hc⟩
  · refine ⟨?_, by simp, by simp, by simp⟩
    intro c hc
    simp at hc
  · have hcases : c = 32 ∨ c = 9 ∨ c = 10 ∨ c = 13 ∨ c = 91 ∨ c = 123 ∨ c = 93 ∨ c = 125 ∨
        c = 58 ∨ c = 44 ∨ c = 34 := by
      rcases hc with hc | hc
      · simp only [jsonl_is_white_space, Bool.or_eq_true, beq_iff_eq] at hc
        omega
      · simp only [jsonl_is_structural_character, Bool.or_eq_true, beq_iff_eq] at hc
        omega
    refine ⟨?_, ?_, ?_, ?_⟩
    · intro d hd
      simp only [List.head?_cons, Option.some.injEq] at hd
      subst hd
      simp only [jsonl_is_decimal_value, Bool.and_eq_false_iff, decide_eq_false_iff_not]
      omega
    all_goals
      simp only [List.head?_cons, ne_eq, Option.some.injEq]
      omega

theorem jsonl_digits_head (digits after : List Nat) (hd : jsonl_number_digits digits) :
    (digits ++ after).isEmpty = false ∧
      jsonl_is_decimal_value ((digits ++ after).getD 0 0) = true := by
  obtain ⟨hne, hall⟩ := hd
  cases digits with
  | nil => exact absurd rfl hne
  | cons d digits =>
      exact ⟨rfl, (jsonl_is_decimal_value_iff d).2 (hall d (List.mem_cons_self _ _))⟩

theorem jsonl_digits_of_head (read : List Nat) (h1 : read.isEmpty = false)
    (h2 : jsonl_is_decimal_value (read.getD 0 0) = true) :
    jsonl_number_digits (read.takeWhile jsonl_is_decimal_value) := by
  refine ⟨?_, (jsonl_takeWhile_digits read).1⟩
  cases read with
  | nil => simp at h1
  | cons d read =>
      have hd : jsonl_is_decimal_value d = true := h2
      simp [List.takeWhile, hd]

theorem jsonl_decode_number_fraction_of (digits after : List Nat)
    (hd : jsonl_number_digits digits) (ha : jsonl_no_digit_ahead after) :
    jsonl_decode_number_fraction (46 :: (digits ++ after)) = some (digits, after) := by
  obtain ⟨h1, h2⟩ := jsonl_digits_head digits after hd
  obtain ⟨h3, h4⟩ := jsonl_digits_takeWhile digits after hd.2 ha
  simp only [jsonl_decode_number_fraction, h1, h2, h3, h4, Bool.not_true, Bool.or_false,
    Bool.false_eq_true, if_false]

theorem jsonl_decode_number_fraction_none_of (read : List Nat) (h : read.head? ≠ some 46) :
    jsonl_decode_number_fraction read = some ([], read) := by
  unfold jsonl_decode_number_fraction
  split
  · simp at h
  · rfl

theorem jsonl_decode_number_fraction_some (read digits after : List Nat)
    (h : jsonl_decode_number_fraction read = some (digits, after)) :
    (digits = [] ∧ after = read ∧ read.head? ≠ some 46) ∨
      (jsonl_number_digits digits ∧ read = 46 :: (digits ++ after) ∧
        jsonl_no_digit_ahead after) := by
  unfold jsonl_decode_number_fraction at h
  split at h
  · rename_i tail
    by_cases hc : (tail.isEmpty || !jsonl_is_decimal_value (tail.getD 0 0)) = true
    · rw [if_pos hc] at h
      cases h
    · rw [if_neg hc] at h
      simp only [Option.some.injEq, Prod.mk.injEq] at h
      simp only [Bool.or_eq_true, Bool.not_eq_true', not_or, Bool.not_eq_false] at hc
      right
      obtain ⟨rfl, rfl⟩ := h
      refine ⟨jsonl_digits_of_head tail (by simpa using hc.1) hc.2, ?_,
        (jsonl_takeWhile_digits tail).2⟩
      rw [List.takeWhile_append_dropWhile]
  · rename_i hnot
    simp only [Option.some.injEq, Prod.mk.injEq] at h
    left
    refine ⟨h.1.symm, h.2.symm, ?_⟩
    intro hh
    cases read with
    | nil => simp at hh
    | cons c tail =>
        simp only [List.head?_cons, Option.some.injEq] at hh
        subst hh
        exact hnot tail rfl

theorem jsonl_decode_number_run_some (negative result : Bool) (tail digits after : List Nat)
    (h : (if (tail.isEmpty || !jsonl_is_decimal_value (tail.getD 0 0)) = true then none
      else some (negative, tail.takeWhile jsonl_is_decimal_value,
        tail.dropWhile jsonl_is_decimal_value)) = some (result, digits, after)) :
    result = negative ∧ jsonl_number_digits digits ∧ tail = digits ++ after ∧
      jsonl_no_digit_ahead after := by
  by_cases hc : (tail.isEmpty || !jsonl_is_decimal_value (tail.getD 0 0)) = true
  · rw [if_pos hc] at h
    cases h
  · rw [if_neg hc] at h
    simp only [Option.some.injEq, Prod.mk.injEq] at h
    simp only [Bool.or_eq_true, Bool.not_eq_true', not_or, Bool.not_eq_false] at hc
    obtain ⟨rfl, rfl, rfl⟩ := h
    exact ⟨rfl, jsonl_digits_of_head tail (by simpa using hc.1) hc.2,
      (List.takeWhile_append_dropWhile _ _).symm, (jsonl_takeWhile_digits tail).2⟩

theorem jsonl_decode_number_run_of (negative : Bool) (digits after : List Nat)
    (hd : jsonl_number_digits digits) (ha : jsonl_no_digit_ahead after) :
    (if ((digits ++ after).isEmpty ||
        !jsonl_is_decimal_value ((digits ++ after).getD 0 0)) = true then none
      else some (negative, (digits ++ after).takeWhile jsonl_is_decimal_value,
        (digits ++ after).dropWhile jsonl_is_decimal_value)) =
      some (negative, digits, after) := by
  obtain ⟨h1, h2⟩ := jsonl_digits_head digits after hd
  obtain ⟨h3, h4⟩ := jsonl_digits_takeWhile digits after hd.2 ha
  simp only [h1, h2, h3, h4, Bool.not_true, Bool.or_false, Bool.false_eq_true, if_false]

theorem jsonl_decode_number_exponent_of (letter : Nat) (sign digits after : List Nat)
    (hl : letter = 101 ∨ letter = 69) (hs : sign = [] ∨ sign = [43] ∨ sign = [45])
    (hd : jsonl_number_digits digits) (ha : jsonl_no_digit_ahead after) :
    jsonl_decode_number_exponent (letter :: (sign ++ digits ++ after)) =
      some (decide (sign = [45]), digits, after) := by
  have hletter : (letter == 69 || letter == 101) = true := by
    rcases hl with rfl | rfl <;> rfl
  have hrun := fun negative => jsonl_decode_number_run_of negative digits after hd ha
  rcases hs with rfl | rfl | rfl
  · obtain ⟨hne, hall⟩ := hd
    cases digits with
    | nil => exact absurd rfl hne
    | cons d digits =>
        have hd1 := hall d (List.mem_cons_self _ _)
        have h43 : d ≠ 43 := by omega
        have h45 : d ≠ 45 := by omega
        have := hrun false
        simp only [List.nil_append, List.cons_append] at this ⊢
        unfold jsonl_decode_number_exponent
        simp only [hletter, if_true]
        split
        · rename_i heq; cases heq
        · rename_i heq
          simp only [List.cons.injEq] at heq
          exact absurd heq.1 h43
        · rename_i heq
          simp only [List.cons.injEq] at heq
          exact absurd heq.1 h45
        · simpa using this
  · have := hrun false
    simp only [jsonl_decode_number_exponent, hletter, if_true, List.singleton_append,
      List.cons_append, List.nil_append, List.append_assoc]
    simpa using this
  · have := hrun true
    simp only [jsonl_decode_number_exponent, hletter, if_true, List.singleton_append,
      List.cons_append, List.nil_append, List.append_assoc]
    simpa using this

theorem jsonl_decode_number_exponent_none_of (read : List Nat) (h1 : read.head? ≠ some 69)
    (h2 : read.head? ≠ some 101) :
    jsonl_decode_number_exponent read = some (false, [], read) := by
  cases read with
  | nil => rfl
  | cons c tail =>
      simp only [List.head?_cons, ne_eq, Option.some.injEq] at h1 h2
      have : (c == 69 || c == 101) = false := by
        simp only [Bool.or_eq_false_iff, beq_eq_false_iff_ne, ne_eq]
        exact ⟨h1, h2⟩
      simp only [jsonl_decode_number_exponent, this, Bool.false_eq_true, if_false]

theorem jsonl_decode_number_exponent_some (read : List Nat) (negative : Bool)
    (digits after : List Nat)
    (h : jsonl_decode_number_exponent read = some (negative, digits, after)) :
    (digits = [] ∧ negative = false ∧ after = read ∧ read.head? ≠ some 69 ∧
        read.head? ≠ some 101) ∨
      ∃ letter sign, (letter = 101 ∨ letter = 69) ∧ (sign = [] ∨ sign = [43] ∨ sign = [45]) ∧
        jsonl_number_digits digits ∧ read = letter :: (sign ++ digits ++ after) ∧
        negative = decide (sign = [45]) ∧ jsonl_no_digit_ahead after := by
  cases read with
  | nil =>
      simp only [jsonl_decode_number_exponent, Option.some.injEq, Prod.mk.injEq] at h
      exact Or.inl ⟨h.2.1.symm, h.1.symm, h.2.2.symm, by simp, by simp⟩
  | cons c tail =>
      by_cases hc : (c == 69 || c == 101) = true
      · have hletter : c = 101 ∨ c = 69 := by
          simp only [Bool.or_eq_true, beq_iff_eq] at hc
          omega
        right
        unfold jsonl_decode_number_exponent at h
        simp only [hc, if_true] at h
        split at h
        · cases h
        · rename_i after2
          obtain ⟨h1, h2, h3, h4⟩ := jsonl_decode_number_run_some false negative after2 digits
            after h
          exact ⟨c, [43], hletter, Or.inr (Or.inl rfl), h2, by simp [h3], by simp [h1], h4⟩
        · rename_i after2
          obtain ⟨h1, h2, h3, h4⟩ := jsonl_decode_number_run_some true negative after2 digits
            after h
          exact ⟨c, [45], hletter, Or.inr (Or.inr rfl), h2, by simp [h3], by simp [h1], h4⟩
        · obtain ⟨h1, h2, h3, h4⟩ := jsonl_decode_number_run_some false negative tail digits
            after h
          exact ⟨c, [], hletter, Or.inl rfl, h2, by simp [h3], by simp [h1], h4⟩
      · have hc2 : (c == 69 || c == 101) = false := by
          cases hq : (c == 69 || c == 101)
          · rfl
          · exact absurd hq hc
        simp only [jsonl_decode_number_exponent, hc2, Bool.false_eq_true, if_false,
          Option.some.injEq, Prod.mk.injEq] at h
        simp only [Bool.or_eq_false_iff, beq_eq_false_iff_ne, ne_eq] at hc2
        refine Or.inl ⟨h.2.1.symm, h.1.symm, h.2.2.symm, ?_, ?_⟩
        · simp only [List.head?_cons, ne_eq, Option.some.injEq]; exact hc2.1
        · simp only [List.head?_cons, ne_eq, Option.some.injEq]; exact hc2.2

theorem jsonl_number_integer_iff (integer : List Nat) :
    jsonl_number_integer integer ↔
      ∃ digit digits, integer = digit :: digits ∧ (48 ≤ digit ∧ digit ≤ 57) ∧
        (∀ c ∈ digits, 48 ≤ c ∧ c ≤ 57) ∧ (digits = [] ∨ digit ≠ 48) := by
  constructor
  · rintro (rfl | ⟨digit, digits, rfl, h1, h2, h3⟩)
    · exact ⟨48, [], rfl, by omega, by simp, Or.inl rfl⟩
    · exact ⟨digit, digits, rfl, by omega, h3, Or.inr (by omega)⟩
  · rintro ⟨digit, digits, rfl, h1, h2, h3 | h3⟩
    · subst h3
      by_cases h48 : digit = 48
      · subst h48
        exact Or.inl rfl
      · exact Or.inr ⟨digit, [], rfl, by omega, h1.2, by simp⟩
    · exact Or.inr ⟨digit, digits, rfl, by omega, h1.2, h2⟩

theorem jsonl_number_end_check (rest : List Nat) :
    jsonl_number_end rest ↔
      (!rest.isEmpty && !jsonl_is_white_space (rest.getD 0 0) &&
        !jsonl_is_structural_character (rest.getD 0 0)) = false := by
  cases rest with
  | nil => simp [jsonl_number_end]
  | cons c tail =>
      have hget : (c :: tail).getD 0 0 = c := rfl
      rw [hget]
      constructor
      · rintro (h | ⟨c2, tail2, heq, hc⟩)
        · cases h
        · simp only [List.cons.injEq] at heq
          obtain ⟨rfl, rfl⟩ := heq
          rcases hc with hc | hc <;> simp [hc]
      · intro h
        refine Or.inr ⟨c, tail, rfl, ?_⟩
        cases hw : jsonl_is_white_space c
        · cases hs : jsonl_is_structural_character c
          · simp [hw, hs] at h
          · exact Or.inr rfl
        · exact Or.inl rfl

/-- The scan of a text made of a sign, an integer part, a fraction and a tail that the
exponent scan takes whole. -/
theorem jsonl_decode_number_scan_core (sign integer fraction tail rest : List Nat)
    (exponent_is_negative : Bool) (exponent_digits : List Nat)
    (hs : sign = [] ∨ sign = [45]) (hi : jsonl_number_integer integer)
    (hf : jsonl_number_fraction fraction)
    (he : jsonl_decode_number_exponent (tail ++ rest) =
      some (exponent_is_negative, exponent_digits, rest))
    (ht : jsonl_no_digit_ahead (tail ++ rest)) (ht2 : (tail ++ rest).head? ≠ some 46)
    (hr : jsonl_number_end rest) :
    jsonl_decode_number_scan (sign ++ integer ++ fraction ++ tail ++ rest) =
      some {
        length := (sign ++ integer ++ fraction ++ tail).length
        is_negative := decide (sign = [45])
        integer_digits := integer
        fraction_digits := fraction.drop 1
        exponent_is_negative := exponent_is_negative
        exponent_digits := exponent_digits } := by
  obtain ⟨digit, digits, rfl, hd1, hd2, hzero⟩ := (jsonl_number_integer_iff integer).1 hi
  have hdigit : jsonl_is_decimal_value digit = true := (jsonl_is_decimal_value_iff digit).2 hd1
  have hfrac : jsonl_decode_number_fraction (fraction ++ (tail ++ rest)) =
        some (fraction.drop 1, tail ++ rest) ∧
      jsonl_no_digit_ahead (fraction ++ (tail ++ rest)) := by
    rcases hf with rfl | ⟨fraction_digits, rfl, hfd⟩
    · exact ⟨jsonl_decode_number_fraction_none_of _ ht2, ht⟩
    · refine ⟨jsonl_decode_number_fraction_of fraction_digits _ hfd ht, ?_⟩
      intro c hc
      simp only [List.cons_append, List.head?_cons, Option.some.injEq] at hc
      subst hc
      rfl
  obtain ⟨hfraction, hahead⟩ := hfrac
  obtain ⟨htake, hdrop⟩ := jsonl_digits_takeWhile (digit :: digits)
    (fraction ++ (tail ++ rest))
    (by
      intro c hc
      rcases List.mem_cons.1 hc with rfl | hc
      · exact hd1
      · exact hd2 c hc)
    hahead
  have hlead : (decide ((digit :: digits).length > 1) && (digit :: digits).getD 0 0 == 48) =
      false := by
    rcases hzero with rfl | h48
    · rfl
    · have : ((digit :: digits).getD 0 0 == 48) = false := by
        show (digit == 48) = false
        simp only [beq_eq_false_iff_ne, ne_eq]; exact h48
      rw [this, Bool.and_false]
  have hend := (jsonl_number_end_check rest).1 hr
  have hread : ((digit :: digits ++ (fraction ++ (tail ++ rest))).isEmpty ||
      !jsonl_is_decimal_value ((digit :: digits ++ (fraction ++ (tail ++ rest))).getD 0 0)) =
      false := by
    show (false || !jsonl_is_decimal_value digit) = false
    rw [hdigit]
    rfl
  have h45 : (digit == 45) = false := by
    simp only [beq_eq_false_iff_ne, ne_eq]; omega
  rcases hs with rfl | rfl
  · have hneg : ((([] : List Nat) ++ digit :: digits ++ fraction ++ tail ++ rest).getD 0 0 ==
        45) = false := h45
    have hshape : ([] : List Nat) ++ digit :: digits ++ fraction ++ tail ++ rest =
        digit :: digits ++ (fraction ++ (tail ++ rest)) := by simp
    have hempty : (([] : List Nat) ++ digit :: digits ++ fraction ++ tail ++ rest).isEmpty =
        false := rfl
    unfold jsonl_decode_number_scan
    simp only [hempty, Bool.false_eq_true, if_false, hneg]
    rw [hshape]
    simp only [hread, Bool.false_eq_true, if_false, htake, hdrop, hlead, hfraction, he, hend]
    simp [hdigit]
    omega
  · have hneg : (([45] ++ digit :: digits ++ fraction ++ tail ++ rest).getD 0 0 == 45) =
        true := rfl
    have hshape : ([45] ++ digit :: digits ++ fraction ++ tail ++ rest).drop 1 =
        digit :: digits ++ (fraction ++ (tail ++ rest)) := by simp
    have hempty : ([45] ++ digit :: digits ++ fraction ++ tail ++ rest).isEmpty = false := rfl
    unfold jsonl_decode_number_scan
    simp only [hempty, Bool.false_eq_true, if_false, hneg, if_true]
    rw [hshape]
    simp only [hread, Bool.false_eq_true, if_false, htake, hdrop, hlead, hfraction, he, hend]
    simp
    omega

theorem jsonl_decode_number_scan_plain (sign integer fraction rest : List Nat)
    (hs : sign = [] ∨ sign = [45]) (hi : jsonl_number_integer integer)
    (hf : jsonl_number_fraction fraction) (hr : jsonl_number_end rest) :
    jsonl_decode_number_scan (sign ++ integer ++ fraction ++ rest) =
      some {
        length := (sign ++ integer ++ fraction).length
        is_negative := decide (sign = [45])
        integer_digits := integer
        fraction_digits := fraction.drop 1
        exponent_is_negative := false
        exponent_digits := [] } := by
  obtain ⟨h1, h2, h3, h4⟩ := jsonl_number_end_no_digit rest hr
  have h := jsonl_decode_number_scan_core sign integer fraction [] rest false [] hs hi hf
    (jsonl_decode_number_exponent_none_of _ h3 h4) h1 h2 hr
  simpa using h

theorem jsonl_decode_number_scan_exponent (sign integer fraction : List Nat) (letter : Nat)
    (exponent_sign exponent_digits rest : List Nat)
    (hs : sign = [] ∨ sign = [45]) (hi : jsonl_number_integer integer)
    (hf : jsonl_number_fraction fraction) (hl : letter = 101 ∨ letter = 69)
    (hes : exponent_sign = [] ∨ exponent_sign = [43] ∨ exponent_sign = [45])
    (hed : jsonl_number_digits exponent_digits) (hr : jsonl_number_end rest) :
    jsonl_decode_number_scan
        (sign ++ integer ++ fraction ++ letter :: (exponent_sign ++ exponent_digits) ++ rest) =
      some {
        length :=
          (sign ++ integer ++ fraction ++ letter :: (exponent_sign ++ exponent_digits)).length
        is_negative := decide (sign = [45])
        integer_digits := integer
        fraction_digits := fraction.drop 1
        exponent_is_negative := decide (exponent_sign = [45])
        exponent_digits := exponent_digits } := by
  obtain ⟨h1, _, _, _⟩ := jsonl_number_end_no_digit rest hr
  have he := jsonl_decode_number_exponent_of letter exponent_sign exponent_digits rest hl hes
    hed h1
  have hshape : letter :: (exponent_sign ++ exponent_digits) ++ rest =
      letter :: (exponent_sign ++ exponent_digits ++ rest) := by simp
  have h := jsonl_decode_number_scan_core sign integer fraction
    (letter :: (exponent_sign ++ exponent_digits)) rest (decide (exponent_sign = [45]))
    exponent_digits hs hi hf (by rw [hshape]; exact he)
    (by
      intro c hc
      simp only [List.cons_append, List.head?_cons, Option.some.injEq] at hc
      subst hc
      rcases hl with rfl | rfl <;> rfl)
    (by
      simp only [List.cons_append, List.head?_cons, ne_eq, Option.some.injEq]
      omega)
    hr
  simpa using h

theorem jsonl_decode_number_scan_of_lexeme (lexeme rest : List Nat)
    (hl : jsonl_number_lexeme lexeme) (hr : jsonl_number_end rest) :
    ∃ scan, jsonl_decode_number_scan (lexeme ++ rest) = some scan ∧
      scan.length = lexeme.length := by
  obtain ⟨sign, integer, fraction, exponent, rfl, hs, hi, hf, he⟩ := hl
  rcases he with rfl | ⟨letter, exponent_sign, exponent_digits, rfl, hletter, hes, hed⟩
  · have h := jsonl_decode_number_scan_plain sign integer fraction rest hs hi hf hr
    rw [List.append_nil]
    exact ⟨_, h, rfl⟩
  · exact ⟨_, jsonl_decode_number_scan_exponent sign integer fraction letter exponent_sign
      exponent_digits rest hs hi hf hletter hes hed hr, rfl⟩

theorem jsonl_decode_number_scan_some (json_text : List Nat) (scan : jsonl_number_text_t)
    (h : jsonl_decode_number_scan json_text = some scan) :
    ∃ lexeme rest, json_text = lexeme ++ rest ∧ scan.length = lexeme.length ∧
      jsonl_number_lexeme lexeme ∧ jsonl_number_end rest := by
  unfold jsonl_decode_number_scan at h
  by_cases hempty : json_text.isEmpty = true
  · rw [if_pos hempty] at h
    cases h
  rw [if_neg hempty] at h
  simp only [] at h
  generalize hsign : (json_text.getD 0 0 == 45) = is_negative at h
  generalize hread : (if is_negative = true then json_text.drop 1 else json_text) = read at h
  have htext : json_text = (if is_negative = true then [45] else []) ++ read := by
    cases is_negative with
    | false =>
        simp only [Bool.false_eq_true, if_false] at hread
        simp [hread]
    | true =>
        simp only [if_true] at hread
        cases json_text with
        | nil => simp at hempty
        | cons c tail =>
            have hc : (c == 45) = true := hsign
            simp only [beq_iff_eq] at hc
            subst hc
            simp only [List.drop_succ_cons, List.drop_zero] at hread
            simp [hread]
  by_cases hstart : (read.isEmpty || !jsonl_is_decimal_value (read.getD 0 0)) = true
  · rw [if_pos hstart] at h
    cases h
  rw [if_neg hstart] at h
  simp only [Bool.or_eq_true, Bool.not_eq_true', not_or, Bool.not_eq_false] at hstart
  have hnonempty : read.isEmpty = false := by simpa using hstart.1
  have hintd := jsonl_digits_of_head read hnonempty hstart.2
  by_cases hlead : (decide ((read.takeWhile jsonl_is_decimal_value).length > 1) &&
      (read.takeWhile jsonl_is_decimal_value).getD 0 0 == 48) = true
  · rw [if_pos hlead] at h
    cases h
  rw [if_neg hlead] at h
  have hinteger : jsonl_number_integer (read.takeWhile jsonl_is_decimal_value) := by
    rw [jsonl_number_integer_iff]
    obtain ⟨hne, hall⟩ := hintd
    cases hrun : read.takeWhile jsonl_is_decimal_value with
    | nil => exact absurd hrun hne
    | cons digit digits =>
        rw [hrun] at hall hlead
        refine ⟨digit, digits, rfl, hall digit (List.mem_cons_self _ _),
          fun c hc => hall c (List.mem_cons_of_mem _ hc), ?_⟩
        by_cases hd : digits = []
        · exact Or.inl hd
        · right
          intro h48
          apply hlead
          have hlen : (digit :: digits).length > 1 := by
            have := List.length_pos.mpr hd
            simp only [List.length_cons]; omega
          have hget : ((digit :: digits).getD 0 0 == 48) = true := by
            show (digit == 48) = true
            simp [h48]
          simp only [hlen, decide_True, hget, Bool.and_self]
  cases hfrac : jsonl_decode_number_fraction (read.dropWhile jsonl_is_decimal_value) with
  | none =>
      rw [hfrac] at h
      cases h
  | some fraction_result =>
      obtain ⟨fraction_digits, after_fraction⟩ := fraction_result
      rw [hfrac] at h
      simp only [] at h
      cases hexp : jsonl_decode_number_exponent after_fraction with
      | none =>
          rw [hexp] at h
          cases h
      | some exponent_result =>
          obtain ⟨exponent_is_negative, exponent_digits, rest⟩ := exponent_result
          rw [hexp] at h
          simp only [] at h
          by_cases hend : (!rest.isEmpty && !jsonl_is_white_space (rest.getD 0 0) &&
              !jsonl_is_structural_character (rest.getD 0 0)) = true
          · rw [if_pos hend] at h
            cases h
          rw [if_neg hend] at h
          have hend2 : jsonl_number_end rest := by
            rw [jsonl_number_end_check]
            cases hq : (!rest.isEmpty && !jsonl_is_white_space (rest.getD 0 0) &&
              !jsonl_is_structural_character (rest.getD 0 0))
            · rfl
            · exact absurd hq hend
          have hfraction : ∃ fraction, jsonl_number_fraction fraction ∧
              read.dropWhile jsonl_is_decimal_value = fraction ++ after_fraction := by
            rcases jsonl_decode_number_fraction_some _ _ _ hfrac with
              ⟨_, h2, _⟩ | ⟨h1, h2, _⟩
            · exact ⟨[], Or.inl rfl, by simp [h2]⟩
            · exact ⟨46 :: fraction_digits, Or.inr ⟨fraction_digits, rfl, h1⟩, by simp [h2]⟩
          have hexponent : ∃ exponent, jsonl_number_exponent exponent ∧
              after_fraction = exponent ++ rest := by
            rcases jsonl_decode_number_exponent_some _ _ _ _ hexp with
              ⟨_, _, h3, _, _⟩ | ⟨letter, sign, h1, h2, h3, h4, _, _⟩
            · exact ⟨[], Or.inl rfl, by simp [h3]⟩
            · exact ⟨letter :: (sign ++ exponent_digits),
                Or.inr ⟨letter, sign, exponent_digits, rfl, h1, h2, h3⟩, by simp [h4]⟩
          obtain ⟨fraction, hf1, hf2⟩ := hfraction
          obtain ⟨exponent, he1, he2⟩ := hexponent
          have hsplit : read = read.takeWhile jsonl_is_decimal_value ++
              (fraction ++ (exponent ++ rest)) := by
            rw [← he2, ← hf2, List.takeWhile_append_dropWhile]
          refine ⟨(if is_negative = true then [45] else []) ++
            read.takeWhile jsonl_is_decimal_value ++ fraction ++ exponent, rest, ?_, ?_,
            ⟨_, _, _, _, rfl, ?_, hinteger, hf1, he1⟩, hend2⟩
          · rw [htext]
            nth_rewrite 1 [hsplit]
            simp
          · simp only [Option.some.injEq] at h
            rw [← h]
            simp only []
            rw [htext]
            nth_rewrite 1 [hsplit]
            simp
            omega
          · cases is_negative <;> simp

theorem jsonl_number_lexeme_length (lexeme : List Nat) (h : jsonl_number_lexeme lexeme) :
    lexeme.length ≠ 0 := by
  obtain ⟨sign, integer, fraction, exponent, rfl, _, hi, _, _⟩ := h
  obtain ⟨digit, digits, rfl, _⟩ := (jsonl_number_integer_iff integer).1 hi
  simp only [List.length_append, List.length_cons]
  omega

theorem jsonl_number_digits_value_lt (digits : List Nat) (h : ∀ c ∈ digits, 48 ≤ c ∧ c ≤ 57) :
    ∀ value, digits.foldl (fun value digit => 10 * value + (digit - 48)) value <
      (value + 1) * 10 ^ digits.length := by
  induction digits with
  | nil => intro value; simp
  | cons d digits ih =>
      intro value
      have hd := h d (List.mem_cons_self _ _)
      have hrec := ih (fun c hc => h c (List.mem_cons_of_mem _ hc)) (10 * value + (d - 48))
      simp only [List.foldl_cons, List.length_cons]
      have hle : (10 * value + (d - 48) + 1) * 10 ^ digits.length ≤
          (value + 1) * 10 ^ (digits.length + 1) := by
        have h1 : 10 * value + (d - 48) + 1 ≤ (value + 1) * 10 := by omega
        calc (10 * value + (d - 48) + 1) * 10 ^ digits.length
            ≤ ((value + 1) * 10) * 10 ^ digits.length := Nat.mul_le_mul_right _ h1
          _ = (value + 1) * 10 ^ (digits.length + 1) := by
              rw [Nat.mul_assoc, pow_succ, Nat.mul_comm 10]
      exact lt_of_lt_of_le hrec hle

theorem jsonl_number_digits_value_length (digits : List Nat)
    (hd : ∀ c ∈ digits, 48 ≤ c ∧ c ≤ 57) (hbig : 1000 ≤ jsonl_number_digits_value digits) :
    4 ≤ digits.length := by
  by_contra hlt
  have hbound := jsonl_number_digits_value_lt digits hd 0
  have hpow : 10 ^ digits.length ≤ 10 ^ 3 := Nat.pow_le_pow_right (by decide) (by omega)
  unfold jsonl_number_digits_value at hbig
  simp only [Nat.zero_add, Nat.one_mul] at hbound
  have : (10 : Nat) ^ 3 = 1000 := by decide
  omega

theorem jsonl_valid_values_append (table : List jsonl_value_t) (value : jsonl_value_t)
    (ht : jsonl_value_t.valid_values table = true) (hv : value.valid = true) :
    jsonl_value_t.valid_values (table ++ [value]) = true := by
  induction table with
  | nil => simp [jsonl_value_t.valid_values, hv]
  | cons child table ih =>
      simp only [jsonl_value_t.valid_values, Bool.and_eq_true] at ht
      simp [jsonl_value_t.valid_values, ht.1, ih ht.2]

/-- C12: one write of a valid value at the append sentinel of a valid root array of `n`
elements builds the array of the elements followed by the value, and one removal at the
index `n` applied to that result builds the array itself; each call returns a non-zero
size, the same for every capacity. -/
theorem jsonl_set_values_append_then_delete (table : List jsonl_value_t)
    (value : jsonl_value_t) (ht : (jsonl_value_t.array table).valid = true)
    (hv : value.valid = true) (hn : table.length < jsonl_size_max) :
    ∃ appended_size size, appended_size ≠ 0 ∧ size ≠ 0 ∧
      (∀ capacity,
        jsonl_set_values (.array table) [⟨[.index jsonl_size_max], some value⟩] capacity =
          some (appended_size,
            if appended_size ≤ capacity then some (.array (table ++ [value])) else none)) ∧
      ∀ capacity,
        jsonl_set_values (.array (table ++ [value])) [⟨[.index table.length], none⟩] capacity =
          some (size, if size ≤ capacity then some (.array table) else none) := by
  have ht2 : (jsonl_value_t.array (table ++ [value])).valid = true := by
    simp only [jsonl_value_t.valid] at ht ⊢
    exact jsonl_valid_values_append table value ht hv
  obtain ⟨appended_size, happend⟩ := jsonl_internal_set_values_append_root table value ht hv hn
    (jsonl_value_t.array table).depth (le_refl _)
  obtain ⟨size, hremove⟩ := jsonl_internal_set_values_remove_last_root table value ht2 hn
    (jsonl_value_t.array (table ++ [value])).depth (le_refl _)
  refine ⟨appended_size, size, happend.1, hremove.1, fun capacity => ?_, fun capacity => ?_⟩
  · rw [jsonl_set_values_of_writes _ _ _ (by
      intro s hs
      rw [List.mem_singleton.1 hs]
      rfl)]
    exact happend.2 capacity
  · have := hremove.2 capacity
    simpa [jsonl_set_values] using this

theorem jsonl_set_values_append_then_delete_witness :
    ((jsonl_value_t.array [.number ⟨0x3FF0000000000000⟩, .number ⟨0x4000000000000000⟩,
        .number ⟨0x4008000000000000⟩]).valid = true ∧
      (jsonl_value_t.number ⟨0x4010000000000000⟩).valid = true ∧
      [jsonl_value_t.number ⟨0x3FF0000000000000⟩, .number ⟨0x4000000000000000⟩,
        .number ⟨0x4008000000000000⟩].length < jsonl_size_max) ∧
    ∃ appended_size size, appended_size ≠ 0 ∧ size ≠ 0 ∧
      (∀ capacity,
        jsonl_set_values
            (.array [.number ⟨0x3FF0000000000000⟩, .number ⟨0x4000000000000000⟩,
              .number ⟨0x4008000000000000⟩])
            [⟨[.index jsonl_size_max], some (.number ⟨0x4010000000000000⟩)⟩] capacity =
          some (appended_size,
            if appended_size ≤ capacity then
              some (.array [.number ⟨0x3FF0000000000000⟩, .number ⟨0x4000000000000000⟩,
                .number ⟨0x4008000000000000⟩, .number ⟨0x4010000000000000⟩])
            else none)) ∧
      ∀ capacity,
        jsonl_set_values
            (.array [.number ⟨0x3FF0000000000000⟩, .number ⟨0x4000000000000000⟩,
              .number ⟨0x4008000000000000⟩, .number ⟨0x4010000000000000⟩])
            [⟨[.index 3], none⟩] capacity =
          some (size,
            if size ≤ capacity then
              some (.array [.number ⟨0x3FF0000000000000⟩, .number ⟨0x4000000000000000⟩,
                .number ⟨0x4008000000000000⟩])
            else none) :=
  ⟨⟨rfl, rfl, by decide⟩,
    jsonl_set_values_append_then_delete
      [.number ⟨0x3FF0000000000000⟩, .number ⟨0x4000000000000000⟩,
        .number ⟨0x4008000000000000⟩]
      (.number ⟨0x4010000000000000⟩) rfl rfl (by decide)⟩

/-- C13 (the code at the failing input): the text `"a\nb"` decodes to the three bytes a,
LF, b, but the four byte text `"\\"`, a quoted string that holds one escaped backslash, is
not decoded: `jsonl_quoted_string_lenght` (line 204) sets its escape flag at every
backslash, also at one that is itself escaped, so the closing quote counts as escaped and
`jsonl_decode_quoted_string` returns 0. -/
theorem jsonl_decode_quoted_string_escaped_backslash_last :
    jsonl_decode_quoted_string [34, 97, 92, 110, 98, 34] 3 = some (6, 3, [97, 10, 98]) ∧
      jsonl_decode_quoted_string [34, 92, 92, 34] 1 = some (0, 0, []) :=
  ⟨rfl, rfl⟩

/-- C14 (the code at the failing input): for the string a, LF, b `jsonl_print` stores a
quote, a, a backslash, the byte 10 itself, b and a quote: line 1261 stores the member
`character` of the table entry where the member `escaped` (here `n`) is meant. -/
theorem jsonl_print_string_escape_stores_character (pf : jsonl_platform_t) :
    jsonl_print pf (.string [97, 10, 98]) 6 =
      (6, [(0, 34), (1, 97), (2, 92), (3, 10), (4, 98), (5, 34)]) := by
  cases h : pf.char_is_signed <;>
    simp [jsonl_print, jsonl_internal_print, jsonl_print_string_value,
      jsonl_print_string_value_loop, jsonl_escaped_character_index,
      jsonl_escaped_character_table, jsonl_char_less_than_0x20, h]

/-- C15 (the code at the failing input): the escape `\u00e9` decodes to the bytes 194,
153, the UTF-8 encoding of the code point 0x99, where the encoding of 0xE9 is 195, 169,
the bytes that `\u00E9` decodes to: `jsonl_hex_value` (line 91) subtracts `'f' - 10` from
a lower case digit where `'a' - 10` is meant, so `e` counts as 9. -/
theorem jsonl_decode_quoted_string_lower_case_hex :
    jsonl_decode_quoted_string [34, 92, 117, 48, 48, 101, 57, 34] 2 =
        some (8, 2, [194, 153]) ∧
      jsonl_decode_quoted_string [34, 92, 117, 48, 48, 69, 57, 34] 2 =
        some (8, 2, [195, 169]) ∧
      jsonl_hex_value 101 = 9 :=
  ⟨rfl, rfl, rfl⟩

/-- C16 (the code at the failing input): the text `"\/"` decodes to the two bytes
backslash and slash, the escape is not taken; the switch of
`jsonl_decode_quoted_string` has a case for the apostrophe (line 256) and none for the
slash, so it is `"\'"` that decodes to one byte. -/
theorem jsonl_decode_quoted_string_slash_not_unescaped :
    jsonl_decode_quoted_string [34, 92, 47, 34] 2 = some (4, 2, [92, 47]) ∧
      jsonl_decode_quoted_string [34, 92, 39, 34] 2 = some (4, 1, [39]) :=
  ⟨rfl, rfl⟩

/-- C17: `jsonl_decode_number` returns `n > 0` exactly when the text is a number lexeme of
length `n` (optional `-`, the digit 0 or a non-zero digit and digits, optional `.` and
digits, optional `e` or `E`, optional sign and digits) followed by the end of the input,
a white space byte or a structural character; so it returns 0 when the text has no such
start, as for `01`.  The structural characters are those of
`jsonl_is_structural_character` (line 83), which counts the double quote among them. -/
theorem jsonl_decode_number_grammar (pf : jsonl_platform_t) (json_text : List Nat) (n : Nat) :
    (((jsonl_decode_number pf json_text).1 = n ∧ n ≠ 0) ↔
      ∃ lexeme rest, json_text = lexeme ++ rest ∧ lexeme.length = n ∧
        jsonl_number_lexeme lexeme ∧ jsonl_number_end rest) ∧
      (jsonl_decode_number pf [48, 49]).1 = 0 := by
  refine ⟨⟨?_, ?_⟩, rfl⟩
  · rintro ⟨hn, hne⟩
    unfold jsonl_decode_number at hn
    cases hscan : jsonl_decode_number_scan json_text with
    | none =>
        rw [hscan] at hn
        exact absurd hn.symm hne
    | some scan =>
        rw [hscan] at hn
        obtain ⟨lexeme, rest, h1, h2, h3, h4⟩ := jsonl_decode_number_scan_some json_text scan hscan
        exact ⟨lexeme, rest, h1, by rw [← h2]; exact hn, h3, h4⟩
  · rintro ⟨lexeme, rest, rfl, hlen, hl, hr⟩
    obtain ⟨scan, hscan, hlength⟩ := jsonl_decode_number_scan_of_lexeme lexeme rest hl hr
    unfold jsonl_decode_number
    rw [hscan]
    exact ⟨by rw [← hlen]; exact hlength, by rw [← hlen]; exact jsonl_number_lexeme_length _ hl⟩

/-- C18: for a number text whose exponent has the magnitude 1000 or more,
`jsonl_decode_number` returns the length of the text and stores zero for a negative
exponent and else infinity, negated when the text starts with `-`; the platform is one
where infinity compares unequal to zero and zero does not.  The text `1e1000` gives 6 and
positive infinity. -/
theorem jsonl_decode_number_saturates (pf : jsonl_platform_t) (sign integer fraction : List Nat)
    (letter : Nat) (exponent_sign exponent_digits rest : List Nat)
    (hs : sign = [] ∨ sign = [45]) (hi : jsonl_number_integer integer)
    (hf : jsonl_number_fraction fraction) (hl : letter = 101 ∨ letter = 69)
    (hes : exponent_sign = [] ∨ exponent_sign = [43] ∨ exponent_sign = [45])
    (hed : jsonl_number_digits exponent_digits) (hr : jsonl_number_end rest)
    (hbig : 1000 ≤ jsonl_number_digits_value exponent_digits)
    (hinfinity : pf.double_ne_zero jsonl_double_infinity = true)
    (hzero : pf.double_ne_zero jsonl_double_zero = false) :
    jsonl_decode_number pf
        (sign ++ integer ++ fraction ++ letter :: (exponent_sign ++ exponent_digits) ++ rest) =
      ((sign ++ integer ++ fraction ++ letter :: (exponent_sign ++ exponent_digits)).length,
        ⟨if exponent_sign = [45] then jsonl_double_zero
          else if sign = [45] then pf.double_neg jsonl_double_infinity
          else jsonl_double_infinity⟩) := by
  have hlen := jsonl_number_digits_value_length exponent_digits hed.2 hbig
  have h1 : (exponent_digits.length != 0) = true := by
    simp only [bne_iff_ne, ne_eq]; omega
  have h2 : ¬ exponent_digits.length < 4 := by omega
  unfold jsonl_decode_number
  rw [jsonl_decode_number_scan_exponent sign integer fraction letter exponent_sign
    exponent_digits rest hs hi hf hl hes hed hr]
  simp only [jsonl_decode_number_value, h1, if_true, h2, if_false, decide_eq_true_eq]
  by_cases hneg : exponent_sign = [45]
  · simp only [hneg, if_true, hzero, Bool.false_and, Bool.false_eq_true, if_false]
  · simp only [hneg, if_false, hinfinity, Bool.true_and, decide_eq_true_eq]

theorem jsonl_decode_number_saturates_witness :
    ((([] : List Nat) = [] ∨ ([] : List Nat) = [45]) ∧ jsonl_number_integer [49] ∧
      jsonl_number_fraction [] ∧ ((101 : Nat) = 101 ∨ (101 : Nat) = 69) ∧
      (([] : List Nat) = [] ∨ ([] : List Nat) = [43] ∨ ([] : List Nat) = [45]) ∧
      jsonl_number_digits [49, 48, 48, 48] ∧ jsonl_number_end [] ∧
      1000 ≤ jsonl_number_digits_value [49, 48, 48, 48] ∧
      jsonl_example_platform.double_ne_zero jsonl_double_infinity = true ∧
      jsonl_example_platform.double_ne_zero jsonl_double_zero = false) ∧
    jsonl_decode_number jsonl_example_platform [49, 101, 49, 48, 48, 48] =
      (6, ⟨jsonl_double_infinity⟩) :=
  ⟨⟨Or.inl rfl, Or.inr ⟨49, [], rfl, by decide, by decide, by simp⟩, Or.inl rfl, Or.inl rfl,
      Or.inl rfl, ⟨by simp, by decide⟩, Or.inl rfl, by decide, rfl, rfl⟩,
    jsonl_decode_number_saturates jsonl_example_platform [] [49] [] 101 [] [49, 48, 48, 48] []
      (Or.inl rfl) (Or.inr ⟨49, [], rfl, by decide, by decide, by simp⟩) (Or.inl rfl)
      (Or.inl rfl) (Or.inl rfl) ⟨by simp, by decide⟩ (Or.inl rfl) (by decide) rfl rfl⟩

theorem jsonl_get_value_child_find (name : List Nat) (table : List (List Nat × jsonl_value_t)) :
    jsonl_get_value_child name table =
      (table.find? (fun entry => entry.1.length == name.length && entry.1 == name)).map
        (fun entry => entry.2) := by
  induction table with
  | nil => rfl
  | cons entry table ih =>
      obtain ⟨entry_name, value⟩ := entry
      simp only [jsonl_get_value_child, List.find?_cons]
      by_cases h : name = entry_name
      · subst h
        simp [jsonl_name_equal_self]
      · have h1 : jsonl_name_equal name entry_name = false := by
          cases hq : jsonl_name_equal name entry_name with
          | false => rfl
          | true => exact absurd ((jsonl_name_equal_iff _ _).1 hq) h
        have h2 : (entry_name == name) = false := by
          simp only [beq_eq_false_iff_ne, ne_eq]
          exact fun hc => h hc.symm
        simp only [h1, Bool.false_eq_true, if_false, h2, Bool.and_false, ih]

theorem jsonl_get_value_walk_eq (path : List jsonl_path_component_t) :
    ∀ node : jsonl_value_t, jsonl_get_value_walk node path = jsonl_walk node path := by
  induction path with
  | nil => intro node; rfl
  | cons component path ih =>
      intro node
      cases component with
      | name name =>
          cases node <;>
            simp [jsonl_get_value_walk, jsonl_walk, jsonl_walk_component,
              jsonl_path_component_t.container_type, jsonl_value_t.type, JSONL_TYPE_OBJECT,
              JSONL_TYPE_ARRAY, JSONL_TYPE_STRING, JSONL_TYPE_NUMBER, JSONL_TYPE_BOOLEAN,
              JSONL_TYPE_NULL]
          case object table =>
            rw [jsonl_get_value_child_find]
            cases table.find? (fun entry => entry.1.length == name.length && entry.1 == name) with
            | none => rfl
            | some entry => exact ih entry.2
      | index index =>
          cases node <;>
            simp [jsonl_get_value_walk, jsonl_walk, jsonl_walk_component,
              jsonl_path_component_t.container_type, jsonl_value_t.type, JSONL_TYPE_OBJECT,
              JSONL_TYPE_ARRAY, JSONL_TYPE_STRING, JSONL_TYPE_NUMBER, JSONL_TYPE_BOOLEAN,
              JSONL_TYPE_NULL]
          case array table =>
            by_cases h : index < table.length
            · simp only [h, if_true, List.getElem?_eq_getElem h]
              exact ih _
            · simp only [h, if_false, List.getElem?_eq_none (Nat.le_of_not_lt h)]

/-- C19: with the required type 0, `jsonl_get_value` returns what the walk of the path
gives, one component at a time: at a name on an object the value of the first entry with
that name (same length, same bytes), at an index on an array the element at the index
when it is below the number of elements, not-found as soon as the kinds differ, no name
matches or the index is out of range, and the tree itself for the empty path. -/
theorem jsonl_get_value_is_walk (value_tree : jsonl_value_t)
    (path : List jsonl_path_component_t) :
    jsonl_get_value value_tree path 0 = jsonl_walk value_tree path := by
  unfold jsonl_get_value
  rw [jsonl_get_value_walk_eq]
  cases jsonl_walk value_tree path <;> simp

/-- C20: with a required type, `jsonl_get_value` returns the node that it returns with
the required type 0 when that node exists and the required type is 0 or the type of the
node, and not-found otherwise. -/
theorem jsonl_get_value_required_type (value_tree : jsonl_value_t)
    (path : List jsonl_path_component_t) (required_value_type : Nat) :
    jsonl_get_value value_tree path required_value_type =
      (jsonl_get_value value_tree path 0).bind (fun node =>
        if required_value_type = 0 ∨ node.type = required_value_type then some node
        else none) := by
  unfold jsonl_get_value
  cases jsonl_get_value_walk value_tree path with
  | none => rfl
  | some node =>
      by_cases h0 : required_value_type = 0
      · simp [h0]
      · by_cases ht : node.type = required_value_type
        · simp [ht]
        · simp [h0, ht]

/-! ### The printed text, explicitly -/

theorem jsonl_printed_text_of_prints (call : Nat → Nat × List (Nat × Nat)) (text : List Nat)
    (h : jsonl_prints call text) : jsonl_printed_text call = text := by
  unfold jsonl_printed_text
  rw [(h 0).1, (h text.length).2 (le_refl _)]
  exact jsonl_buffer_text_of_writes text _

theorem jsonl_print_string_value_printed (pf : jsonl_platform_t) (string : List Nat) :
    2 ≤ (jsonl_printed_text (jsonl_print_string_value pf string)).length ∧
      jsonl_prints (jsonl_print_string_value pf string)
        (jsonl_printed_text (jsonl_print_string_value pf string)) := by
  obtain ⟨text, hlen, htext⟩ := jsonl_print_string_value_text pf string
  rw [jsonl_printed_text_of_prints _ text htext]
  exact ⟨hlen, htext⟩

theorem jsonl_print_number_value_printed (pf : jsonl_platform_t)
    (number_value : jsonl_number_value_t) :
    jsonl_printed_text (jsonl_print_number_value pf number_value) ≠ [] ∧
      jsonl_prints (jsonl_print_number_value pf number_value)
        (jsonl_printed_text (jsonl_print_number_value pf number_value)) := by
  obtain ⟨text, hne, htext⟩ := jsonl_print_number_value_text pf number_value
  rw [jsonl_printed_text_of_prints _ text htext]
  exact ⟨hne, htext⟩

mutual
theorem jsonl_internal_print_rendered (pf : jsonl_platform_t) (value : jsonl_value_t)
    (hv : value.valid = true) (depth : Nat) :
    jsonl_rendered pf value depth ≠ [] ∧
      jsonl_prints (fun capacity => jsonl_internal_print pf value capacity depth)
        (jsonl_rendered pf value depth) := by
  cases value with
  | object table =>
      simp only [jsonl_value_t.valid] at hv
      have hinner := jsonl_internal_print_object_loop_rendered pf table hv depth
      refine ⟨by simp [jsonl_rendered], ?_⟩
      have := jsonl_internal_print_container 123 125 depth
        (fun capacity => jsonl_internal_print_object_loop pf table capacity depth 2)
        (jsonl_rendered_entries pf table depth)
        (fun capacity => hinner capacity 2 (by decide))
      simpa only [jsonl_internal_print, jsonl_rendered] using this
  | array table =>
      simp only [jsonl_value_t.valid] at hv
      have hinner := jsonl_internal_print_array_loop_rendered pf table hv depth
      refine ⟨by simp [jsonl_rendered], ?_⟩
      have := jsonl_internal_print_container 91 93 depth
        (fun capacity => jsonl_internal_print_array_loop pf table capacity depth 2)
        (jsonl_rendered_values pf table depth)
        (fun capacity => hinner capacity 2 (by decide))
      simpa only [jsonl_internal_print, jsonl_rendered] using this
  | string string =>
      obtain ⟨hlen, htext⟩ := jsonl_print_string_value_printed pf string
      refine ⟨fun h => ?_, ?_⟩
      · simp only [jsonl_rendered] at h
        rw [h] at hlen
        simp at hlen
      · simpa only [jsonl_internal_print, jsonl_rendered] using htext
  | number number =>
      obtain ⟨hne, htext⟩ := jsonl_print_number_value_printed pf number
      refine ⟨by simpa only [jsonl_rendered] using hne, ?_⟩
      simpa only [jsonl_internal_print, jsonl_rendered] using htext
  | boolean b =>
      cases b with
      | true =>
          refine ⟨by simp [jsonl_rendered], fun capacity => ⟨rfl, fun hfit => ?_⟩⟩
          have : capacity > 3 := hfit
          simp only [jsonl_internal_print, this, if_true]
          rfl
      | false =>
          refine ⟨by simp [jsonl_rendered], fun capacity => ⟨rfl, fun hfit => ?_⟩⟩
          have : capacity > 4 := hfit
          simp only [jsonl_internal_print, this, if_true]
          rfl
  | null =>
      refine ⟨by simp [jsonl_rendered], fun capacity => ⟨rfl, fun hfit => ?_⟩⟩
      have : capacity > 3 := hfit
      simp only [jsonl_internal_print, this, if_true]
      rfl
  | unknown t => simp [jsonl_value_t.valid] at hv
theorem jsonl_internal_print_object_loop_rendered (pf : jsonl_platform_t)
    (table : List (List Nat × jsonl_value_t)) (hv : jsonl_value_t.valid_entries table = true)
    (depth : Nat) :
    ∀ capacity object_size, 0 < object_size →
      (jsonl_internal_print_object_loop pf table capacity depth object_size).1 =
        object_size + (jsonl_rendered_entries pf table depth).length ∧
      (object_size + (jsonl_rendered_entries pf table depth).length ≤ capacity →
        (jsonl_internal_print_object_loop pf table capacity depth object_size).2 =
          jsonl_text_writes object_size (jsonl_rendered_entries pf table depth)) := by
  cases table with
  | nil =>
      exact fun capacity object_size _ => ⟨rfl, fun _ => rfl⟩
  | cons e table =>
      obtain ⟨name, value⟩ := e
      simp only [jsonl_value_t.valid_entries, Bool.and_eq_true] at hv
      obtain ⟨_, hname⟩ := jsonl_print_string_value_printed pf name
      obtain ⟨hne, hchild⟩ := jsonl_internal_print_rendered pf value hv.1 (depth + 1)
      have hrest := jsonl_internal_print_object_loop_rendered pf table hv.2 depth
      have := jsonl_internal_print_object_loop_step pf name value table depth _ _ _ hname hne
        hchild hrest
      simpa only [jsonl_rendered_entries] using this
theorem jsonl_internal_print_array_loop_rendered (pf : jsonl_platform_t)
    (table : List jsonl_value_t) (hv : jsonl_value_t.valid_values table = true)
    (depth : Nat) :
    ∀ capacity array_size, 0 < array_size →
      (jsonl_internal_print_array_loop pf table capacity depth array_size).1 =
        array_size + (jsonl_rendered_values pf table depth).length ∧
      (array_size + (jsonl_rendered_values pf table depth).length ≤ capacity →
        (jsonl_internal_print_array_loop pf table capacity depth array_size).2 =
          jsonl_text_writes array_size (jsonl_rendered_values pf table depth)) := by
  cases table with
  | nil =>
      exact fun capacity array_size _ => ⟨rfl, fun _ => rfl⟩
  | cons value table =>
      simp only [jsonl_value_t.valid_values, Bool.and_eq_true] at hv
      obtain ⟨hne, hchild⟩ := jsonl_internal_print_rendered pf value hv.1 (depth + 1)
      have hrest := jsonl_internal_print_array_loop_rendered pf table hv.2 depth
      have := jsonl_internal_print_array_loop_step pf value table depth _ _ hne hchild hrest
      simpa only [jsonl_rendered_values] using this
end

/-! ### A batch of writes at the indices of a root array -/

theorem jsonl_in_path_root (path : List jsonl_path_component_t) :
    jsonl_internal_set_values_is_set_value_in_path [] path = true := by
  simp [jsonl_internal_set_values_is_set_value_in_path,
    jsonl_internal_set_values_in_path_loop]

/-- The main loop of the array case where `erased j` elements have been removed before
the slot `j`. -/
theorem jsonl_array_values_erased_spec
    (patch : jsonl_value_t → List jsonl_path_component_t → Nat →
      Option (Nat × Option jsonl_value_t))
    (internal_path : List jsonl_path_component_t) (table : List jsonl_value_t)
    (set_value_table : List jsonl_set_value_t) (sizes : Nat → Nat)
    (result : Nat → jsonl_value_t) (erased : Nat → Nat)
    (slots i object_size : Nat) (hpos : 0 < object_size)
    (hslot : ∀ j, i ≤ j → j < i + slots → sizes j ≠ 0 ∧ ∀ remaining,
      jsonl_internal_set_values_array_slot patch internal_path table set_value_table remaining j
        (erased j) =
        some (erased (j + 1), sizes j, if sizes j ≤ remaining then some (result j) else none)) :
    ∀ capacity, ∃ values,
      jsonl_internal_set_values_array_values patch internal_path table set_value_table capacity
        slots i (erased i) object_size =
        some (object_size + ((List.range' i slots).map sizes).sum, values) ∧
      (object_size + ((List.range' i slots).map sizes).sum ≤ capacity →
        values = (List.range' i slots).map (fun j => some (result j))) := by
  induction slots generalizing i object_size with
  | zero =>
      exact fun capacity =>
        ⟨[], by simp [jsonl_internal_set_values_array_values], fun _ => rfl⟩
  | succ slots ih =>
      obtain ⟨hsize, hcall⟩ := hslot i (le_refl _) (by omega)
      generalize hsz : sizes i = size at hsize hcall
      have hloop := ih (i + 1) (object_size + size) (by omega)
        (fun j h1 h2 => hslot j (by omega) (by omega))
      generalize htot : object_size + size + ((List.range' (i + 1) slots).map sizes).sum = total
        at hloop
      have htotal : object_size + size ≤ total := by omega
      intro capacity
      simp only [List.range'_succ, List.map_cons, List.sum_cons, hsz]
      have htot2 : object_size + (size + ((List.range' (i + 1) slots).map sizes).sum) = total := by
        omega
      rw [htot2]
      obtain ⟨values, hvalues, hfits⟩ := hloop capacity
      refine ⟨(if jsonl_remaining object_size capacity != 0 then
          (if size ≤ jsonl_remaining object_size capacity then some (result i) else none)
        else none) :: values, ?_, ?_⟩
      · have hs : (size == 0) = false := by simp [hsize]
        have ht : (total == 0) = false := by
          simp only [beq_eq_false_iff_ne, ne_eq]; omega
        simp only [jsonl_internal_set_values_array_values, hcall, hs, hvalues, ht,
          Bool.false_eq_true, if_false]
      · intro hfit
        rw [hfits hfit]
        have h1 : size ≤ jsonl_remaining object_size capacity := by
          unfold jsonl_remaining; omega
        have h2 : jsonl_remaining object_size capacity ≠ 0 := by omega
        simp [h1, h2]

/-- The array case of the patch engine without appended values, given what its main loop
finds for each slot, where `erased j` elements have been removed before the slot `j`. -/
theorem jsonl_set_values_array_assemble_erased (set_value_table : List jsonl_set_value_t)
    (fuel : Nat) (table : List jsonl_value_t) (internal_path : List jsonl_path_component_t)
    (sizes : Nat → Nat) (result : Nat → jsonl_value_t) (erased : Nat → Nat) (slots : Nat)
    (counts : jsonl_array_counts_t)
    (hfirst : jsonl_internal_set_values_first_pass internal_path (.array table)
      set_value_table 0 none = some (.indirect none))
    (hcount : jsonl_internal_set_values_array_count internal_path table.length
      set_value_table set_value_table 0 ⟨0, 0, 0, jsonl_size_max⟩ = some counts)
    (happend : counts.append_child_value_count = 0)
    (hslots : slots =
      if counts.set_child_value_highest_index != jsonl_size_max &&
          decide (jsonl_size_sub table.length counts.remove_child_value_count <
            counts.set_child_value_highest_index + 1) then
        counts.set_child_value_highest_index + 1
      else jsonl_size_sub table.length counts.remove_child_value_count)
    (hzero : erased 0 = 0)
    (hslot : ∀ j, j < slots → sizes j ≠ 0 ∧ ∀ remaining,
      jsonl_internal_set_values_array_slot (jsonl_internal_set_values set_value_table fuel)
        internal_path table set_value_table remaining j (erased j) =
        some (erased (j + 1), sizes j,
          if sizes j ≤ remaining then some (result j) else none)) :
    jsonl_uniform
      (jsonl_internal_set_values set_value_table (fuel + 1) (.array table) internal_path)
      (40 + jsonl_round_size (slots * jsonl_sizeof_pointer) +
        ((List.range' 0 slots).map sizes).sum)
      (.array ((List.range' 0 slots).map result)) := by
  refine ⟨by omega, fun capacity => ?_⟩
  unfold jsonl_internal_set_values
  simp only [hfirst, hcount, jsonl_header_size, ← hslots, happend, Nat.add_zero]
  obtain ⟨values, hv, hvfit⟩ := jsonl_array_values_erased_spec
    (jsonl_internal_set_values set_value_table fuel) internal_path table set_value_table
    sizes result erased slots 0
    (40 + jsonl_round_size (slots * jsonl_sizeof_pointer))
    (by omega) (fun j _ hj => hslot j (by omega)) capacity
  rw [hzero] at hv
  simp only [hv, jsonl_internal_set_values_array_appended, List.append_nil]
  rw [if_neg (by simp only [beq_iff_eq]; omega), if_neg (by simp only [beq_iff_eq]; omega)]
  by_cases hfit : 40 + jsonl_round_size (slots * jsonl_sizeof_pointer) +
      ((List.range' 0 slots).map sizes).sum ≤ capacity
  · have h40 : 40 + jsonl_round_size (slots * jsonl_sizeof_pointer) ≤ capacity := by omega
    rw [hvfit (by omega)]
    simp only [hfit, h40, and_self, if_true]
    have h1 : (List.range' 0 slots).map (fun j => some (result j)) =
        ((List.range' 0 slots).map result).map some := by
      simp [List.map_map, Function.comp_def]
    rw [h1, jsonl_collect_map_some]
    rfl
  · simp [hfit]

/-! ### A node at the path of a removal -/

theorem jsonl_first_pass_removed_here (internal_path : List jsonl_path_component_t)
    (source_value : jsonl_value_t) (set_value_table : List jsonl_set_value_t) (i : Nat)
    (indirect : Option Nat)
    (hq : ∀ s ∈ set_value_table,
      jsonl_internal_set_values_is_set_value_in_path internal_path s.path = false ∨
        (s.value.isNone = true ∧ s.path.length ≤ internal_path.length)) :
    jsonl_internal_set_values_first_pass internal_path source_value set_value_table i indirect =
      some (.indirect indirect) := by
  induction set_value_table generalizing i with
  | nil => rfl
  | cons s rest ih =>
      have hrest := fun j => ih j (fun t ht => hq t (List.mem_cons_of_mem _ ht))
      rcases hq s (List.mem_cons_self _ _) with hs | ⟨hs, _⟩
      · simp only [jsonl_internal_set_values_first_pass, hs]
        cases s.value <;> simp [hrest]
      · cases hv : s.value with
        | none =>
            simp only [jsonl_internal_set_values_first_pass, hv]
            exact hrest _
        | some v => rw [hv] at hs; cases hs

theorem jsonl_object_count_removed_here (internal_path : List jsonl_path_component_t)
    (source_value : jsonl_value_t) (whole set_value_table : List jsonl_set_value_t)
    (i remove_value_count add_value_count : Nat)
    (hq : ∀ s ∈ set_value_table,
      jsonl_internal_set_values_is_set_value_in_path internal_path s.path = false ∨
        (s.value.isNone = true ∧ s.path.length ≤ internal_path.length)) :
    jsonl_internal_set_values_object_count internal_path source_value whole set_value_table i
      remove_value_count add_value_count = some (remove_value_count, add_value_count) := by
  induction set_value_table generalizing i with
  | nil => rfl
  | cons s rest ih =>
      have hcond : (jsonl_internal_set_values_is_set_value_in_path internal_path s.path &&
          decide (s.path.length > internal_path.length)) = false := by
        rcases hq s (List.mem_cons_self _ _) with hs | ⟨_, hs⟩
        · rw [hs, Bool.false_and]
        · have : decide (s.path.length > internal_path.length) = false := by
            simp only [gt_iff_lt, decide_eq_false_iff_not]; omega
          rw [this, Bool.and_false]
      simp only [jsonl_internal_set_values_object_count, hcond, Bool.false_eq_true, if_false]
      exact ih (i + 1) (fun t ht => hq t (List.mem_cons_of_mem _ ht))

theorem jsonl_array_count_removed_here (internal_path : List jsonl_path_component_t)
    (value_count : Nat) (whole set_value_table : List jsonl_set_value_t)
    (i : Nat) (counts : jsonl_array_counts_t)
    (hq : ∀ s ∈ set_value_table,
      jsonl_internal_set_values_is_set_value_in_path internal_path s.path = false ∨
        (s.value.isNone = true ∧ s.path.length ≤ internal_path.length)) :
    jsonl_internal_set_values_array_count internal_path value_count whole set_value_table i
      counts = some counts := by
  induction set_value_table generalizing i with
  | nil => rfl
  | cons s rest ih =>
      have hcond : (jsonl_internal_set_values_is_set_value_in_path internal_path s.path &&
          decide (s.path.length > internal_path.length)) = false := by
        rcases hq s (List.mem_cons_self _ _) with hs | ⟨_, hs⟩
        · rw [hs, Bool.false_and]
        · have : decide (s.path.length > internal_path.length) = false := by
            simp only [gt_iff_lt, decide_eq_false_iff_not]; omega
          rw [this, Bool.and_false]
      simp only [jsonl_internal_set_values_array_count, hcond, Bool.false_eq_true, if_false]
      exact ih (i + 1) (fun t ht => hq t (List.mem_cons_of_mem _ ht))

theorem jsonl_child_removed_here (internal_path : List jsonl_path_component_t)
    (name : List Nat) (set_value_table : List jsonl_set_value_t)
    (hq : ∀ s ∈ set_value_table,
      jsonl_internal_set_values_is_set_value_in_path internal_path s.path = false ∨
        (s.value.isNone = true ∧ s.path.length ≤ internal_path.length)) :
    jsonl_internal_set_values_child_removed internal_path name set_value_table = false := by
  induction set_value_table with
  | nil => rfl
  | cons s rest ih =>
      have hcond : (s.value.isNone && s.path.length == internal_path.length + 1 &&
          jsonl_internal_set_values_is_set_value_in_path internal_path s.path) = false := by
        rcases hq s (List.mem_cons_self _ _) with hs | ⟨_, hs⟩
        · rw [hs, Bool.and_false]
        · have : (s.path.length == internal_path.length + 1) = false := by
            simp only [beq_eq_false_iff_ne, ne_eq]; omega
          rw [this, Bool.and_false, Bool.false_and]
      simp only [jsonl_internal_set_values_child_removed, hcond, Bool.false_and,
        Bool.false_eq_true, if_false]
      exact ih (fun t ht => hq t (List.mem_cons_of_mem _ ht))

theorem jsonl_in_path_child_of_here (component : jsonl_path_component_t)
    (internal_path input_path : List jsonl_path_component_t)
    (h : jsonl_internal_set_values_is_set_value_in_path internal_path input_path = false ∨
      input_path.length ≤ internal_path.length) :
    jsonl_internal_set_values_is_set_value_in_path (component :: internal_path) input_path =
      false := by
  rcases h with h | h
  · exact jsonl_in_path_parent _ _ _ h
  · unfold jsonl_internal_set_values_is_set_value_in_path
    have hdec : decide (input_path.length ≥ (component :: internal_path).length) = false := by
      simp only [List.length_cons, ge_iff_le, decide_eq_false_iff_not]; omega
    rw [hdec, Bool.false_and]

/-- A node at the path of removals that is an object, a leaf or the empty array is
copied: nothing in `jsonl_internal_set_values` removes the node it is called for. -/
theorem jsonl_internal_set_values_removed_here (set_value_table : List jsonl_set_value_t)
    (fuel : Nat) (source_value : jsonl_value_t) (internal_path : List jsonl_path_component_t)
    (hq : ∀ s ∈ set_value_table,
      jsonl_internal_set_values_is_set_value_in_path internal_path s.path = false ∨
        (s.value.isNone = true ∧ s.path.length ≤ internal_path.length))
    (hshort : ∀ s ∈ set_value_table,
      s.value.isSome = true ∨ s.path.length ≤ internal_path.length)
    (hv : source_value.valid = true) (hd : source_value.depth ≤ fuel)
    (harray : ∀ x xs, source_value ≠ .array (x :: xs)) :
    jsonl_uniform
      (jsonl_internal_set_values set_value_table (fuel + 1) source_value internal_path)
      source_value.size source_value := by
  have hshort2 : ∀ (component : jsonl_path_component_t), ∀ s ∈ set_value_table,
      s.value.isSome = true ∨ s.path.length ≤ (component :: internal_path).length := by
    intro component s hs
    rcases hshort s hs with h | h
    · exact Or.inl h
    · exact Or.inr (by simp only [List.length_cons]; omega)
  have hchild : ∀ (component : jsonl_path_component_t), ∀ s ∈ set_value_table,
      jsonl_internal_set_values_is_set_value_in_path (component :: internal_path) s.path =
        false := by
    intro component s hs
    rcases hq s hs with h | ⟨_, h⟩
    · exact jsonl_in_path_child_of_here _ _ _ (Or.inl h)
    · exact jsonl_in_path_child_of_here _ _ _ (Or.inr h)
  refine ⟨by have := jsonl_size_ge_header source_value; omega, fun capacity => ?_⟩
  unfold jsonl_internal_set_values
  rw [jsonl_first_pass_removed_here internal_path source_value set_value_table 0 none hq]
  cases source_value with
  | object table =>
      simp only [jsonl_value_t.valid] at hv
      simp only [jsonl_value_t.depth] at hd
      simp only [jsonl_object_count_removed_here internal_path _ set_value_table set_value_table
        0 0 0 hq, jsonl_size_sub_zero, Nat.add_zero, jsonl_object_added_names_none,
        jsonl_object_added_values_none, List.append_nil]
      obtain ⟨names, hnames, hnfit⟩ := jsonl_object_names_kept internal_path
        set_value_table table.length (jsonl_round_size jsonl_sizeof_value) capacity table 0
        (jsonl_round_size (table.length * jsonl_sizeof_object_entry))
        (fun e _ => jsonl_child_removed_here internal_path e.1 set_value_table hq)
        (by omega)
      obtain ⟨values, hvalues, hvfit⟩ := jsonl_object_values_kept
        (jsonl_internal_set_values set_value_table fuel) internal_path set_value_table
        table.length table (fun e => e.2.size) (fun e => e.2) 0 0
        (jsonl_round_size jsonl_sizeof_value +
          (jsonl_round_size (table.length * jsonl_sizeof_object_entry) +
            (table.map (fun e => jsonl_round_size (e.1.length + 1))).sum))
        (fun j e _ => jsonl_child_value_removed_short internal_path set_value_table j e.1
          set_value_table hshort)
        (by omega) (by rw [jsonl_header_size]; omega)
        (fun e he => jsonl_internal_set_values_untouched set_value_table fuel e.2
          (.name e.1 :: internal_path) (hchild _) (hshort2 _)
          (jsonl_valid_of_mem_entries table hv e he)
          (by have := jsonl_depth_of_mem_entries table e he; omega)) capacity
      simp only [hnames, hvalues]
      have hsz := jsonl_size_entries_eq table
      have hne : (jsonl_round_size jsonl_sizeof_value +
          (jsonl_round_size (table.length * jsonl_sizeof_object_entry) +
            (table.map (fun e => jsonl_round_size (e.1.length + 1))).sum) +
          (table.map (fun e => e.2.size)).sum == 0) = false := by
        rw [jsonl_header_size]; simp only [beq_eq_false_iff_ne, ne_eq]; omega
      have hsame : jsonl_round_size jsonl_sizeof_value +
          (jsonl_round_size (table.length * jsonl_sizeof_object_entry) +
            (table.map (fun e => jsonl_round_size (e.1.length + 1))).sum) +
          (table.map (fun e => e.2.size)).sum = (jsonl_value_t.object table).size := by
        simp only [jsonl_value_t.size, hsz]; omega
      simp only [hne, Bool.false_eq_true, if_false]
      rw [hsame] at hvfit ⊢
      by_cases hfit : (jsonl_value_t.object table).size ≤ capacity
      · have hfit2 : jsonl_round_size jsonl_sizeof_value ≤ capacity := by
          have := jsonl_size_ge_header (jsonl_value_t.object table)
          rw [jsonl_header_size]; omega
        rw [hvfit hfit, hnfit (by rw [← hsame] at hfit; omega)]
        simp only [hfit, hfit2, and_self, if_true]
        rw [jsonl_object_entries_map_some, jsonl_collect_map_some]
        rfl
      · simp [hfit]
  | array table =>
      cases table with
      | cons x xs => exact absurd rfl (harray x xs)
      | nil =>
          simp only [jsonl_array_count_removed_here internal_path _ set_value_table
            set_value_table 0 _ hq, jsonl_size_sub_zero, bne_self_eq_false, Bool.false_and,
            Bool.false_eq_true, if_false, Nat.add_zero, List.length_nil,
            jsonl_internal_set_values_array_appended,
            jsonl_internal_set_values_array_values]
          simp [jsonl_value_t.size, jsonl_value_t.size_values, jsonl_round_size,
            jsonl_sizeof_value, jsonl_value_alignment_minus_one, jsonl_collect]
  | string value => simp [jsonl_value_t.size, jsonl_written]
  | number n => simp [jsonl_value_t.size, jsonl_written]
  | boolean b => simp [jsonl_value_t.size, jsonl_written]
  | null => simp [jsonl_value_t.size, jsonl_written]
  | unknown t => simp [jsonl_value_t.valid] at hv

/-! ### One removal and one write at indices of a root array -/

theorem jsonl_first_pass_remove_write (table : List jsonl_value_t) (i j : Nat)
    (value : jsonl_value_t) :
    jsonl_internal_set_values_first_pass [] (.array table)
      [⟨[.index i], none⟩, ⟨[.index j], some value⟩] 0 none = some (.indirect none) := by
  have htype : ((jsonl_value_t.array table).type !=
      (jsonl_path_component_t.index j).container_type) = false := rfl
  simp only [jsonl_internal_set_values_first_pass, jsonl_in_path_root, if_true,
    List.length_cons, List.length_nil, Nat.zero_add, Nat.reduceBEq, Bool.false_eq_true,
    if_false, Option.isNone_none, List.getElem?_cons_zero, htype, Bool.and_false]

theorem jsonl_array_count_remove_write (table : List jsonl_value_t) (i j : Nat)
    (value : jsonl_value_t) (hi : i < table.length) (hj : j < table.length)
    (hn : table.length ≤ jsonl_size_max) :
    jsonl_internal_set_values_array_count [] table.length
      [⟨[.index i], none⟩, ⟨[.index j], some value⟩]
      [⟨[.index i], none⟩, ⟨[.index j], some value⟩] 0 ⟨0, 0, 0, jsonl_size_max⟩ =
      some ⟨1, 1, 0, j⟩ := by
  have hi2 : (i != jsonl_size_max) = true := by
    simp only [bne_iff_ne, ne_eq]; omega
  have hj2 : (j != jsonl_size_max) = true := by
    simp only [bne_iff_ne, ne_eq]; omega
  simp only [jsonl_internal_set_values_array_count, jsonl_in_path_root, List.length_cons,
    List.length_nil, Nat.zero_add, Nat.zero_lt_one, gt_iff_lt, decide_True, Bool.and_self,
    if_true, List.getElem?_cons_zero, jsonl_path_component_t.index_member, hi2, hj2,
    beq_self_eq_true, Option.isSome_none, Option.isSome_some, Bool.false_eq_true, if_false, hi,
    jsonl_array_counts_set, Bool.true_or]

theorem jsonl_array_slots_remove_write (length j : Nat) (hj : j < length)
    (hn : length ≤ jsonl_size_max) :
    (if j + 1 < length then length - 1 else j + 1) =
      (if (⟨1, 1, 0, j⟩ : jsonl_array_counts_t).set_child_value_highest_index
            != jsonl_size_max &&
          decide (jsonl_size_sub length
            (⟨1, 1, 0, j⟩ : jsonl_array_counts_t).remove_child_value_count <
            (⟨1, 1, 0, j⟩ : jsonl_array_counts_t).set_child_value_highest_index + 1) then
        (⟨1, 1, 0, j⟩ : jsonl_array_counts_t).set_child_value_highest_index + 1
      else jsonl_size_sub length
        (⟨1, 1, 0, j⟩ : jsonl_array_counts_t).remove_child_value_count) := by
  have hj2 : (j != jsonl_size_max) = true := by
    simp only [bne_iff_ne, ne_eq]; omega
  have hsub : jsonl_size_sub length 1 = length - 1 := by
    unfold jsonl_size_sub
    rw [if_pos (by omega)]
  simp only [hj2, Bool.true_and, hsub, decide_eq_true_eq]
  by_cases h : j + 1 < length
  · rw [if_pos h, if_neg (by omega)]
  · rw [if_neg h, if_pos (by omega)]

theorem jsonl_array_overwrite_remove_write (i j k : Nat) (value : jsonl_value_t) :
    jsonl_internal_set_values_array_overwrite [] k
      [⟨[.index i], none⟩, ⟨[.index j], some value⟩] 0 =
      if j = k then some (some (1, ⟨[.index j], some value⟩)) else some none := by
  by_cases h : j = k
  · subst h
    simp only [jsonl_internal_set_values_array_overwrite, Option.isSome_none,
      Bool.false_and, Bool.false_eq_true, if_false, Option.isSome_some, jsonl_in_path_root,
      Bool.and_self, if_true, List.length_nil, List.getElem?_cons_zero, beq_self_eq_true,
      Nat.zero_add]
  · have hb : (j == k) = false := by simpa using h
    simp only [jsonl_internal_set_values_array_overwrite, Option.isSome_none,
      Bool.false_and, Bool.false_eq_true, if_false, Option.isSome_some, jsonl_in_path_root,
      Bool.and_self, if_true, List.length_nil, List.getElem?_cons_zero, hb, h]

theorem jsonl_array_erase_match_remove_write (i j target : Nat) (value : jsonl_value_t) :
    jsonl_internal_set_values_array_erase_match [] target
      [⟨[.index i], none⟩, ⟨[.index j], some value⟩] = some (i == target) := by
  cases h : i == target <;>
    simp only [jsonl_internal_set_values_array_erase_match, Option.isNone_none,
      jsonl_in_path_root, Bool.and_self, if_true, List.length_nil, List.getElem?_cons_zero, h,
      Bool.false_eq_true, if_false, Option.isNone_some, Bool.false_and]

/-- The erase loop for one removal at the index `i`: nothing is skipped before the slot
`i`, one element at it, and nothing more after it. -/
theorem jsonl_array_erase_remove_write (i j k length : Nat) (value : jsonl_value_t)
    (hi : i < length) :
    jsonl_internal_set_values_array_erase [] [⟨[.index i], none⟩, ⟨[.index j], some value⟩]
      length k length (if k ≤ i then 0 else 1) = some (if k < i then 0 else 1) := by
  by_cases h1 : k < i
  · rw [if_pos (by omega), if_pos h1]
    apply jsonl_array_erase_none
    intro _
    rw [jsonl_array_erase_match_remove_write]
    have : (i == k + 0) = false := by simp only [beq_eq_false_iff_ne, ne_eq]; omega
    rw [this]
  · rw [if_neg h1]
    by_cases h2 : k = i
    · subst h2
      rw [if_pos (le_refl _)]
      obtain ⟨fuel, rfl⟩ : ∃ fuel, length = fuel + 1 := ⟨length - 1, by omega⟩
      simp only [jsonl_internal_set_values_array_erase, Nat.add_zero, hi, if_true,
        jsonl_array_erase_match_remove_write, beq_self_eq_true, Nat.zero_add]
      apply jsonl_array_erase_none
      intro _
      rw [jsonl_array_erase_match_remove_write]
      have : (k == k + 1) = false := by simp
      rw [this]
    · rw [if_neg (by omega)]
      apply jsonl_array_erase_none
      intro _
      rw [jsonl_array_erase_match_remove_write]
      have : (i == k + 1) = false := by simp only [beq_eq_false_iff_ne, ne_eq]; omega
      rw [this]

/-- What a slot of the array holds after one removal at `i` and one write at `j`: the
slot `j` the written value, a slot before `i` its element, a later slot the element after
it. -/
theorem jsonl_array_slot_remove_write (table : List jsonl_value_t) (i j : Nat)
    (value : jsonl_value_t) (fuel : Nat)
    (ht : jsonl_value_t.valid_values table = true) (hv : value.valid = true)
    (hi : i < table.length) (hj : j < table.length) (hij : i ≠ j)
    (hd : jsonl_value_t.depth_values table ≤ fuel)
    (hnext : ∀ x xs, table[i + 1]? ≠ some (jsonl_value_t.array (x :: xs)))
    (k : Nat) (hk : k < (if j + 1 < table.length then table.length - 1 else j + 1))
    (remaining : Nat) :
    jsonl_internal_set_values_array_slot
        (jsonl_internal_set_values [⟨[.index i], none⟩, ⟨[.index j], some value⟩] (fuel + 1))
        [] table [⟨[.index i], none⟩, ⟨[.index j], some value⟩] remaining k
        (if k ≤ i then 0 else 1) =
      some ((if k + 1 ≤ i then 0 else 1),
        (if k = j then value
          else table.getD (if k < i then k else k + 1) jsonl_value_t.null).size,
        if (if k = j then value
            else table.getD (if k < i then k else k + 1) jsonl_value_t.null).size ≤ remaining
        then some (if k = j then value
          else table.getD (if k < i then k else k + 1) jsonl_value_t.null)
        else none) := by
  unfold jsonl_internal_set_values_array_slot
  rw [jsonl_array_overwrite_remove_write]
  by_cases hkj : k = j
  · subst hkj
    have he : (if k ≤ i then 0 else 1) = (if k + 1 ≤ i then 0 else 1) := by
      by_cases h : k ≤ i
      · rw [if_pos h, if_pos (by omega)]
      · rw [if_neg h, if_neg (by omega)]
    simp only [if_true, List.length_cons, List.length_nil, Nat.zero_add, Nat.lt_irrefl,
      gt_iff_lt, if_false, Option.map_some', jsonl_copy_value_spec value remaining hv, he]
  · have hjk : ¬ j = k := fun h => hkj h.symm
    have hsrc : (if k < i then k else k + 1) < table.length := by
      by_cases h : j + 1 < table.length
      · rw [if_pos h] at hk
        split <;> omega
      · rw [if_neg h] at hk
        split <;> omega
    have hget : table[k + (if k < i then 0 else 1)]? =
        some (table.getD (if k < i then k else k + 1) jsonl_value_t.null) := by
      have : k + (if k < i then 0 else 1) = (if k < i then k else k + 1) := by
        split <;> rfl
      rw [this]
      simp [List.getD_eq_getElem?_getD, List.getElem?_eq_getElem hsrc]
    have hmem : table.getD (if k < i then k else k + 1) jsonl_value_t.null ∈ table := by
      simp only [List.getD_eq_getElem?_getD, List.getElem?_eq_getElem hsrc, Option.getD_some]
      exact List.getElem_mem hsrc
    have he : (if k < i then 0 else 1) = (if k + 1 ≤ i then 0 else 1) := by
      by_cases h : k < i
      · rw [if_pos h, if_pos (by omega)]
      · rw [if_neg h, if_neg (by omega)]
    have hshort : ∀ s ∈ [(⟨[.index i], none⟩ : jsonl_set_value_t), ⟨[.index j], some value⟩],
        s.value.isSome = true ∨ s.path.length ≤ [jsonl_path_component_t.index k].length := by
      intro s hs
      simp only [List.mem_cons, List.mem_singleton, List.not_mem_nil, or_false] at hs
      rcases hs with rfl | rfl
      · exact Or.inr (le_refl _)
      · exact Or.inl rfl
    have hout : ∀ index, index ≠ k →
        jsonl_internal_set_values_is_set_value_in_path [jsonl_path_component_t.index k]
          [jsonl_path_component_t.index index] = false := by
      intro index hne
      have := jsonl_in_path_other [] [] (.index index) (.index k)
        (by
          show k ≠ index
          exact fun h => hne h.symm)
      simpa using this
    have hchild : jsonl_uniform
        (jsonl_internal_set_values [⟨[.index i], none⟩, ⟨[.index j], some value⟩] (fuel + 1)
          (table.getD (if k < i then k else k + 1) jsonl_value_t.null) [.index k])
        (table.getD (if k < i then k else k + 1) jsonl_value_t.null).size
        (table.getD (if k < i then k else k + 1) jsonl_value_t.null) := by
      by_cases hki : k = i
      · subst hki
        apply jsonl_internal_set_values_removed_here _ fuel _ _ _ hshort
          (jsonl_valid_of_mem_values table ht _ hmem)
          (by have := jsonl_depth_of_mem_values table _ hmem; omega)
        · intro x xs hx
          have hsome : table[k + 1]? =
              some (table.getD (if k < k then k else k + 1) jsonl_value_t.null) := by
            simpa using hget
          rw [hx] at hsome
          exact hnext x xs hsome
        · intro s hs
          simp only [List.mem_cons, List.mem_singleton, List.not_mem_nil, or_false] at hs
          rcases hs with rfl | rfl
          · exact Or.inr ⟨rfl, le_refl _⟩
          · exact Or.inl (hout j hjk)
      · apply jsonl_internal_set_values_untouched _ (fuel + 1) _ _ _ hshort
          (jsonl_valid_of_mem_values table ht _ hmem)
          (by have := jsonl_depth_of_mem_values table _ hmem; omega)
        intro s hs
        simp only [List.mem_cons, List.mem_singleton, List.not_mem_nil, or_false] at hs
        rcases hs with rfl | rfl
        · exact hout i (fun h => hki h.symm)
        · exact hout j hjk
    have hget2 := hget
    rw [he] at hget2
    simp only [hjk, if_false, hkj, jsonl_array_erase_remove_write i j k table.length value hi,
      he, hget2, hchild.2 remaining, Option.map_some']

theorem jsonl_range_map_lookup {α : Type} (f : Nat → α) (slots k : Nat) :
    ((List.range' 0 slots).map f)[k]? = if k < slots then some (f k) else none := by
  by_cases h : k < slots
  · rw [if_pos h, List.getElem?_map, List.getElem?_range' 0 1 h]
    simp
  · rw [if_neg h]
    exact List.getElem?_eq_none (by simp only [List.length_map, List.length_range']; omega)

/-- The slots after one removal at `i` and one write at `j`, as a list: the array
without its element `i`, with the slot `j` set to the value, which is one past the end
when `j` is the last index of the array. -/
theorem jsonl_remove_write_slots (table : List jsonl_value_t) (i j : Nat)
    (value : jsonl_value_t) (hi : i < table.length) (hj : j < table.length) (hij : i ≠ j) :
    (List.range' 0 (if j + 1 < table.length then table.length - 1 else j + 1)).map
        (fun k => if k = j then value
          else table.getD (if k < i then k else k + 1) jsonl_value_t.null) =
      (if j + 1 < table.length then (table.eraseIdx i).set j value
        else table.eraseIdx i ++ [value]) := by
  have hlen : (table.eraseIdx i).length = table.length - 1 := by
    rw [List.length_eraseIdx, if_pos hi]
  have hsrc : ∀ k, k + 1 < table.length →
      (if k < i then table[k]? else table[k + 1]?) =
        some (table.getD (if k < i then k else k + 1) jsonl_value_t.null) := by
    intro k hk
    by_cases h : k < i
    · simp only [h, if_true, List.getD_eq_getElem?_getD,
        List.getElem?_eq_getElem (show k < table.length by omega), Option.getD_some]
    · simp only [h, if_false, List.getD_eq_getElem?_getD, List.getElem?_eq_getElem hk,
        Option.getD_some]
  apply List.ext_getElem?
  intro k
  rw [jsonl_range_map_lookup]
  by_cases h : j + 1 < table.length
  · simp only [h, if_true, List.getElem?_set, hlen, List.getElem?_eraseIdx]
    by_cases hkj : k = j
    · subst hkj
      rw [if_pos (by omega), if_pos rfl, if_pos rfl, if_pos (by omega)]
    · have hjk : ¬ j = k := fun h2 => hkj h2.symm
      by_cases hk : k < table.length - 1
      · rw [if_pos hk, if_neg hkj, if_neg hjk, hsrc k (by omega)]
      · rw [if_neg hk, if_neg hjk, if_neg (by omega)]
        exact (List.getElem?_eq_none (by omega)).symm
  · simp only [h, if_false, List.getElem?_append, hlen, List.getElem?_eraseIdx]
    by_cases hkj : k = j
    · subst hkj
      rw [if_pos (by omega), if_pos rfl, if_neg (by omega)]
      have : k - (table.length - 1) = 0 := by omega
      rw [this]
      rfl
    · by_cases hk : k < table.length - 1
      · rw [if_pos (by omega), if_neg hkj, if_pos hk, hsrc k (by omega)]
      · rw [if_neg (by omega), if_neg hk]
        exact (List.getElem?_eq_none (by simp only [List.length_singleton]; omega)).symm

/-- One removal at the index `i` and one write at the index `j` of a root array: the
element `i` is omitted and the slot `j` of what is left holds the value. -/
theorem jsonl_internal_set_values_remove_write (table : List jsonl_value_t) (i j : Nat)
    (value : jsonl_value_t) (fuel : Nat)
    (ht : (jsonl_value_t.array table).valid = true) (hv : value.valid = true)
    (hi : i < table.length) (hj : j < table.length) (hij : i ≠ j)
    (hn : table.length ≤ jsonl_size_max)
    (hd : (jsonl_value_t.array table).depth ≤ fuel + 1)
    (hnext : ∀ x xs, table[i + 1]? ≠ some (jsonl_value_t.array (x :: xs))) :
    ∃ size, jsonl_uniform
      (jsonl_internal_set_values [⟨[.index i], none⟩, ⟨[.index j], some value⟩] (fuel + 2)
        (.array table) [])
      size
      (.array (if j + 1 < table.length then (table.eraseIdx i).set j value
        else table.eraseIdx i ++ [value])) := by
  simp only [jsonl_value_t.valid] at ht
  simp only [jsonl_value_t.depth] at hd
  have h := jsonl_set_values_array_assemble_erased
    [⟨[.index i], none⟩, ⟨[.index j], some value⟩] (fuel + 1) table []
    (fun k => (if k = j then value
      else table.getD (if k < i then k else k + 1) jsonl_value_t.null).size)
    (fun k => if k = j then value
      else table.getD (if k < i then k else k + 1) jsonl_value_t.null)
    (fun k => if k ≤ i then 0 else 1)
    (if j + 1 < table.length then table.length - 1 else j + 1)
    ⟨1, 1, 0, j⟩
    (jsonl_first_pass_remove_write table i j value)
    (jsonl_array_count_remove_write table i j value hi hj hn)
    rfl
    (jsonl_array_slots_remove_write table.length j hj hn)
    (by simp)
    (fun k hk => ⟨Nat.ne_of_gt (lt_of_lt_of_le (by decide) (jsonl_size_ge_header _)),
      fun remaining => jsonl_array_slot_remove_write table i j value fuel ht hv hi hj hij
        (by omega) hnext k hk remaining⟩)
  rw [jsonl_remove_write_slots table i j value hi hj hij] at h
  exact ⟨_, h⟩

/-- Where the written index lies before the removed one, removing and then writing is
writing and then removing. -/
theorem jsonl_remove_write_before (table : List jsonl_value_t) (i j : Nat)
    (value : jsonl_value_t) (hi : i < table.length) (hji : j < i) :
    (if j + 1 < table.length then (table.eraseIdx i).set j value
      else table.eraseIdx i ++ [value]) = (table.set j value).eraseIdx i := by
  have hlen : (table.eraseIdx i).length = table.length - 1 := by
    rw [List.length_eraseIdx, if_pos hi]
  rw [if_pos (by omega)]
  apply List.ext_getElem?
  intro k
  simp only [List.getElem?_set, List.getElem?_eraseIdx, hlen]
  by_cases hkj : j = k
  · subst hkj
    rw [if_pos rfl, if_pos (by omega), if_pos hji, if_pos rfl, if_pos (by omega)]
  · rw [if_neg hkj]
    by_cases hk : k < i
    · rw [if_pos hk, if_pos hk, if_neg hkj]
    · rw [if_neg hk, if_neg hk, if_neg (by omega)]

/-- C22 (the code at the failing input): the text `["\\"",""]` holds the string of one
backslash, then with no comma the string of one comma, then a quote that opens a string
without end; `jsonl_parse_text` accepts it as the array of the two strings `\"` and the
empty one, because `jsonl_quoted_string_lenght` (line 204) takes the quote after the
escaped backslash for an escaped quote.  The text `["\\""]` is accepted the same way. -/
theorem jsonl_parse_text_accepts_strings_without_comma (pf : jsonl_platform_t) :
    jsonl_parse_text pf [91, 34, 92, 92, 34, 34, 44, 34, 34, 93] 1000 =
        some (152, some (.array [.string [92, 34], .string []])) ∧
      jsonl_parse_text pf [91, 34, 92, 92, 34, 34, 93] 1000 =
        some (96, some (.array [.string [92, 34]])) :=
  ⟨rfl, rfl⟩

/-- C23 (the code at the failing input): removing the index 0 of `[1,2,3]` once gives
`[2,3]`, giving the removal twice gives `[2]`: the count loop (line 2094) counts a
removal for each of the two operations.  For the object `{"a":1}` one removal of `a` gives
the empty object, and with two the count of removals passes the count of entries (the
assertion of line 1919) and the name loop leaves the table of the object. -/
theorem jsonl_set_values_duplicate_delete_removes_more :
    jsonl_set_values (.array [.number ⟨1⟩, .number ⟨2⟩, .number ⟨3⟩])
        [⟨[.index 0], none⟩] 1000 = some (136, some (.array [.number ⟨2⟩, .number ⟨3⟩])) ∧
      jsonl_set_values (.array [.number ⟨1⟩, .number ⟨2⟩, .number ⟨3⟩])
        [⟨[.index 0], none⟩, ⟨[.index 0], none⟩] 1000 = some (88, some (.array [.number ⟨2⟩])) ∧
      jsonl_set_values (.object [([97], .number ⟨1⟩)]) [⟨[.name [97]], none⟩] 1000 =
        some (40, some (.object [])) ∧
      jsonl_set_values (.object [([97], .number ⟨1⟩)])
        [⟨[.name [97]], none⟩, ⟨[.name [97]], none⟩] 1000 = none :=
  ⟨rfl, rfl, rfl, rfl⟩

/-- C24 (the code at the failing input): the removal at the name `c` applied to the root
array `[true,false]` resolves to nothing, and the result is `[true]`: the count loop of
the array case (lines 2082 to 2094) reads the member `index` of the component without
testing its kind, the member aliases the length 1 of the name, and a removal is counted.
The same happens below the root, for `{"a":[true,false]}` and the path `a.b`. -/
theorem jsonl_set_values_delete_name_in_array :
    jsonl_set_values (.array [.boolean true, .boolean false]) [⟨[.name [99]], none⟩] 1000 =
        some (88, some (.array [.boolean true])) ∧
      jsonl_set_values (.object [([97], .array [.boolean true, .boolean false])])
        [⟨[.name [97], .name [98]], none⟩] 1000 =
        some (160, some (.object [([97], .array [.boolean true])])) :=
  ⟨rfl, rfl⟩

/-- C25 (the code at the failing input): the removal at the path `[0][(size_t)~0]` applied
to `[[true]]` gives `[null]`: the erase loop of the array case (lines 2162 to 2177) takes
a removal whose path goes on below the element for a removal of the element. -/
theorem jsonl_set_values_delete_through_sentinel :
    jsonl_set_values (.array [.array [.boolean true]])
        [⟨[.index 0, .index jsonl_size_max], none⟩] 1000 =
      some (88, some (.array [.null])) :=
  rfl

/-- C28: one write of a valid value at the empty path returns, for every tree and every
capacity, what `jsonl_internal_copy_value` returns for the value: the size of the value,
and the value itself in every buffer that the size fits. -/
theorem jsonl_set_values_root_write (value_tree value : jsonl_value_t)
    (hv : value.valid = true) (capacity : Nat) :
    jsonl_set_values value_tree [⟨[], some value⟩] capacity =
        some (jsonl_internal_copy_value value capacity) ∧
      jsonl_internal_copy_value value capacity =
        (value.size, if value.size ≤ capacity then some value else none) := by
  refine ⟨?_, jsonl_copy_value_spec value capacity hv⟩
  have h := jsonl_first_pass_single_replace [] value_tree value
  simp only [List.reverse_nil] at h
  simp [jsonl_set_values, jsonl_internal_set_values, h]

theorem jsonl_set_values_root_write_witness :
    (jsonl_value_t.array [.number ⟨1⟩, .object [([97], .string [120])]]).valid = true ∧
      jsonl_set_values (.boolean true)
          [⟨[], some (.array [.number ⟨1⟩, .object [([97], .string [120])]])⟩] 216 =
        some (jsonl_internal_copy_value
          (.array [.number ⟨1⟩, .object [([97], .string [120])]]) 216) ∧
      jsonl_internal_copy_value (.array [.number ⟨1⟩, .object [([97], .string [120])]]) 216 =
        ((jsonl_value_t.array [.number ⟨1⟩, .object [([97], .string [120])]]).size,
          if (jsonl_value_t.array [.number ⟨1⟩, .object [([97], .string [120])]]).size ≤ 216
          then some (.array [.number ⟨1⟩, .object [([97], .string [120])]]) else none) :=
  ⟨rfl, jsonl_set_values_root_write (.boolean true)
    (.array [.number ⟨1⟩, .object [([97], .string [120])]]) rfl 216⟩

/-- C29: for a tree whose nodes all have a valid kind, `jsonl_print` reports the length
of the rendering of the tree at depth 0 and stores it in every buffer that it fits: an
object as `{`, LF, for each entry `depth + 1` tabs, the quoted name, space, colon, space,
the value at `depth + 1`, a comma unless the entry is the last, LF, then `depth` tabs and
`}`; an array likewise with `[`, `]` and no name part; the literals as their words.  The
empty object is the three bytes `{`, LF, `}`. -/
theorem jsonl_print_rendering (pf : jsonl_platform_t) (value_tree : jsonl_value_t)
    (hv : value_tree.valid = true) :
    jsonl_prints (jsonl_print pf value_tree) (jsonl_rendered pf value_tree 0) ∧
      jsonl_rendered pf (.object []) 0 = [123, 10, 125] ∧
      jsonl_rendered pf (.array [.boolean true, .array [.null, .boolean false]]) 0 =
        [91, 10, 9, 116, 114, 117, 101, 44, 10, 9, 91, 10, 9, 9, 110, 117, 108, 108, 44, 10,
          9, 9, 102, 97, 108, 115, 101, 10, 9, 93, 10, 93] :=
  ⟨(jsonl_internal_print_rendered pf value_tree hv 0).2, rfl, rfl⟩

theorem jsonl_print_rendering_witness :
    (jsonl_value_t.object [([97], .object [([98], .null)]), ([100], .array [])]).valid = true ∧
      jsonl_rendered jsonl_example_platform
          (.object [([97], .object [([98], .null)]), ([100], .array [])]) 0 =
        [123, 10, 9, 34, 97, 34, 32, 58, 32, 123, 10, 9, 9, 34, 98, 34, 32, 58, 32, 110, 117,
          108, 108, 10, 9, 125, 44, 10, 9, 34, 100, 34, 32, 58, 32, 91, 10, 9, 93, 10, 125] ∧
      jsonl_prints
        (jsonl_print jsonl_example_platform
          (.object [([97], .object [([98], .null)]), ([100], .array [])]))
        (jsonl_rendered jsonl_example_platform
          (.object [([97], .object [([98], .null)]), ([100], .array [])]) 0) :=
  ⟨rfl, by decide,
    (jsonl_print_rendering jsonl_example_platform
      (.object [([97], .object [([98], .null)]), ([100], .array [])]) rfl).1⟩

/-- C30 (the code at the failing input): for the empty object and the two writes
`x[1] = 9` and `x[0] = 8`, listed with the higher index first, `jsonl_set_values` reports
168 for the capacity 0, the size of an array of one element, and with a sufficient
capacity stores the first value at the slot 1 of that table of one slot (line 1718);
listed in ascending order the two writes give `{"x":[9,8]}` and 224. -/
theorem jsonl_set_values_create_path_descending :
    jsonl_set_values (.object [])
        [⟨[.name [120], .index 1], some (.number ⟨9⟩)⟩,
          ⟨[.name [120], .index 0], some (.number ⟨8⟩)⟩] 0 = some (168, none) ∧
      jsonl_set_values (.object [])
        [⟨[.name [120], .index 1], some (.number ⟨9⟩)⟩,
          ⟨[.name [120], .index 0], some (.number ⟨8⟩)⟩] 1000 = none ∧
      jsonl_set_values (.object [])
        [⟨[.name [120], .index 0], some (.number ⟨9⟩)⟩,
          ⟨[.name [120], .index 1], some (.number ⟨8⟩)⟩] 1000 =
        some (224, some (.object [([120], .array [.number ⟨9⟩, .number ⟨8⟩])])) :=
  ⟨rfl, rfl, rfl⟩

/-- What the array case makes of a removal and a write in one batch: for every root array
`table` of valid values, every two distinct indices `i` and `j` below its length, and
every valid value, where the element after the removed one is not a non-empty array, the
batch of the removal at `i` followed by the write at `j` reports one size for every
capacity and builds, in every buffer the size fits, the array without its element `i` in
which the slot `j` then holds the value: the index of the write is applied to the array
after the removal, and the value is appended when `j` is the last index of the array.
Where `j` lies before `i` this is the array with the element `j` replaced and the element
`i` omitted. -/
theorem jsonl_set_values_remove_then_write (table : List jsonl_value_t) (i j : Nat)
    (value : jsonl_value_t)
    (ht : (jsonl_value_t.array table).valid = true) (hv : value.valid = true)
    (hi : i < table.length) (hj : j < table.length) (hij : i ≠ j)
    (hn : table.length ≤ jsonl_size_max)
    (hnext : ∀ x xs, table[i + 1]? ≠ some (jsonl_value_t.array (x :: xs))) :
    (∃ size, jsonl_uniform
      (jsonl_set_values (.array table) [⟨[.index i], none⟩, ⟨[.index j], some value⟩]) size
      (.array (if j + 1 < table.length then (table.eraseIdx i).set j value
        else table.eraseIdx i ++ [value]))) ∧
      (j < i →
        (if j + 1 < table.length then (table.eraseIdx i).set j value
          else table.eraseIdx i ++ [value]) = (table.set j value).eraseIdx i) := by
  refine ⟨?_, jsonl_remove_write_before table i j value hi⟩
  obtain ⟨size, h⟩ := jsonl_internal_set_values_remove_write table i j value
    (jsonl_value_t.depth_values table) ht hv hi hj hij hn
    (by simp only [jsonl_value_t.depth]; omega) hnext
  refine ⟨size, h.1, fun capacity => ?_⟩
  rw [← h.2 capacity]
  rfl

theorem jsonl_set_values_remove_then_write_witness :
    (jsonl_value_t.array [.number ⟨0⟩, .number ⟨1⟩, .number ⟨2⟩, .number ⟨3⟩]).valid = true ∧
      (jsonl_value_t.number ⟨9⟩).valid = true ∧
      2 < [jsonl_value_t.number ⟨0⟩, .number ⟨1⟩, .number ⟨2⟩, .number ⟨3⟩].length ∧
      1 < [jsonl_value_t.number ⟨0⟩, .number ⟨1⟩, .number ⟨2⟩, .number ⟨3⟩].length ∧
      (if 1 + 1 < [jsonl_value_t.number ⟨0⟩, .number ⟨1⟩, .number ⟨2⟩, .number ⟨3⟩].length then
          ([jsonl_value_t.number ⟨0⟩, .number ⟨1⟩, .number ⟨2⟩, .number ⟨3⟩].eraseIdx 2).set 1
            (.number ⟨9⟩)
        else [jsonl_value_t.number ⟨0⟩, .number ⟨1⟩, .number ⟨2⟩, .number ⟨3⟩].eraseIdx 2 ++
          [.number ⟨9⟩]) = [.number ⟨0⟩, .number ⟨9⟩, .number ⟨3⟩] ∧
      ((∃ size, jsonl_uniform
        (jsonl_set_values (.array [.number ⟨0⟩, .number ⟨1⟩, .number ⟨2⟩, .number ⟨3⟩])
          [⟨[.index 2], none⟩, ⟨[.index 1], some (.number ⟨9⟩)⟩]) size
        (.array (if 1 + 1 <
            [jsonl_value_t.number ⟨0⟩, .number ⟨1⟩, .number ⟨2⟩, .number ⟨3⟩].length then
          ([jsonl_value_t.number ⟨0⟩, .number ⟨1⟩, .number ⟨2⟩, .number ⟨3⟩].eraseIdx 2).set 1
            (.number ⟨9⟩)
        else [jsonl_value_t.number ⟨0⟩, .number ⟨1⟩, .number ⟨2⟩, .number ⟨3⟩].eraseIdx 2 ++
          [.number ⟨9⟩]))) ∧
      (1 < 2 →
        (if 1 + 1 <
            [jsonl_value_t.number ⟨0⟩, .number ⟨1⟩, .number ⟨2⟩, .number ⟨3⟩].length then
          ([jsonl_value_t.number ⟨0⟩, .number ⟨1⟩, .number ⟨2⟩, .number ⟨3⟩].eraseIdx 2).set 1
            (.number ⟨9⟩)
        else [jsonl_value_t.number ⟨0⟩, .number ⟨1⟩, .number ⟨2⟩, .number ⟨3⟩].eraseIdx 2 ++
          [.number ⟨9⟩]) =
        ([jsonl_value_t.number ⟨0⟩, .number ⟨1⟩, .number ⟨2⟩, .number ⟨3⟩].set 1
          (.number ⟨9⟩)).eraseIdx 2)) :=
  ⟨rfl, rfl, by decide, by decide, rfl,
    jsonl_set_values_remove_then_write
      [.number ⟨0⟩, .number ⟨1⟩, .number ⟨2⟩, .number ⟨3⟩] 2 1 (.number ⟨9⟩) rfl rfl
      (by decide) (by decide) (by decide) (by decide) (fun x xs h => by simp at h)⟩

/-- C26 (the code at the failing input): for the array `[0, 1, 2, 3]`, the removal at 1
followed by the write of 9 at 2 reports 184 and builds `[0, 2, 9]`: the element 2, which
the write addresses, is kept, and the element 3, which no operation addresses, is lost.
The slot loop compares the index of a write with the slot of the new array (line 2149)
and the index of a removal with the slot of the source (line 2170), and the count of
lines 2126 to 2129 leaves no slot for the element 3.  The array with the element 2
replaced and the element 1 omitted is `[0, 9, 3]`; the removal alone gives `[0, 2, 3]`.
For `[0, [5]]` the removal at 0 followed by the write at 1 makes the erase loop read the
path of the removal past its end. -/
theorem jsonl_set_values_remove_then_write_later_index :
    jsonl_set_values (.array [.number ⟨0⟩, .number ⟨1⟩, .number ⟨2⟩, .number ⟨3⟩])
        [⟨[.index 1], none⟩, ⟨[.index 2], some (.number ⟨9⟩)⟩] 1000 =
        some (184, some (.array [.number ⟨0⟩, .number ⟨2⟩, .number ⟨9⟩])) ∧
      jsonl_set_values (.array [.number ⟨0⟩, .number ⟨1⟩, .number ⟨2⟩, .number ⟨3⟩])
        [⟨[.index 1], none⟩, ⟨[.index 2], some (.number ⟨9⟩)⟩] 0 = some (184, none) ∧
      ([jsonl_value_t.number ⟨0⟩, .number ⟨1⟩, .number ⟨2⟩, .number ⟨3⟩].set 2
          (.number ⟨9⟩)).eraseIdx 1 = [.number ⟨0⟩, .number ⟨9⟩, .number ⟨3⟩] ∧
      jsonl_set_values (.array [.number ⟨0⟩, .number ⟨1⟩, .number ⟨2⟩, .number ⟨3⟩])
        [⟨[.index 1], none⟩, ⟨[.index 2], some (.number ⟨9⟩)⟩] 1000 ≠
        some (184, some (.array
          (([jsonl_value_t.number ⟨0⟩, .number ⟨1⟩, .number ⟨2⟩, .number ⟨3⟩].set 2
            (.number ⟨9⟩)).eraseIdx 1))) ∧
      jsonl_set_values (.array [.number ⟨0⟩, .number ⟨1⟩, .number ⟨2⟩, .number ⟨3⟩])
        [⟨[.index 1], none⟩] 1000 =
        some (184, some (.array [.number ⟨0⟩, .number ⟨2⟩, .number ⟨3⟩])) ∧
      jsonl_set_values (.array [.number ⟨0⟩, .array [.number ⟨5⟩]])
        [⟨[.index 0], none⟩, ⟨[.index 1], some (.number ⟨9⟩)⟩] 1000 = none := by
  refine ⟨rfl, rfl, rfl, fun h => ?_, rfl, rfl⟩
  have h2 : jsonl_set_values (.array [.number ⟨0⟩, .number ⟨1⟩, .number ⟨2⟩, .number ⟨3⟩])
      [⟨[.index 1], none⟩, ⟨[.index 2], some (.number ⟨9⟩)⟩] 1000 =
      some (184, some (.array [.number ⟨0⟩, .number ⟨2⟩, .number ⟨9⟩])) := rfl
  rw [h2] at h
  simp at h

/-! ### One write and the rest of the tree -/

theorem jsonl_get_value_walk_one (node : jsonl_value_t) (component : jsonl_path_component_t)
    (path : List jsonl_path_component_t) :
    jsonl_get_value_walk node (component :: path) =
      match jsonl_get_value_walk node [component] with
      | none => none
      | some child => jsonl_get_value_walk child path := by
  cases node <;> cases component <;>
    simp only [jsonl_get_value_walk, jsonl_value_t.type,
      jsonl_path_component_t.container_type] <;>
    (try split) <;> (try rfl) <;> (try (split <;> rfl))

theorem jsonl_get_value_child_any (name : List Nat) (child : jsonl_value_t)
    (table : List (List Nat × jsonl_value_t))
    (h : jsonl_get_value_child name table = some child) :
    table.any (fun entry => entry.1 == name) = true := by
  induction table with
  | nil => simp [jsonl_get_value_child] at h
  | cons e table ih =>
      obtain ⟨entry_name, v⟩ := e
      simp only [jsonl_get_value_child] at h
      simp only [List.any_cons, Bool.or_eq_true, beq_iff_eq]
      by_cases heq : jsonl_name_equal name entry_name = true
      · exact Or.inl ((jsonl_name_equal_iff _ _).1 heq).symm
      · rw [if_neg heq] at h
        exact Or.inr (ih h)

theorem jsonl_map_entry_none (name : List Nat) (f : jsonl_value_t → jsonl_value_t)
    (table : List (List Nat × jsonl_value_t)) (h : ∀ entry ∈ table, entry.1 ≠ name) :
    table.map (fun entry => if entry.1 == name then (entry.1, f entry.2) else entry) =
      table := by
  induction table with
  | nil => rfl
  | cons e table ih =>
      have hb : (e.1 == name) = false := by
        simp only [beq_eq_false_iff_ne, ne_eq]
        exact h e (List.mem_cons_self _ _)
      rw [List.map_cons, ih (fun entry he => h entry (List.mem_cons_of_mem _ he))]
      simp only [hb, Bool.false_eq_true, if_false]

/-- In an object whose names are distinct, the entries that a write patches are the one
entry that the lookup of the name finds. -/
theorem jsonl_map_entry_modify (name : List Nat) (f : jsonl_value_t → jsonl_value_t)
    (table : List (List Nat × jsonl_value_t))
    (h : (table.map (fun entry => entry.1)).Nodup) :
    table.map (fun entry => if entry.1 == name then (entry.1, f entry.2) else entry) =
      jsonl_modify_entry f name table := by
  induction table with
  | nil => rfl
  | cons e table ih =>
      rw [List.map_cons, List.nodup_cons] at h
      rw [List.map_cons]
      by_cases he : e.1 = name
      · have hb : (e.1 == name) = true := by simpa using he
        have hnone : ∀ entry ∈ table, entry.1 ≠ name := by
          intro entry hmem heq
          apply h.1
          rw [he, ← heq]
          exact List.mem_map_of_mem _ hmem
        rw [jsonl_map_entry_none name f table hnone]
        simp only [jsonl_modify_entry, hb, if_true]
      · have hb : (e.1 == name) = false := by
          simp only [beq_eq_false_iff_ne, ne_eq]; exact he
        rw [ih h.2]
        simp only [jsonl_modify_entry, hb, Bool.false_eq_true, if_false]

theorem jsonl_modify_entry_congr (name : List Nat) (f g : jsonl_value_t → jsonl_value_t)
    (child : jsonl_value_t) (table : List (List Nat × jsonl_value_t))
    (hget : jsonl_get_value_child name table = some child) (h : f child = g child) :
    jsonl_modify_entry f name table = jsonl_modify_entry g name table := by
  induction table with
  | nil => rfl
  | cons e table ih =>
      obtain ⟨entry_name, v⟩ := e
      simp only [jsonl_get_value_child] at hget
      by_cases heq : jsonl_name_equal name entry_name = true
      · rw [if_pos heq] at hget
        cases hget
        have hn := (jsonl_name_equal_iff _ _).1 heq
        subst hn
        simp only [jsonl_modify_entry, beq_self_eq_true, if_true, h]
      · rw [if_neg heq] at hget
        have hne : ¬ entry_name = name := by
          intro h2
          exact heq ((jsonl_name_equal_iff _ _).2 h2.symm)
        have hb : (entry_name == name) = false := by
          simp only [beq_eq_false_iff_ne, ne_eq]; exact hne
        simp only [jsonl_modify_entry, hb, Bool.false_eq_true, if_false, ih hget]

theorem jsonl_modify_congr (index : Nat) (f g : jsonl_value_t → jsonl_value_t)
    (child : jsonl_value_t) (table : List jsonl_value_t)
    (hget : table[index]? = some child) (h : f child = g child) :
    table.modify f index = table.modify g index := by
  apply List.ext_getElem?
  intro m
  rw [List.getElem?_modify, List.getElem?_modify]
  by_cases hm : index = m
  · subst hm
    simp only [hget, if_true, Option.map_eq_map, Option.map_some', h]
  · simp only [hm, if_false]

theorem jsonl_distinct_names_of_child (name : List Nat) (child : jsonl_value_t)
    (table : List (List Nat × jsonl_value_t))
    (h : jsonl_value_t.distinct_names_entries table = true)
    (hget : jsonl_get_value_child name table = some child) :
    child.distinct_names = true := by
  induction table with
  | nil => simp [jsonl_get_value_child] at hget
  | cons e table ih =>
      obtain ⟨entry_name, v⟩ := e
      simp only [jsonl_value_t.distinct_names_entries, Bool.and_eq_true] at h
      simp only [jsonl_get_value_child] at hget
      by_cases heq : jsonl_name_equal name entry_name = true
      · rw [if_pos heq] at hget
        cases hget
        exact h.1
      · rw [if_neg heq] at hget
        exact ih h.2 hget

theorem jsonl_distinct_names_of_element (index : Nat) (child : jsonl_value_t) :
    ∀ (table : List jsonl_value_t), jsonl_value_t.distinct_names_values table = true →
      table[index]? = some child → child.distinct_names = true := by
  induction index with
  | zero =>
      intro table h hget
      cases table with
      | nil => cases hget
      | cons v vs =>
          simp only [jsonl_value_t.distinct_names_values, Bool.and_eq_true] at h
          simp only [List.getElem?_cons_zero, Option.some.injEq] at hget
          rw [← hget]
          exact h.1
  | succ index ih =>
      intro table h hget
      cases table with
      | nil => cases hget
      | cons v vs =>
          simp only [jsonl_value_t.distinct_names_values, Bool.and_eq_true] at h
          simp only [List.getElem?_cons_succ] at hget
          exact ih vs h.2 hget

/-- In a tree whose objects have distinct names, one write at a path that goes one
component beyond a node that is not a container of the kind of the component replaces
the node by the created container and leaves the rest of the tree. -/
theorem jsonl_written_value_replaced (value : jsonl_value_t)
    (component : jsonl_path_component_t) :
    ∀ (path : List jsonl_path_component_t) (source_value node : jsonl_value_t),
      source_value.distinct_names = true →
      jsonl_get_value_walk source_value path = some node →
      node.type ≠ component.container_type →
      jsonl_written_value source_value (path ++ [component]) value =
        jsonl_replaced source_value path (jsonl_created_value [component] value) := by
  intro path
  induction path with
  | nil =>
      intro source_value node _ hwalk htype
      simp only [jsonl_get_value_walk, Option.some.injEq] at hwalk
      subst hwalk
      rw [List.nil_append, jsonl_written_value_mismatch _ _ _ _ htype]
      cases source_value <;> rfl
  | cons first path ih =>
      intro source_value node hdistinct hwalk htype
      cases source_value with
      | object table =>
          cases first with
          | index index =>
              simp [jsonl_get_value_walk, jsonl_value_t.type,
                jsonl_path_component_t.container_type, JSONL_TYPE_OBJECT,
                JSONL_TYPE_ARRAY] at hwalk
          | name name =>
              simp only [jsonl_get_value_walk, jsonl_value_t.type,
                jsonl_path_component_t.container_type, beq_self_eq_true, if_true] at hwalk
              simp only [jsonl_value_t.distinct_names, Bool.and_eq_true,
                decide_eq_true_eq] at hdistinct
              cases hget : jsonl_get_value_child name table with
              | none => rw [hget] at hwalk; cases hwalk
              | some child =>
                  rw [hget] at hwalk
                  simp only at hwalk
                  have hany := jsonl_get_value_child_any _ _ _ hget
                  have hstep := ih child node
                    (jsonl_distinct_names_of_child name child table hdistinct.2 hget) hwalk
                    htype
                  have h1 := jsonl_map_entry_modify name
                    (fun child => jsonl_written_value child (path ++ [component]) value) table
                    hdistinct.1
                  have h2 := jsonl_modify_entry_congr name
                    (fun child => jsonl_written_value child (path ++ [component]) value)
                    (fun child => jsonl_replaced child path
                      (jsonl_created_value [component] value)) child table hget hstep
                  simp only [List.cons_append, jsonl_written_value, hany, if_true,
                    jsonl_replaced]
                  exact congrArg jsonl_value_t.object (h1.trans h2)
      | array table =>
          cases first with
          | name name =>
              simp [jsonl_get_value_walk, jsonl_value_t.type,
                jsonl_path_component_t.container_type, JSONL_TYPE_OBJECT,
                JSONL_TYPE_ARRAY] at hwalk
          | index index =>
              simp only [jsonl_get_value_walk, jsonl_value_t.type,
                jsonl_path_component_t.container_type, beq_self_eq_true, if_true] at hwalk
              simp only [jsonl_value_t.distinct_names] at hdistinct
              cases hget : table[index]? with
              | none => rw [hget] at hwalk; cases hwalk
              | some child =>
                  rw [hget] at hwalk
                  simp only at hwalk
                  have hlt : index < table.length := by
                    by_contra hge
                    rw [List.getElem?_eq_none (by omega)] at hget
                    cases hget
                  have hstep := ih child node
                    (jsonl_distinct_names_of_element index child table hdistinct hget) hwalk
                    htype
                  have h1 := jsonl_modify_congr index
                    (fun child => jsonl_written_value child (path ++ [component]) value)
                    (fun child => jsonl_replaced child path
                      (jsonl_created_value [component] value)) child table hget hstep
                  simp only [List.cons_append, jsonl_written_value, hlt, if_true,
                    jsonl_replaced]
                  exact congrArg jsonl_value_t.array h1
      | string s => cases first <;> simp [jsonl_get_value_walk] at hwalk
      | number s => cases first <;> simp [jsonl_get_value_walk] at hwalk
      | boolean s => cases first <;> simp [jsonl_get_value_walk] at hwalk
      | null => cases first <;> simp [jsonl_get_value_walk] at hwalk
      | unknown s => cases first <;> simp [jsonl_get_value_walk] at hwalk

/-! ### The parser: the size of the tree -/

theorem jsonl_collect_append_one {α : Type} (x : Option α) :
    ∀ (table : List (Option α)) (entries : List α),
      jsonl_collect (table ++ [x]) = some entries →
      ∃ before a, jsonl_collect table = some before ∧ x = some a ∧ entries = before ++ [a] := by
  intro table
  induction table with
  | nil =>
      intro entries h
      cases x with
      | none => simp [jsonl_collect] at h
      | some a =>
          simp only [List.nil_append, jsonl_collect, Option.map_some',
            Option.some.injEq] at h
          exact ⟨[], a, rfl, rfl, by rw [← h]; rfl⟩
  | cons first table ih =>
      intro entries h
      cases first with
      | none => simp [jsonl_collect] at h
      | some b =>
          change (jsonl_collect (table ++ [x])).map (fun l => b :: l) = some entries at h
          cases hrest : jsonl_collect (table ++ [x]) with
          | none => rw [hrest] at h; cases h
          | some rest =>
              rw [hrest] at h
              simp only [Option.map_some', Option.some.injEq] at h
              obtain ⟨before, a, h1, h2, h3⟩ := ih rest hrest
              refine ⟨b :: before, a, by simp [jsonl_collect, h1], h2, ?_⟩
              rw [← h, h3]
              rfl

theorem jsonl_collect_length {α : Type} :
    ∀ (table : List (Option α)) (entries : List α),
      jsonl_collect table = some entries → entries.length = table.length := by
  intro table
  induction table with
  | nil =>
      intro entries h
      simp only [jsonl_collect, Option.some.injEq] at h
      rw [← h]
      rfl
  | cons first table ih =>
      intro entries h
      cases first with
      | none => simp [jsonl_collect] at h
      | some b =>
          simp only [jsonl_collect] at h
          cases hrest : jsonl_collect table with
          | none => rw [hrest] at h; cases h
          | some rest =>
              rw [hrest] at h
              simp only [Option.map_some', Option.some.injEq] at h
              rw [← h, List.length_cons, List.length_cons, ih rest hrest]

theorem jsonl_size_entries_append (name : List Nat) (value : jsonl_value_t) :
    ∀ entries : List (List Nat × jsonl_value_t),
      jsonl_value_t.size_entries (entries ++ [(name, value)]) =
        jsonl_value_t.size_entries entries + (jsonl_round_size (name.length + 1) + value.size) := by
  intro entries
  induction entries with
  | nil => simp [jsonl_value_t.size_entries]
  | cons e entries ih =>
      obtain ⟨n, v⟩ := e
      change jsonl_round_size (n.length + 1) + v.size +
        jsonl_value_t.size_entries (entries ++ [(name, value)]) = _
      rw [ih]
      simp only [jsonl_value_t.size_entries]
      omega

theorem jsonl_size_values_append (value : jsonl_value_t) :
    ∀ values : List jsonl_value_t,
      jsonl_value_t.size_values (values ++ [value]) =
        jsonl_value_t.size_values values + value.size := by
  intro values
  induction values with
  | nil => simp [jsonl_value_t.size_values]
  | cons v values ih =>
      change v.size + jsonl_value_t.size_values (values ++ [value]) = _
      rw [ih]
      simp only [jsonl_value_t.size_values]
      omega

/-- The bytes that `jsonl_decode_quoted_string` stores are as many as the length it
reports, in every buffer that takes that many. -/
theorem jsonl_decode_quoted_string_stored (json_text : List Nat)
    (string_buffer_size decoded string_length : Nat) (stored : List Nat)
    (h : jsonl_decode_quoted_string json_text string_buffer_size =
      some (decoded, string_length, stored))
    (hfit : string_length ≤ string_buffer_size) : stored.length = string_length := by
  obtain ⟨bytes, hbytes⟩ := jsonl_decode_quoted_string_total json_text
  obtain ⟨out, h1, h2⟩ := hbytes string_buffer_size
  rw [h] at h1
  simp only [Option.some.injEq, Prod.mk.injEq] at h1
  obtain ⟨_, h3, h4⟩ := h1
  rw [h4, h2 (by omega), h3]

/-- The object loop of the tree builder adds to the size the names and the children it
places, and it places as many entries as were counted. -/
theorem jsonl_create_tree_from_text_object_loop_size
    (child : List Nat → Nat → Option (Nat × Nat × Option jsonl_value_t))
    (hchild : ∀ text capacity text_size size tree,
      child text capacity = some (text_size, size, some tree) → size = tree.size)
    (value_buffer_size sub_value_count : Nat) :
    ∀ (fuel remaining : Nat) (read : List Nat) (sub_object_index : Nat) (expecting : Bool)
      (value_size : Nat) (table : List (Option (List Nat × jsonl_value_t)))
      (size : Nat) (placed : List (Option (List Nat × jsonl_value_t)))
      (entries : List (List Nat × jsonl_value_t)),
      jsonl_create_tree_from_text_object_loop child value_buffer_size sub_value_count fuel
        remaining read sub_object_index expecting value_size table = some (size, placed) →
      size ≠ 0 → jsonl_collect placed = some entries → table.length = sub_object_index →
      entries.length = sub_value_count ∧
        ∃ before, jsonl_collect table = some before ∧
          size + jsonl_value_t.size_entries before =
            value_size + jsonl_value_t.size_entries entries := by
  intro fuel
  induction fuel with
  | zero =>
      intro remaining read sub_object_index expecting value_size table size placed entries h
        hne hcollect hlen
      simp only [jsonl_create_tree_from_text_object_loop] at h
      split at h
      · rename_i hdone
        simp only [Option.some.injEq, Prod.mk.injEq] at h
        obtain ⟨h1, h2⟩ := h
        subst h1 h2
        refine ⟨?_, entries, hcollect, rfl⟩
        rw [jsonl_collect_length _ _ hcollect, hlen]
        simpa using hdone
      · cases h
  | succ fuel ih =>
      intro remaining read sub_object_index expecting value_size table size placed entries h
        hne hcollect hlen
      simp only [jsonl_create_tree_from_text_object_loop] at h
      split at h
      · rename_i hdone
        simp only [Option.some.injEq, Prod.mk.injEq] at h
        obtain ⟨h1, h2⟩ := h
        subst h1 h2
        refine ⟨?_, entries, hcollect, rfl⟩
        rw [jsonl_collect_length _ _ hcollect, hlen]
        simpa using hdone
      · split at h
        · cases h
        · rename_i character after
          split at h
          · split at h
            · split at h
              · simp only [Option.some.injEq, Prod.mk.injEq] at h
                exact absurd h.1.symm hne
              · split at h
                · cases h
                · rename_i decoded string_length name hdecode
                  split at h
                  · simp only [Option.some.injEq, Prod.mk.injEq] at h
                    exact absurd h.1.symm hne
                  · split at h
                    · cases h
                    · rename_i value_text_lenght sub_value_size sub_value hcall
                      split at h
                      · simp only [Option.some.injEq, Prod.mk.injEq] at h
                        exact absurd h.1.symm hne
                      · obtain ⟨hcount, before, hbefore, hsum⟩ := ih _ _ _ _ _ _ _ _ _ h hne
                          hcollect (by rw [List.length_append, hlen]; rfl)
                        refine ⟨hcount, ?_⟩
                        obtain ⟨earlier, entry, h1, h2, h3⟩ :=
                          jsonl_collect_append_one _ _ _ hbefore
                        refine ⟨earlier, h1, ?_⟩
                        split at h2
                        · rename_i hfit
                          cases hsub : sub_value with
                          | none => rw [hsub] at h2; cases h2
                          | some v =>
                              rw [hsub] at h2 hcall
                              simp only [Option.map_some', Option.some.injEq] at h2
                              have hsize := hchild _ _ _ _ _ hcall
                              have hround := jsonl_round_size_ge (string_length + 1)
                              have hname := jsonl_decode_quoted_string_stored _ _ _ _ _ hdecode
                                (by unfold jsonl_remaining; omega)
                              rw [h3, ← h2, jsonl_size_entries_append, hname] at hsum
                              omega
                        · cases h2
            · split at h
              · exact ih _ _ _ _ _ _ _ _ _ h hne hcollect hlen
              · simp only [Option.some.injEq, Prod.mk.injEq] at h
                exact absurd h.1.symm hne
          · split at h
            · exact ih _ _ _ _ _ _ _ _ _ h hne hcollect hlen
            · split at h
              · simp only [Option.some.injEq, Prod.mk.injEq] at h
                exact absurd h.1.symm hne
              · exact ih _ _ _ _ _ _ _ _ _ h hne hcollect hlen

/-- The array loop of the tree builder adds to the size the children it places, and it
places as many elements as were counted. -/
theorem jsonl_create_tree_from_text_array_loop_size
    (child : List Nat → Nat → Option (Nat × Nat × Option jsonl_value_t))
    (hchild : ∀ text capacity text_size size tree,
      child text capacity = some (text_size, size, some tree) → size = tree.size)
    (value_buffer_size sub_value_count : Nat) :
    ∀ (fuel remaining : Nat) (read : List Nat) (sub_object_index : Nat) (expecting : Bool)
      (value_size : Nat) (table : List (Option jsonl_value_t))
      (size : Nat) (placed : List (Option jsonl_value_t)) (values : List jsonl_value_t),
      jsonl_create_tree_from_text_array_loop child value_buffer_size sub_value_count fuel
        remaining read sub_object_index expecting value_size table = some (size, placed) →
      size ≠ 0 → jsonl_collect placed = some values → table.length = sub_object_index →
      values.length = sub_value_count ∧
        ∃ before, jsonl_collect table = some before ∧
          size + jsonl_value_t.size_values before =
            value_size + jsonl_value_t.size_values values := by
  intro fuel
  induction fuel with
  | zero =>
      intro remaining read sub_object_index expecting value_size table size placed values h
        hne hcollect hlen
      simp only [jsonl_create_tree_from_text_array_loop] at h
      split at h
      · rename_i hdone
        simp only [Option.some.injEq, Prod.mk.injEq] at h
        obtain ⟨h1, h2⟩ := h
        subst h1 h2
        refine ⟨?_, values, hcollect, rfl⟩
        rw [jsonl_collect_length _ _ hcollect, hlen]
        simpa using hdone
      · cases h
  | succ fuel ih =>
      intro remaining read sub_object_index expecting value_size table size placed values h
        hne hcollect hlen
      simp only [jsonl_create_tree_from_text_array_loop] at h
      split at h
      · rename_i hdone
        simp only [Option.some.injEq, Prod.mk.injEq] at h
        obtain ⟨h1, h2⟩ := h
        subst h1 h2
        refine ⟨?_, values, hcollect, rfl⟩
        rw [jsonl_collect_length _ _ hcollect, hlen]
        simpa using hdone
      · split at h
        · cases h
        · rename_i character after
          split at h
          · split at h
            · exact ih _ _ _ _ _ _ _ _ _ h hne hcollect hlen
            · split at h
              · cases h
              · rename_i sub_value_text_size sub_value_size sub_value hcall
                split at h
                · simp only [Option.some.injEq, Prod.mk.injEq] at h
                  exact absurd h.1.symm hne
                · obtain ⟨hcount, before, hbefore, hsum⟩ := ih _ _ _ _ _ _ _ _ _ h hne
                    hcollect (by rw [List.length_append, hlen]; rfl)
                  refine ⟨hcount, ?_⟩
                  obtain ⟨earlier, entry, h1, h2, h3⟩ :=
                    jsonl_collect_append_one _ _ _ hbefore
                  refine ⟨earlier, h1, ?_⟩
                  split at h2
                  · rw [h2] at hcall
                    have hsize := hchild _ _ _ _ _ hcall
                    rw [h3, jsonl_size_values_append] at hsum
                    omega
                  · cases h2
          · split at h
            · exact ih _ _ _ _ _ _ _ _ _ h hne hcollect hlen
            · split at h
              · simp only [Option.some.injEq, Prod.mk.injEq] at h
                exact absurd h.1.symm hne
              · exact ih _ _ _ _ _ _ _ _ _ h hne hcollect hlen

theorem jsonl_written_some {α : Type} (guard : Bool) (a b : α)
    (h : jsonl_written guard a = some b) : guard = true ∧ a = b := by
  cases guard
  · simp [jsonl_written] at h
  · simp only [jsonl_written, if_true, Option.some.injEq] at h
    exact ⟨rfl, h⟩

/-- The size the tree builder reports for a node is the footprint of the tree of the
node: as the builder stores the size it reports in the member `size` of the node it
builds, and a child is built by the same function, every node holds its footprint. -/
theorem jsonl_create_tree_from_text_size (pf : jsonl_platform_t) :
    ∀ (fuel : Nat) (json_text : List Nat) (value_buffer_size text_size size : Nat)
      (tree : jsonl_value_t),
      jsonl_create_tree_from_text pf fuel json_text value_buffer_size =
        some (text_size, size, some tree) → size = tree.size := by
  intro fuel
  induction fuel with
  | zero =>
      intro json_text value_buffer_size text_size size tree h
      simp [jsonl_create_tree_from_text] at h
  | succ fuel ih =>
      intro json_text value_buffer_size text_size size tree h
      simp only [jsonl_create_tree_from_text] at h
      split at h
      · -- object
        split at h
        · simp at h
        · split at h
          · cases h
          · rename_i loop_size table hloop
            split at h
            · simp at h
            · rename_i hzero
              simp only [Option.some.injEq, Prod.mk.injEq] at h
              obtain ⟨_, h2, h3⟩ := h
              split at h3
              · cases hcollect : jsonl_collect table with
                | none => rw [hcollect] at h3; cases h3
                | some entries =>
                    rw [hcollect] at h3
                    simp only [Option.map_some', Option.some.injEq] at h3
                    obtain ⟨hcount, before, hbefore, hsum⟩ :=
                      jsonl_create_tree_from_text_object_loop_size
                        (jsonl_create_tree_from_text pf fuel) (fun _ _ _ _ _ hc => ih _ _ _ _ _ hc)
                        _ _ _ _ _ _ _ _ _ _ _ entries hloop (by simpa using hzero) hcollect rfl
                    simp only [jsonl_collect, Option.some.injEq] at hbefore
                    rw [← hbefore] at hsum
                    simp only [jsonl_value_t.size_entries, Nat.add_zero] at hsum
                    rw [← h3, ← h2, hsum, ← hcount]
                    simp only [jsonl_value_t.size]
              · cases h3
      · split at h
        · -- array
          split at h
          · simp at h
          · split at h
            · cases h
            · rename_i loop_size table hloop
              split at h
              · simp at h
              · rename_i hzero
                simp only [Option.some.injEq, Prod.mk.injEq] at h
                obtain ⟨_, h2, h3⟩ := h
                split at h3
                · cases hcollect : jsonl_collect table with
                  | none => rw [hcollect] at h3; cases h3
                  | some values =>
                      rw [hcollect] at h3
                      simp only [Option.map_some', Option.some.injEq] at h3
                      obtain ⟨hcount, before, hbefore, hsum⟩ :=
                        jsonl_create_tree_from_text_array_loop_size
                          (jsonl_create_tree_from_text pf fuel)
                          (fun _ _ _ _ _ hc => ih _ _ _ _ _ hc)
                          _ _ _ _ _ _ _ _ _ _ _ values hloop (by simpa using hzero) hcollect
                          rfl
                      simp only [jsonl_collect, Option.some.injEq] at hbefore
                      rw [← hbefore] at hsum
                      simp only [jsonl_value_t.size_values, Nat.add_zero] at hsum
                      rw [← h3, ← h2, hsum, ← hcount]
                      simp only [jsonl_value_t.size]
                · cases h3
        · split at h
          · -- string
            split at h
            · cases h
            · rename_i decoded string_length string hdecode
              split at h
              · simp at h
              · simp only [Option.some.injEq, Prod.mk.injEq] at h
                obtain ⟨_, h2, h3⟩ := h
                obtain ⟨hfit, htree⟩ := jsonl_written_some _ _ _ h3
                simp only [decide_eq_true_eq] at hfit
                have hround := jsonl_round_size_ge (string_length + 1)
                have hname := jsonl_decode_quoted_string_stored _ _ _ _ _ hdecode
                  (by unfold jsonl_remaining; omega)
                rw [← htree, ← h2]
                simp only [jsonl_value_t.size, hname]
          · split at h
            · -- number
              split at h
              · simp at h
              · simp only [Option.some.injEq, Prod.mk.injEq] at h
                obtain ⟨_, h2, h3⟩ := h
                obtain ⟨_, htree⟩ := jsonl_written_some _ _ _ h3
                rw [← htree, ← h2]
                rfl
            · split at h
              · -- boolean
                split at h
                · simp at h
                · simp only [Option.some.injEq, Prod.mk.injEq] at h
                  obtain ⟨_, h2, h3⟩ := h
                  obtain ⟨_, htree⟩ := jsonl_written_some _ _ _ h3
                  rw [← htree, ← h2]
                  rfl
              · split at h
                · simp only [Option.some.injEq, Prod.mk.injEq] at h
                  obtain ⟨_, h2, h3⟩ := h
                  obtain ⟨_, htree⟩ := jsonl_written_some _ _ _ h3
                  rw [← htree, ← h2]
                  rfl
                · simp at h

/-- The size `jsonl_parse_text` returns with a tree is the footprint of the tree. -/
theorem jsonl_parse_text_tree_size (pf : jsonl_platform_t) (json_text : List Nat)
    (value_buffer_size size : Nat) (tree : jsonl_value_t)
    (h : jsonl_parse_text pf json_text value_buffer_size = some (size, some tree)) :
    size = tree.size := by
  unfold jsonl_parse_text at h
  simp only at h
  split at h
  · cases h
  · rename_i text_size tree_size built hcall
    split at h
    · simp only [Option.some.injEq, Prod.mk.injEq] at h
      rw [h.2] at hcall
      rw [← h.1]
      exact jsonl_create_tree_from_text_size pf _ _ _ _ _ _ hcall
    · simp at h

/-! ### The scanners on a text that goes on -/

theorem jsonl_quoted_string_lenght_loop_append (extra : List Nat) :
    ∀ (read : List Nat) (escape : Bool) (offset : Nat),
      jsonl_quoted_string_lenght_loop read escape offset ≠ 0 →
      jsonl_quoted_string_lenght_loop (read ++ extra) escape offset =
        jsonl_quoted_string_lenght_loop read escape offset := by
  intro read
  induction read with
  | nil => intro escape offset h; exact absurd rfl h
  | cons character read ih =>
      intro escape offset h
      rw [List.cons_append]
      unfold jsonl_quoted_string_lenght_loop at h ⊢
      cases hq : (!escape && character == 34)
      · simp only [hq, Bool.false_eq_true, if_false] at h ⊢
        exact ih (character == 92) (offset + 1) h
      · simp only [if_true]

/-- The length of a quoted string does not depend on the text after its closing quote. -/
theorem jsonl_quoted_string_lenght_append (json_text extra : List Nat)
    (h : jsonl_quoted_string_lenght json_text ≠ 0) :
    jsonl_quoted_string_lenght (json_text ++ extra) = jsonl_quoted_string_lenght json_text := by
  cases json_text with
  | nil => exact absurd rfl h
  | cons character read =>
      rw [List.cons_append]
      unfold jsonl_quoted_string_lenght at h ⊢
      cases hc : (character != 34)
      case true => simp [hc] at h
      case false =>
        simp only [hc, Bool.false_eq_true, if_false] at h ⊢
        exact jsonl_quoted_string_lenght_loop_append extra read false 1 h

theorem jsonl_quoted_string_lenght_head (json_text : List Nat)
    (h : jsonl_quoted_string_lenght json_text ≠ 0) :
    ∃ read, json_text = 34 :: read := by
  cases json_text with
  | nil => exact absurd rfl h
  | cons character read =>
      unfold jsonl_quoted_string_lenght at h
      cases hc : (character != 34)
      case true => simp [hc] at h
      case false =>
        have : character = 34 := by simpa using hc
        exact ⟨read, by rw [this]⟩

/-- The span of a container does not depend on the text after its closing delimiter. -/
theorem jsonl_container_text_size_loop_append (opening closing : Nat) (extra : List Nat) :
    ∀ (fuel : Nat) (read : List Nat) (offset depth : Nat),
      jsonl_container_text_size_loop opening closing fuel read offset depth ≠ 0 →
      ∀ other_fuel, fuel ≤ other_fuel →
        jsonl_container_text_size_loop opening closing other_fuel (read ++ extra) offset depth =
          jsonl_container_text_size_loop opening closing fuel read offset depth := by
  intro fuel
  induction fuel with
  | zero =>
      intro read offset depth h
      simp [jsonl_container_text_size_loop] at h
  | succ fuel ih =>
      intro read offset depth h other_fuel hle
      obtain ⟨other, rfl⟩ : ∃ other, other_fuel = other + 1 := ⟨other_fuel - 1, by omega⟩
      cases read with
      | nil => simp [jsonl_container_text_size_loop] at h
      | cons character after =>
          rw [List.cons_append]
          simp only [jsonl_container_text_size_loop] at h ⊢
          split
          · rename_i hclose
            rw [if_pos hclose] at h
            split
            · rfl
            · rename_i hdepth
              rw [if_neg hdepth] at h
              exact ih after _ _ h other (by omega)
          · rename_i hclose
            rw [if_neg hclose] at h
            split
            · rename_i hopen
              rw [if_pos hopen] at h
              exact ih after _ _ h other (by omega)
            · rename_i hopen
              rw [if_neg hopen] at h
              split
              · rename_i hquote
                rw [if_pos hquote] at h
                have hq : jsonl_quoted_string_lenght (character :: after) ≠ 0 := by
                  intro hzero
                  simp [hzero] at h
                have hqne : (jsonl_quoted_string_lenght (character :: after) != 0) = true := by
                  simpa using hq
                rw [if_pos hqne] at h
                have happ := jsonl_quoted_string_lenght_append (character :: after) extra hq
                rw [List.cons_append] at happ
                rw [happ]
                simp only [hqne, if_true]
                have hlen := (jsonl_quoted_string_lenght_spec (character :: after) hq).2.1
                have hdrop : (character :: (after ++ extra)).drop
                    (jsonl_quoted_string_lenght (character :: after)) =
                    (character :: after).drop
                      (jsonl_quoted_string_lenght (character :: after)) ++ extra := by
                  rw [← List.cons_append, List.drop_append_of_le_length hlen]
                rw [hdrop]
                exact ih _ _ _ h other (by omega)
              · rename_i hquote
                rw [if_neg hquote] at h
                exact ih after _ _ h other (by omega)

theorem jsonl_object_text_size_append (json_text extra : List Nat)
    (h : jsonl_object_text_size json_text ≠ 0) :
    jsonl_object_text_size (json_text ++ extra) = jsonl_object_text_size json_text := by
  unfold jsonl_object_text_size at h ⊢
  split at h
  · rename_i read
    rw [List.cons_append]
    exact jsonl_container_text_size_loop_append 123 125 extra read.length read 1 1 h _
      (by rw [List.length_append]; omega)
  · exact absurd rfl h

theorem jsonl_array_text_size_append (json_text extra : List Nat)
    (h : jsonl_array_text_size json_text ≠ 0) :
    jsonl_array_text_size (json_text ++ extra) = jsonl_array_text_size json_text := by
  unfold jsonl_array_text_size at h ⊢
  split at h
  · rename_i read
    rw [List.cons_append]
    exact jsonl_container_text_size_loop_append 91 93 extra read.length read 1 1 h _
      (by rw [List.length_append]; omega)
  · exact absurd rfl h

theorem jsonl_object_text_size_head (json_text : List Nat)
    (h : jsonl_object_text_size json_text ≠ 0) : ∃ read, json_text = 123 :: read := by
  unfold jsonl_object_text_size at h
  split at h
  · rename_i read
    exact ⟨read, rfl⟩
  · exact absurd rfl h

theorem jsonl_array_text_size_head (json_text : List Nat)
    (h : jsonl_array_text_size json_text ≠ 0) : ∃ read, json_text = 91 :: read := by
  unfold jsonl_array_text_size at h
  split at h
  · rename_i read
    exact ⟨read, rfl⟩
  · exact absurd rfl h

/-- A literal is recognised in a text that goes on with a white space byte exactly when
it is recognised in the text. -/
theorem jsonl_text_is_literal_append (literal json_text extra : List Nat) (space : Nat)
    (hs : jsonl_is_white_space space = true)
    (hl : ∀ c ∈ literal, jsonl_is_white_space c = false) :
    jsonl_text_is_literal literal (json_text ++ space :: extra) =
      jsonl_text_is_literal literal json_text := by
  have hnot : ∀ text : List Nat, text[json_text.length]? = some space → text ≠ literal := by
    intro text hat heq
    rw [heq] at hat
    have hmem := List.getElem?_mem hat
    rw [hl space hmem] at hs
    cases hs
  have hat : (json_text ++ space :: extra)[json_text.length]? = some space := by
    rw [List.getElem?_append_right (le_refl _)]
    simp
  unfold jsonl_text_is_literal
  rcases Nat.lt_trichotomy json_text.length literal.length with hlt | heq | hgt
  · have h1 : (json_text.length == literal.length) = false := by
      simp only [beq_eq_false_iff_ne, ne_eq]; omega
    have h2 : decide (json_text.length > literal.length) = false := by
      simp only [gt_iff_lt, decide_eq_false_iff_not]; omega
    have h3 : ((json_text ++ space :: extra) == literal) = false := by
      simp only [beq_eq_false_iff_ne, ne_eq]
      exact hnot _ hat
    have h4 : ((json_text ++ space :: extra).take literal.length == literal) = false := by
      simp only [beq_eq_false_iff_ne, ne_eq]
      apply hnot
      rw [List.getElem?_take_of_lt hlt]
      exact hat
    simp only [h1, h2, h3, h4, Bool.false_and, Bool.and_false, Bool.or_false]
  · have h1 : ((json_text ++ space :: extra).length == literal.length) = false := by
      simp only [List.length_append, List.length_cons, beq_eq_false_iff_ne, ne_eq]; omega
    have h2 : decide ((json_text ++ space :: extra).length > literal.length) = true := by
      simp only [List.length_append, List.length_cons, gt_iff_lt, decide_eq_true_eq]; omega
    have h3 : (json_text ++ space :: extra).take literal.length = json_text := by
      rw [← heq]
      exact List.take_left' rfl
    have h4 : (json_text ++ space :: extra).getD literal.length 0 = space := by
      rw [List.getD_eq_getElem?_getD, ← heq, hat]
      rfl
    have h5 : decide (json_text.length > literal.length) = false := by
      simp only [gt_iff_lt, decide_eq_false_iff_not]; omega
    have h6 : (json_text.length == literal.length) = true := by
      simp only [beq_iff_eq]; exact heq
    simp only [h1, h2, h3, h4, h5, h6, hs, Bool.false_and, Bool.true_and, Bool.false_or,
      Bool.or_false, Bool.true_or, Bool.and_true]
  · have h1 : ((json_text ++ space :: extra).length == literal.length) = false := by
      simp only [List.length_append, List.length_cons, beq_eq_false_iff_ne, ne_eq]; omega
    have h2 : decide ((json_text ++ space :: extra).length > literal.length) = true := by
      simp only [List.length_append, List.length_cons, gt_iff_lt, decide_eq_true_eq]; omega
    have h3 : (json_text ++ space :: extra).take literal.length =
        json_text.take literal.length :=
      List.take_append_of_le_length (by omega)
    have h4 : (json_text ++ space :: extra).getD literal.length 0 =
        json_text.getD literal.length 0 := by
      rw [List.getD_eq_getElem?_getD, List.getD_eq_getElem?_getD,
        List.getElem?_append_left hgt]
    have h5 : decide (json_text.length > literal.length) = true := by
      simp only [gt_iff_lt, decide_eq_true_eq]; exact hgt
    have h6 : (json_text.length == literal.length) = false := by
      simp only [beq_eq_false_iff_ne, ne_eq]; omega
    simp only [h1, h2, h3, h4, h5, h6, Bool.false_and, Bool.true_and, Bool.false_or]

theorem jsonl_decode_boolean_append (json_text extra : List Nat) (space : Nat)
    (hs : jsonl_is_white_space space = true) :
    jsonl_decode_boolean (json_text ++ space :: extra) = jsonl_decode_boolean json_text := by
  unfold jsonl_decode_boolean
  rw [jsonl_text_is_literal_append [102, 97, 108, 115, 101] json_text extra space hs
      (by decide),
    jsonl_text_is_literal_append [116, 114, 117, 101] json_text extra space hs (by decide)]

theorem jsonl_number_end_append (rest extra : List Nat) (space : Nat)
    (hs : jsonl_is_white_space space = true) (h : jsonl_number_end rest) :
    jsonl_number_end (rest ++ space :: extra) := by
  rcases h with rfl | ⟨character, tail, rfl, hc⟩
  · exact Or.inr ⟨space, extra, rfl, Or.inl hs⟩
  · exact Or.inr ⟨character, tail ++ space :: extra, rfl, hc⟩

/-- The length of a number text does not change when the text goes on with a white space
byte. -/
theorem jsonl_decode_number_scan_append (json_text extra : List Nat) (space : Nat)
    (hs : jsonl_is_white_space space = true) (scan : jsonl_number_text_t)
    (h : jsonl_decode_number_scan json_text = some scan) :
    ∃ other, jsonl_decode_number_scan (json_text ++ space :: extra) = some other ∧
      other.length = scan.length ∧ scan.length ≤ json_text.length ∧ scan.length ≠ 0 := by
  obtain ⟨lexeme, rest, h1, h2, h3, h4⟩ := jsonl_decode_number_scan_some json_text scan h
  obtain ⟨other, ho, hlen⟩ := jsonl_decode_number_scan_of_lexeme lexeme
    (rest ++ space :: extra) h3 (jsonl_number_end_append rest extra space hs h4)
  refine ⟨other, ?_, by rw [hlen, h2], ?_, ?_⟩
  · rw [h1, List.append_assoc]
    exact ho
  · rw [h1, h2, List.length_append]
    omega
  · rw [h2]
    exact jsonl_number_lexeme_length lexeme h3

theorem jsonl_decode_number_length_append (json_text extra : List Nat) (space : Nat)
    (hs : jsonl_is_white_space space = true) (h : jsonl_decode_number_length json_text ≠ 0) :
    jsonl_decode_number_length (json_text ++ space :: extra) =
        jsonl_decode_number_length json_text ∧
      jsonl_decode_number_length json_text ≤ json_text.length := by
  unfold jsonl_decode_number_length at h ⊢
  cases hscan : jsonl_decode_number_scan json_text with
  | none => rw [hscan] at h; exact absurd rfl h
  | some scan =>
      obtain ⟨other, ho, hlen, hle, _⟩ :=
        jsonl_decode_number_scan_append json_text extra space hs scan hscan
      rw [ho]
      exact ⟨hlen, hle⟩

theorem jsonl_decode_number_length_quote (read : List Nat) :
    jsonl_decode_number_length (34 :: read) = 0 := by
  simp [jsonl_decode_number_length, jsonl_decode_number_scan, jsonl_is_decimal_value]

theorem jsonl_decode_number_length_bracket (read : List Nat) :
    jsonl_decode_number_length (91 :: read) = 0 := by
  simp [jsonl_decode_number_length, jsonl_decode_number_scan, jsonl_is_decimal_value]

theorem jsonl_decode_number_length_brace (read : List Nat) :
    jsonl_decode_number_length (123 :: read) = 0 := by
  simp [jsonl_decode_number_length, jsonl_decode_number_scan, jsonl_is_decimal_value]

theorem jsonl_text_is_literal_length (literal json_text : List Nat)
    (h : jsonl_text_is_literal literal json_text = true) :
    literal.length ≤ json_text.length := by
  unfold jsonl_text_is_literal at h
  simp only [Bool.or_eq_true, Bool.and_eq_true, beq_iff_eq, decide_eq_true_eq] at h
  rcases h with h | h
  · omega
  · omega

theorem jsonl_decode_boolean_length (json_text : List Nat) :
    (jsonl_decode_boolean json_text).1 ≤ json_text.length := by
  unfold jsonl_decode_boolean
  split
  · rename_i h
    exact jsonl_text_is_literal_length _ _ h
  · split
    · rename_i h
      exact jsonl_text_is_literal_length _ _ h
    · exact Nat.zero_le _

theorem jsonl_object_text_size_other (character : Nat) (read : List Nat)
    (h : character ≠ 123) : jsonl_object_text_size (character :: read) = 0 := by
  unfold jsonl_object_text_size
  split
  · rename_i heq
    injection heq with h1 _
    exact absurd h1 h
  · rfl

theorem jsonl_array_text_size_other (character : Nat) (read : List Nat)
    (h : character ≠ 91) : jsonl_array_text_size (character :: read) = 0 := by
  unfold jsonl_array_text_size
  split
  · rename_i heq
    injection heq with h1 _
    exact absurd h1 h
  · rfl

theorem jsonl_decode_number_length_head (json_text : List Nat)
    (h : jsonl_decode_number_length json_text ≠ 0) :
    ∃ character read, json_text = character :: read ∧ character ≠ 123 ∧ character ≠ 91 ∧
      character ≠ 34 := by
  cases json_text with
  | nil => exact absurd rfl h
  | cons character read =>
      refine ⟨character, read, rfl, ?_, ?_, ?_⟩
      · intro hc
        rw [hc] at h
        exact h (jsonl_decode_number_length_brace read)
      · intro hc
        rw [hc] at h
        exact h (jsonl_decode_number_length_bracket read)
      · intro hc
        rw [hc] at h
        exact h (jsonl_decode_number_length_quote read)

/-- The kind and the span of the value at the start of a text do not change when the
text goes on with a white space byte; the span lies within the text. -/
theorem jsonl_decide_value_type_append (json_text extra : List Nat) (space : Nat)
    (hs : jsonl_is_white_space space = true)
    (h : (jsonl_decide_value_type json_text).1 ≠ JSONL_TYPE_ERROR) :
    jsonl_decide_value_type (json_text ++ space :: extra) =
        jsonl_decide_value_type json_text ∧
      (jsonl_decide_value_type json_text).2 ≤ json_text.length := by
  unfold jsonl_decide_value_type at h ⊢
  rw [jsonl_text_is_literal_append [110, 117, 108, 108] json_text extra space hs (by decide),
    jsonl_decode_boolean_append json_text extra space hs]
  by_cases hnull : jsonl_text_is_literal [110, 117, 108, 108] json_text = true
  · simp only [hnull, if_true, true_and]
    exact jsonl_text_is_literal_length _ _ hnull
  simp only [hnull, Bool.false_eq_true, if_false] at h ⊢
  by_cases hboolean : ((jsonl_decode_boolean json_text).1 != 0) = true
  · simp only [hboolean, if_true, true_and]
    exact jsonl_decode_boolean_length json_text
  simp only [hboolean, Bool.false_eq_true, if_false] at h ⊢
  by_cases hobject : jsonl_object_text_size json_text = 0
  · have hobject2 : (jsonl_object_text_size json_text != 0) = false := by simp [hobject]
    simp only [hobject2, Bool.false_eq_true, if_false] at h ⊢
    by_cases harray : jsonl_array_text_size json_text = 0
    · have harray2 : (jsonl_array_text_size json_text != 0) = false := by simp [harray]
      simp only [harray2, Bool.false_eq_true, if_false] at h ⊢
      by_cases hnumber : jsonl_decode_number_length json_text = 0
      · have hnumber2 : (jsonl_decode_number_length json_text != 0) = false := by
          simp [hnumber]
        simp only [hnumber2, Bool.false_eq_true, if_false] at h ⊢
        by_cases hstring : jsonl_quoted_string_lenght json_text = 0
        · have hstring2 : (jsonl_quoted_string_lenght json_text != 0) = false := by
            simp [hstring]
          simp only [hstring2, Bool.false_eq_true, if_false] at h
          exact absurd rfl h
        · obtain ⟨read, rfl⟩ := jsonl_quoted_string_lenght_head json_text hstring
          have hstring2 : (jsonl_quoted_string_lenght (34 :: read) != 0) = true := by
            simpa using hstring
          rw [jsonl_quoted_string_lenght_append _ _ hstring, List.cons_append,
            jsonl_object_text_size_other 34 _ (by decide),
            jsonl_array_text_size_other 34 _ (by decide), jsonl_decode_number_length_quote]
          simp only [hstring2, if_true, bne_self_eq_false, Bool.false_eq_true, if_false,
            true_and]
          exact (jsonl_quoted_string_lenght_spec _ hstring).2.1
      · obtain ⟨character, read, rfl, h1, h2, _⟩ :=
          jsonl_decode_number_length_head json_text hnumber
        have hnumber2 : (jsonl_decode_number_length (character :: read) != 0) = true := by
          simpa using hnumber
        obtain ⟨h3, h4⟩ := jsonl_decode_number_length_append _ extra space hs hnumber
        rw [h3, List.cons_append, jsonl_object_text_size_other character _ h1,
          jsonl_array_text_size_other character _ h2]
        simp only [hnumber2, if_true, bne_self_eq_false, Bool.false_eq_true, if_false,
          true_and]
        exact h4
    · obtain ⟨read, rfl⟩ := jsonl_array_text_size_head json_text harray
      have harray2 : (jsonl_array_text_size (91 :: read) != 0) = true := by
        simpa using harray
      rw [jsonl_array_text_size_append _ _ harray, List.cons_append,
        jsonl_object_text_size_other 91 _ (by decide)]
      simp only [harray2, if_true, bne_self_eq_false, Bool.false_eq_true, if_false, true_and]
      exact (jsonl_array_text_size_take _ harray).2.1
  · have hobject2 : (jsonl_object_text_size json_text != 0) = true := by
      simpa using hobject
    rw [jsonl_object_text_size_append _ _ hobject]
    simp only [hobject2, if_true, true_and]
    exact (jsonl_object_text_size_take _ hobject).2.1

/-! ### The tree builder with more fuel -/

theorem jsonl_create_tree_from_text_object_loop_mono
    (child other : List Nat → Nat → Option (Nat × Nat × Option jsonl_value_t))
    (hmono : ∀ text capacity result, child text capacity = some result →
      other text capacity = some result)
    (value_buffer_size sub_value_count : Nat) :
    ∀ (fuel remaining : Nat) (read : List Nat) (sub_object_index : Nat) (expecting : Bool)
      (value_size : Nat) (table : List (Option (List Nat × jsonl_value_t)))
      (result : Nat × List (Option (List Nat × jsonl_value_t))),
      jsonl_create_tree_from_text_object_loop child value_buffer_size sub_value_count fuel
        remaining read sub_object_index expecting value_size table = some result →
      jsonl_create_tree_from_text_object_loop other value_buffer_size sub_value_count fuel
        remaining read sub_object_index expecting value_size table = some result := by
  intro fuel
  induction fuel with
  | zero =>
      intro remaining read sub_object_index expecting value_size table result h
      simp only [jsonl_create_tree_from_text_object_loop] at h ⊢
      exact h
  | succ fuel ih =>
      intro remaining read sub_object_index expecting value_size table result h
      cases read with
      | nil =>
          simp only [jsonl_create_tree_from_text_object_loop] at h ⊢
          exact h
      | cons character after =>
          simp only [jsonl_create_tree_from_text_object_loop] at h ⊢
          split at h
          · rename_i hc
            simp only [hc, if_true]
            exact h
          · rename_i hc
            simp only [hc, if_false, Bool.false_eq_true]
            split at h
            · rename_i hc
              simp only [hc, if_true]
              split at h
              · rename_i hc
                simp only [hc, if_true]
                split at h
                · rename_i hc
                  simp only [hc, if_true]
                  exact h
                · rename_i hc
                  simp only [hc, if_false, Bool.false_eq_true]
                  split at h
                  · cases h
                  · rename_i decoded string_length name hdecode
                    split at h
                    · rename_i hc
                      simp only [hc, if_true]
                      exact h
                    · rename_i hc
                      simp only [hc, if_false, Bool.false_eq_true]
                      split at h
                      · cases h
                      · rename_i value_text_lenght sub_value_size sub_value hcall
                        simp only [hmono _ _ _ hcall]
                        split at h
                        · rename_i hc
                          simp only [hc, if_true]
                          exact h
                        · rename_i hc
                          simp only [hc, if_false, Bool.false_eq_true]
                          exact ih _ _ _ _ _ _ _ h
              · rename_i hc
                simp only [hc, if_false, Bool.false_eq_true]
                split at h
                · rename_i hc
                  simp only [hc, if_true]
                  exact ih _ _ _ _ _ _ _ h
                · rename_i hc
                  simp only [hc, if_false, Bool.false_eq_true]
                  exact h
            · rename_i hc
              simp only [hc, if_false, Bool.false_eq_true]
              split at h
              · rename_i hc
                simp only [hc, if_true]
                exact ih _ _ _ _ _ _ _ h
              · rename_i hc
                simp only [hc, if_false, Bool.false_eq_true]
                split at h
                · rename_i hc
                  simp only [hc, if_true]
                  exact h
                · rename_i hc
                  simp only [hc, if_false, Bool.false_eq_true]
                  exact ih _ _ _ _ _ _ _ h

theorem jsonl_create_tree_from_text_array_loop_mono
    (child other : List Nat → Nat → Option (Nat × Nat × Option jsonl_value_t))
    (hmono : ∀ text capacity result, child text capacity = some result →
      other text capacity = some result)
    (value_buffer_size sub_value_count : Nat) :
    ∀ (fuel remaining : Nat) (read : List Nat) (sub_object_index : Nat) (expecting : Bool)
      (value_size : Nat) (table : List (Option jsonl_value_t))
      (result : Nat × List (Option jsonl_value_t)),
      jsonl_create_tree_from_text_array_loop child value_buffer_size sub_value_count fuel
        remaining read sub_object_index expecting value_size table = some result →
      jsonl_create_tree_from_text_array_loop other value_buffer_size sub_value_count fuel
        remaining read sub_object_index expecting value_size table = some result := by
  intro fuel
  induction fuel with
  | zero =>
      intro remaining read sub_object_index expecting value_size table result h
      simp only [jsonl_create_tree_from_text_array_loop] at h ⊢
      exact h
  | succ fuel ih =>
      intro remaining read sub_object_index expecting value_size table result h
      cases read with
      | nil =>
          simp only [jsonl_create_tree_from_text_array_loop] at h ⊢
          exact h
      | cons character after =>
          simp only [jsonl_create_tree_from_text_array_loop] at h ⊢
          split at h
          · rename_i hc
            simp only [hc, if_true]
            exact h
          · rename_i hc
            simp only [hc, if_false, Bool.false_eq_true]
            split at h
            · rename_i hc
              simp only [hc, if_true]
              split at h
              · rename_i hc
                simp only [hc, if_true]
                exact ih _ _ _ _ _ _ _ h
              · rename_i hc
                simp only [hc, if_false, Bool.false_eq_true]
                split at h
                · cases h
                · rename_i sub_value_text_size sub_value_size sub_value hcall
                  simp only [hmono _ _ _ hcall]
                  split at h
                  · rename_i hc
                    simp only [hc, if_true]
                    exact h
                  · rename_i hc
                    simp only [hc, if_false, Bool.false_eq_true]
                    exact ih _ _ _ _ _ _ _ h
            · rename_i hc
              simp only [hc, if_false, Bool.false_eq_true]
              split at h
              · rename_i hc
                simp only [hc, if_true]
                exact ih _ _ _ _ _ _ _ h
              · rename_i hc
                simp only [hc, if_false, Bool.false_eq_true]
                split at h
                · rename_i hc
                  simp only [hc, if_true]
                  exact h
                · rename_i hc
                  simp only [hc, if_false, Bool.false_eq_true]
                  exact ih _ _ _ _ _ _ _ h

theorem jsonl_create_tree_from_text_fuel_succ (pf : jsonl_platform_t) :
    ∀ (fuel : Nat) (json_text : List Nat) (value_buffer_size : Nat)
      (result : Nat × Nat × Option jsonl_value_t),
      jsonl_create_tree_from_text pf fuel json_text value_buffer_size = some result →
      jsonl_create_tree_from_text pf (fuel + 1) json_text value_buffer_size = some result := by
  intro fuel
  induction fuel with
  | zero =>
      intro json_text value_buffer_size result h
      simp only [jsonl_create_tree_from_text] at h
      cases h
  | succ fuel ih =>
      intro json_text value_buffer_size result h
      rw [jsonl_create_tree_from_text] at h ⊢
      simp only at h ⊢
      split at h
      · rename_i hc
        simp only [hc, if_true]
        split at h
        · rename_i hc
          simp only [hc, if_true]
          exact h
        · rename_i hc
          simp only [hc, if_false, Bool.false_eq_true]
          split at h
          · cases h
          · rename_i value_size table hloop
            simp only [jsonl_create_tree_from_text_object_loop_mono _ _ ih _ _ _ _ _ _ _ _ _ _ hloop]
            exact h
      · rename_i hc
        simp only [hc, if_false, Bool.false_eq_true]
        split at h
        · rename_i hc
          simp only [hc, if_true]
          split at h
          · rename_i hc
            simp only [hc, if_true]
            exact h
          · rename_i hc
            simp only [hc, if_false, Bool.false_eq_true]
            split at h
            · cases h
            · rename_i value_size table hloop
              simp only [jsonl_create_tree_from_text_array_loop_mono _ _ ih _ _ _ _ _ _ _ _ _ _ hloop]
              exact h
        · rename_i hc
          simp only [hc, if_false, Bool.false_eq_true]
          exact h

theorem jsonl_create_tree_from_text_fuel_le (pf : jsonl_platform_t)
    (fuel more : Nat) (json_text : List Nat) (value_buffer_size : Nat)
    (result : Nat × Nat × Option jsonl_value_t) (hle : fuel ≤ more)
    (h : jsonl_create_tree_from_text pf fuel json_text value_buffer_size = some result) :
    jsonl_create_tree_from_text pf more json_text value_buffer_size = some result := by
  induction more with
  | zero =>
      have : fuel = 0 := by omega
      subst this
      exact h
  | succ more ih =>
      by_cases hm : fuel ≤ more
      · exact jsonl_create_tree_from_text_fuel_succ pf more _ _ _ (ih hm)
      · have : fuel = more + 1 := by omega
        subst this
        exact h

/-- The tree builder reads no further than the span `jsonl_decide_value_type` reports. -/
theorem jsonl_create_tree_from_text_append (pf : jsonl_platform_t) (fuel : Nat)
    (json_text extra : List Nat) (space value_buffer_size : Nat)
    (hs : jsonl_is_white_space space = true)
    (h : (jsonl_decide_value_type json_text).1 ≠ JSONL_TYPE_ERROR) :
    jsonl_create_tree_from_text pf fuel (json_text ++ space :: extra) value_buffer_size =
      jsonl_create_tree_from_text pf fuel json_text value_buffer_size := by
  cases fuel with
  | zero => rfl
  | succ fuel =>
      obtain ⟨hd, hle⟩ := jsonl_decide_value_type_append json_text extra space hs h
      have htake : (json_text ++ space :: extra).take (jsonl_decide_value_type json_text).2 =
          json_text.take (jsonl_decide_value_type json_text).2 :=
        List.take_append_of_le_length hle
      rw [jsonl_create_tree_from_text, jsonl_create_tree_from_text]
      simp only [hd, htake]

theorem jsonl_create_tree_from_text_accepts (pf : jsonl_platform_t) (fuel : Nat)
    (json_text : List Nat) (value_buffer_size text_size size : Nat)
    (tree : Option jsonl_value_t)
    (h : jsonl_create_tree_from_text pf fuel json_text value_buffer_size =
      some (text_size, size, tree))
    (hts : text_size ≠ 0) :
    (jsonl_decide_value_type json_text).1 ≠ JSONL_TYPE_ERROR := by
  intro herr
  cases fuel with
  | zero => simp only [jsonl_create_tree_from_text] at h; cases h
  | succ fuel =>
      rw [jsonl_create_tree_from_text] at h
      simp only [herr] at h
      simp [JSONL_TYPE_ERROR, JSONL_TYPE_OBJECT, JSONL_TYPE_ARRAY, JSONL_TYPE_STRING,
        JSONL_TYPE_NUMBER, JSONL_TYPE_BOOLEAN, JSONL_TYPE_NULL] at h
      exact hts h.1.symm

theorem jsonl_decide_value_type_nil :
    (jsonl_decide_value_type []).1 = JSONL_TYPE_ERROR := by
  rfl

theorem jsonl_white_space_length_le : ∀ (text : List Nat),
    jsonl_white_space_length text ≤ text.length := by
  intro text
  induction text with
  | nil => simp [jsonl_white_space_length]
  | cons character rest ih =>
      simp only [jsonl_white_space_length, List.length_cons]
      split <;> omega

theorem jsonl_white_space_length_append : ∀ (text extra : List Nat),
    text.drop (jsonl_white_space_length text) ≠ [] →
    jsonl_white_space_length (text ++ extra) = jsonl_white_space_length text := by
  intro text extra
  induction text with
  | nil => intro h; simp [jsonl_white_space_length] at h
  | cons character rest ih =>
      intro h
      simp only [List.cons_append, jsonl_white_space_length] at h ⊢
      by_cases hw : jsonl_is_white_space character = true
      · simp only [hw, if_true] at h ⊢
        simp only [List.drop_succ_cons] at h
        exact congrArg (fun n => n + 1) (ih h)
      · simp only [hw, if_false, Bool.false_eq_true]

/-- What follows a text that parses, after one byte of white space, is not read. -/
theorem jsonl_parse_text_append (pf : jsonl_platform_t) (json_text extra : List Nat)
    (space value_buffer_size size : Nat) (tree : Option jsonl_value_t)
    (hs : jsonl_is_white_space space = true)
    (h : jsonl_parse_text pf json_text value_buffer_size = some (size, tree))
    (hsize : size ≠ 0) :
    jsonl_parse_text pf (json_text ++ space :: extra) value_buffer_size = some (size, tree) := by
  unfold jsonl_parse_text at h ⊢
  simp only at h ⊢
  cases hcall : jsonl_create_tree_from_text pf (json_text.length + 1)
      (json_text.drop (jsonl_white_space_length json_text)) value_buffer_size with
  | none => rw [hcall] at h; cases h
  | some result =>
      obtain ⟨text_size, tree_size, built⟩ := result
      rw [hcall] at h
      simp only at h
      by_cases hts : text_size = 0
      · subst hts
        simp at h
        exact absurd h.1.symm hsize
      · have hacc := jsonl_create_tree_from_text_accepts pf _ _ _ _ _ _ hcall hts
        have hne : json_text.drop (jsonl_white_space_length json_text) ≠ [] := by
          intro hnil
          rw [hnil] at hacc
          exact hacc jsonl_decide_value_type_nil
        rw [jsonl_white_space_length_append json_text (space :: extra) hne,
          List.drop_append_of_le_length (jsonl_white_space_length_le json_text),
          jsonl_create_tree_from_text_append pf _ _ extra space value_buffer_size hs hacc,
          jsonl_create_tree_from_text_fuel_le pf (json_text.length + 1) _ _ _ _ (by simp) hcall]
        exact h

/-! ### Strings of plain characters: printing, scanning, decoding -/

theorem jsonl_plain_character_spec (c : Nat) (h : jsonl_plain_character c = true) :
    32 ≤ c ∧ c ≤ 126 ∧ c ≠ 34 ∧ c ≠ 92 := by
  simp [jsonl_plain_character] at h
  omega

theorem jsonl_plain_all (string : List Nat) (h : string.all jsonl_plain_character = true) :
    ∀ c ∈ string, jsonl_plain_character c = true := by
  simpa using h

theorem jsonl_escaped_character_index_plain (c : Nat) (h : jsonl_plain_character c = true) :
    jsonl_escaped_character_index c = none := by
  obtain ⟨h1, h2, h3, h4⟩ := jsonl_plain_character_spec c h
  simp only [jsonl_escaped_character_index, jsonl_escaped_character_table, List.find?_eq_none]
  intro entry he
  simp only [List.mem_cons, List.mem_singleton, List.not_mem_nil, or_false] at he
  rcases he with rfl | rfl | rfl | rfl | rfl | rfl | rfl <;> simp <;> omega

theorem jsonl_char_less_than_0x20_plain (pf : jsonl_platform_t) (c : Nat)
    (h : jsonl_plain_character c = true) : jsonl_char_less_than_0x20 pf c = false := by
  obtain ⟨h1, h2, h3, h4⟩ := jsonl_plain_character_spec c h
  have ha : ¬ c < 32 := by omega
  have hb : ¬ c ≥ 128 := by omega
  simp [jsonl_char_less_than_0x20, ha, hb]

theorem jsonl_print_string_value_loop_plain (pf : jsonl_platform_t) :
    ∀ string : List Nat, (∀ c ∈ string, jsonl_plain_character c = true) →
      ∀ capacity printed_string_length,
      (jsonl_print_string_value_loop pf capacity string printed_string_length).1 =
        printed_string_length + string.length ∧
      (printed_string_length + string.length < capacity →
        (jsonl_print_string_value_loop pf capacity string printed_string_length).2 =
          jsonl_text_writes (1 + printed_string_length) string) := by
  intro string
  induction string with
  | nil =>
      exact fun _ capacity psl => ⟨rfl, fun _ => rfl⟩
  | cons character string ih =>
      intro hplain capacity psl
      have hc := hplain character (List.mem_cons_self _ _)
      have hindex := jsonl_escaped_character_index_plain character hc
      have hlow := jsonl_char_less_than_0x20_plain pf character hc
      obtain ⟨h1, h2⟩ := ih (fun c hm => hplain c (List.mem_cons_of_mem _ hm)) capacity (psl + 1)
      simp only [jsonl_print_string_value_loop, hindex, hlow, Bool.false_eq_true,
        if_false, h1, List.length_cons]
      refine ⟨by omega, fun hfit => ?_⟩
      have hg : psl < capacity := by omega
      rw [h2 (by omega)]
      simp only [hg, if_true, jsonl_text_writes, List.cons_append, List.nil_append,
        Nat.add_assoc]

theorem jsonl_print_string_value_plain (pf : jsonl_platform_t) (string : List Nat)
    (h : ∀ c ∈ string, jsonl_plain_character c = true) :
    jsonl_printed_text (jsonl_print_string_value pf string) = 34 :: (string ++ [34]) := by
  apply jsonl_printed_text_of_prints
  intro capacity
  obtain ⟨h1, h2⟩ := jsonl_print_string_value_loop_plain pf string h capacity 0
  simp only [jsonl_print_string_value, h1, List.length_cons, List.length_append,
    List.length_nil, Nat.zero_add]
  refine ⟨by omega, fun hfit => ?_⟩
  have hg1 : capacity ≠ 0 := by omega
  have hg2 : 1 + string.length < capacity := by omega
  rw [h2 (by omega)]
  simp only [hg1, hg2, ne_eq, not_false_eq_true, if_true, jsonl_text_writes,
    jsonl_text_writes_append, List.cons_append, List.nil_append, Nat.add_zero, Nat.zero_add]

theorem jsonl_quoted_string_lenght_loop_plain :
    ∀ (string rest : List Nat) (offset : Nat),
      (∀ c ∈ string, jsonl_plain_character c = true) →
      jsonl_quoted_string_lenght_loop (string ++ 34 :: rest) false offset =
        offset + string.length + 1 := by
  intro string
  induction string with
  | nil =>
      intro rest offset _
      simp [jsonl_quoted_string_lenght_loop]
  | cons character string ih =>
      intro rest offset hplain
      obtain ⟨h1, h2, h3, h4⟩ :=
        jsonl_plain_character_spec character (hplain character (List.mem_cons_self _ _))
      have hq : (character == 34) = false := by simpa using h3
      have hb : (character == 92) = false := by simpa using h4
      simp only [List.cons_append, jsonl_quoted_string_lenght_loop, hq, hb, Bool.not_false,
        Bool.and_false, Bool.false_eq_true, if_false, List.length_cons]
      have := ih rest (offset + 1) (fun c hm => hplain c (List.mem_cons_of_mem _ hm))
      change jsonl_quoted_string_lenght_loop (string ++ 34 :: rest) false (offset + 1) = _
      rw [this]
      omega

theorem jsonl_quoted_string_lenght_plain (string rest : List Nat)
    (h : ∀ c ∈ string, jsonl_plain_character c = true) :
    jsonl_quoted_string_lenght (34 :: (string ++ 34 :: rest)) = string.length + 2 := by
  simp only [jsonl_quoted_string_lenght, bne_self_eq_false, Bool.false_eq_true, if_false]
  rw [jsonl_quoted_string_lenght_loop_plain string rest 1 h]
  omega

theorem jsonl_decode_quoted_string_loop_plain (string_buffer_size : Nat) :
    ∀ (string tail : List Nat) (string_length : Nat) (buffer : List Nat),
      (∀ c ∈ string, jsonl_plain_character c = true) →
      string_length + string.length ≤ string_buffer_size →
      jsonl_decode_quoted_string_loop string_buffer_size string.length string.length
        (string ++ tail) string_length buffer =
        some (string_length + string.length, buffer ++ string) := by
  intro string
  induction string with
  | nil =>
      intro tail string_length buffer _ _
      simp [jsonl_decode_quoted_string_loop]
  | cons character string ih =>
      intro tail string_length buffer hplain hfit
      obtain ⟨h1, h2, h3, h4⟩ :=
        jsonl_plain_character_spec character (hplain character (List.mem_cons_self _ _))
      have hb : (character != 92) = true := by simpa using h4
      simp only [List.length_cons] at hfit
      have hstore := jsonl_decode_store_fits string_buffer_size string_length buffer character
        (by omega)
      have := ih tail (string_length + 1) (buffer ++ [character])
        (fun c hm => hplain c (List.mem_cons_of_mem _ hm)) (by omega)
      simp only [List.length_cons, List.cons_append, jsonl_decode_quoted_string_loop,
        Nat.add_one_ne_zero, if_false, hb, Bool.true_or, if_true, Nat.add_sub_cancel, hstore]
      change jsonl_decode_quoted_string_loop string_buffer_size string.length string.length
        (string ++ tail) (string_length + 1) (buffer ++ [character]) = _
      rw [this]
      simp [Nat.add_assoc, Nat.add_comm 1]

theorem jsonl_decode_quoted_string_plain (string : List Nat) (string_buffer_size : Nat)
    (h : ∀ c ∈ string, jsonl_plain_character c = true)
    (hfit : string.length ≤ string_buffer_size) :
    jsonl_decode_quoted_string (34 :: (string ++ [34])) string_buffer_size =
      some (string.length + 2, string.length, string) := by
  have hlen := jsonl_quoted_string_lenght_plain string [] h
  have hloop := jsonl_decode_quoted_string_loop_plain string_buffer_size string [34] 0 [] h
    (by omega)
  simp only [jsonl_decode_quoted_string, hlen, Nat.add_one_ne_zero, if_false,
    Nat.add_sub_cancel, List.drop_succ_cons, List.drop_zero, hloop, Option.map_some',
    Nat.zero_add, List.nil_append]

/-! ### The span loop over a printed text -/

theorem jsonl_span_passes_nil (opening closing : Nat) :
    jsonl_span_passes opening closing [] := by
  intro rest offset depth result _ hcont fuel hfuel
  exact hcont fuel (by simpa using hfuel)

theorem jsonl_span_passes_append (opening closing : Nat) (first second : List Nat)
    (h1 : jsonl_span_passes opening closing first)
    (h2 : jsonl_span_passes opening closing second) :
    jsonl_span_passes opening closing (first ++ second) := by
  intro rest offset depth result hd hcont fuel hfuel
  rw [List.append_assoc] at hfuel ⊢
  refine h1 (second ++ rest) offset depth result hd ?_ fuel hfuel
  intro fuel2 hfuel2
  refine h2 rest (offset + first.length) depth result hd ?_ fuel2 hfuel2
  intro fuel3 hfuel3
  have := hcont fuel3 hfuel3
  rw [List.length_append, ← Nat.add_assoc] at this
  exact this

theorem jsonl_span_passes_one (opening closing character : Nat)
    (ho : character ≠ opening) (hc : character ≠ closing) (hq : character ≠ 34) :
    jsonl_span_passes opening closing [character] := by
  intro rest offset depth result _ hcont fuel hfuel
  cases fuel with
  | zero => simp at hfuel
  | succ fuel =>
      have h1 : (character == closing) = false := by simpa using hc
      have h2 : (character == opening) = false := by simpa using ho
      have h3 : (character == 34) = false := by simpa using hq
      simp only [List.singleton_append, jsonl_container_text_size_loop, h1, h2, h3,
        Bool.false_eq_true, if_false]
      exact hcont fuel (by simp at hfuel; omega)

theorem jsonl_span_passes_all (opening closing : Nat) :
    ∀ text : List Nat, (∀ c ∈ text, c ≠ opening ∧ c ≠ closing ∧ c ≠ 34) →
      jsonl_span_passes opening closing text := by
  intro text
  induction text with
  | nil => exact fun _ => jsonl_span_passes_nil opening closing
  | cons character text ih =>
      intro h
      obtain ⟨h1, h2, h3⟩ := h character (List.mem_cons_self _ _)
      exact jsonl_span_passes_append opening closing [character] text
        (jsonl_span_passes_one opening closing character h1 h2 h3)
        (ih (fun c hm => h c (List.mem_cons_of_mem _ hm)))

theorem jsonl_span_passes_quoted (opening closing : Nat) (string : List Nat)
    (ho : opening ≠ 34) (hc : closing ≠ 34)
    (h : ∀ c ∈ string, jsonl_plain_character c = true) :
    jsonl_span_passes opening closing (34 :: (string ++ [34])) := by
  intro rest offset depth result _ hcont fuel hfuel
  cases fuel with
  | zero => simp at hfuel
  | succ fuel =>
      have h1 : ((34 : Nat) == closing) = false := by
        simpa using fun heq : 34 = closing => hc heq.symm
      have h2 : ((34 : Nat) == opening) = false := by
        simpa using fun heq : 34 = opening => ho heq.symm
      have htext : 34 :: (string ++ [34]) ++ rest = 34 :: (string ++ 34 :: rest) := by simp
      have hlen := jsonl_quoted_string_lenght_plain string rest h
      have hdrop : (34 :: (string ++ 34 :: rest)).drop (string.length + 2) = rest := by
        have : 34 :: (string ++ 34 :: rest) = (34 :: (string ++ [34])) ++ rest := by simp
        rw [this]
        exact List.drop_left' (by simp)
      rw [htext]
      simp only [jsonl_container_text_size_loop, h1, h2, beq_self_eq_true, if_true,
        Bool.false_eq_true, if_false, hlen, hdrop]
      simp only [bne_iff_ne, ne_eq, Nat.add_one_ne_zero, not_false_eq_true, if_true]
      have := hcont fuel (by simp at hfuel; omega)
      simp only [List.length_cons, List.length_append, List.length_nil] at this
      have harith : offset + (string.length + 0 + 1 + 1) = offset + (string.length + 2) := by
        omega
      rw [harith] at this
      exact this

theorem jsonl_span_passes_nested (opening closing : Nat) (text : List Nat)
    (hne : opening ≠ closing) (h : jsonl_span_passes opening closing text) :
    jsonl_span_passes opening closing (opening :: (text ++ [closing])) := by
  intro rest offset depth result hd hcont fuel hfuel
  cases fuel with
  | zero => simp at hfuel
  | succ fuel =>
      have h1 : (opening == closing) = false := by simpa using hne
      have htext : opening :: (text ++ [closing]) ++ rest =
          opening :: (text ++ closing :: rest) := by simp
      rw [htext] at hfuel ⊢
      simp only [jsonl_container_text_size_loop, h1, beq_self_eq_true, if_true,
        Bool.false_eq_true, if_false]
      refine h (closing :: rest) (offset + 1) (depth + 1) result (by omega) ?_ fuel
        (by simp at hfuel ⊢; omega)
      intro fuel2 hfuel2
      cases fuel2 with
      | zero => simp at hfuel2
      | succ fuel2 =>
          have hdepth : (depth == 0) = false := by
            simpa using (by omega : depth ≠ 0)
          simp only [jsonl_container_text_size_loop, beq_self_eq_true, if_true,
            Nat.add_sub_cancel, hdepth, Bool.false_eq_true, if_false]
          have := hcont fuel2 (by simp at hfuel2; omega)
          simp only [List.length_cons, List.length_append, List.length_nil] at this
          have harith : offset + (text.length + 0 + 1 + 1) = offset + 1 + text.length + 1 := by
            omega
          rw [harith] at this
          exact this

theorem jsonl_span_passes_ordinary (opening closing : Nat)
    (hpair : (opening = 123 ∧ closing = 125) ∨ (opening = 91 ∧ closing = 93))
    (text : List Nat)
    (h : ∀ c ∈ text, c ≠ 123 ∧ c ≠ 125 ∧ c ≠ 91 ∧ c ≠ 93 ∧ c ≠ 34) :
    jsonl_span_passes opening closing text := by
  apply jsonl_span_passes_all
  intro c hc
  obtain ⟨h1, h2, h3, h4, h5⟩ := h c hc
  rcases hpair with ⟨ho, hcl⟩ | ⟨ho, hcl⟩ <;> subst ho <;> subst hcl <;> exact ⟨by assumption, by assumption, h5⟩

theorem jsonl_span_passes_tabs (opening closing : Nat)
    (hpair : (opening = 123 ∧ closing = 125) ∨ (opening = 91 ∧ closing = 93))
    (depth : Nat) :
    jsonl_span_passes opening closing (List.replicate depth 9) := by
  apply jsonl_span_passes_ordinary opening closing hpair
  intro c hc
  rw [List.mem_replicate] at hc
  obtain ⟨_, rfl⟩ := hc
  decide

theorem jsonl_span_passes_wrapped (opening closing first last : Nat) (text : List Nat)
    (hpair : (opening = 123 ∧ closing = 125) ∨ (opening = 91 ∧ closing = 93))
    (hwrap : (first = 123 ∧ last = 125) ∨ (first = 91 ∧ last = 93))
    (h : jsonl_span_passes opening closing text) :
    jsonl_span_passes opening closing (first :: (text ++ [last])) := by
  rcases hpair with ⟨ho, hc⟩ | ⟨ho, hc⟩ <;> rcases hwrap with ⟨hf, hl⟩ | ⟨hf, hl⟩ <;>
    subst ho <;> subst hc <;> subst hf <;> subst hl
  · exact jsonl_span_passes_nested 123 125 text (by decide) h
  · exact jsonl_span_passes_append 123 125 [91] (text ++ [93])
      (jsonl_span_passes_one 123 125 91 (by decide) (by decide) (by decide))
      (jsonl_span_passes_append 123 125 text [93] h
        (jsonl_span_passes_one 123 125 93 (by decide) (by decide) (by decide)))
  · exact jsonl_span_passes_append 91 93 [123] (text ++ [125])
      (jsonl_span_passes_one 91 93 123 (by decide) (by decide) (by decide))
      (jsonl_span_passes_append 91 93 text [125] h
        (jsonl_span_passes_one 91 93 125 (by decide) (by decide) (by decide)))
  · exact jsonl_span_passes_nested 91 93 text (by decide) h

theorem jsonl_span_passes_separator (opening closing : Nat)
    (hpair : (opening = 123 ∧ closing = 125) ∨ (opening = 91 ∧ closing = 93))
    (last : Bool) :
    jsonl_span_passes opening closing (if last then [] else [44]) := by
  cases last
  · exact jsonl_span_passes_ordinary opening closing hpair [44] (by decide)
  · exact jsonl_span_passes_nil opening closing

mutual
theorem jsonl_rendered_passes (pf : jsonl_platform_t) (opening closing : Nat)
    (hpair : (opening = 123 ∧ closing = 125) ∨ (opening = 91 ∧ closing = 93))
    (value : jsonl_value_t) (hp : value.plain = true) (depth : Nat) :
    jsonl_span_passes opening closing (jsonl_rendered pf value depth) := by
  cases value with
  | object table =>
      simp only [jsonl_value_t.plain] at hp
      have hinner := jsonl_rendered_entries_passes pf opening closing hpair table hp depth
      have hbody : jsonl_span_passes opening closing
          ([10] ++ jsonl_rendered_entries pf table depth ++ List.replicate depth 9) :=
        jsonl_span_passes_append _ _ _ _
          (jsonl_span_passes_append _ _ _ _
            (jsonl_span_passes_ordinary opening closing hpair [10] (by decide)) hinner)
          (jsonl_span_passes_tabs opening closing hpair depth)
      have hform : jsonl_rendered pf (.object table) depth =
          123 :: (([10] ++ jsonl_rendered_entries pf table depth ++ List.replicate depth 9) ++
            [125]) := by
        simp [jsonl_rendered]
      rw [hform]
      exact jsonl_span_passes_wrapped opening closing 123 125 _ hpair (Or.inl ⟨rfl, rfl⟩) hbody
  | array table =>
      simp only [jsonl_value_t.plain] at hp
      have hinner := jsonl_rendered_values_passes pf opening closing hpair table hp depth
      have hbody : jsonl_span_passes opening closing
          ([10] ++ jsonl_rendered_values pf table depth ++ List.replicate depth 9) :=
        jsonl_span_passes_append _ _ _ _
          (jsonl_span_passes_append _ _ _ _
            (jsonl_span_passes_ordinary opening closing hpair [10] (by decide)) hinner)
          (jsonl_span_passes_tabs opening closing hpair depth)
      have hform : jsonl_rendered pf (.array table) depth =
          91 :: (([10] ++ jsonl_rendered_values pf table depth ++ List.replicate depth 9) ++
            [93]) := by
        simp [jsonl_rendered]
      rw [hform]
      exact jsonl_span_passes_wrapped opening closing 91 93 _ hpair (Or.inr ⟨rfl, rfl⟩) hbody
  | string string =>
      simp only [jsonl_value_t.plain] at hp
      simp only [jsonl_rendered]
      rw [jsonl_print_string_value_plain pf string (jsonl_plain_all string hp)]
      refine jsonl_span_passes_quoted opening closing string ?_ ?_ (jsonl_plain_all string hp)
      · rcases hpair with ⟨ho, _⟩ | ⟨ho, _⟩ <;> subst ho <;> decide
      · rcases hpair with ⟨_, hc⟩ | ⟨_, hc⟩ <;> subst hc <;> decide
  | number number => simp [jsonl_value_t.plain] at hp
  | boolean value =>
      cases value
      · exact jsonl_span_passes_ordinary opening closing hpair [102, 97, 108, 115, 101]
          (by decide)
      · exact jsonl_span_passes_ordinary opening closing hpair [116, 114, 117, 101]
          (by decide)
  | null =>
      exact jsonl_span_passes_ordinary opening closing hpair [110, 117, 108, 108] (by decide)
  | unknown t => simp [jsonl_value_t.plain] at hp
theorem jsonl_rendered_entries_passes (pf : jsonl_platform_t) (opening closing : Nat)
    (hpair : (opening = 123 ∧ closing = 125) ∨ (opening = 91 ∧ closing = 93))
    (table : List (List Nat × jsonl_value_t))
    (hp : jsonl_value_t.plain_entries table = true) (depth : Nat) :
    jsonl_span_passes opening closing (jsonl_rendered_entries pf table depth) := by
  cases table with
  | nil => exact jsonl_span_passes_nil opening closing
  | cons entry table =>
      obtain ⟨name, value⟩ := entry
      simp only [jsonl_value_t.plain_entries, Bool.and_eq_true] at hp
      obtain ⟨⟨hname, hvalue⟩, htable⟩ := hp
      have h1 := jsonl_rendered_passes pf opening closing hpair value hvalue (depth + 1)
      have h2 := jsonl_rendered_entries_passes pf opening closing hpair table htable depth
      simp only [jsonl_rendered_entries]
      rw [jsonl_print_string_value_plain pf name (jsonl_plain_all name hname)]
      refine jsonl_span_passes_append _ _ _ _ (jsonl_span_passes_append _ _ _ _
        (jsonl_span_passes_append _ _ _ _ (jsonl_span_passes_append _ _ _ _
          (jsonl_span_passes_append _ _ _ _ (jsonl_span_passes_append _ _ _ _
            (jsonl_span_passes_tabs opening closing hpair (depth + 1)) ?_)
            (jsonl_span_passes_ordinary opening closing hpair [32, 58, 32] (by decide)))
          h1) (jsonl_span_passes_separator opening closing hpair _))
        (jsonl_span_passes_ordinary opening closing hpair [10] (by decide))) h2
      refine jsonl_span_passes_quoted opening closing name ?_ ?_ (jsonl_plain_all name hname)
      · rcases hpair with ⟨ho, _⟩ | ⟨ho, _⟩ <;> subst ho <;> decide
      · rcases hpair with ⟨_, hc⟩ | ⟨_, hc⟩ <;> subst hc <;> decide
theorem jsonl_rendered_values_passes (pf : jsonl_platform_t) (opening closing : Nat)
    (hpair : (opening = 123 ∧ closing = 125) ∨ (opening = 91 ∧ closing = 93))
    (table : List jsonl_value_t)
    (hp : jsonl_value_t.plain_values table = true) (depth : Nat) :
    jsonl_span_passes opening closing (jsonl_rendered_values pf table depth) := by
  cases table with
  | nil => exact jsonl_span_passes_nil opening closing
  | cons value table =>
      simp only [jsonl_value_t.plain_values, Bool.and_eq_true] at hp
      obtain ⟨hvalue, htable⟩ := hp
      have h1 := jsonl_rendered_passes pf opening closing hpair value hvalue (depth + 1)
      have h2 := jsonl_rendered_values_passes pf opening closing hpair table htable depth
      simp only [jsonl_rendered_values]
      exact jsonl_span_passes_append _ _ _ _ (jsonl_span_passes_append _ _ _ _
        (jsonl_span_passes_append _ _ _ _ (jsonl_span_passes_append _ _ _ _
          (jsonl_span_passes_tabs opening closing hpair (depth + 1)) h1)
          (jsonl_span_passes_separator opening closing hpair _))
        (jsonl_span_passes_ordinary opening closing hpair [10] (by decide))) h2
end

/-- The span of a container text whose body the loop passes over. -/
theorem jsonl_span_closes (opening closing : Nat) (text rest : List Nat)
    (h : jsonl_span_passes opening closing text) :
    jsonl_container_text_size_loop opening closing (text ++ closing :: rest).length
      (text ++ closing :: rest) 1 1 = text.length + 2 := by
  refine h (closing :: rest) 1 1 (text.length + 2) (le_refl _) ?_ _ (le_refl _)
  intro fuel hfuel
  cases fuel with
  | zero => simp at hfuel
  | succ fuel =>
      simp only [jsonl_container_text_size_loop, beq_self_eq_true, if_true, Nat.sub_self]
      omega

/-! ### The type and the span of a printed value -/

theorem jsonl_text_is_literal_other (l c : Nat) (ls t : List Nat) (h : c ≠ l) :
    jsonl_text_is_literal (l :: ls) (c :: t) = false := by
  simp [jsonl_text_is_literal, h]

theorem jsonl_text_is_literal_self (literal rest : List Nat) (h : jsonl_number_end rest) :
    jsonl_text_is_literal literal (literal ++ rest) = true := by
  rcases h with rfl | ⟨character, tail, rfl, hc⟩
  · simp [jsonl_text_is_literal]
  · have hget : (literal ++ character :: tail).getD literal.length 0 = character := by
      rw [List.getD_eq_getElem?_getD, List.getElem?_append_right (le_refl _)]
      simp
    have hor : (jsonl_is_white_space character ||
        jsonl_is_structural_character character) = true := by
      simpa using hc
    simp only [jsonl_text_is_literal, hget, hor]
    simp

theorem jsonl_decide_value_type_null (rest : List Nat) (h : jsonl_number_end rest) :
    jsonl_decide_value_type ([110, 117, 108, 108] ++ rest) = (JSONL_TYPE_NULL, 4) := by
  simp only [jsonl_decide_value_type, jsonl_text_is_literal_self _ rest h, if_true]

theorem jsonl_decide_value_type_true (rest : List Nat) (h : jsonl_number_end rest) :
    jsonl_decide_value_type ([116, 114, 117, 101] ++ rest) = (JSONL_TYPE_BOOLEAN, 4) := by
  have h1 : jsonl_text_is_literal [110, 117, 108, 108] ([116, 114, 117, 101] ++ rest) = false :=
    jsonl_text_is_literal_other 110 116 _ _ (by decide)
  have h2 : jsonl_text_is_literal [102, 97, 108, 115, 101] ([116, 114, 117, 101] ++ rest) =
      false :=
    jsonl_text_is_literal_other 102 116 _ _ (by decide)
  simp only [jsonl_decide_value_type, jsonl_decode_boolean, h1, h2,
    jsonl_text_is_literal_self _ rest h, Bool.false_eq_true, if_false, if_true]
  rfl

theorem jsonl_decide_value_type_false (rest : List Nat) (h : jsonl_number_end rest) :
    jsonl_decide_value_type ([102, 97, 108, 115, 101] ++ rest) = (JSONL_TYPE_BOOLEAN, 5) := by
  have h1 : jsonl_text_is_literal [110, 117, 108, 108] ([102, 97, 108, 115, 101] ++ rest) =
      false :=
    jsonl_text_is_literal_other 110 102 _ _ (by decide)
  simp only [jsonl_decide_value_type, jsonl_decode_boolean, h1,
    jsonl_text_is_literal_self _ rest h, Bool.false_eq_true, if_false, if_true]
  rfl

theorem jsonl_decide_value_type_no_literal (c : Nat) (t : List Nat)
    (h1 : c ≠ 110) (h2 : c ≠ 102) (h3 : c ≠ 116) :
    jsonl_text_is_literal [110, 117, 108, 108] (c :: t) = false ∧
      jsonl_decode_boolean (c :: t) = (0, false) := by
  have ha := jsonl_text_is_literal_other 110 c [117, 108, 108] t h1
  have hb := jsonl_text_is_literal_other 102 c [97, 108, 115, 101] t h2
  have hc := jsonl_text_is_literal_other 116 c [114, 117, 101] t h3
  refine ⟨ha, ?_⟩
  simp only [jsonl_decode_boolean, hb, hc, Bool.false_eq_true, if_false]

theorem jsonl_decide_value_type_quoted (string rest : List Nat)
    (h : ∀ c ∈ string, jsonl_plain_character c = true) :
    jsonl_decide_value_type (34 :: (string ++ [34]) ++ rest) =
      (JSONL_TYPE_STRING, string.length + 2) := by
  have htext : 34 :: (string ++ [34]) ++ rest = 34 :: (string ++ 34 :: rest) := by simp
  rw [htext]
  obtain ⟨h1, h2⟩ := jsonl_decide_value_type_no_literal 34 (string ++ 34 :: rest)
    (by decide) (by decide) (by decide)
  simp only [jsonl_decide_value_type, h1, h2, jsonl_object_text_size_other 34 _ (by decide),
    jsonl_array_text_size_other 34 _ (by decide), jsonl_decode_number_length_quote,
    jsonl_quoted_string_lenght_plain string rest h, bne_self_eq_false, Bool.false_eq_true,
    if_false]
  simp

theorem jsonl_decide_value_type_object (body rest : List Nat)
    (h : jsonl_span_passes 123 125 body) :
    jsonl_decide_value_type (123 :: (body ++ [125]) ++ rest) =
      (JSONL_TYPE_OBJECT, body.length + 2) := by
  have htext : 123 :: (body ++ [125]) ++ rest = 123 :: (body ++ 125 :: rest) := by simp
  rw [htext]
  obtain ⟨h1, h2⟩ := jsonl_decide_value_type_no_literal 123 (body ++ 125 :: rest)
    (by decide) (by decide) (by decide)
  have hsize : jsonl_object_text_size (123 :: (body ++ 125 :: rest)) = body.length + 2 :=
    jsonl_span_closes 123 125 body rest h
  simp only [jsonl_decide_value_type, h1, h2, hsize, bne_self_eq_false, Bool.false_eq_true,
    if_false]
  simp

theorem jsonl_decide_value_type_array (body rest : List Nat)
    (h : jsonl_span_passes 91 93 body) :
    jsonl_decide_value_type (91 :: (body ++ [93]) ++ rest) =
      (JSONL_TYPE_ARRAY, body.length + 2) := by
  have htext : 91 :: (body ++ [93]) ++ rest = 91 :: (body ++ 93 :: rest) := by simp
  rw [htext]
  obtain ⟨h1, h2⟩ := jsonl_decide_value_type_no_literal 91 (body ++ 93 :: rest)
    (by decide) (by decide) (by decide)
  have hsize : jsonl_array_text_size (91 :: (body ++ 93 :: rest)) = body.length + 2 :=
    jsonl_span_closes 91 93 body rest h
  simp only [jsonl_decide_value_type, h1, h2, hsize,
    jsonl_object_text_size_other 91 _ (by decide), bne_self_eq_false, Bool.false_eq_true,
    if_false]
  simp

/-- The body of a printed object: what stands between the braces. -/
theorem jsonl_rendered_object_form (pf : jsonl_platform_t)
    (table : List (List Nat × jsonl_value_t)) (depth : Nat) :
    jsonl_rendered pf (.object table) depth =
      123 :: (([10] ++ jsonl_rendered_entries pf table depth ++ List.replicate depth 9) ++
        [125]) := by
  simp [jsonl_rendered]

theorem jsonl_rendered_array_form (pf : jsonl_platform_t)
    (table : List jsonl_value_t) (depth : Nat) :
    jsonl_rendered pf (.array table) depth =
      91 :: (([10] ++ jsonl_rendered_values pf table depth ++ List.replicate depth 9) ++
        [93]) := by
  simp [jsonl_rendered]

theorem jsonl_object_body_passes (pf : jsonl_platform_t) (opening closing : Nat)
    (hpair : (opening = 123 ∧ closing = 125) ∨ (opening = 91 ∧ closing = 93))
    (table : List (List Nat × jsonl_value_t))
    (hp : jsonl_value_t.plain_entries table = true) (depth : Nat) :
    jsonl_span_passes opening closing
      ([10] ++ jsonl_rendered_entries pf table depth ++ List.replicate depth 9) :=
  jsonl_span_passes_append _ _ _ _
    (jsonl_span_passes_append _ _ _ _
      (jsonl_span_passes_ordinary opening closing hpair [10] (by decide))
      (jsonl_rendered_entries_passes pf opening closing hpair table hp depth))
    (jsonl_span_passes_tabs opening closing hpair depth)

theorem jsonl_array_body_passes (pf : jsonl_platform_t) (opening closing : Nat)
    (hpair : (opening = 123 ∧ closing = 125) ∨ (opening = 91 ∧ closing = 93))
    (table : List jsonl_value_t)
    (hp : jsonl_value_t.plain_values table = true) (depth : Nat) :
    jsonl_span_passes opening closing
      ([10] ++ jsonl_rendered_values pf table depth ++ List.replicate depth 9) :=
  jsonl_span_passes_append _ _ _ _
    (jsonl_span_passes_append _ _ _ _
      (jsonl_span_passes_ordinary opening closing hpair [10] (by decide))
      (jsonl_rendered_values_passes pf opening closing hpair table hp depth))
    (jsonl_span_passes_tabs opening closing hpair depth)

theorem jsonl_decide_value_type_rendered (pf : jsonl_platform_t) (value : jsonl_value_t)
    (hp : value.plain = true) (depth : Nat) (rest : List Nat) (hend : jsonl_number_end rest) :
    jsonl_decide_value_type (jsonl_rendered pf value depth ++ rest) =
      (value.type, (jsonl_rendered pf value depth).length) := by
  cases value with
  | object table =>
      simp only [jsonl_value_t.plain] at hp
      rw [jsonl_rendered_object_form,
        jsonl_decide_value_type_object _ rest
          (jsonl_object_body_passes pf 123 125 (Or.inl ⟨rfl, rfl⟩) table hp depth)]
      simp [jsonl_value_t.type]
      omega
  | array table =>
      simp only [jsonl_value_t.plain] at hp
      rw [jsonl_rendered_array_form,
        jsonl_decide_value_type_array _ rest
          (jsonl_array_body_passes pf 91 93 (Or.inr ⟨rfl, rfl⟩) table hp depth)]
      simp [jsonl_value_t.type]
      omega
  | string string =>
      simp only [jsonl_value_t.plain] at hp
      simp only [jsonl_rendered]
      rw [jsonl_print_string_value_plain pf string (jsonl_plain_all string hp),
        jsonl_decide_value_type_quoted string rest (jsonl_plain_all string hp)]
      simp [jsonl_value_t.type]
  | number number => simp [jsonl_value_t.plain] at hp
  | boolean value =>
      cases value
      · simp only [jsonl_rendered]
        rw [jsonl_decide_value_type_false rest hend]
        rfl
      · simp only [jsonl_rendered]
        rw [jsonl_decide_value_type_true rest hend]
        rfl
  | null =>
      simp only [jsonl_rendered]
      rw [jsonl_decide_value_type_null rest hend]
      rfl
  | unknown t => simp [jsonl_value_t.plain] at hp

/-! ### The shape of the printed lines -/

theorem jsonl_rendered_head (pf : jsonl_platform_t) (value : jsonl_value_t)
    (hp : value.plain = true) (depth : Nat) :
    ∃ c t, jsonl_rendered pf value depth = c :: t ∧ jsonl_is_white_space c = false ∧
      c ≠ 44 := by
  cases value with
  | object table => exact ⟨123, _, jsonl_rendered_object_form pf table depth, by decide, by decide⟩
  | array table => exact ⟨91, _, jsonl_rendered_array_form pf table depth, by decide, by decide⟩
  | string string =>
      simp only [jsonl_value_t.plain] at hp
      refine ⟨34, string ++ [34], ?_, by decide, by decide⟩
      simp only [jsonl_rendered]
      exact jsonl_print_string_value_plain pf string (jsonl_plain_all string hp)
  | number number => simp [jsonl_value_t.plain] at hp
  | boolean value =>
      cases value
      · exact ⟨102, [97, 108, 115, 101], rfl, by decide, by decide⟩
      · exact ⟨116, [114, 117, 101], rfl, by decide, by decide⟩
  | null => exact ⟨110, [117, 108, 108], rfl, by decide, by decide⟩
  | unknown t => simp [jsonl_value_t.plain] at hp

theorem jsonl_rendered_values_after_nil (pf : jsonl_platform_t) (depth : Nat) :
    jsonl_rendered_values_after pf [] depth = 10 :: List.replicate depth 9 := by
  simp [jsonl_rendered_values_after, jsonl_rendered_values]

theorem jsonl_rendered_values_cons (pf : jsonl_platform_t) (value : jsonl_value_t)
    (table : List jsonl_value_t) (depth : Nat) :
    jsonl_rendered_values pf (value :: table) depth ++ List.replicate depth 9 =
      List.replicate (depth + 1) 9 ++
        (jsonl_rendered pf value (depth + 1) ++ jsonl_rendered_values_after pf table depth) := by
  simp [jsonl_rendered_values_after, jsonl_rendered_values, List.append_assoc]

theorem jsonl_rendered_values_after_cons (pf : jsonl_platform_t) (value : jsonl_value_t)
    (table : List jsonl_value_t) (depth : Nat) :
    jsonl_rendered_values_after pf (value :: table) depth =
      44 :: 10 :: (List.replicate (depth + 1) 9 ++
        (jsonl_rendered pf value (depth + 1) ++
          jsonl_rendered_values_after pf table depth)) := by
  rw [← jsonl_rendered_values_cons]
  simp [jsonl_rendered_values_after]

theorem jsonl_rendered_values_after_end (pf : jsonl_platform_t)
    (table : List jsonl_value_t) (depth : Nat) :
    jsonl_number_end (jsonl_rendered_values_after pf table depth) := by
  cases table with
  | nil =>
      rw [jsonl_rendered_values_after_nil]
      exact Or.inr ⟨10, _, rfl, Or.inl (by decide)⟩
  | cons value table =>
      rw [jsonl_rendered_values_after_cons]
      exact Or.inr ⟨44, _, rfl, Or.inr (by decide)⟩

theorem jsonl_rendered_entries_after_nil (pf : jsonl_platform_t) (depth : Nat) :
    jsonl_rendered_entries_after pf [] depth = 10 :: List.replicate depth 9 := by
  simp [jsonl_rendered_entries_after, jsonl_rendered_entries]

theorem jsonl_rendered_entries_cons (pf : jsonl_platform_t) (name : List Nat)
    (value : jsonl_value_t) (table : List (List Nat × jsonl_value_t)) (depth : Nat)
    (hname : ∀ c ∈ name, jsonl_plain_character c = true) :
    jsonl_rendered_entries pf ((name, value) :: table) depth ++ List.replicate depth 9 =
      List.replicate (depth + 1) 9 ++
        (34 :: (name ++ 34 :: 32 :: 58 :: 32 ::
          (jsonl_rendered pf value (depth + 1) ++
            jsonl_rendered_entries_after pf table depth))) := by
  simp only [jsonl_rendered_entries_after, jsonl_rendered_entries,
    jsonl_print_string_value_plain pf name hname]
  simp [List.append_assoc]

theorem jsonl_rendered_entries_after_cons (pf : jsonl_platform_t) (name : List Nat)
    (value : jsonl_value_t) (table : List (List Nat × jsonl_value_t)) (depth : Nat)
    (hname : ∀ c ∈ name, jsonl_plain_character c = true) :
    jsonl_rendered_entries_after pf ((name, value) :: table) depth =
      44 :: 10 :: (List.replicate (depth + 1) 9 ++
        (34 :: (name ++ 34 :: 32 :: 58 :: 32 ::
          (jsonl_rendered pf value (depth + 1) ++
            jsonl_rendered_entries_after pf table depth)))) := by
  rw [← jsonl_rendered_entries_cons pf name value table depth hname]
  simp [jsonl_rendered_entries_after]

theorem jsonl_rendered_entries_after_end (pf : jsonl_platform_t)
    (table : List (List Nat × jsonl_value_t)) (depth : Nat) :
    jsonl_number_end (jsonl_rendered_entries_after pf table depth) := by
  cases table with
  | nil =>
      rw [jsonl_rendered_entries_after_nil]
      exact Or.inr ⟨10, _, rfl, Or.inl (by decide)⟩
  | cons entry table =>
      refine Or.inr ⟨44, 10 :: (jsonl_rendered_entries pf (entry :: table) depth ++
        List.replicate depth 9), ?_, Or.inr (by decide)⟩
      simp only [jsonl_rendered_entries_after, List.isEmpty_cons, Bool.false_eq_true, if_false,
        List.singleton_append]

theorem jsonl_white_space_tabs (depth : Nat) :
    ∀ c ∈ (10 :: List.replicate depth 9 : List Nat), jsonl_is_white_space c = true := by
  intro c hc
  rw [List.mem_cons, List.mem_replicate] at hc
  rcases hc with rfl | ⟨_, rfl⟩ <;> decide

/-! ### Counting the elements of a printed array -/

theorem jsonl_count_array_values_loop_skip :
    ∀ (w : List Nat), (∀ c ∈ w, jsonl_is_white_space c = true) →
      ∀ (read : List Nat) (count : Nat) (expecting : Bool) (result : Nat),
      (∀ fuel, read.length ≤ fuel →
        jsonl_count_array_values_loop fuel read count expecting = result) →
      ∀ fuel, (w ++ read).length ≤ fuel →
        jsonl_count_array_values_loop fuel (w ++ read) count expecting = result := by
  intro w
  induction w with
  | nil => intro _ read count expecting result hcont fuel hfuel; exact hcont fuel hfuel
  | cons c w ih =>
      intro hw read count expecting result hcont fuel hfuel
      cases fuel with
      | zero => simp at hfuel
      | succ fuel =>
          have hc := hw c (List.mem_cons_self _ _)
          have hcomma : (c == 44) = false := by
            cases h : c == 44
            · rfl
            · rw [beq_iff_eq] at h
              subst h
              exact absurd hc (by decide)
          have hrec := ih (fun x hx => hw x (List.mem_cons_of_mem _ hx)) read count expecting
            result hcont fuel (by simp at hfuel ⊢; omega)
          cases expecting
          · simp only [List.cons_append, jsonl_count_array_values_loop, hc, hcomma,
              Bool.false_eq_true, if_false, Bool.not_true]
            exact hrec
          · simp only [List.cons_append, jsonl_count_array_values_loop, hc, if_true]
            exact hrec

theorem jsonl_count_array_values_loop_value (pf : jsonl_platform_t) (value : jsonl_value_t)
    (hp : value.plain = true) (depth : Nat) (rest : List Nat) (hend : jsonl_number_end rest)
    (fuel count : Nat) :
    jsonl_count_array_values_loop (fuel + 1) (jsonl_rendered pf value depth ++ rest) count
        true =
      jsonl_count_array_values_loop fuel rest (count + 1) false := by
  have hdecide := jsonl_decide_value_type_rendered pf value hp depth rest hend
  have hdrop : (jsonl_rendered pf value depth ++ rest).drop
      (jsonl_rendered pf value depth).length = rest := List.drop_left' rfl
  have htype : (value.type == JSONL_TYPE_ERROR) = false := by
    cases value <;> simp [jsonl_value_t.plain] at hp <;> rfl
  obtain ⟨c, t, hform, hc, _⟩ := jsonl_rendered_head pf value hp depth
  rw [hform] at hdecide hdrop ⊢
  simp only [List.cons_append] at hdecide hdrop ⊢
  simp only [jsonl_count_array_values_loop, hc, Bool.false_eq_true, if_false, if_true,
    hdecide, htype, hdrop]

theorem jsonl_count_array_values_loop_after (pf : jsonl_platform_t) (depth : Nat) :
    ∀ (table : List jsonl_value_t), jsonl_value_t.plain_values table = true →
      ∀ (count fuel : Nat), (jsonl_rendered_values_after pf table depth).length ≤ fuel →
        jsonl_count_array_values_loop fuel (jsonl_rendered_values_after pf table depth) count
          false = count + table.length := by
  intro table
  induction table with
  | nil =>
      intro _ count fuel hfuel
      rw [jsonl_rendered_values_after_nil] at hfuel ⊢
      have := jsonl_count_array_values_loop_skip (10 :: List.replicate depth 9)
        (jsonl_white_space_tabs depth) [] count false count
        (fun fuel _ => by cases fuel <;> simp [jsonl_count_array_values_loop])
        fuel (by simpa using hfuel)
      simpa using this
  | cons value table ih =>
      intro hp count fuel hfuel
      simp only [jsonl_value_t.plain_values, Bool.and_eq_true] at hp
      rw [jsonl_rendered_values_after_cons] at hfuel ⊢
      cases fuel with
      | zero => simp at hfuel
      | succ fuel =>
          simp only [jsonl_count_array_values_loop, Bool.false_eq_true, if_false,
            beq_self_eq_true, if_true]
          have hskip := jsonl_count_array_values_loop_skip (10 :: List.replicate (depth + 1) 9)
            (jsonl_white_space_tabs (depth + 1))
            (jsonl_rendered pf value (depth + 1) ++ jsonl_rendered_values_after pf table depth)
            count true (count + (value :: table).length) ?_ fuel
            (by simp at hfuel ⊢; omega)
          · simpa using hskip
          · intro fuel2 hfuel2
            obtain ⟨c, t, hform, _, _⟩ := jsonl_rendered_head pf value hp.1 (depth + 1)
            cases fuel2 with
            | zero => rw [hform] at hfuel2; simp at hfuel2
            | succ fuel2 =>
                rw [jsonl_count_array_values_loop_value pf value hp.1 (depth + 1) _
                  (jsonl_rendered_values_after_end pf table depth),
                  ih hp.2 (count + 1) fuel2 (by
                    rw [hform] at hfuel2
                    simp at hfuel2 ⊢
                    omega)]
                simp only [List.length_cons]
                omega

theorem jsonl_count_array_values_rendered (pf : jsonl_platform_t)
    (table : List jsonl_value_t) (hp : jsonl_value_t.plain_values table = true)
    (depth : Nat) :
    jsonl_count_array_values (jsonl_rendered pf (.array table) depth) = table.length := by
  have hpass := jsonl_array_body_passes pf 91 93 (Or.inr ⟨rfl, rfl⟩) table hp depth
  have hsize : jsonl_array_text_size (jsonl_rendered pf (.array table) depth) =
      ([10] ++ jsonl_rendered_values pf table depth ++ List.replicate depth 9).length + 2 := by
    rw [jsonl_rendered_array_form]
    exact jsonl_span_closes 91 93 _ [] hpass
  have hread : ((jsonl_rendered pf (.array table) depth).take
      (([10] ++ jsonl_rendered_values pf table depth ++ List.replicate depth 9).length + 2 - 1)).drop
        1 = 10 :: (jsonl_rendered_values pf table depth ++ List.replicate depth 9) := by
    rw [jsonl_rendered_array_form]
    have : 91 :: (([10] ++ jsonl_rendered_values pf table depth ++ List.replicate depth 9) ++
        [93]) = (91 :: ([10] ++ jsonl_rendered_values pf table depth ++
          List.replicate depth 9)) ++ [93] := by simp
    rw [this, List.take_left' (by simp)]
    simp
  simp only [jsonl_count_array_values, hsize, hread]
  simp only [Nat.add_eq_zero, OfNat.ofNat_ne_zero, and_false, beq_iff_eq, if_false]
  cases table with
  | nil =>
      have := jsonl_count_array_values_loop_skip (10 :: List.replicate depth 9)
        (jsonl_white_space_tabs depth) [] 0 true 0
        (fun fuel _ => by cases fuel <;> simp [jsonl_count_array_values_loop])
        (10 :: List.replicate depth 9).length (by simp)
      simpa [jsonl_rendered_values] using this
  | cons value table =>
      simp only [jsonl_value_t.plain_values, Bool.and_eq_true] at hp
      rw [jsonl_rendered_values_cons]
      have hskip := jsonl_count_array_values_loop_skip (10 :: List.replicate (depth + 1) 9)
        (jsonl_white_space_tabs (depth + 1))
        (jsonl_rendered pf value (depth + 1) ++ jsonl_rendered_values_after pf table depth)
        0 true (value :: table).length ?_
        (10 :: (List.replicate (depth + 1) 9 ++ (jsonl_rendered pf value (depth + 1) ++
          jsonl_rendered_values_after pf table depth))).length (by simp)
      · simpa using hskip
      · intro fuel2 hfuel2
        obtain ⟨c, t, hform, _, _⟩ := jsonl_rendered_head pf value hp.1 (depth + 1)
        cases fuel2 with
        | zero => rw [hform] at hfuel2; simp at hfuel2
        | succ fuel2 =>
            rw [jsonl_count_array_values_loop_value pf value hp.1 (depth + 1) _
              (jsonl_rendered_values_after_end pf table depth),
              jsonl_count_array_values_loop_after pf depth table hp.2 1 fuel2 (by
                rw [hform] at hfuel2
                simp at hfuel2 ⊢
                omega)]
            simp only [List.length_cons]
            omega

/-! ### Counting the entries of a printed object -/

theorem jsonl_white_space_length_space (c : Nat) (t : List Nat)
    (hc : jsonl_is_white_space c = false) :
    jsonl_white_space_length (32 :: c :: t) = 1 := by
  have h32 : jsonl_is_white_space 32 = true := by decide
  simp only [jsonl_white_space_length, h32, hc, if_true, Bool.false_eq_true, if_false]

theorem jsonl_name_value_pair_size_rendered (pf : jsonl_platform_t) (name : List Nat)
    (hname : ∀ c ∈ name, jsonl_plain_character c = true) (value : jsonl_value_t)
    (hp : value.plain = true) (depth : Nat) (rest : List Nat) (hend : jsonl_number_end rest) :
    jsonl_name_value_pair_size
        (34 :: (name ++ 34 :: 32 :: 58 :: 32 :: (jsonl_rendered pf value depth ++ rest))) =
      ⟨name.length + 2 + 1 + 1 + 1 + (jsonl_rendered pf value depth).length, name.length + 2,
        value.type, name.length + 2 + 1 + 1 + 1, (jsonl_rendered pf value depth).length⟩ := by
  have hlen := jsonl_quoted_string_lenght_plain name
    (32 :: 58 :: 32 :: (jsonl_rendered pf value depth ++ rest)) hname
  have hdrop : (34 :: (name ++ 34 :: 32 :: 58 :: 32 ::
      (jsonl_rendered pf value depth ++ rest))).drop (name.length + 2) =
      32 :: 58 :: 32 :: (jsonl_rendered pf value depth ++ rest) := by
    have : 34 :: (name ++ 34 :: 32 :: 58 :: 32 :: (jsonl_rendered pf value depth ++ rest)) =
        (34 :: (name ++ [34])) ++
          (32 :: 58 :: 32 :: (jsonl_rendered pf value depth ++ rest)) := by simp
    rw [this]
    exact List.drop_left' (by simp)
  have hdecide := jsonl_decide_value_type_rendered pf value hp depth rest hend
  have htype : (value.type == JSONL_TYPE_ERROR) = false := by
    cases value <;> simp [jsonl_value_t.plain] at hp <;> rfl
  obtain ⟨c, t, hform, hc, _⟩ := jsonl_rendered_head pf value hp depth
  have hcolon : jsonl_white_space_length
      (32 :: 58 :: 32 :: (jsonl_rendered pf value depth ++ rest)) = 1 :=
    jsonl_white_space_length_space 58 _ (by decide)
  have hspace : jsonl_white_space_length (32 :: (jsonl_rendered pf value depth ++ rest)) = 1 := by
    rw [hform]
    exact jsonl_white_space_length_space c _ hc
  have hempty : (jsonl_rendered pf value depth ++ rest).isEmpty = false := by
    rw [hform]
    rfl
  unfold jsonl_name_value_pair_size
  simp only [hlen, hdrop, hcolon, List.drop_succ_cons, List.drop_zero, hspace, hempty,
    hdecide, htype, bne_self_eq_false, Bool.false_eq_true, if_false]
  simp

theorem jsonl_count_object_name_value_pairs_loop_skip :
    ∀ (w : List Nat), (∀ c ∈ w, jsonl_is_white_space c = true) →
      ∀ (read : List Nat) (count : Nat) (expecting : Bool) (result : Nat),
      (∀ fuel, read.length ≤ fuel →
        jsonl_count_object_name_value_pairs_loop fuel read count expecting = result) →
      ∀ fuel, (w ++ read).length ≤ fuel →
        jsonl_count_object_name_value_pairs_loop fuel (w ++ read) count expecting =
          result := by
  intro w
  induction w with
  | nil => intro _ read count expecting result hcont fuel hfuel; exact hcont fuel hfuel
  | cons c w ih =>
      intro hw read count expecting result hcont fuel hfuel
      cases fuel with
      | zero => simp at hfuel
      | succ fuel =>
          have hc := hw c (List.mem_cons_self _ _)
          have hcomma : (c == 44) = false := by
            cases h : c == 44
            · rfl
            · rw [beq_iff_eq] at h
              subst h
              exact absurd hc (by decide)
          have hquote : (c == 34) = false := by
            cases h : c == 34
            · rfl
            · rw [beq_iff_eq] at h
              subst h
              exact absurd hc (by decide)
          have hrec := ih (fun x hx => hw x (List.mem_cons_of_mem _ hx)) read count expecting
            result hcont fuel (by simp at hfuel ⊢; omega)
          cases expecting
          · simp only [List.cons_append, jsonl_count_object_name_value_pairs_loop, hc, hcomma,
              Bool.false_eq_true, if_false, Bool.not_true]
            exact hrec
          · simp only [List.cons_append, jsonl_count_object_name_value_pairs_loop, hc, hquote,
              Bool.false_eq_true, if_false, if_true]
            exact hrec

theorem jsonl_count_object_name_value_pairs_loop_entry (pf : jsonl_platform_t)
    (name : List Nat) (hname : ∀ c ∈ name, jsonl_plain_character c = true)
    (value : jsonl_value_t) (hp : value.plain = true) (depth : Nat) (rest : List Nat)
    (hend : jsonl_number_end rest) (fuel count : Nat) :
    jsonl_count_object_name_value_pairs_loop (fuel + 1)
        (34 :: (name ++ 34 :: 32 :: 58 :: 32 :: (jsonl_rendered pf value depth ++ rest)))
        count true =
      jsonl_count_object_name_value_pairs_loop fuel rest (count + 1) false := by
  have hpair := jsonl_name_value_pair_size_rendered pf name hname value hp depth rest hend
  have hdrop : (34 :: (name ++ 34 :: 32 :: 58 :: 32 ::
      (jsonl_rendered pf value depth ++ rest))).drop
        (name.length + 2 + 1 + 1 + 1 + (jsonl_rendered pf value depth).length) = rest := by
    have : 34 :: (name ++ 34 :: 32 :: 58 :: 32 :: (jsonl_rendered pf value depth ++ rest)) =
        (34 :: (name ++ 34 :: 32 :: 58 :: 32 :: jsonl_rendered pf value depth)) ++ rest := by
      simp
    rw [this]
    exact List.drop_left' (by simp; omega)
  simp only [jsonl_count_object_name_value_pairs_loop, beq_self_eq_true, if_true, hpair, hdrop]
  simp

theorem jsonl_count_object_name_value_pairs_loop_after (pf : jsonl_platform_t) (depth : Nat) :
    ∀ (table : List (List Nat × jsonl_value_t)), jsonl_value_t.plain_entries table = true →
      ∀ (count fuel : Nat), (jsonl_rendered_entries_after pf table depth).length ≤ fuel →
        jsonl_count_object_name_value_pairs_loop fuel
          (jsonl_rendered_entries_after pf table depth) count false =
          count + table.length := by
  intro table
  induction table with
  | nil =>
      intro _ count fuel hfuel
      rw [jsonl_rendered_entries_after_nil] at hfuel ⊢
      have := jsonl_count_object_name_value_pairs_loop_skip (10 :: List.replicate depth 9)
        (jsonl_white_space_tabs depth) [] count false count
        (fun fuel _ => by cases fuel <;> simp [jsonl_count_object_name_value_pairs_loop])
        fuel (by simpa using hfuel)
      simpa using this
  | cons entry table ih =>
      obtain ⟨name, value⟩ := entry
      intro hp count fuel hfuel
      simp only [jsonl_value_t.plain_entries, Bool.and_eq_true] at hp
      obtain ⟨⟨hname, hvalue⟩, htable⟩ := hp
      have hname2 := jsonl_plain_all name hname
      rw [jsonl_rendered_entries_after_cons pf name value table depth hname2] at hfuel ⊢
      cases fuel with
      | zero => simp at hfuel
      | succ fuel =>
          simp only [jsonl_count_object_name_value_pairs_loop, Bool.false_eq_true, if_false,
            beq_self_eq_true, if_true]
          have hskip := jsonl_count_object_name_value_pairs_loop_skip
            (10 :: List.replicate (depth + 1) 9) (jsonl_white_space_tabs (depth + 1))
            (34 :: (name ++ 34 :: 32 :: 58 :: 32 :: (jsonl_rendered pf value (depth + 1) ++
              jsonl_rendered_entries_after pf table depth)))
            count true (count + ((name, value) :: table).length) ?_ fuel
            (by simp at hfuel ⊢; omega)
          · simpa using hskip
          · intro fuel2 hfuel2
            cases fuel2 with
            | zero => simp at hfuel2
            | succ fuel2 =>
                rw [jsonl_count_object_name_value_pairs_loop_entry pf name hname2 value hvalue
                  (depth + 1) _ (jsonl_rendered_entries_after_end pf table depth),
                  ih htable (count + 1) fuel2 (by
                    simp at hfuel2 ⊢
                    omega)]
                simp only [List.length_cons]
                omega

theorem jsonl_count_object_name_value_pairs_rendered (pf : jsonl_platform_t)
    (table : List (List Nat × jsonl_value_t))
    (hp : jsonl_value_t.plain_entries table = true) (depth : Nat) :
    jsonl_count_object_name_value_pairs (jsonl_rendered pf (.object table) depth) =
      table.length := by
  have hpass := jsonl_object_body_passes pf 123 125 (Or.inl ⟨rfl, rfl⟩) table hp depth
  have hsize : jsonl_object_text_size (jsonl_rendered pf (.object table) depth) =
      ([10] ++ jsonl_rendered_entries pf table depth ++ List.replicate depth 9).length + 2 := by
    rw [jsonl_rendered_object_form]
    exact jsonl_span_closes 123 125 _ [] hpass
  have hread : ((jsonl_rendered pf (.object table) depth).take
      (([10] ++ jsonl_rendered_entries pf table depth ++ List.replicate depth 9).length + 2 - 1)).drop
        1 = 10 :: (jsonl_rendered_entries pf table depth ++ List.replicate depth 9) := by
    rw [jsonl_rendered_object_form]
    have : 123 :: (([10] ++ jsonl_rendered_entries pf table depth ++ List.replicate depth 9) ++
        [125]) = (123 :: ([10] ++ jsonl_rendered_entries pf table depth ++
          List.replicate depth 9)) ++ [125] := by simp
    rw [this, List.take_left' (by simp)]
    simp
  simp only [jsonl_count_object_name_value_pairs, hsize, hread]
  simp only [Nat.add_eq_zero, OfNat.ofNat_ne_zero, and_false, beq_iff_eq, if_false]
  cases table with
  | nil =>
      have := jsonl_count_object_name_value_pairs_loop_skip (10 :: List.replicate depth 9)
        (jsonl_white_space_tabs depth) [] 0 true 0
        (fun fuel _ => by cases fuel <;> simp [jsonl_count_object_name_value_pairs_loop])
        (10 :: List.replicate depth 9).length (by simp)
      simpa [jsonl_rendered_entries] using this
  | cons entry table =>
      obtain ⟨name, value⟩ := entry
      simp only [jsonl_value_t.plain_entries, Bool.and_eq_true] at hp
      obtain ⟨⟨hname, hvalue⟩, htable⟩ := hp
      have hname2 := jsonl_plain_all name hname
      rw [jsonl_rendered_entries_cons pf name value table depth hname2]
      have hskip := jsonl_count_object_name_value_pairs_loop_skip
        (10 :: List.replicate (depth + 1) 9) (jsonl_white_space_tabs (depth + 1))
        (34 :: (name ++ 34 :: 32 :: 58 :: 32 :: (jsonl_rendered pf value (depth + 1) ++
          jsonl_rendered_entries_after pf table depth)))
        0 true ((name, value) :: table).length ?_
        (10 :: (List.replicate (depth + 1) 9 ++
          (34 :: (name ++ 34 :: 32 :: 58 :: 32 :: (jsonl_rendered pf value (depth + 1) ++
            jsonl_rendered_entries_after pf table depth))))).length (by simp)
      · simpa using hskip
      · intro fuel2 hfuel2
        cases fuel2 with
        | zero => simp at hfuel2
        | succ fuel2 =>
            rw [jsonl_count_object_name_value_pairs_loop_entry pf name hname2 value hvalue
              (depth + 1) _ (jsonl_rendered_entries_after_end pf table depth),
              jsonl_count_object_name_value_pairs_loop_after pf depth table htable 1 fuel2 (by
                simp at hfuel2 ⊢
                omega)]
            simp only [List.length_cons]
            omega

/-! ### The tree builder over a printed array -/

theorem jsonl_create_tree_from_text_array_loop_skip
    (child : List Nat → Nat → Option (Nat × Nat × Option jsonl_value_t))
    (capacity count : Nat) (tail : List Nat) (index : Nat) (hne : index ≠ count) :
    ∀ (w : List Nat), (∀ c ∈ w, jsonl_is_white_space c = true) →
      ∀ (text : List Nat) (expecting : Bool) (size : Nat) (table : List (Option jsonl_value_t))
        (result : Option (Nat × List (Option jsonl_value_t))),
      (∀ fuel, text.length ≤ fuel →
        jsonl_create_tree_from_text_array_loop child capacity count fuel text.length
          (text ++ tail) index expecting size table = result) →
      ∀ fuel, (w ++ text).length ≤ fuel →
        jsonl_create_tree_from_text_array_loop child capacity count fuel (w ++ text).length
          (w ++ text ++ tail) index expecting size table = result := by
  intro w
  induction w with
  | nil => intro _ text expecting size table result hcont fuel hfuel; exact hcont fuel hfuel
  | cons c w ih =>
      intro hw text expecting size table result hcont fuel hfuel
      cases fuel with
      | zero => simp at hfuel
      | succ fuel =>
          have hc := hw c (List.mem_cons_self _ _)
          have hcomma : (c == 44) = false := by
            cases h : c == 44
            · rfl
            · rw [beq_iff_eq] at h
              subst h
              exact absurd hc (by decide)
          have hidx : (index == count) = false := by simpa using hne
          have hrec := ih (fun x hx => hw x (List.mem_cons_of_mem _ hx)) text expecting size
            table result hcont fuel (by simp at hfuel ⊢; omega)
          cases expecting
          · simp only [List.cons_append, jsonl_create_tree_from_text_array_loop, hidx, hc,
              hcomma, Bool.false_eq_true, if_false, Bool.not_true, List.length_cons,
              Nat.add_sub_cancel]
            exact hrec
          · simp only [List.cons_append, jsonl_create_tree_from_text_array_loop, hidx, hc,
              Bool.false_eq_true, if_false, if_true, List.length_cons, Nat.add_sub_cancel]
            exact hrec

theorem jsonl_create_tree_from_text_array_loop_comma
    (child : List Nat → Nat → Option (Nat × Nat × Option jsonl_value_t))
    (capacity count : Nat) (tail : List Nat) (index : Nat) (hne : index ≠ count)
    (text : List Nat) (size : Nat) (table : List (Option jsonl_value_t)) (fuel : Nat) :
    jsonl_create_tree_from_text_array_loop child capacity count (fuel + 1)
        (44 :: text).length (44 :: text ++ tail) index false size table =
      jsonl_create_tree_from_text_array_loop child capacity count fuel text.length
        (text ++ tail) index true size table := by
  have hidx : (index == count) = false := by simpa using hne
  simp only [List.cons_append, jsonl_create_tree_from_text_array_loop, hidx,
    Bool.false_eq_true, if_false, beq_self_eq_true, if_true, List.length_cons,
    Nat.add_sub_cancel]

theorem jsonl_create_tree_from_text_array_loop_step
    (child : List Nat → Nat → Option (Nat × Nat × Option jsonl_value_t))
    (capacity count fuel remaining : Nat) (read : List Nat) (index size : Nat)
    (table : List (Option jsonl_value_t)) (c : Nat) (hne : index ≠ count)
    (hhead : read.head? = some c) (hc : jsonl_is_white_space c = false)
    (sub_value_text_size sub_value_size : Nat) (sub_value : Option jsonl_value_t)
    (hchild : child (read.take remaining) (jsonl_remaining size capacity) =
      some (sub_value_text_size, sub_value_size, sub_value))
    (hts : sub_value_text_size ≠ 0) :
    jsonl_create_tree_from_text_array_loop child capacity count (fuel + 1) remaining read
        index true size table =
      jsonl_create_tree_from_text_array_loop child capacity count fuel
        (remaining - sub_value_text_size) (read.drop sub_value_text_size) (index + 1)
        false (size + sub_value_size)
        (table ++ [if size ≤ capacity then sub_value else none]) := by
  have hidx : (index == count) = false := by simpa using hne
  have h1 : (sub_value_text_size == 0) = false := by simpa using hts
  cases read with
  | nil => simp at hhead
  | cons character after =>
      simp only [List.head?_cons, Option.some.injEq] at hhead
      subst hhead
      simp only [jsonl_create_tree_from_text_array_loop, hidx, hc, Bool.false_eq_true,
        if_false, if_true, hchild, h1]

theorem jsonl_create_tree_from_text_array_loop_value (pf : jsonl_platform_t)
    (child : List Nat → Nat → Option (Nat × Nat × Option jsonl_value_t))
    (capacity count : Nat) (tail : List Nat) (index : Nat) (hne : index ≠ count)
    (value : jsonl_value_t) (hp : value.plain = true) (depth : Nat) (rest : List Nat)
    (size : Nat) (table : List (Option jsonl_value_t)) (fuel : Nat)
    (hchild : child (jsonl_rendered pf value depth ++ rest) (jsonl_remaining size capacity) =
      some ((jsonl_rendered pf value depth).length, value.size, some value))
    (hsize : size ≤ capacity) :
    jsonl_create_tree_from_text_array_loop child capacity count (fuel + 1)
        (jsonl_rendered pf value depth ++ rest).length
        (jsonl_rendered pf value depth ++ rest ++ tail) index true size table =
      jsonl_create_tree_from_text_array_loop child capacity count fuel rest.length
        (rest ++ tail) (index + 1) false (size + value.size) (table ++ [some value]) := by
  obtain ⟨c, t, hform, hc, _⟩ := jsonl_rendered_head pf value hp depth
  have hhead : (jsonl_rendered pf value depth ++ rest ++ tail).head? = some c := by
    rw [hform]
    rfl
  have htake : (jsonl_rendered pf value depth ++ rest ++ tail).take
      (jsonl_rendered pf value depth ++ rest).length = jsonl_rendered pf value depth ++ rest :=
    List.take_left' rfl
  have hdrop : (jsonl_rendered pf value depth ++ rest ++ tail).drop
      (jsonl_rendered pf value depth).length = rest ++ tail := by
    rw [List.append_assoc]
    exact List.drop_left' rfl
  have hlen : (jsonl_rendered pf value depth).length ≠ 0 := by
    rw [hform]
    simp
  have hrem : (jsonl_rendered pf value depth ++ rest).length -
      (jsonl_rendered pf value depth).length = rest.length := by
    rw [List.length_append]
    omega
  have hstep := jsonl_create_tree_from_text_array_loop_step child capacity count fuel
    (jsonl_rendered pf value depth ++ rest).length
    (jsonl_rendered pf value depth ++ rest ++ tail) index size table c hne hhead hc
    (jsonl_rendered pf value depth).length value.size (some value) (htake.symm ▸ hchild) hlen
  rw [hstep, hdrop, hrem]
  simp only [hsize, if_true]

theorem jsonl_create_tree_from_text_array_loop_end
    (child : List Nat → Nat → Option (Nat × Nat × Option jsonl_value_t))
    (capacity count fuel remaining : Nat) (read : List Nat) (expecting : Bool) (size : Nat)
    (table : List (Option jsonl_value_t)) :
    jsonl_create_tree_from_text_array_loop child capacity count fuel remaining read count
      expecting size table = some (size, table) := by
  cases fuel <;> simp [jsonl_create_tree_from_text_array_loop]

theorem jsonl_create_tree_from_text_array_loop_after (pf : jsonl_platform_t)
    (child : List Nat → Nat → Option (Nat × Nat × Option jsonl_value_t))
    (capacity count depth : Nat) :
    ∀ (values : List jsonl_value_t), jsonl_value_t.plain_values values = true →
      (∀ v ∈ values, ∀ rest c, jsonl_number_end rest → v.size ≤ c →
        child (jsonl_rendered pf v (depth + 1) ++ rest) c =
          some ((jsonl_rendered pf v (depth + 1)).length, v.size, some v)) →
      ∀ (index size : Nat) (table : List (Option jsonl_value_t)) (fuel : Nat),
        index + values.length = count →
        size + jsonl_value_t.size_values values ≤ capacity →
        (jsonl_rendered_values_after pf values depth).length ≤ fuel →
        jsonl_create_tree_from_text_array_loop child capacity count fuel
          (jsonl_rendered_values_after pf values depth).length
          (jsonl_rendered_values_after pf values depth ++ [93]) index false size table =
          some (size + jsonl_value_t.size_values values, table ++ values.map some) := by
  intro values
  induction values with
  | nil =>
      intro _ _ index size table fuel hcount _ _
      simp only [List.length_nil, Nat.add_zero] at hcount
      subst hcount
      rw [jsonl_create_tree_from_text_array_loop_end]
      simp [jsonl_value_t.size_values]
  | cons value values ih =>
      intro hp hchild index size table fuel hcount hfit hfuel
      simp only [jsonl_value_t.plain_values, Bool.and_eq_true] at hp
      simp only [jsonl_value_t.size_values] at hfit
      simp only [List.length_cons] at hcount
      have hne : index ≠ count := by omega
      rw [jsonl_rendered_values_after_cons] at hfuel ⊢
      cases fuel with
      | zero => simp at hfuel
      | succ fuel =>
          rw [jsonl_create_tree_from_text_array_loop_comma child capacity count [93] index hne]
          have hskip := jsonl_create_tree_from_text_array_loop_skip child capacity count [93]
            index hne (10 :: List.replicate (depth + 1) 9) (jsonl_white_space_tabs (depth + 1))
            (jsonl_rendered pf value (depth + 1) ++ jsonl_rendered_values_after pf values depth)
            true size table
            (some (size + jsonl_value_t.size_values (value :: values),
              table ++ (value :: values).map some)) ?_ fuel
            (by simp at hfuel ⊢; omega)
          · simpa using hskip
          · intro fuel2 hfuel2
            obtain ⟨c, t, hform, _, _⟩ := jsonl_rendered_head pf value hp.1 (depth + 1)
            cases fuel2 with
            | zero => rw [hform] at hfuel2; simp at hfuel2
            | succ fuel2 =>
                rw [jsonl_create_tree_from_text_array_loop_value pf child capacity count [93]
                  index hne value hp.1 (depth + 1) _ size table fuel2
                  (hchild value (List.mem_cons_self _ _) _ _
                    (jsonl_rendered_values_after_end pf values depth)
                    (by unfold jsonl_remaining; omega))
                  (by omega),
                  ih hp.2 (fun v hv => hchild v (List.mem_cons_of_mem _ hv)) (index + 1)
                    (size + value.size) (table ++ [some value]) fuel2 (by omega) (by omega) (by
                      rw [hform] at hfuel2
                      simp at hfuel2 ⊢
                      omega)]
                simp [jsonl_value_t.size_values, Nat.add_assoc]

/-! ### The tree builder over a printed object -/

theorem jsonl_create_tree_from_text_object_loop_skip
    (child : List Nat → Nat → Option (Nat × Nat × Option jsonl_value_t))
    (capacity count : Nat) (tail : List Nat) (index : Nat) (hne : index ≠ count) :
    ∀ (w : List Nat), (∀ c ∈ w, jsonl_is_white_space c = true) →
      ∀ (text : List Nat) (expecting : Bool) (size : Nat)
        (table : List (Option (List Nat × jsonl_value_t)))
        (result : Option (Nat × List (Option (List Nat × jsonl_value_t)))),
      (∀ fuel, text.length ≤ fuel →
        jsonl_create_tree_from_text_object_loop child capacity count fuel text.length
          (text ++ tail) index expecting size table = result) →
      ∀ fuel, (w ++ text).length ≤ fuel →
        jsonl_create_tree_from_text_object_loop child capacity count fuel (w ++ text).length
          (w ++ text ++ tail) index expecting size table = result := by
  intro w
  induction w with
  | nil => intro _ text expecting size table result hcont fuel hfuel; exact hcont fuel hfuel
  | cons c w ih =>
      intro hw text expecting size table result hcont fuel hfuel
      cases fuel with
      | zero => simp at hfuel
      | succ fuel =>
          have hc := hw c (List.mem_cons_self _ _)
          have hcomma : (c == 44) = false := by
            cases h : c == 44
            · rfl
            · rw [beq_iff_eq] at h
              subst h
              exact absurd hc (by decide)
          have hquote : (c == 34) = false := by
            cases h : c == 34
            · rfl
            · rw [beq_iff_eq] at h
              subst h
              exact absurd hc (by decide)
          have hidx : (index == count) = false := by simpa using hne
          have hrec := ih (fun x hx => hw x (List.mem_cons_of_mem _ hx)) text expecting size
            table result hcont fuel (by simp at hfuel ⊢; omega)
          cases expecting
          · simp only [List.cons_append, jsonl_create_tree_from_text_object_loop, hidx, hc,
              hcomma, Bool.false_eq_true, if_false, Bool.not_true, List.length_cons,
              Nat.add_sub_cancel]
            exact hrec
          · simp only [List.cons_append, jsonl_create_tree_from_text_object_loop, hidx, hc,
              hquote, Bool.false_eq_true, if_false, if_true, List.length_cons,
              Nat.add_sub_cancel]
            exact hrec

theorem jsonl_create_tree_from_text_object_loop_comma
    (child : List Nat → Nat → Option (Nat × Nat × Option jsonl_value_t))
    (capacity count : Nat) (tail : List Nat) (index : Nat) (hne : index ≠ count)
    (text : List Nat) (size : Nat) (table : List (Option (List Nat × jsonl_value_t)))
    (fuel : Nat) :
    jsonl_create_tree_from_text_object_loop child capacity count (fuel + 1)
        (44 :: text).length (44 :: text ++ tail) index false size table =
      jsonl_create_tree_from_text_object_loop child capacity count fuel text.length
        (text ++ tail) index true size table := by
  have hidx : (index == count) = false := by simpa using hne
  simp only [List.cons_append, jsonl_create_tree_from_text_object_loop, hidx,
    Bool.false_eq_true, if_false, beq_self_eq_true, if_true, List.length_cons,
    Nat.add_sub_cancel]

theorem jsonl_create_tree_from_text_object_loop_step
    (child : List Nat → Nat → Option (Nat × Nat × Option jsonl_value_t))
    (capacity count fuel remaining : Nat) (read : List Nat) (index size : Nat)
    (table : List (Option (List Nat × jsonl_value_t))) (hne : index ≠ count)
    (after : List Nat) (hread : read = 34 :: after)
    (pair : jsonl_name_value_pair_t)
    (hpair : jsonl_name_value_pair_size (read.take remaining) = pair)
    (hps : pair.size ≠ 0) (decoded string_length : Nat) (name : List Nat)
    (hdecode : jsonl_decode_quoted_string (read.take pair.name_size)
      (jsonl_remaining size capacity) = some (decoded, string_length, name))
    (hd : decoded ≠ 0) (value_text_lenght sub_value_size : Nat)
    (sub_value : Option jsonl_value_t)
    (hchild : child ((read.drop pair.value_offset).take pair.value_size)
      (jsonl_remaining (size + jsonl_round_size (string_length + 1)) capacity) =
      some (value_text_lenght, sub_value_size, sub_value))
    (hv : value_text_lenght ≠ 0) :
    jsonl_create_tree_from_text_object_loop child capacity count (fuel + 1) remaining read
        index true size table =
      jsonl_create_tree_from_text_object_loop child capacity count fuel
        (remaining - pair.size) (read.drop pair.size) (index + 1) false
        (size + jsonl_round_size (string_length + 1) + sub_value_size)
        (table ++ [if size + jsonl_round_size (string_length + 1) ≤ capacity then
          sub_value.map (fun v => (name, v)) else none]) := by
  have hidx : (index == count) = false := by simpa using hne
  have h1 : (pair.size == 0) = false := by simpa using hps
  have h2 : (decoded == 0) = false := by simpa using hd
  have h3 : (value_text_lenght == 0) = false := by simpa using hv
  subst hread
  simp only [jsonl_create_tree_from_text_object_loop, hidx, Bool.false_eq_true, if_false,
    beq_self_eq_true, if_true, hpair, h1, hdecode, h2, hchild, h3]

theorem jsonl_create_tree_from_text_object_loop_entry (pf : jsonl_platform_t)
    (child : List Nat → Nat → Option (Nat × Nat × Option jsonl_value_t))
    (capacity count : Nat) (tail : List Nat) (index : Nat) (hne : index ≠ count)
    (name : List Nat) (hname : ∀ c ∈ name, jsonl_plain_character c = true)
    (value : jsonl_value_t) (hp : value.plain = true) (depth : Nat) (rest : List Nat)
    (hend : jsonl_number_end rest)
    (size : Nat) (table : List (Option (List Nat × jsonl_value_t))) (fuel : Nat)
    (hchild : child (jsonl_rendered pf value depth)
      (jsonl_remaining (size + jsonl_round_size (name.length + 1)) capacity) =
      some ((jsonl_rendered pf value depth).length, value.size, some value))
    (hsize : size + jsonl_round_size (name.length + 1) ≤ capacity) :
    jsonl_create_tree_from_text_object_loop child capacity count (fuel + 1)
        (34 :: (name ++ 34 :: 32 :: 58 :: 32 :: (jsonl_rendered pf value depth ++ rest))).length
        (34 :: (name ++ 34 :: 32 :: 58 :: 32 :: (jsonl_rendered pf value depth ++ rest)) ++ tail)
        index true size table =
      jsonl_create_tree_from_text_object_loop child capacity count fuel rest.length
        (rest ++ tail) (index + 1) false
        (size + jsonl_round_size (name.length + 1) + value.size)
        (table ++ [some (name, value)]) := by
  obtain ⟨c, t, hform, _, _⟩ := jsonl_rendered_head pf value hp depth
  have htake : (34 :: (name ++ 34 :: 32 :: 58 :: 32 :: (jsonl_rendered pf value depth ++ rest)) ++
      tail).take
      (34 :: (name ++ 34 :: 32 :: 58 :: 32 :: (jsonl_rendered pf value depth ++ rest))).length =
      34 :: (name ++ 34 :: 32 :: 58 :: 32 :: (jsonl_rendered pf value depth ++ rest)) :=
    List.take_left' rfl
  have hpair := jsonl_name_value_pair_size_rendered pf name hname value hp depth rest hend
  have hnametext : (34 :: (name ++ 34 :: 32 :: 58 :: 32 ::
      (jsonl_rendered pf value depth ++ rest)) ++ tail).take (name.length + 2) =
      34 :: (name ++ [34]) := by
    have : 34 :: (name ++ 34 :: 32 :: 58 :: 32 :: (jsonl_rendered pf value depth ++ rest)) ++
        tail = (34 :: (name ++ [34])) ++
          (32 :: 58 :: 32 :: (jsonl_rendered pf value depth ++ rest) ++ tail) := by simp
    rw [this]
    exact List.take_left' (by simp)
  have hdecode := jsonl_decode_quoted_string_plain name (jsonl_remaining size capacity) hname
    (by
      have := jsonl_round_size_ge (name.length + 1)
      unfold jsonl_remaining
      omega)
  have hvaluetext : ((34 :: (name ++ 34 :: 32 :: 58 :: 32 ::
      (jsonl_rendered pf value depth ++ rest)) ++ tail).drop
        (name.length + 2 + 1 + 1 + 1)).take (jsonl_rendered pf value depth).length =
      jsonl_rendered pf value depth := by
    have : 34 :: (name ++ 34 :: 32 :: 58 :: 32 :: (jsonl_rendered pf value depth ++ rest)) ++
        tail = (34 :: (name ++ [34, 32, 58, 32])) ++
          (jsonl_rendered pf value depth ++ (rest ++ tail)) := by simp
    rw [this, List.drop_left' (by simp)]
    exact List.take_left' rfl
  have hdrop : (34 :: (name ++ 34 :: 32 :: 58 :: 32 ::
      (jsonl_rendered pf value depth ++ rest)) ++ tail).drop
        (name.length + 2 + 1 + 1 + 1 + (jsonl_rendered pf value depth).length) =
      rest ++ tail := by
    have : 34 :: (name ++ 34 :: 32 :: 58 :: 32 :: (jsonl_rendered pf value depth ++ rest)) ++
        tail = (34 :: (name ++ 34 :: 32 :: 58 :: 32 :: jsonl_rendered pf value depth)) ++
          (rest ++ tail) := by simp
    rw [this]
    exact List.drop_left' (by simp; omega)
  have hrem : (34 :: (name ++ 34 :: 32 :: 58 :: 32 ::
      (jsonl_rendered pf value depth ++ rest))).length -
        (name.length + 2 + 1 + 1 + 1 + (jsonl_rendered pf value depth).length) =
      rest.length := by
    simp
    omega
  have hlen : (jsonl_rendered pf value depth).length ≠ 0 := by
    rw [hform]
    simp
  have hstep := jsonl_create_tree_from_text_object_loop_step child capacity count fuel
    (34 :: (name ++ 34 :: 32 :: 58 :: 32 :: (jsonl_rendered pf value depth ++ rest))).length
    (34 :: (name ++ 34 :: 32 :: 58 :: 32 :: (jsonl_rendered pf value depth ++ rest)) ++ tail)
    index size table hne
    ((name ++ 34 :: 32 :: 58 :: 32 :: (jsonl_rendered pf value depth ++ rest)) ++ tail)
    (List.cons_append _ _ _)
    ⟨name.length + 2 + 1 + 1 + 1 + (jsonl_rendered pf value depth).length, name.length + 2,
      value.type, name.length + 2 + 1 + 1 + 1, (jsonl_rendered pf value depth).length⟩
    (htake.symm ▸ hpair) (by simp)
    (name.length + 2) name.length name (hnametext.symm ▸ hdecode) (by omega)
    (jsonl_rendered pf value depth).length value.size (some value)
    (hvaluetext.symm ▸ hchild) hlen
  rw [hstep]
  simp only [hdrop, hrem, hsize, if_true, Option.map_some']

theorem jsonl_create_tree_from_text_object_loop_end
    (child : List Nat → Nat → Option (Nat × Nat × Option jsonl_value_t))
    (capacity count fuel remaining : Nat) (read : List Nat) (expecting : Bool) (size : Nat)
    (table : List (Option (List Nat × jsonl_value_t))) :
    jsonl_create_tree_from_text_object_loop child capacity count fuel remaining read count
      expecting size table = some (size, table) := by
  cases fuel <;> simp [jsonl_create_tree_from_text_object_loop]

theorem jsonl_create_tree_from_text_object_loop_after (pf : jsonl_platform_t)
    (child : List Nat → Nat → Option (Nat × Nat × Option jsonl_value_t))
    (capacity count depth : Nat) :
    ∀ (entries : List (List Nat × jsonl_value_t)),
      jsonl_value_t.plain_entries entries = true →
      (∀ e ∈ entries, ∀ c, e.2.size ≤ c →
        child (jsonl_rendered pf e.2 (depth + 1)) c =
          some ((jsonl_rendered pf e.2 (depth + 1)).length, e.2.size, some e.2)) →
      ∀ (index size : Nat) (table : List (Option (List Nat × jsonl_value_t))) (fuel : Nat),
        index + entries.length = count →
        size + jsonl_value_t.size_entries entries ≤ capacity →
        (jsonl_rendered_entries_after pf entries depth).length ≤ fuel →
        jsonl_create_tree_from_text_object_loop child capacity count fuel
          (jsonl_rendered_entries_after pf entries depth).length
          (jsonl_rendered_entries_after pf entries depth ++ [125]) index false size table =
          some (size + jsonl_value_t.size_entries entries, table ++ entries.map some) := by
  intro entries
  induction entries with
  | nil =>
      intro _ _ index size table fuel hcount _ _
      simp only [List.length_nil, Nat.add_zero] at hcount
      subst hcount
      rw [jsonl_create_tree_from_text_object_loop_end]
      simp [jsonl_value_t.size_entries]
  | cons entry entries ih =>
      obtain ⟨name, value⟩ := entry
      intro hp hchild index size table fuel hcount hfit hfuel
      simp only [jsonl_value_t.plain_entries, Bool.and_eq_true] at hp
      obtain ⟨⟨hname, hvalue⟩, htable⟩ := hp
      have hname2 := jsonl_plain_all name hname
      simp only [jsonl_value_t.size_entries] at hfit
      simp only [List.length_cons] at hcount
      have hne : index ≠ count := by omega
      rw [jsonl_rendered_entries_after_cons pf name value entries depth hname2] at hfuel ⊢
      cases fuel with
      | zero => simp at hfuel
      | succ fuel =>
          rw [jsonl_create_tree_from_text_object_loop_comma child capacity count [125] index hne]
          have hskip := jsonl_create_tree_from_text_object_loop_skip child capacity count [125]
            index hne (10 :: List.replicate (depth + 1) 9) (jsonl_white_space_tabs (depth + 1))
            (34 :: (name ++ 34 :: 32 :: 58 :: 32 :: (jsonl_rendered pf value (depth + 1) ++
              jsonl_rendered_entries_after pf entries depth)))
            true size table
            (some (size + jsonl_value_t.size_entries ((name, value) :: entries),
              table ++ ((name, value) :: entries).map some)) ?_ fuel
            (by simp at hfuel ⊢; omega)
          · simpa using hskip
          · intro fuel2 hfuel2
            cases fuel2 with
            | zero => simp at hfuel2
            | succ fuel2 =>
                rw [jsonl_create_tree_from_text_object_loop_entry pf child capacity count [125]
                  index hne name hname2 value hvalue (depth + 1) _
                  (jsonl_rendered_entries_after_end pf entries depth) size table fuel2
                  (hchild (name, value) (List.mem_cons_self _ _) _
                    (by show value.size ≤ _; unfold jsonl_remaining; omega))
                  (by omega),
                  ih htable (fun e he => hchild e (List.mem_cons_of_mem _ he)) (index + 1)
                    (size + jsonl_round_size (name.length + 1) + value.size)
                    (table ++ [some (name, value)]) fuel2 (by omega) (by omega) (by
                      simp at hfuel2 ⊢
                      omega)]
                simp [jsonl_value_t.size_entries, Nat.add_assoc]

/-! ### The tree builder over a printed tree -/

theorem jsonl_create_tree_from_text_array_loop_rendered (pf : jsonl_platform_t)
    (child : List Nat → Nat → Option (Nat × Nat × Option jsonl_value_t))
    (capacity depth : Nat) (values : List jsonl_value_t)
    (hp : jsonl_value_t.plain_values values = true)
    (hchild : ∀ v ∈ values, ∀ rest c, jsonl_number_end rest → v.size ≤ c →
      child (jsonl_rendered pf v (depth + 1) ++ rest) c =
        some ((jsonl_rendered pf v (depth + 1)).length, v.size, some v))
    (size fuel : Nat) (hfit : size + jsonl_value_t.size_values values ≤ capacity)
    (hfuel : (10 :: (jsonl_rendered_values pf values depth ++ List.replicate depth 9)).length ≤
      fuel) :
    jsonl_create_tree_from_text_array_loop child capacity values.length fuel
        (10 :: (jsonl_rendered_values pf values depth ++ List.replicate depth 9)).length
        (10 :: (jsonl_rendered_values pf values depth ++ List.replicate depth 9) ++ [93])
        0 true size [] =
      some (size + jsonl_value_t.size_values values, values.map some) := by
  cases values with
  | nil =>
      rw [List.length_nil, jsonl_create_tree_from_text_array_loop_end]
      simp [jsonl_value_t.size_values]
  | cons value values =>
      simp only [jsonl_value_t.plain_values, Bool.and_eq_true] at hp
      simp only [jsonl_value_t.size_values] at hfit
      have hne : 0 ≠ (value :: values).length := by simp
      rw [jsonl_rendered_values_cons] at hfuel ⊢
      have hskip := jsonl_create_tree_from_text_array_loop_skip child capacity
        (value :: values).length [93] 0 hne (10 :: List.replicate (depth + 1) 9)
        (jsonl_white_space_tabs (depth + 1))
        (jsonl_rendered pf value (depth + 1) ++ jsonl_rendered_values_after pf values depth)
        true size []
        (some (size + jsonl_value_t.size_values (value :: values),
          (value :: values).map some)) ?_ fuel (by simpa using hfuel)
      · simpa using hskip
      · intro fuel2 hfuel2
        obtain ⟨c, t, hform, _, _⟩ := jsonl_rendered_head pf value hp.1 (depth + 1)
        cases fuel2 with
        | zero => rw [hform] at hfuel2; simp at hfuel2
        | succ fuel2 =>
            rw [jsonl_create_tree_from_text_array_loop_value pf child capacity
              (value :: values).length [93] 0 hne value hp.1 (depth + 1) _ size [] fuel2
              (hchild value (List.mem_cons_self _ _) _ _
                (jsonl_rendered_values_after_end pf values depth)
                (by unfold jsonl_remaining; omega))
              (by omega),
              jsonl_create_tree_from_text_array_loop_after pf child capacity
                (value :: values).length depth values hp.2
                (fun v hv => hchild v (List.mem_cons_of_mem _ hv)) (0 + 1)
                (size + value.size) ([] ++ [some value]) fuel2 (by simp; omega) (by omega) (by
                  rw [hform] at hfuel2
                  simp at hfuel2 ⊢
                  omega)]
            simp [jsonl_value_t.size_values, Nat.add_assoc]

theorem jsonl_create_tree_from_text_object_loop_rendered (pf : jsonl_platform_t)
    (child : List Nat → Nat → Option (Nat × Nat × Option jsonl_value_t))
    (capacity depth : Nat) (entries : List (List Nat × jsonl_value_t))
    (hp : jsonl_value_t.plain_entries entries = true)
    (hchild : ∀ e ∈ entries, ∀ c, e.2.size ≤ c →
      child (jsonl_rendered pf e.2 (depth + 1)) c =
        some ((jsonl_rendered pf e.2 (depth + 1)).length, e.2.size, some e.2))
    (size fuel : Nat) (hfit : size + jsonl_value_t.size_entries entries ≤ capacity)
    (hfuel : (10 :: (jsonl_rendered_entries pf entries depth ++ List.replicate depth 9)).length ≤
      fuel) :
    jsonl_create_tree_from_text_object_loop child capacity entries.length fuel
        (10 :: (jsonl_rendered_entries pf entries depth ++ List.replicate depth 9)).length
        (10 :: (jsonl_rendered_entries pf entries depth ++ List.replicate depth 9) ++ [125])
        0 true size [] =
      some (size + jsonl_value_t.size_entries entries, entries.map some) := by
  cases entries with
  | nil =>
      rw [List.length_nil, jsonl_create_tree_from_text_object_loop_end]
      simp [jsonl_value_t.size_entries]
  | cons entry entries =>
      obtain ⟨name, value⟩ := entry
      simp only [jsonl_value_t.plain_entries, Bool.and_eq_true] at hp
      obtain ⟨⟨hname, hvalue⟩, htable⟩ := hp
      have hname2 := jsonl_plain_all name hname
      simp only [jsonl_value_t.size_entries] at hfit
      have hne : 0 ≠ ((name, value) :: entries).length := by simp
      rw [jsonl_rendered_entries_cons pf name value entries depth hname2] at hfuel ⊢
      have hskip := jsonl_create_tree_from_text_object_loop_skip child capacity
        ((name, value) :: entries).length [125] 0 hne (10 :: List.replicate (depth + 1) 9)
        (jsonl_white_space_tabs (depth + 1))
        (34 :: (name ++ 34 :: 32 :: 58 :: 32 :: (jsonl_rendered pf value (depth + 1) ++
          jsonl_rendered_entries_after pf entries depth)))
        true size []
        (some (size + jsonl_value_t.size_entries ((name, value) :: entries),
          ((name, value) :: entries).map some)) ?_ fuel (by simpa using hfuel)
      · simpa using hskip
      · intro fuel2 hfuel2
        cases fuel2 with
        | zero => simp at hfuel2
        | succ fuel2 =>
            rw [jsonl_create_tree_from_text_object_loop_entry pf child capacity
              ((name, value) :: entries).length [125] 0 hne name hname2 value hvalue
              (depth + 1) _ (jsonl_rendered_entries_after_end pf entries depth) size [] fuel2
              (hchild (name, value) (List.mem_cons_self _ _) _
                (by show value.size ≤ _; unfold jsonl_remaining; omega))
              (by omega),
              jsonl_create_tree_from_text_object_loop_after pf child capacity
                ((name, value) :: entries).length depth entries htable
                (fun e he => hchild e (List.mem_cons_of_mem _ he)) (0 + 1)
                (size + jsonl_round_size (name.length + 1) + value.size)
                ([] ++ [some (name, value)]) fuel2 (by simp; omega) (by omega) (by
                  simp at hfuel2 ⊢
                  omega)]
            simp [jsonl_value_t.size_entries, Nat.add_assoc]

theorem jsonl_plain_of_mem_values (table : List jsonl_value_t)
    (hp : jsonl_value_t.plain_values table = true) :
    ∀ v ∈ table, v.plain = true ∧ v.size ≤ jsonl_value_t.size_values table := by
  induction table with
  | nil => intro v hv; cases hv
  | cons x table ih =>
      intro v hv
      simp only [jsonl_value_t.plain_values, Bool.and_eq_true] at hp
      simp only [jsonl_value_t.size_values]
      rcases List.mem_cons.mp hv with rfl | hv
      · exact ⟨hp.1, by omega⟩
      · obtain ⟨h1, h2⟩ := ih hp.2 v hv
        exact ⟨h1, by omega⟩

theorem jsonl_plain_of_mem_entries (table : List (List Nat × jsonl_value_t))
    (hp : jsonl_value_t.plain_entries table = true) :
    ∀ e ∈ table, e.2.plain = true ∧ e.2.size ≤ jsonl_value_t.size_entries table := by
  induction table with
  | nil => intro v hv; cases hv
  | cons x table ih =>
      obtain ⟨name, value⟩ := x
      intro e he
      simp only [jsonl_value_t.plain_entries, Bool.and_eq_true] at hp
      simp only [jsonl_value_t.size_entries]
      rcases List.mem_cons.mp he with rfl | he
      · exact ⟨hp.1.2, by show value.size ≤ _; omega⟩
      · obtain ⟨h1, h2⟩ := ih hp.2 e he
        exact ⟨h1, by omega⟩

theorem jsonl_table_length_lt (length entry rest : Nat) (hentry : 8 ≤ entry)
    (h : jsonl_round_size jsonl_sizeof_value + jsonl_round_size (length * entry) + rest ≤
      jsonl_size_max) :
    (length == jsonl_size_max) = false := by
  have h1 := jsonl_round_size_ge (length * entry)
  have h2 : length * 8 ≤ length * entry := Nat.mul_le_mul_left _ hentry
  have h3 : jsonl_round_size jsonl_sizeof_value = 40 := by decide
  have h4 : jsonl_size_max = 18446744073709551615 := by norm_num [jsonl_size_max]
  have hne : length ≠ jsonl_size_max := by omega
  simpa using hne

theorem jsonl_create_tree_from_text_rendered (pf : jsonl_platform_t) :
    ∀ (fuel : Nat) (value : jsonl_value_t), value.plain = true → value.depth < fuel →
      value.size ≤ jsonl_size_max →
      ∀ (depth : Nat) (rest : List Nat) (capacity : Nat), jsonl_number_end rest →
        value.size ≤ capacity →
        jsonl_create_tree_from_text pf fuel (jsonl_rendered pf value depth ++ rest) capacity =
          some ((jsonl_rendered pf value depth).length, value.size, some value) := by
  intro fuel
  induction fuel with
  | zero => intro value _ hd; omega
  | succ fuel ih =>
      intro value hp hd hmax depth rest capacity hend hcap
      have hdecide := jsonl_decide_value_type_rendered pf value hp depth rest hend
      have htake : (jsonl_rendered pf value depth ++ rest).take
          (jsonl_rendered pf value depth).length = jsonl_rendered pf value depth :=
        List.take_left' rfl
      rw [jsonl_create_tree_from_text]
      simp only [hdecide, htake]
      cases value with
      | object table =>
          simp only [jsonl_value_t.plain] at hp
          simp only [jsonl_value_t.depth] at hd
          simp only [jsonl_value_t.size] at hmax hcap
          have hcount := jsonl_count_object_name_value_pairs_rendered pf table hp depth
          have hcmax := jsonl_table_length_lt table.length jsonl_sizeof_object_entry _
            (by decide) hmax
          have hchild : ∀ e ∈ table, ∀ c, e.2.size ≤ c →
              jsonl_create_tree_from_text pf fuel (jsonl_rendered pf e.2 (depth + 1)) c =
                some ((jsonl_rendered pf e.2 (depth + 1)).length, e.2.size, some e.2) := by
            intro e he c hc
            obtain ⟨h1, h2⟩ := jsonl_plain_of_mem_entries table hp e he
            have h3 := jsonl_depth_of_mem_entries table e he
            have := ih e.2 h1 (by omega) (by omega) (depth + 1) [] c (Or.inl rfl) hc
            rwa [List.append_nil] at this
          have hform : jsonl_rendered pf (.object table) depth =
              123 :: (10 :: (jsonl_rendered_entries pf table depth ++ List.replicate depth 9) ++
                [125]) := by
            simp [jsonl_rendered]
          have hlen2 : (jsonl_rendered pf (.object table) depth).length - 2 =
              (10 :: (jsonl_rendered_entries pf table depth ++ List.replicate depth 9)).length := by
            rw [hform]
            simp
            omega
          have hdrop1 : (jsonl_rendered pf (.object table) depth).drop 1 =
              10 :: (jsonl_rendered_entries pf table depth ++ List.replicate depth 9) ++
                [125] := by
            rw [hform]
            rfl
          have hloop := jsonl_create_tree_from_text_object_loop_rendered pf
            (jsonl_create_tree_from_text pf fuel) capacity depth table hp hchild
            (jsonl_round_size jsonl_sizeof_value +
              jsonl_round_size (table.length * jsonl_sizeof_object_entry))
            (jsonl_rendered pf (.object table) depth).length hcap
            (by rw [hform]; simp; omega)
          have hsize : (jsonl_round_size jsonl_sizeof_value +
              jsonl_round_size (table.length * jsonl_sizeof_object_entry) +
              jsonl_value_t.size_entries table == 0) = false := by
            have : jsonl_round_size jsonl_sizeof_value = 40 := by decide
            simp only [beq_eq_false_iff_ne, ne_eq]
            omega
          have hfit : jsonl_round_size jsonl_sizeof_value +
              jsonl_round_size (table.length * jsonl_sizeof_object_entry) ≤ capacity := by
            omega
          simp only [jsonl_value_t.type, beq_self_eq_true, if_true, hcount, hcmax,
            Bool.false_eq_true, if_false, hlen2, hdrop1, hloop, hsize, hfit, hcap, and_self,
            jsonl_collect_map_some, Option.map_some', jsonl_value_t.size]
      | array table =>
          simp only [jsonl_value_t.plain] at hp
          simp only [jsonl_value_t.depth] at hd
          simp only [jsonl_value_t.size] at hmax hcap
          have hcount := jsonl_count_array_values_rendered pf table hp depth
          have hcmax := jsonl_table_length_lt table.length jsonl_sizeof_pointer _
            (by decide) hmax
          have hchild : ∀ v ∈ table, ∀ rest c, jsonl_number_end rest → v.size ≤ c →
              jsonl_create_tree_from_text pf fuel (jsonl_rendered pf v (depth + 1) ++ rest) c =
                some ((jsonl_rendered pf v (depth + 1)).length, v.size, some v) := by
            intro v hv rest c hend2 hc
            obtain ⟨h1, h2⟩ := jsonl_plain_of_mem_values table hp v hv
            have h3 := jsonl_depth_of_mem_values table v hv
            exact ih v h1 (by omega) (by omega) (depth + 1) rest c hend2 hc
          have hform : jsonl_rendered pf (.array table) depth =
              91 :: (10 :: (jsonl_rendered_values pf table depth ++ List.replicate depth 9) ++
                [93]) := by
            simp [jsonl_rendered]
          have hlen2 : (jsonl_rendered pf (.array table) depth).length - 2 =
              (10 :: (jsonl_rendered_values pf table depth ++ List.replicate depth 9)).length := by
            rw [hform]
            simp
            omega
          have hdrop1 : (jsonl_rendered pf (.array table) depth).drop 1 =
              10 :: (jsonl_rendered_values pf table depth ++ List.replicate depth 9) ++
                [93] := by
            rw [hform]
            rfl
          have hloop := jsonl_create_tree_from_text_array_loop_rendered pf
            (jsonl_create_tree_from_text pf fuel) capacity depth table hp hchild
            (jsonl_round_size jsonl_sizeof_value +
              jsonl_round_size (table.length * jsonl_sizeof_pointer))
            (jsonl_rendered pf (.array table) depth).length hcap
            (by rw [hform]; simp; omega)
          have hsize : (jsonl_round_size jsonl_sizeof_value +
              jsonl_round_size (table.length * jsonl_sizeof_pointer) +
              jsonl_value_t.size_values table == 0) = false := by
            have : jsonl_round_size jsonl_sizeof_value = 40 := by decide
            simp only [beq_eq_false_iff_ne, ne_eq]
            omega
          have htype : (JSONL_TYPE_ARRAY == JSONL_TYPE_OBJECT) = false := by decide
          simp only [jsonl_value_t.type, htype, beq_self_eq_true, if_true, hcount, hcmax,
            Bool.false_eq_true, if_false, hlen2, hdrop1, hloop, hsize, hcap,
            jsonl_collect_map_some, Option.map_some', jsonl_value_t.size]
      | string string =>
          simp only [jsonl_value_t.plain] at hp
          simp only [jsonl_value_t.size] at hcap
          have hplain := jsonl_plain_all string hp
          have hform : jsonl_rendered pf (.string string) depth = 34 :: (string ++ [34]) := by
            simp only [jsonl_rendered]
            exact jsonl_print_string_value_plain pf string hplain
          have hdecode := jsonl_decode_quoted_string_plain string
            (jsonl_remaining (jsonl_round_size jsonl_sizeof_value) capacity) hplain (by
              have := jsonl_round_size_ge (string.length + 1)
              unfold jsonl_remaining
              omega)
          have h1 : (JSONL_TYPE_STRING == JSONL_TYPE_OBJECT) = false := by decide
          have h2 : (JSONL_TYPE_STRING == JSONL_TYPE_ARRAY) = false := by decide
          have h3 : (string.length + 2 == 0) = false := by simp
          rw [hform]
          simp only [jsonl_value_t.type, h1, h2, beq_self_eq_true, if_true, Bool.false_eq_true,
            if_false, hdecode, h3, jsonl_written_decide, hcap, jsonl_value_t.size,
            List.length_cons, List.length_append, List.length_nil]
      | number number => simp [jsonl_value_t.plain] at hp
      | boolean value =>
          simp only [jsonl_value_t.size] at hcap
          have h1 : (JSONL_TYPE_BOOLEAN == JSONL_TYPE_OBJECT) = false := by decide
          have h2 : (JSONL_TYPE_BOOLEAN == JSONL_TYPE_ARRAY) = false := by decide
          have h3 : (JSONL_TYPE_BOOLEAN == JSONL_TYPE_STRING) = false := by decide
          have h4 : (JSONL_TYPE_BOOLEAN == JSONL_TYPE_NUMBER) = false := by decide
          cases value
          · have hb : jsonl_decode_boolean (jsonl_rendered pf (.boolean false) depth) =
                (5, false) := by
              simp only [jsonl_rendered]
              decide
            simp only [jsonl_value_t.type, h1, h2, h3, h4, beq_self_eq_true, if_true,
              Bool.false_eq_true, if_false, hb, jsonl_written_decide, hcap, jsonl_value_t.size]
            rfl
          · have hb : jsonl_decode_boolean (jsonl_rendered pf (.boolean true) depth) =
                (4, true) := by
              simp only [jsonl_rendered]
              decide
            simp only [jsonl_value_t.type, h1, h2, h3, h4, beq_self_eq_true, if_true,
              Bool.false_eq_true, if_false, hb, jsonl_written_decide, hcap, jsonl_value_t.size]
            rfl
      | null =>
          simp only [jsonl_value_t.size] at hcap
          have h1 : (JSONL_TYPE_NULL == JSONL_TYPE_OBJECT) = false := by decide
          have h2 : (JSONL_TYPE_NULL == JSONL_TYPE_ARRAY) = false := by decide
          have h3 : (JSONL_TYPE_NULL == JSONL_TYPE_STRING) = false := by decide
          have h4 : (JSONL_TYPE_NULL == JSONL_TYPE_NUMBER) = false := by decide
          have h5 : (JSONL_TYPE_NULL == JSONL_TYPE_BOOLEAN) = false := by decide
          simp only [jsonl_value_t.type, h1, h2, h3, h4, h5, beq_self_eq_true, if_true,
            Bool.false_eq_true, if_false, jsonl_written_decide, hcap, jsonl_value_t.size]
      | unknown t => simp [jsonl_value_t.plain] at hp

mutual
theorem jsonl_plain_valid (value : jsonl_value_t) (hp : value.plain = true) :
    value.valid = true := by
  cases value with
  | object table =>
      simp only [jsonl_value_t.plain] at hp
      simp only [jsonl_value_t.valid]
      exact jsonl_plain_valid_entries table hp
  | array table =>
      simp only [jsonl_value_t.plain] at hp
      simp only [jsonl_value_t.valid]
      exact jsonl_plain_valid_values table hp
  | string string => rfl
  | number number => rfl
  | boolean value => rfl
  | null => rfl
  | unknown t => simp [jsonl_value_t.plain] at hp
theorem jsonl_plain_valid_entries (table : List (List Nat × jsonl_value_t))
    (hp : jsonl_value_t.plain_entries table = true) :
    jsonl_value_t.valid_entries table = true := by
  cases table with
  | nil => rfl
  | cons entry table =>
      obtain ⟨name, value⟩ := entry
      simp only [jsonl_value_t.plain_entries, Bool.and_eq_true] at hp
      simp only [jsonl_value_t.valid_entries, Bool.and_eq_true]
      exact ⟨jsonl_plain_valid value hp.1.2, jsonl_plain_valid_entries table hp.2⟩
theorem jsonl_plain_valid_values (table : List jsonl_value_t)
    (hp : jsonl_value_t.plain_values table = true) :
    jsonl_value_t.valid_values table = true := by
  cases table with
  | nil => rfl
  | cons value table =>
      simp only [jsonl_value_t.plain_values, Bool.and_eq_true] at hp
      simp only [jsonl_value_t.valid_values, Bool.and_eq_true]
      exact ⟨jsonl_plain_valid value hp.1, jsonl_plain_valid_values table hp.2⟩
end

/-- Parsing the rendering of a plain tree gives the tree back, whatever the capacity. -/
theorem jsonl_parse_text_rendered (pf : jsonl_platform_t) (value : jsonl_value_t)
    (hp : value.plain = true) (hmax : value.size ≤ jsonl_size_max) :
    jsonl_uniform (jsonl_parse_text pf (jsonl_rendered pf value 0)) value.size value := by
  have hsize := jsonl_size_ge_header value
  obtain ⟨c, t, hform, hc, _⟩ := jsonl_rendered_head pf value hp 0
  have hws : jsonl_white_space_length (jsonl_rendered pf value 0) = 0 := by
    rw [hform]
    simp only [jsonl_white_space_length, hc, Bool.false_eq_true, if_false]
  have hlen : (jsonl_rendered pf value 0).length ≠ 0 := by
    rw [hform]
    simp
  have hdirect : ∀ capacity, value.size ≤ capacity →
      jsonl_create_tree_from_text pf
        (max (value.depth + 1) ((jsonl_rendered pf value 0).length + 1))
        (jsonl_rendered pf value 0) capacity =
        some ((jsonl_rendered pf value 0).length, value.size, some value) := by
    intro capacity hcap
    have := jsonl_create_tree_from_text_rendered pf (value.depth + 1) value hp (by omega) hmax
      0 [] capacity (Or.inl rfl) hcap
    rw [List.append_nil] at this
    exact jsonl_create_tree_from_text_fuel_le pf _ _ _ _ _ (le_max_left _ _) this
  have hall : ∀ capacity,
      jsonl_create_tree_from_text pf ((jsonl_rendered pf value 0).length + 1)
        (jsonl_rendered pf value 0) capacity =
        some ((jsonl_rendered pf value 0).length, value.size,
          if value.size ≤ capacity then some value else none) := by
    rcases jsonl_create_tree_from_text_parses pf ((jsonl_rendered pf value 0).length + 1)
        (jsonl_rendered pf value 0) (by omega) with hfail | ⟨_, tree_size, tree, _, hcall⟩
    · have h1 := jsonl_create_tree_from_text_fuel_le pf _
        (max (value.depth + 1) ((jsonl_rendered pf value 0).length + 1)) _ _ _
        (le_max_right _ _) (hfail value.size)
      rw [hdirect value.size (le_refl _)] at h1
      simp only [Option.some.injEq, Prod.mk.injEq] at h1
      exact absurd h1.1 hlen
    · have h1 := jsonl_create_tree_from_text_fuel_le pf _
        (max (value.depth + 1) ((jsonl_rendered pf value 0).length + 1)) _ _ _
        (le_max_right _ _) (hcall (max value.size tree_size))
      rw [hdirect _ (le_max_left _ _), if_pos (le_max_right _ _)] at h1
      simp only [Option.some.injEq, Prod.mk.injEq] at h1
      obtain ⟨h2, h3, h4⟩ := h1
      intro capacity
      rw [hcall capacity, ← h2, ← h3, ← h4]
  refine ⟨by omega, fun capacity => ?_⟩
  unfold jsonl_parse_text
  simp only [hws, List.drop_zero, hall capacity]
  simp [hlen]

/-! ### Paths that resolve in a tree that fits in the address space -/

theorem jsonl_size_of_get_value_child (name : List Nat) (child : jsonl_value_t) :
    ∀ table : List (List Nat × jsonl_value_t),
      jsonl_get_value_child name table = some child →
      child.size ≤ jsonl_value_t.size_entries table := by
  intro table
  induction table with
  | nil => intro h; simp [jsonl_get_value_child] at h
  | cons entry table ih =>
      obtain ⟨entry_name, value⟩ := entry
      intro h
      simp only [jsonl_get_value_child] at h
      simp only [jsonl_value_t.size_entries]
      split at h
      · simp only [Option.some.injEq] at h
        subst h
        omega
      · have := ih h
        omega

theorem jsonl_size_of_element (index : Nat) (child : jsonl_value_t) :
    ∀ table : List jsonl_value_t, table[index]? = some child →
      child.size ≤ jsonl_value_t.size_values table ∧ index < table.length := by
  intro table h
  have hlt : index < table.length := by
    rcases Nat.lt_or_ge index table.length with hlt | hge
    · exact hlt
    · rw [List.getElem?_eq_none hge] at h
      cases h
  refine ⟨?_, hlt⟩
  have hmem : child ∈ table := List.getElem?_mem h
  clear h hlt
  induction table with
  | nil => cases hmem
  | cons value table ih =>
      simp only [jsonl_value_t.size_values]
      rcases List.mem_cons.mp hmem with rfl | hm
      · omega
      · have := ih hm
        omega

/-- A path that resolves in a tree that fits in the address space holds no index
`(size_t)~0`, the append sentinel. -/
theorem jsonl_get_value_walk_sentinel_free :
    ∀ (path : List jsonl_path_component_t) (node found : jsonl_value_t),
      node.size ≤ jsonl_size_max → jsonl_get_value_walk node path = some found →
      ∀ c ∈ path, c ≠ .index jsonl_size_max := by
  intro path
  induction path with
  | nil => intro node found _ _ c hc; cases hc
  | cons component path ih =>
      intro node found hfit hwalk c hc
      have hmax : jsonl_size_max = 18446744073709551615 := by norm_num [jsonl_size_max]
      simp only [jsonl_get_value_walk] at hwalk
      split at hwalk
      · split at hwalk
        · rename_i table name hcond
          split at hwalk
          · cases hwalk
          · rename_i child hchild
            have hsize := jsonl_size_of_get_value_child name child table hchild
            simp only [jsonl_value_t.size] at hfit
            rcases List.mem_cons.mp hc with rfl | hm
            · intro h; cases h
            · exact ih child found (by omega) hwalk c hm
        · rename_i table index hcond
          split at hwalk
          · cases hwalk
          · rename_i child hchild
            obtain ⟨hsize, hlt⟩ := jsonl_size_of_element index child table hchild
            simp only [jsonl_value_t.size] at hfit
            have h1 := jsonl_round_size_ge (table.length * jsonl_sizeof_pointer)
            have h2 : jsonl_sizeof_pointer = 8 := rfl
            rcases List.mem_cons.mp hc with rfl | hm
            · intro h
              simp only [jsonl_path_component_t.index.injEq] at h
              rw [h2] at h1 hfit
              omega
            · exact ih child found (by omega) hwalk c hm
        · cases hwalk
      · cases hwalk

/-! ### The member `size` of the nodes of a parsed tree -/

theorem jsonl_sized_value_values_eq (table : List jsonl_sized_value_t) :
    jsonl_sized_value_t.value_values table = table.map (fun v => v.value) := by
  induction table with
  | nil => rfl
  | cons v table ih => simp [jsonl_sized_value_t.value_values, ih]

theorem jsonl_sized_value_entries_eq (table : List (List Nat × jsonl_sized_value_t)) :
    jsonl_sized_value_t.value_entries table = table.map (fun e => (e.1, e.2.value)) := by
  induction table with
  | nil => rfl
  | cons e table ih =>
      obtain ⟨name, v⟩ := e
      simp [jsonl_sized_value_t.value_entries, ih]

theorem jsonl_collect_map {α β : Type} (f : α → β) (table : List (Option α)) :
    jsonl_collect (table.map (Option.map f)) = (jsonl_collect table).map (List.map f) := by
  induction table with
  | nil => rfl
  | cons first table ih =>
      cases first with
      | none => rfl
      | some a =>
          simp only [List.map_cons, Option.map_some', jsonl_collect, ih]
          cases jsonl_collect table <;> rfl

/-- The array loop over nodes with their member `size` takes the steps of the array loop
of the tree builder: without the members its result is the result of that loop. -/
theorem jsonl_create_sized_tree_from_text_array_loop_value
    (sized : List Nat → Nat → Option (Nat × Nat × Option jsonl_sized_value_t))
    (child : List Nat → Nat → Option (Nat × Nat × Option jsonl_value_t))
    (hchild : ∀ text capacity,
      child text capacity =
        (sized text capacity).map (fun r => (r.1, r.2.1, r.2.2.map (fun v => v.value))))
    (value_buffer_size sub_value_count : Nat) :
    ∀ (fuel remaining : Nat) (read : List Nat) (sub_object_index : Nat) (expecting : Bool)
      (value_size : Nat) (table : List (Option jsonl_sized_value_t)),
      jsonl_create_tree_from_text_array_loop child value_buffer_size sub_value_count fuel
          remaining read sub_object_index expecting value_size
          (table.map (Option.map (fun v => v.value))) =
        (jsonl_create_sized_tree_from_text_array_loop sized value_buffer_size sub_value_count
          fuel remaining read sub_object_index expecting value_size table).map
          (fun r => (r.1, r.2.map (Option.map (fun v => v.value)))) := by
  intro fuel
  induction fuel with
  | zero =>
      intro remaining read sub_object_index expecting value_size table
      simp only [jsonl_create_tree_from_text_array_loop,
        jsonl_create_sized_tree_from_text_array_loop]
      split_ifs <;> rfl
  | succ fuel ih =>
      intro remaining read sub_object_index expecting value_size table
      simp only [jsonl_create_tree_from_text_array_loop,
        jsonl_create_sized_tree_from_text_array_loop]
      by_cases hdone : (sub_object_index == sub_value_count) = true
      · simp only [hdone, if_true, Option.map_some']
      · simp only [hdone, if_false, Bool.false_eq_true]
        cases read with
        | nil => rfl
        | cons character after =>
            simp only []
            cases expecting
            · simp only [Bool.false_eq_true, if_false]
              split_ifs
              · exact ih _ _ _ _ _ _
              · rfl
              · exact ih _ _ _ _ _ _
            · simp only [if_true]
              by_cases hws : jsonl_is_white_space character = true
              · simp only [hws, if_true]
                exact ih _ _ _ _ _ _
              · simp only [hws, if_false, Bool.false_eq_true]
                rw [hchild]
                cases hcall : sized ((character :: after).take remaining)
                    (jsonl_remaining value_size value_buffer_size) with
                | none => rfl
                | some r =>
                    obtain ⟨sub_value_text_size, sub_value_size, sub_value⟩ := r
                    simp only [Option.map_some']
                    by_cases hzero : (sub_value_text_size == 0) = true
                    · simp only [hzero, if_true, Option.map_some', List.map_nil]
                    · simp only [hzero, if_false, Bool.false_eq_true]
                      rw [← ih]
                      congr 1
                      rw [List.map_append]
                      congr 1
                      split_ifs <;> rfl

/-- The object loop over nodes with their member `size` takes the steps of the object
loop of the tree builder: without the members its result is the result of that loop. -/
theorem jsonl_create_sized_tree_from_text_object_loop_value
    (sized : List Nat → Nat → Option (Nat × Nat × Option jsonl_sized_value_t))
    (child : List Nat → Nat → Option (Nat × Nat × Option jsonl_value_t))
    (hchild : ∀ text capacity,
      child text capacity =
        (sized text capacity).map (fun r => (r.1, r.2.1, r.2.2.map (fun v => v.value))))
    (value_buffer_size sub_value_count : Nat) :
    ∀ (fuel remaining : Nat) (read : List Nat) (sub_object_index : Nat) (expecting : Bool)
      (value_size : Nat) (table : List (Option (List Nat × jsonl_sized_value_t))),
      jsonl_create_tree_from_text_object_loop child value_buffer_size sub_value_count fuel
          remaining read sub_object_index expecting value_size
          (table.map (Option.map (fun e => (e.1, e.2.value)))) =
        (jsonl_create_sized_tree_from_text_object_loop sized value_buffer_size
          sub_value_count fuel remaining read sub_object_index expecting value_size
          table).map (fun r => (r.1, r.2.map (Option.map (fun e => (e.1, e.2.value))))) := by
  intro fuel
  induction fuel with
  | zero =>
      intro remaining read sub_object_index expecting value_size table
      simp only [jsonl_create_tree_from_text_object_loop,
        jsonl_create_sized_tree_from_text_object_loop]
      split_ifs <;> rfl
  | succ fuel ih =>
      intro remaining read sub_object_index expecting value_size table
      simp only [jsonl_create_tree_from_text_object_loop,
        jsonl_create_sized_tree_from_text_object_loop]
      by_cases hdone : (sub_object_index == sub_value_count) = true
      · simp only [hdone, if_true, Option.map_some']
      · simp only [hdone, if_false, Bool.false_eq_true]
        cases read with
        | nil => rfl
        | cons character after =>
            simp only []
            cases expecting
            · simp only [Bool.false_eq_true, if_false]
              split_ifs
              · exact ih _ _ _ _ _ _
              · rfl
              · exact ih _ _ _ _ _ _
            · simp only [if_true]
              by_cases hquote : (character == 34) = true
              · simp only [hquote, if_true]
                by_cases hpair : ((jsonl_name_value_pair_size
                    ((character :: after).take remaining)).size == 0) = true
                · simp only [hpair, if_true, Option.map_some', List.map_nil]
                · simp only [hpair, if_false, Bool.false_eq_true]
                  cases hname : jsonl_decode_quoted_string
                      ((character :: after).take
                        (jsonl_name_value_pair_size
                          ((character :: after).take remaining)).name_size)
                      (jsonl_remaining value_size value_buffer_size) with
                  | none => rfl
                  | some decoded =>
                      obtain ⟨decoded, string_length, name⟩ := decoded
                      simp only []
                      by_cases hdecoded : (decoded == 0) = true
                      · simp only [hdecoded, if_true, Option.map_some', List.map_nil]
                      · simp only [hdecoded, if_false, Bool.false_eq_true]
                        rw [hchild]
                        cases hcall : sized
                            (((character :: after).drop
                              (jsonl_name_value_pair_size
                                ((character :: after).take remaining)).value_offset).take
                              (jsonl_name_value_pair_size
                                ((character :: after).take remaining)).value_size)
                            (jsonl_remaining
                              (value_size + jsonl_round_size (string_length + 1))
                              value_buffer_size) with
                        | none => rfl
                        | some r =>
                            obtain ⟨value_text_lenght, sub_value_size, sub_value⟩ := r
                            simp only [Option.map_some']
                            by_cases hzero : (value_text_lenght == 0) = true
                            · simp only [hzero, if_true, Option.map_some', List.map_nil]
                            · simp only [hzero, if_false, Bool.false_eq_true]
                              rw [← ih]
                              congr 1
                              rw [List.map_append]
                              congr 1
                              split_ifs
                              · cases sub_value <;> rfl
                              · rfl
              · simp only [hquote, if_false, Bool.false_eq_true]
                split_ifs
                · exact ih _ _ _ _ _ _
                · rfl

/-- The tree builder over nodes with their member `size` is the tree builder: it reports
the same text length and the same size, and the node it writes is the tree of the
builder with the member `size` in every node. -/
theorem jsonl_create_sized_tree_from_text_value (pf : jsonl_platform_t) :
    ∀ (fuel : Nat) (json_text : List Nat) (value_buffer_size : Nat),
      jsonl_create_tree_from_text pf fuel json_text value_buffer_size =
        (jsonl_create_sized_tree_from_text pf fuel json_text value_buffer_size).map
          (fun r => (r.1, r.2.1, r.2.2.map (fun v => v.value))) := by
  intro fuel
  induction fuel with
  | zero => intro json_text value_buffer_size; rfl
  | succ fuel ih =>
      intro json_text value_buffer_size
      simp only [jsonl_create_tree_from_text, jsonl_create_sized_tree_from_text]
      by_cases hobject : ((jsonl_decide_value_type json_text).1 == JSONL_TYPE_OBJECT) = true
      · simp only [hobject, if_true]
        by_cases hmax : (jsonl_count_object_name_value_pairs
            (json_text.take (jsonl_decide_value_type json_text).2) == jsonl_size_max) = true
        · simp only [hmax, if_true, Option.map_some', Option.map_none']
        · simp only [hmax, if_false, Bool.false_eq_true]
          have hloop := jsonl_create_sized_tree_from_text_object_loop_value
            (jsonl_create_sized_tree_from_text pf fuel) (jsonl_create_tree_from_text pf fuel)
            ih value_buffer_size
            (jsonl_count_object_name_value_pairs
              (json_text.take (jsonl_decide_value_type json_text).2))
            (jsonl_decide_value_type json_text).2
            ((jsonl_decide_value_type json_text).2 - 2)
            ((json_text.take (jsonl_decide_value_type json_text).2).drop 1) 0 true
            (jsonl_round_size jsonl_sizeof_value +
              jsonl_round_size (jsonl_count_object_name_value_pairs
                (json_text.take (jsonl_decide_value_type json_text).2) *
                jsonl_sizeof_object_entry)) []
          rw [List.map_nil] at hloop
          rw [hloop]
          cases jsonl_create_sized_tree_from_text_object_loop
              (jsonl_create_sized_tree_from_text pf fuel) value_buffer_size
              (jsonl_count_object_name_value_pairs
                (json_text.take (jsonl_decide_value_type json_text).2))
              (jsonl_decide_value_type json_text).2
              ((jsonl_decide_value_type json_text).2 - 2)
              ((json_text.take (jsonl_decide_value_type json_text).2).drop 1) 0 true
              (jsonl_round_size jsonl_sizeof_value +
                jsonl_round_size (jsonl_count_object_name_value_pairs
                  (json_text.take (jsonl_decide_value_type json_text).2) *
                  jsonl_sizeof_object_entry)) [] with
          | none => rfl
          | some r =>
              obtain ⟨value_size, table⟩ := r
              simp only [Option.map_some']
              by_cases hzero : (value_size == 0) = true
              · simp only [hzero, if_true, Option.map_some', Option.map_none']
              · simp only [hzero, if_false, Bool.false_eq_true, Option.map_some']
                congr 3
                split_ifs
                · rw [jsonl_collect_map]
                  cases jsonl_collect table with
                  | none => rfl
                  | some entries =>
                      simp only [Option.map_some', jsonl_sized_value_t.value,
                        jsonl_sized_value_entries_eq]
                · rfl
      · simp only [hobject, if_false, Bool.false_eq_true]
        by_cases harray : ((jsonl_decide_value_type json_text).1 == JSONL_TYPE_ARRAY) = true
        · simp only [harray, if_true]
          by_cases hmax : (jsonl_count_array_values
              (json_text.take (jsonl_decide_value_type json_text).2) == jsonl_size_max) = true
          · simp only [hmax, if_true, Option.map_some', Option.map_none']
          · simp only [hmax, if_false, Bool.false_eq_true]
            have hloop := jsonl_create_sized_tree_from_text_array_loop_value
              (jsonl_create_sized_tree_from_text pf fuel)
              (jsonl_create_tree_from_text pf fuel) ih value_buffer_size
              (jsonl_count_array_values
                (json_text.take (jsonl_decide_value_type json_text).2))
              (jsonl_decide_value_type json_text).2
              ((jsonl_decide_value_type json_text).2 - 2)
              ((json_text.take (jsonl_decide_value_type json_text).2).drop 1) 0 true
              (jsonl_round_size jsonl_sizeof_value +
                jsonl_round_size (jsonl_count_array_values
                  (json_text.take (jsonl_decide_value_type json_text).2) *
                  jsonl_sizeof_pointer)) []
            rw [List.map_nil] at hloop
            rw [hloop]
            cases jsonl_create_sized_tree_from_text_array_loop
                (jsonl_create_sized_tree_from_text pf fuel) value_buffer_size
                (jsonl_count_array_values
                  (json_text.take (jsonl_decide_value_type json_text).2))
                (jsonl_decide_value_type json_text).2
                ((jsonl_decide_value_type json_text).2 - 2)
                ((json_text.take (jsonl_decide_value_type json_text).2).drop 1) 0 true
                (jsonl_round_size jsonl_sizeof_value +
                  jsonl_round_size (jsonl_count_array_values
                    (json_text.take (jsonl_decide_value_type json_text).2) *
                    jsonl_sizeof_pointer)) [] with
            | none => rfl
            | some r =>
                obtain ⟨value_size, table⟩ := r
                simp only [Option.map_some']
                by_cases hzero : (value_size == 0) = true
                · simp only [hzero, if_true, Option.map_some', Option.map_none']
                · simp only [hzero, if_false, Bool.false_eq_true, Option.map_some']
                  congr 3
                  split_ifs
                  · rw [jsonl_collect_map]
                    cases jsonl_collect table with
                    | none => rfl
                    | some entries =>
                        simp only [Option.map_some', jsonl_sized_value_t.value,
                          jsonl_sized_value_values_eq]
                  · rfl
        · simp only [harray, if_false, Bool.false_eq_true]
          by_cases hstring :
              ((jsonl_decide_value_type json_text).1 == JSONL_TYPE_STRING) = true
          · simp only [hstring, if_true]
            cases jsonl_decode_quoted_string
                (json_text.take (jsonl_decide_value_type json_text).2)
                (jsonl_remaining (jsonl_round_size jsonl_sizeof_value)
                  value_buffer_size) with
            | none => rfl
            | some r =>
                obtain ⟨decoded, string_length, string⟩ := r
                simp only []
                split_ifs
                · rfl
                · simp only [Option.map_some', jsonl_written]
                  congr 3
                  split_ifs <;> rfl
          · simp only [hstring, if_false, Bool.false_eq_true]
            by_cases hnumber :
                ((jsonl_decide_value_type json_text).1 == JSONL_TYPE_NUMBER) = true
            · simp only [hnumber, if_true]
              split_ifs
              · rfl
              · simp only [Option.map_some', jsonl_written]
                congr 3
                split_ifs <;> rfl
            · simp only [hnumber, if_false, Bool.false_eq_true]
              by_cases hboolean :
                  ((jsonl_decide_value_type json_text).1 == JSONL_TYPE_BOOLEAN) = true
              · simp only [hboolean, if_true]
                split_ifs
                · rfl
                · simp only [Option.map_some', jsonl_written]
                  congr 3
                  split_ifs <;> rfl
              · simp only [hboolean, if_false, Bool.false_eq_true]
                split_ifs
                · simp only [Option.map_some', jsonl_written]
                  congr 3
                  split_ifs <;> rfl
                · rfl

/-- `jsonl_parse_text` over nodes with their member `size` is `jsonl_parse_text`: it
returns the same size, and the root it writes is the tree of `jsonl_parse_text` with the
member `size` in every node. -/
theorem jsonl_parse_sized_text_value (pf : jsonl_platform_t) (json_text : List Nat)
    (value_buffer_size : Nat) :
    jsonl_parse_text pf json_text value_buffer_size =
      (jsonl_parse_sized_text pf json_text value_buffer_size).map
        (fun r => (r.1, r.2.map (fun v => v.value))) := by
  unfold jsonl_parse_text jsonl_parse_sized_text
  simp only []
  rw [jsonl_create_sized_tree_from_text_value]
  cases jsonl_create_sized_tree_from_text pf (json_text.length + 1)
      (json_text.drop (jsonl_white_space_length json_text)) value_buffer_size with
  | none => rfl
  | some r =>
      obtain ⟨text_size, tree_size, tree⟩ := r
      simp only [Option.map_some']
      split_ifs <;> rfl

/-- A property of the nodes that the recursive call writes holds for every node that the
array loop places. -/
theorem jsonl_create_sized_tree_from_text_array_loop_all
    (sized : List Nat → Nat → Option (Nat × Nat × Option jsonl_sized_value_t))
    (holds : jsonl_sized_value_t → Prop)
    (hsized : ∀ text capacity text_size size node,
      sized text capacity = some (text_size, size, some node) → holds node)
    (value_buffer_size sub_value_count : Nat) :
    ∀ (fuel remaining : Nat) (read : List Nat) (sub_object_index : Nat) (expecting : Bool)
      (value_size : Nat) (table : List (Option jsonl_sized_value_t))
      (size : Nat) (placed : List (Option jsonl_sized_value_t)),
      jsonl_create_sized_tree_from_text_array_loop sized value_buffer_size sub_value_count
        fuel remaining read sub_object_index expecting value_size table =
        some (size, placed) →
      (∀ node, some node ∈ table → holds node) →
      ∀ node, some node ∈ placed → holds node := by
  intro fuel
  induction fuel with
  | zero =>
      intro remaining read sub_object_index expecting value_size table size placed h htable
      simp only [jsonl_create_sized_tree_from_text_array_loop] at h
      split at h
      · simp only [Option.some.injEq, Prod.mk.injEq] at h
        rw [← h.2]
        exact htable
      · cases h
  | succ fuel ih =>
      intro remaining read sub_object_index expecting value_size table size placed h htable
      simp only [jsonl_create_sized_tree_from_text_array_loop] at h
      split at h
      · simp only [Option.some.injEq, Prod.mk.injEq] at h
        rw [← h.2]
        exact htable
      · split at h
        · cases h
        · rename_i character after
          split at h
          · split at h
            · exact ih _ _ _ _ _ _ _ _ h htable
            · split at h
              · cases h
              · rename_i sub_value_text_size sub_value_size sub_value hcall
                split at h
                · simp only [Option.some.injEq, Prod.mk.injEq] at h
                  rw [← h.2]
                  intro node hnode
                  cases hnode
                · refine ih _ _ _ _ _ _ _ _ h ?_
                  intro node hnode
                  rw [List.mem_append] at hnode
                  cases hnode with
                  | inl hold => exact htable node hold
                  | inr hnew =>
                      rw [List.mem_singleton] at hnew
                      split at hnew
                      · rw [← hnew] at hcall
                        exact hsized _ _ _ _ _ hcall
                      · cases hnew
          · split at h
            · exact ih _ _ _ _ _ _ _ _ h htable
            · split at h
              · simp only [Option.some.injEq, Prod.mk.injEq] at h
                rw [← h.2]
                intro node hnode
                cases hnode
              · exact ih _ _ _ _ _ _ _ _ h htable

/-- A property of the nodes that the recursive call writes holds for the value of every
entry that the object loop places. -/
theorem jsonl_create_sized_tree_from_text_object_loop_all
    (sized : List Nat → Nat → Option (Nat × Nat × Option jsonl_sized_value_t))
    (holds : jsonl_sized_value_t → Prop)
    (hsized : ∀ text capacity text_size size node,
      sized text capacity = some (text_size, size, some node) → holds node)
    (value_buffer_size sub_value_count : Nat) :
    ∀ (fuel remaining : Nat) (read : List Nat) (sub_object_index : Nat) (expecting : Bool)
      (value_size : Nat) (table : List (Option (List Nat × jsonl_sized_value_t)))
      (size : Nat) (placed : List (Option (List Nat × jsonl_sized_value_t))),
      jsonl_create_sized_tree_from_text_object_loop sized value_buffer_size sub_value_count
        fuel remaining read sub_object_index expecting value_size table =
        some (size, placed) →
      (∀ entry, some entry ∈ table → holds entry.2) →
      ∀ entry, some entry ∈ placed → holds entry.2 := by
  intro fuel
  induction fuel with
  | zero =>
      intro remaining read sub_object_index expecting value_size table size placed h htable
      simp only [jsonl_create_sized_tree_from_text_object_loop] at h
      split at h
      · simp only [Option.some.injEq, Prod.mk.injEq] at h
        rw [← h.2]
        exact htable
      · cases h
  | succ fuel ih =>
      intro remaining read sub_object_index expecting value_size table size placed h htable
      simp only [jsonl_create_sized_tree_from_text_object_loop] at h
      split at h
      · simp only [Option.some.injEq, Prod.mk.injEq] at h
        rw [← h.2]
        exact htable
      · split at h
        · cases h
        · rename_i character after
          split at h
          · split at h
            · split at h
              · simp only [Option.some.injEq, Prod.mk.injEq] at h
                rw [← h.2]
                intro entry hentry
                cases hentry
              · split at h
                · cases h
                · rename_i decoded string_length name hname
                  split at h
                  · simp only [Option.some.injEq, Prod.mk.injEq] at h
                    rw [← h.2]
                    intro entry hentry
                    cases hentry
                  · split at h
                    · cases h
                    · rename_i value_text_lenght sub_value_size sub_value hcall
                      split at h
                      · simp only [Option.some.injEq, Prod.mk.injEq] at h
                        rw [← h.2]
                        intro entry hentry
                        cases hentry
                      · refine ih _ _ _ _ _ _ _ _ h ?_
                        intro entry hentry
                        rw [List.mem_append] at hentry
                        cases hentry with
                        | inl hold => exact htable entry hold
                        | inr hnew =>
                            rw [List.mem_singleton] at hnew
                            split at hnew
                            · cases sub_value with
                              | none => cases hnew
                              | some node =>
                                  simp only [Option.map_some', Option.some.injEq] at hnew
                                  rw [hnew]
                                  exact hsized _ _ _ _ _ hcall
                            · cases hnew
            · split at h
              · exact ih _ _ _ _ _ _ _ _ h htable
              · simp only [Option.some.injEq, Prod.mk.injEq] at h
                rw [← h.2]
                intro entry hentry
                cases hentry
          · split at h
            · exact ih _ _ _ _ _ _ _ _ h htable
            · split at h
              · simp only [Option.some.injEq, Prod.mk.injEq] at h
                rw [← h.2]
                intro entry hentry
                cases hentry
              · exact ih _ _ _ _ _ _ _ _ h htable

theorem jsonl_collect_mem {α : Type} :
    ∀ (table : List (Option α)) (entries : List α),
      jsonl_collect table = some entries → ∀ a, a ∈ entries → some a ∈ table := by
  intro table
  induction table with
  | nil =>
      intro entries h a ha
      simp only [jsonl_collect, Option.some.injEq] at h
      rw [← h] at ha
      cases ha
  | cons first table ih =>
      intro entries h a ha
      cases first with
      | none => simp [jsonl_collect] at h
      | some b =>
          simp only [jsonl_collect] at h
          cases hrest : jsonl_collect table with
          | none => rw [hrest] at h; cases h
          | some rest =>
              rw [hrest] at h
              simp only [Option.map_some', Option.some.injEq] at h
              rw [← h, List.mem_cons] at ha
              cases ha with
              | inl hhead => rw [hhead]; exact List.mem_cons_self _ _
              | inr htail => exact List.mem_cons_of_mem _ (ih rest hrest a htail)

theorem jsonl_sized_footprint_values (table : List jsonl_sized_value_t)
    (h : ∀ node, node ∈ table → node.footprint = true) :
    jsonl_sized_value_t.footprint_values table = true := by
  induction table with
  | nil => rfl
  | cons v table ih =>
      simp only [jsonl_sized_value_t.footprint_values, Bool.and_eq_true]
      exact ⟨h v (List.mem_cons_self _ _),
        ih (fun node hnode => h node (List.mem_cons_of_mem _ hnode))⟩

theorem jsonl_sized_footprint_entries (table : List (List Nat × jsonl_sized_value_t))
    (h : ∀ entry, entry ∈ table → entry.2.footprint = true) :
    jsonl_sized_value_t.footprint_entries table = true := by
  induction table with
  | nil => rfl
  | cons e table ih =>
      obtain ⟨name, v⟩ := e
      simp only [jsonl_sized_value_t.footprint_entries, Bool.and_eq_true]
      exact ⟨h (name, v) (List.mem_cons_self _ _),
        ih (fun entry hentry => h entry (List.mem_cons_of_mem _ hentry))⟩

theorem jsonl_sized_size_values (table : List jsonl_sized_value_t)
    (h : ∀ node, node ∈ table → node.size = node.value.size) :
    (table.map (fun child => child.size)).sum =
      jsonl_value_t.size_values (jsonl_sized_value_t.value_values table) := by
  induction table with
  | nil => rfl
  | cons v table ih =>
      simp only [List.map_cons, List.sum_cons, jsonl_sized_value_t.value_values,
        jsonl_value_t.size_values]
      rw [ih (fun node hnode => h node (List.mem_cons_of_mem _ hnode)),
        h v (List.mem_cons_self _ _)]

theorem jsonl_sized_size_entries (table : List (List Nat × jsonl_sized_value_t))
    (h : ∀ entry, entry ∈ table → entry.2.size = entry.2.value.size) :
    (table.map (fun entry => jsonl_round_size (entry.1.length + 1) + entry.2.size)).sum =
      jsonl_value_t.size_entries (jsonl_sized_value_t.value_entries table) := by
  induction table with
  | nil => rfl
  | cons e table ih =>
      obtain ⟨name, v⟩ := e
      simp only [List.map_cons, List.sum_cons, jsonl_sized_value_t.value_entries,
        jsonl_value_t.size_entries]
      rw [ih (fun entry hentry => h entry (List.mem_cons_of_mem _ hentry)),
        h (name, v) (List.mem_cons_self _ _)]

theorem jsonl_sized_value_values_length (table : List jsonl_sized_value_t) :
    (jsonl_sized_value_t.value_values table).length = table.length := by
  rw [jsonl_sized_value_values_eq, List.length_map]

theorem jsonl_sized_value_entries_length (table : List (List Nat × jsonl_sized_value_t)) :
    (jsonl_sized_value_t.value_entries table).length = table.length := by
  rw [jsonl_sized_value_entries_eq, List.length_map]

theorem jsonl_sized_object_members (size : Nat)
    (table : List (List Nat × jsonl_sized_value_t))
    (hvalue : size = (jsonl_sized_value_t.object size table).value.size)
    (h : ∀ entry, entry ∈ table →
      entry.2.size = entry.2.value.size ∧ entry.2.footprint = true) :
    (jsonl_sized_value_t.object size table).footprint = true := by
  simp only [jsonl_sized_value_t.footprint, Bool.and_eq_true, beq_iff_eq]
  refine ⟨?_, jsonl_sized_footprint_entries table (fun entry hentry => (h entry hentry).2)⟩
  rw [jsonl_sized_size_entries table (fun entry hentry => (h entry hentry).1)]
  simp only [jsonl_sized_value_t.value, jsonl_value_t.size,
    jsonl_sized_value_entries_length] at hvalue
  exact hvalue

theorem jsonl_sized_array_members (size : Nat) (table : List jsonl_sized_value_t)
    (hvalue : size = (jsonl_sized_value_t.array size table).value.size)
    (h : ∀ node, node ∈ table → node.size = node.value.size ∧ node.footprint = true) :
    (jsonl_sized_value_t.array size table).footprint = true := by
  simp only [jsonl_sized_value_t.footprint, Bool.and_eq_true, beq_iff_eq]
  refine ⟨?_, jsonl_sized_footprint_values table (fun node hnode => (h node hnode).2)⟩
  rw [jsonl_sized_size_values table (fun node hnode => (h node hnode).1)]
  simp only [jsonl_sized_value_t.value, jsonl_value_t.size,
    jsonl_sized_value_values_length] at hvalue
  exact hvalue

/-- The member `size` of every node that the tree builder writes: the node holds the size
that the call which wrote it reports, this is the size of the tree of the node, and every
node below it holds its footprint and the members of its children. -/
theorem jsonl_create_sized_tree_from_text_members (pf : jsonl_platform_t) :
    ∀ (fuel : Nat) (json_text : List Nat) (value_buffer_size text_size size : Nat)
      (node : jsonl_sized_value_t),
      jsonl_create_sized_tree_from_text pf fuel json_text value_buffer_size =
        some (text_size, size, some node) →
      node.size = size ∧ node.size = node.value.size ∧ node.footprint = true := by
  intro fuel
  induction fuel with
  | zero =>
      intro json_text value_buffer_size text_size size node h
      simp [jsonl_create_sized_tree_from_text] at h
  | succ fuel ih =>
      intro json_text value_buffer_size text_size size node h
      have hvalue : size = node.value.size := by
        have hboth := jsonl_create_sized_tree_from_text_value pf (fuel + 1) json_text
          value_buffer_size
        rw [h] at hboth
        exact jsonl_create_tree_from_text_size pf _ _ _ _ _ _ hboth
      have hchild : ∀ text capacity text_size size node,
          jsonl_create_sized_tree_from_text pf fuel text capacity =
            some (text_size, size, some node) →
          node.size = node.value.size ∧ node.footprint = true :=
        fun text capacity text_size size node hcall => (ih _ _ _ _ _ hcall).2
      have hsize : node.size = size := by
        simp only [jsonl_create_sized_tree_from_text] at h
        split at h
        · split at h
          · simp at h
          · split at h
            · cases h
            · rename_i value_size table hloop
              split at h
              · simp at h
              · simp only [Option.some.injEq, Prod.mk.injEq] at h
                obtain ⟨_, h2, h3⟩ := h
                split at h3
                · cases hcollect : jsonl_collect table with
                  | none => rw [hcollect] at h3; cases h3
                  | some entries =>
                      rw [hcollect] at h3
                      simp only [Option.map_some', Option.some.injEq] at h3
                      rw [← h3, ← h2]
                      rfl
                · cases h3
        · split at h
          · split at h
            · simp at h
            · split at h
              · cases h
              · rename_i value_size table hloop
                split at h
                · simp at h
                · simp only [Option.some.injEq, Prod.mk.injEq] at h
                  obtain ⟨_, h2, h3⟩ := h
                  split at h3
                  · cases hcollect : jsonl_collect table with
                    | none => rw [hcollect] at h3; cases h3
                    | some entries =>
                        rw [hcollect] at h3
                        simp only [Option.map_some', Option.some.injEq] at h3
                        rw [← h3, ← h2]
                        rfl
                  · cases h3
          · split at h
            · split at h
              · cases h
              · split at h
                · simp at h
                · simp only [Option.some.injEq, Prod.mk.injEq] at h
                  obtain ⟨_, h2, h3⟩ := h
                  obtain ⟨_, hnode⟩ := jsonl_written_some _ _ _ h3
                  rw [← hnode, ← h2]
                  rfl
            · split at h
              · split at h
                · simp at h
                · simp only [Option.some.injEq, Prod.mk.injEq] at h
                  obtain ⟨_, h2, h3⟩ := h
                  obtain ⟨_, hnode⟩ := jsonl_written_some _ _ _ h3
                  rw [← hnode, ← h2]
                  rfl
              · split at h
                · split at h
                  · simp at h
                  · simp only [Option.some.injEq, Prod.mk.injEq] at h
                    obtain ⟨_, h2, h3⟩ := h
                    obtain ⟨_, hnode⟩ := jsonl_written_some _ _ _ h3
                    rw [← hnode, ← h2]
                    rfl
                · split at h
                  · simp only [Option.some.injEq, Prod.mk.injEq] at h
                    obtain ⟨_, h2, h3⟩ := h
                    obtain ⟨_, hnode⟩ := jsonl_written_some _ _ _ h3
                    rw [← hnode, ← h2]
                    rfl
                  · simp at h
      refine ⟨hsize, hsize.trans hvalue, ?_⟩
      have hmember : node.size = node.value.size := hsize.trans hvalue
      simp only [jsonl_create_sized_tree_from_text] at h
      split at h
      · split at h
        · simp at h
        · split at h
          · cases h
          · rename_i value_size table hloop
            split at h
            · simp at h
            · simp only [Option.some.injEq, Prod.mk.injEq] at h
              obtain ⟨_, h2, h3⟩ := h
              split at h3
              · cases hcollect : jsonl_collect table with
                | none => rw [hcollect] at h3; cases h3
                | some entries =>
                    rw [hcollect] at h3
                    simp only [Option.map_some', Option.some.injEq] at h3
                    have hall := jsonl_create_sized_tree_from_text_object_loop_all
                      (jsonl_create_sized_tree_from_text pf fuel)
                      (fun node => node.size = node.value.size ∧ node.footprint = true)
                      hchild _ _ _ _ _ _ _ _ _ _ _ hloop
                      (fun entry hentry => by cases hentry)
                    rw [← h3] at hmember ⊢
                    exact jsonl_sized_object_members _ _ hmember
                      (fun entry hentry =>
                        hall entry (jsonl_collect_mem _ _ hcollect entry hentry))
              · cases h3
      · split at h
        · split at h
          · simp at h
          · split at h
            · cases h
            · rename_i value_size table hloop
              split at h
              · simp at h
              · simp only [Option.some.injEq, Prod.mk.injEq] at h
                obtain ⟨_, h2, h3⟩ := h
                split at h3
                · cases hcollect : jsonl_collect table with
                  | none => rw [hcollect] at h3; cases h3
                  | some entries =>
                      rw [hcollect] at h3
                      simp only [Option.map_some', Option.some.injEq] at h3
                      have hall := jsonl_create_sized_tree_from_text_array_loop_all
                        (jsonl_create_sized_tree_from_text pf fuel)
                        (fun node => node.size = node.value.size ∧ node.footprint = true)
                        hchild _ _ _ _ _ _ _ _ _ _ _ hloop
                        (fun entry hentry => by cases hentry)
                      rw [← h3] at hmember ⊢
                      exact jsonl_sized_array_members _ _ hmember
                        (fun entry hentry =>
                          hall entry (jsonl_collect_mem _ _ hcollect entry hentry))
                · cases h3
        · split at h
          · split at h
            · cases h
            · split at h
              · simp at h
              · simp only [Option.some.injEq, Prod.mk.injEq] at h
                obtain ⟨_, h2, h3⟩ := h
                obtain ⟨_, hnode⟩ := jsonl_written_some _ _ _ h3
                rw [← hnode] at hmember ⊢
                simp only [jsonl_sized_value_t.footprint, beq_iff_eq]
                exact hmember
          · split at h
            · split at h
              · simp at h
              · simp only [Option.some.injEq, Prod.mk.injEq] at h
                obtain ⟨_, h2, h3⟩ := h
                obtain ⟨_, hnode⟩ := jsonl_written_some _ _ _ h3
                rw [← hnode] at hmember ⊢
                simp only [jsonl_sized_value_t.footprint, beq_iff_eq]
            · split at h
              · split at h
                · simp at h
                · simp only [Option.some.injEq, Prod.mk.injEq] at h
                  obtain ⟨_, h2, h3⟩ := h
                  obtain ⟨_, hnode⟩ := jsonl_written_some _ _ _ h3
                  rw [← hnode] at hmember ⊢
                  simp only [jsonl_sized_value_t.footprint, beq_iff_eq]
              · split at h
                · simp only [Option.some.injEq, Prod.mk.injEq] at h
                  obtain ⟨_, h2, h3⟩ := h
                  obtain ⟨_, hnode⟩ := jsonl_written_some _ _ _ h3
                  rw [← hnode] at hmember ⊢
                  simp only [jsonl_sized_value_t.footprint, beq_iff_eq]
                · simp at h

/-- The member `size` of every node of the tree that `jsonl_parse_text` writes: the root
holds the size that the call returns, and every node holds its footprint and the members
of its children. -/
theorem jsonl_parse_sized_text_members (pf : jsonl_platform_t) (json_text : List Nat)
    (value_buffer_size size : Nat) (node : jsonl_sized_value_t)
    (h : jsonl_parse_sized_text pf json_text value_buffer_size = some (size, some node)) :
    node.size = size ∧ node.footprint = true := by
  unfold jsonl_parse_sized_text at h
  simp only at h
  split at h
  · cases h
  · rename_i text_size tree_size built hcall
    split at h
    · simp only [Option.some.injEq, Prod.mk.injEq] at h
      rw [h.2, h.1] at hcall
      have hall := jsonl_create_sized_tree_from_text_members pf _ _ _ _ _ _ hcall
      exact ⟨hall.1, hall.2.2⟩
    · simp at h

mutual
/-- The members `size` of a tree whose nodes hold their footprints are determined by the
tree without the members. -/
theorem jsonl_sized_footprint_unique (first second : jsonl_sized_value_t)
    (hvalue : first.value = second.value) (h1 : first.footprint = true)
    (h2 : second.footprint = true) : first = second := by
  cases first with
  | object size table =>
      cases second with
      | object other_size other_table =>
          simp only [jsonl_sized_value_t.value, jsonl_value_t.object.injEq] at hvalue
          simp only [jsonl_sized_value_t.footprint, Bool.and_eq_true, beq_iff_eq] at h1 h2
          have htable := jsonl_sized_footprint_unique_entries table other_table hvalue h1.2 h2.2
          subst htable
          rw [h1.1, h2.1]
      | array _ _ => simp [jsonl_sized_value_t.value] at hvalue
      | string _ _ => simp [jsonl_sized_value_t.value] at hvalue
      | number _ _ => simp [jsonl_sized_value_t.value] at hvalue
      | boolean _ _ => simp [jsonl_sized_value_t.value] at hvalue
      | null _ => simp [jsonl_sized_value_t.value] at hvalue
  | array size table =>
      cases second with
      | array other_size other_table =>
          simp only [jsonl_sized_value_t.value, jsonl_value_t.array.injEq] at hvalue
          simp only [jsonl_sized_value_t.footprint, Bool.and_eq_true, beq_iff_eq] at h1 h2
          have htable := jsonl_sized_footprint_unique_values table other_table hvalue h1.2 h2.2
          subst htable
          rw [h1.1, h2.1]
      | object _ _ => simp [jsonl_sized_value_t.value] at hvalue
      | string _ _ => simp [jsonl_sized_value_t.value] at hvalue
      | number _ _ => simp [jsonl_sized_value_t.value] at hvalue
      | boolean _ _ => simp [jsonl_sized_value_t.value] at hvalue
      | null _ => simp [jsonl_sized_value_t.value] at hvalue
  | string size characters =>
      cases second with
      | string other_size other_characters =>
          simp only [jsonl_sized_value_t.value, jsonl_value_t.string.injEq] at hvalue
          simp only [jsonl_sized_value_t.footprint, beq_iff_eq] at h1 h2
          subst hvalue
          rw [h1, h2]
      | object _ _ => simp [jsonl_sized_value_t.value] at hvalue
      | array _ _ => simp [jsonl_sized_value_t.value] at hvalue
      | number _ _ => simp [jsonl_sized_value_t.value] at hvalue
      | boolean _ _ => simp [jsonl_sized_value_t.value] at hvalue
      | null _ => simp [jsonl_sized_value_t.value] at hvalue
  | number size decoded =>
      cases second with
      | number other_size other_decoded =>
          simp only [jsonl_sized_value_t.value, jsonl_value_t.number.injEq] at hvalue
          simp only [jsonl_sized_value_t.footprint, beq_iff_eq] at h1 h2
          subst hvalue
          rw [h1, h2]
      | object _ _ => simp [jsonl_sized_value_t.value] at hvalue
      | array _ _ => simp [jsonl_sized_value_t.value] at hvalue
      | string _ _ => simp [jsonl_sized_value_t.value] at hvalue
      | boolean _ _ => simp [jsonl_sized_value_t.value] at hvalue
      | null _ => simp [jsonl_sized_value_t.value] at hvalue
  | boolean size truth =>
      cases second with
      | boolean other_size other_truth =>
          simp only [jsonl_sized_value_t.value, jsonl_value_t.boolean.injEq] at hvalue
          simp only [jsonl_sized_value_t.footprint, beq_iff_eq] at h1 h2
          subst hvalue
          rw [h1, h2]
      | object _ _ => simp [jsonl_sized_value_t.value] at hvalue
      | array _ _ => simp [jsonl_sized_value_t.value] at hvalue
      | string _ _ => simp [jsonl_sized_value_t.value] at hvalue
      | number _ _ => simp [jsonl_sized_value_t.value] at hvalue
      | null _ => simp [jsonl_sized_value_t.value] at hvalue
  | null size =>
      cases second with
      | null other_size =>
          simp only [jsonl_sized_value_t.footprint, beq_iff_eq] at h1 h2
          rw [h1, h2]
      | object _ _ => simp [jsonl_sized_value_t.value] at hvalue
      | array _ _ => simp [jsonl_sized_value_t.value] at hvalue
      | string _ _ => simp [jsonl_sized_value_t.value] at hvalue
      | number _ _ => simp [jsonl_sized_value_t.value] at hvalue
      | boolean _ _ => simp [jsonl_sized_value_t.value] at hvalue
theorem jsonl_sized_footprint_unique_values (first second : List jsonl_sized_value_t)
    (hvalue : jsonl_sized_value_t.value_values first =
      jsonl_sized_value_t.value_values second)
    (h1 : jsonl_sized_value_t.footprint_values first = true)
    (h2 : jsonl_sized_value_t.footprint_values second = true) : first = second := by
  cases first with
  | nil =>
      cases second with
      | nil => rfl
      | cons _ _ => simp [jsonl_sized_value_t.value_values] at hvalue
  | cons v vs =>
      cases second with
      | nil => simp [jsonl_sized_value_t.value_values] at hvalue
      | cons w ws =>
          simp only [jsonl_sized_value_t.value_values, List.cons.injEq] at hvalue
          simp only [jsonl_sized_value_t.footprint_values, Bool.and_eq_true] at h1 h2
          rw [jsonl_sized_footprint_unique v w hvalue.1 h1.1 h2.1,
            jsonl_sized_footprint_unique_values vs ws hvalue.2 h1.2 h2.2]
theorem jsonl_sized_footprint_unique_entries
    (first second : List (List Nat × jsonl_sized_value_t))
    (hvalue : jsonl_sized_value_t.value_entries first =
      jsonl_sized_value_t.value_entries second)
    (h1 : jsonl_sized_value_t.footprint_entries first = true)
    (h2 : jsonl_sized_value_t.footprint_entries second = true) : first = second := by
  cases first with
  | nil =>
      cases second with
      | nil => rfl
      | cons e _ =>
          obtain ⟨name, w⟩ := e
          simp [jsonl_sized_value_t.value_entries] at hvalue
  | cons e es =>
      obtain ⟨name, v⟩ := e
      cases second with
      | nil => simp [jsonl_sized_value_t.value_entries] at hvalue
      | cons f fs =>
          obtain ⟨other_name, w⟩ := f
          simp only [jsonl_sized_value_t.value_entries, List.cons.injEq,
            Prod.mk.injEq] at hvalue
          simp only [jsonl_sized_value_t.footprint_entries, Bool.and_eq_true] at h1 h2
          rw [jsonl_sized_footprint_unique v w hvalue.1.2 h1.1 h2.1,
            jsonl_sized_footprint_unique_entries es fs hvalue.2 h1.2 h2.2, hvalue.1.1]
end

/-- What `jsonl_parse_text` does over all capacities, with the member `size` of the nodes
it writes: it returns 0 for every capacity, or it returns for every capacity the member
`size` of one root node, which is in the buffer whenever that size is at most the
capacity, and every node of which holds its footprint and the members of its children. -/
theorem jsonl_parse_sized_text_uniform (pf : jsonl_platform_t) (json_text : List Nat) :
    (∀ capacity, jsonl_parse_sized_text pf json_text capacity = some (0, none)) ∨
      ∃ node : jsonl_sized_value_t, node.size ≠ 0 ∧ node.footprint = true ∧
        ∀ capacity, jsonl_parse_sized_text pf json_text capacity =
          some (node.size, if node.size ≤ capacity then some node else none) := by
  have hlen : (json_text.drop (jsonl_white_space_length json_text)).length <
      json_text.length + 1 := by
    rw [List.length_drop]; omega
  have hboth := jsonl_create_sized_tree_from_text_value pf (json_text.length + 1)
    (json_text.drop (jsonl_white_space_length json_text))
  rcases jsonl_create_tree_from_text_parses pf (json_text.length + 1)
      (json_text.drop (jsonl_white_space_length json_text)) hlen with
    hfail | ⟨hsize, tree_size, tree, hne, hcall⟩
  · refine Or.inl (fun capacity => ?_)
    have hat := hboth capacity
    rw [hfail capacity] at hat
    unfold jsonl_parse_sized_text
    simp only []
    cases hsized : jsonl_create_sized_tree_from_text pf (json_text.length + 1)
        (json_text.drop (jsonl_white_space_length json_text)) capacity with
    | none => rw [hsized] at hat; cases hat
    | some r =>
        obtain ⟨text_size, size, built⟩ := r
        rw [hsized] at hat
        simp only [Option.map_some', Option.some.injEq, Prod.mk.injEq] at hat
        simp only [← hat.1, bne_self_eq_false, Bool.false_eq_true, if_false]
  · have hshape : ∀ capacity, ∃ built,
        jsonl_create_sized_tree_from_text pf (json_text.length + 1)
          (json_text.drop (jsonl_white_space_length json_text)) capacity =
          some ((jsonl_decide_value_type
            (json_text.drop (jsonl_white_space_length json_text))).2, tree_size, built) ∧
        built.map (fun v => v.value) = if tree_size ≤ capacity then some tree else none := by
      intro capacity
      have hat := hboth capacity
      rw [hcall capacity] at hat
      cases hsized : jsonl_create_sized_tree_from_text pf (json_text.length + 1)
          (json_text.drop (jsonl_white_space_length json_text)) capacity with
      | none => rw [hsized] at hat; cases hat
      | some r =>
          obtain ⟨text_size, size, built⟩ := r
          rw [hsized] at hat
          simp only [Option.map_some', Option.some.injEq, Prod.mk.injEq] at hat
          exact ⟨built, by rw [← hat.1, ← hat.2.1], hat.2.2.symm⟩
    have hnode : ∀ capacity, tree_size ≤ capacity → ∃ node,
        jsonl_create_sized_tree_from_text pf (json_text.length + 1)
          (json_text.drop (jsonl_white_space_length json_text)) capacity =
          some ((jsonl_decide_value_type
            (json_text.drop (jsonl_white_space_length json_text))).2, tree_size,
            some node) ∧
        node.value = tree ∧ node.size = tree_size ∧ node.footprint = true := by
      intro capacity hfits
      obtain ⟨built, hcall2, hbuilt⟩ := hshape capacity
      rw [if_pos hfits] at hbuilt
      cases built with
      | none => cases hbuilt
      | some node =>
          simp only [Option.map_some', Option.some.injEq] at hbuilt
          have hall := jsonl_create_sized_tree_from_text_members pf _ _ _ _ _ _ hcall2
          exact ⟨node, hcall2, hbuilt, hall.1, hall.2.2⟩
    obtain ⟨node, _, hvalue, hmember, hfoot⟩ := hnode tree_size (le_refl _)
    refine Or.inr ⟨node, by rw [hmember]; exact hne, hfoot, fun capacity => ?_⟩
    unfold jsonl_parse_sized_text
    simp only []
    rw [hmember]
    by_cases hfits : tree_size ≤ capacity
    · obtain ⟨other, hcall2, hvalue2, _, hfoot2⟩ := hnode capacity hfits
      have hsame : other = node :=
        jsonl_sized_footprint_unique other node (hvalue2.trans hvalue.symm) hfoot2 hfoot
      rw [hcall2, hsame, if_pos hfits]
      simp [hsize]
    · obtain ⟨built, hcall2, hbuilt⟩ := hshape capacity
      rw [if_neg hfits] at hbuilt
      cases built with
      | some _ => cases hbuilt
      | none =>
          rw [hcall2, if_neg hfits]
          simp [hsize]

theorem jsonl_create_path_other_branch_nested :
    jsonl_set_values (.object [])
        [⟨[.name [120], .name [107], .name [112]], some (.number ⟨9⟩)⟩,
          ⟨[.name [121], .name [107], .name [113]], some (.number ⟨8⟩)⟩] 1000 =
        some (328, some (.object
          [([120], .object [([107], .object [([112], .number ⟨9⟩)])]), ([121], .object [])])) :=
  rfl

theorem jsonl_create_path_other_branch_direct :
    jsonl_set_values (.object [])
        [⟨[.name [120], .name [107]], some (.number ⟨9⟩)⟩,
          ⟨[.name [121], .name [107]], some (.number ⟨8⟩)⟩] 1000 = none :=
  rfl

set_option maxHeartbeats 1000000 in
theorem jsonl_create_path_other_branch_other_name :
    jsonl_set_values (.object [])
        [⟨[.name [120], .name [107], .name [112]], some (.number ⟨9⟩)⟩,
          ⟨[.name [121], .name [106], .name [113]], some (.number ⟨8⟩)⟩] 1000 =
        some (472, some (.object
          [([120], .object [([107], .object [([112], .number ⟨9⟩)])]),
            ([121], .object [([106], .object [([113], .number ⟨8⟩)])])])) :=
  rfl

/-- C31 (the code at the failing input): for the empty object and the two writes
`x.k.p = 9` and `y.k.q = 8`, whose paths lie in different branches, the result is
`{"x":{"k":{"p":9}},"y":{}}` and `y.k.q` is not found:
`jsonl_internal_set_values_create_path_sub_path_not_already_listed` (lines 1559 to 1585)
compares the component `k` of the second path with the component at the same depth of
every earlier operation, also of one in another branch, and takes it for listed.  For
the writes `x.k = 9` and `y.k = 8` the name loop of line 1645 then finds no operation for
the one entry it counted and leaves the operation table.  With `j` for the second `k`
both writes are realised. -/
theorem jsonl_set_values_create_path_same_name_other_branch :
    jsonl_set_values (.object [])
        [⟨[.name [120], .name [107], .name [112]], some (.number ⟨9⟩)⟩,
          ⟨[.name [121], .name [107], .name [113]], some (.number ⟨8⟩)⟩] 1000 =
        some (328, some (.object
          [([120], .object [([107], .object [([112], .number ⟨9⟩)])]), ([121], .object [])])) ∧
      jsonl_get_value (.object
          [([120], .object [([107], .object [([112], .number ⟨9⟩)])]), ([121], .object [])])
        [.name [121], .name [107], .name [113]] 0 = none ∧
      jsonl_set_values (.object [])
        [⟨[.name [120], .name [107]], some (.number ⟨9⟩)⟩,
          ⟨[.name [121], .name [107]], some (.number ⟨8⟩)⟩] 1000 = none ∧
      jsonl_set_values (.object [])
        [⟨[.name [120], .name [107], .name [112]], some (.number ⟨9⟩)⟩,
          ⟨[.name [121], .name [106], .name [113]], some (.number ⟨8⟩)⟩] 1000 =
        some (472, some (.object
          [([120], .object [([107], .object [([112], .number ⟨9⟩)])]),
            ([121], .object [([106], .object [([113], .number ⟨8⟩)])])])) :=
  ⟨jsonl_create_path_other_branch_nested, rfl, jsonl_create_path_other_branch_direct,
    jsonl_create_path_other_branch_other_name⟩

/-- C33 (the code at the failing input): for the 4-byte text quote, backslash, backslash,
quote `jsonl_quoted_string_lenght` returns 0, not 4: the loop sets `escape` at every
backslash (line 204), also at one that is itself escaped, and takes the closing quote for
an escaped one.  With more text it returns the offset past the next quote, 6 for the
same text followed by a space and a quote. -/
theorem jsonl_quoted_string_lenght_escaped_backslash :
    jsonl_quoted_string_lenght [34, 92, 92, 34] = 0 ∧
      jsonl_quoted_string_lenght [34, 92, 92, 34, 32, 34] = 6 ∧
      jsonl_quoted_string_lenght [34, 92, 34, 34] = 4 ∧
      jsonl_quoted_string_lenght [] = 0 ∧
      jsonl_quoted_string_lenght [97, 34] = 0 :=
  ⟨rfl, rfl, rfl, rfl, rfl⟩

/-- C35 (the code at the failing input): the write of `true` at `x[0]` into the empty
object reports 168 for every capacity, and `jsonl_internal_copy_value` reports 160 for
the tree `{"x":[true]}` it builds: the array case of path creation adds the size of the
table of the array twice (lines 1707 and 1756). -/
theorem jsonl_set_values_create_path_counts_table_twice :
    jsonl_set_values (.object []) [⟨[.name [120], .index 0], some (.boolean true)⟩] 1000 =
        some (168, some (.object [([120], .array [.boolean true])])) ∧
      jsonl_set_values (.object []) [⟨[.name [120], .index 0], some (.boolean true)⟩] 0 =
        some (168, none) ∧
      jsonl_internal_copy_value (.object [([120], .array [.boolean true])]) 1000 =
        (160, some (.object [([120], .array [.boolean true])])) ∧
      (jsonl_value_t.object [([120], .array [.boolean true])]).size = 160 :=
  ⟨rfl, rfl, rfl, rfl⟩

/-- C37 (the code at the failing input): printing the one-character string `a` into a
buffer of 1 byte stores the quote at the index 0 and the character at the index 1, past
the end of the buffer: the guard of line 1251 compares `printed_string_length` with the
size of the buffer, and the store of line 1252 goes to `1 + printed_string_length`. -/
theorem jsonl_print_string_writes_past_buffer (pf : jsonl_platform_t) :
    jsonl_print pf (.string [97]) 1 = (3, [(0, 34), (1, 97)]) := by
  cases h : pf.char_is_signed <;>
    simp [jsonl_print, jsonl_internal_print, jsonl_print_string_value,
      jsonl_print_string_value_loop, jsonl_escaped_character_index,
      jsonl_escaped_character_table, jsonl_char_less_than_0x20, h]

/-- C38 (the code at the failing input): for the object `{"a":1,"b":2}`, whose names are
distinct, and the one removal of `a`, the value loop of the object case tests its second
child against `set_value_table + 1` (line 1999), past the end of the table of one
operation. -/
theorem jsonl_set_values_delete_reads_past_table :
    jsonl_set_values (.object [([97], .number ⟨1⟩), ([98], .number ⟨2⟩)])
        [⟨[.name [97]], none⟩] 1000 = none ∧
      jsonl_set_values (.object [([97], .number ⟨1⟩), ([98], .number ⟨2⟩)])
        [⟨[.name [97]], none⟩] 0 = none :=
  ⟨rfl, rfl⟩

/-- C32 (amended): in a valid tree that fits in the address space and whose objects have
distinct names, for every path that resolves to a node, every name or concrete index and
every valid value such that the node is not a container of the kind of the component,
where the size the call requires is at most `SIZE_MAX` (so that no `size_t` sum or
product of the computation wraps), the one write of the value at the path followed by
the component reports that one size for every capacity and builds, in every buffer the
size fits, the tree in which the node is replaced by the created container and
everything else stays: for a name the object of the one entry from the name to the
value, for an index `i` the array of `i` Null nodes followed by the value. -/
theorem jsonl_set_values_indirect_overwrite (value_tree node value : jsonl_value_t)
    (path : List jsonl_path_component_t) (component : jsonl_path_component_t)
    (ht : value_tree.valid = true) (hv : value.valid = true)
    (hd : value_tree.distinct_names = true)
    (htree : value_tree.size ≤ jsonl_size_max) (hc : component ≠ .index jsonl_size_max)
    (hwalk : jsonl_get_value value_tree path 0 = some node)
    (hkind : node.type ≠ component.container_type)
    (hfit : jsonl_size_fits
      (jsonl_set_values value_tree [⟨path ++ [component], some value⟩]) = true) :
    (∃ size, size ≤ jsonl_size_max ∧ jsonl_uniform
      (jsonl_set_values value_tree [⟨path ++ [component], some value⟩]) size
      (jsonl_replaced value_tree path (jsonl_created_value [component] value))) ∧
      (∀ name, jsonl_created_value [.name name] value = .object [(name, value)]) ∧
      (∀ index, jsonl_created_value [.index index] value =
        .array (List.replicate index .null ++ [value])) := by
  refine ⟨?_, fun _ => rfl, fun _ => rfl⟩
  have hw : jsonl_get_value_walk value_tree path = some node := by
    unfold jsonl_get_value at hwalk
    cases h : jsonl_get_value_walk value_tree path with
    | none => rw [h] at hwalk; cases hwalk
    | some found =>
        rw [h] at hwalk
        simpa using hwalk
  have hp := jsonl_get_value_walk_sentinel_free path value_tree node htree hw
  obtain ⟨size, hsize⟩ := jsonl_internal_set_values_single value hv (path ++ [component]) []
    (value_tree.depth + 1) value_tree
    (by
      intro c hmem
      rcases List.mem_append.1 hmem with h | h
      · exact hp c h
      · rw [List.mem_singleton.1 h]
        exact hc)
    ht (Nat.lt_succ_self _)
  rw [jsonl_written_value_replaced value component path value_tree node hd hw hkind] at hsize
  have hall : ∀ capacity,
      jsonl_set_values value_tree [⟨path ++ [component], some value⟩] capacity =
        some (size,
          if size ≤ capacity then
            some (jsonl_replaced value_tree path (jsonl_created_value [component] value))
          else none) := by
    intro capacity
    rw [jsonl_set_values_of_writes _ _ _ (by
      intro s hs
      rw [List.mem_singleton.1 hs]
      rfl)]
    have := hsize.2 capacity
    simp only [List.reverse_nil, List.nil_append] at this
    exact this
  exact ⟨size, jsonl_size_fits_le _ _ _ hfit (hall 0), hsize.1, hall⟩

theorem jsonl_set_values_indirect_overwrite_witness :
    (jsonl_value_t.object [([97], .object [([122], .number ⟨1⟩)]),
        ([99], .array [.number ⟨1⟩])]).valid = true ∧
      (jsonl_value_t.number ⟨9⟩).valid = true ∧
      (jsonl_value_t.object [([97], .object [([122], .number ⟨1⟩)]),
        ([99], .array [.number ⟨1⟩])]).distinct_names = true ∧
      (jsonl_value_t.object [([97], .object [([122], .number ⟨1⟩)]),
        ([99], .array [.number ⟨1⟩])]).size ≤ jsonl_size_max ∧
      jsonl_get_value (.object [([97], .object [([122], .number ⟨1⟩)]),
        ([99], .array [.number ⟨1⟩])]) [.name [97]] 0 =
        some (.object [([122], .number ⟨1⟩)]) ∧
      jsonl_size_fits
        (jsonl_set_values (.object [([97], .object [([122], .number ⟨1⟩)]),
          ([99], .array [.number ⟨1⟩])])
          [⟨[.name [97]] ++ [.index 2], some (.number ⟨9⟩)⟩]) = true ∧
      jsonl_replaced (.object [([97], .object [([122], .number ⟨1⟩)]),
          ([99], .array [.number ⟨1⟩])]) [.name [97]]
          (jsonl_created_value [.index 2] (.number ⟨9⟩)) =
        .object [([97], .array [.null, .null, .number ⟨9⟩]), ([99], .array [.number ⟨1⟩])] ∧
      ((∃ size, size ≤ jsonl_size_max ∧ jsonl_uniform
        (jsonl_set_values (.object [([97], .object [([122], .number ⟨1⟩)]),
          ([99], .array [.number ⟨1⟩])])
          [⟨[.name [97]] ++ [.index 2], some (.number ⟨9⟩)⟩]) size
        (jsonl_replaced (.object [([97], .object [([122], .number ⟨1⟩)]),
          ([99], .array [.number ⟨1⟩])]) [.name [97]]
          (jsonl_created_value [.index 2] (.number ⟨9⟩)))) ∧
        (∀ name, jsonl_created_value [.name name] (.number ⟨9⟩) =
          .object [(name, .number ⟨9⟩)]) ∧
        (∀ index, jsonl_created_value [.index index] (.number ⟨9⟩) =
          .array (List.replicate index .null ++ [.number ⟨9⟩]))) :=
  ⟨rfl, rfl, by decide, by decide, rfl, rfl, rfl,
    jsonl_set_values_indirect_overwrite
      (.object [([97], .object [([122], .number ⟨1⟩)]), ([99], .array [.number ⟨1⟩])])
      (.object [([122], .number ⟨1⟩)]) (.number ⟨9⟩) [.name [97]] (.index 2) rfl rfl
      (by decide) (by decide) (by decide) rfl (by decide) rfl⟩

/-- C32, counterexample: in the object `{"a":true,"c":1,"a":[1]}` the path `a` resolves to
the leaf `true`; the write of 9 at `a.b` replaces it by `{"b":9}`, and it replaces the
array `[1]` of the later entry of the same name as well, which is not the node the path
resolves to. -/
theorem jsonl_set_values_indirect_overwrite_duplicate_name :
    jsonl_get_value (.object [([97], .boolean true), ([99], .number ⟨1⟩),
        ([97], .array [.number ⟨1⟩])]) [.name [97]] 0 = some (.boolean true) ∧
      jsonl_set_values (.object [([97], .boolean true), ([99], .number ⟨1⟩),
          ([97], .array [.number ⟨1⟩])])
          [⟨[.name [97], .name [98]], some (.number ⟨9⟩)⟩] 1000 =
        some (400, some (.object [([97], .object [([98], .number ⟨9⟩)]), ([99], .number ⟨1⟩),
          ([97], .object [([98], .number ⟨9⟩)])])) ∧
      jsonl_replaced (.object [([97], .boolean true), ([99], .number ⟨1⟩),
          ([97], .array [.number ⟨1⟩])]) [.name [97]]
          (jsonl_created_value [.name [98]] (.number ⟨9⟩)) =
        .object [([97], .object [([98], .number ⟨9⟩)]), ([99], .number ⟨1⟩),
          ([97], .array [.number ⟨1⟩])] ∧
      jsonl_get_value (.object [([97], .object [([98], .number ⟨9⟩)]), ([99], .number ⟨1⟩),
          ([97], .object [([98], .number ⟨9⟩)])]) [.name [99]] 0 = some (.number ⟨1⟩) :=
  ⟨rfl, rfl, rfl, rfl⟩

/-- C34: the member `size` of the nodes of a parsed tree.  `jsonl_parse_sized_text` is
`jsonl_parse_text` with the member `size` that lines 950, 1001, 1014, 1026, 1038 and 1047
store in every node, and it returns for every capacity what `jsonl_parse_text` returns,
the tree being its nodes without the member.  For every text it returns 0 for every
capacity, or there is a root node such that for every capacity it returns the member
`size` of the root, with the root in the buffer whenever that size fits, and every node of
the tree holds in its member `size` its own footprint and the members `size` of its
children (`jsonl_sized_value_t.footprint`), with `H` the rounded size of `jsonl_value_t`:
`H` for Null, Boolean and Number; `H` and the rounded `length + 1` for a String; `H`, the
rounded table of pointers and the members of the elements for an Array; `H`, the rounded
table of entries and, for each entry, the rounded `name_length + 1` and the member of the
value for an Object. -/
theorem jsonl_parse_text_size_members (pf : jsonl_platform_t) (json_text : List Nat) :
    (∀ capacity, jsonl_parse_text pf json_text capacity =
        (jsonl_parse_sized_text pf json_text capacity).map
          (fun r => (r.1, r.2.map (fun node => node.value)))) ∧
      ((∀ capacity, jsonl_parse_sized_text pf json_text capacity = some (0, none)) ∨
        ∃ node : jsonl_sized_value_t, node.size ≠ 0 ∧ node.footprint = true ∧
          ∀ capacity, jsonl_parse_sized_text pf json_text capacity =
            some (node.size, if node.size ≤ capacity then some node else none)) :=
  ⟨jsonl_parse_sized_text_value pf json_text, jsonl_parse_sized_text_uniform pf json_text⟩

/-- The nodes that `jsonl_parse_text` writes for the text `{"ab":[true,"xyz",{}],"c":null}`
with their members `size`: 40 for the leaves and the empty object, 48 for the string, 192
for the array and 336 for the root, the size the call returns. -/
theorem jsonl_parse_sized_text_members_of_object :
    jsonl_parse_sized_text jsonl_example_platform
        [123, 34, 97, 98, 34, 58, 91, 116, 114, 117, 101, 44, 34, 120, 121, 122, 34, 44,
          123, 125, 93, 44, 34, 99, 34, 58, 110, 117, 108, 108, 125] 1000 =
      some (336, some (.object 336
        [([97, 98], .array 192
            [.boolean 40 true, .string 48 [120, 121, 122], .object 40 []]),
          ([99], .null 40)])) ∧
      (jsonl_sized_value_t.object 336
        [([97, 98], .array 192
            [.boolean 40 true, .string 48 [120, 121, 122], .object 40 []]),
          ([99], .null 40)]).footprint = true :=
  ⟨rfl, rfl⟩

/-- C36: `jsonl_parse_text` reads one value and ignores what follows it: when it accepts a
text, that is returns a size other than 0, then for the text followed by any text that
begins with a white space byte it returns the same size and leaves the same tree in the
buffer. -/
theorem jsonl_parse_text_ignores_trailing (pf : jsonl_platform_t)
    (json_text trailing : List Nat) (space capacity size : Nat) (tree : Option jsonl_value_t)
    (hs : jsonl_is_white_space space = true)
    (h : jsonl_parse_text pf json_text capacity = some (size, tree))
    (hsize : size ≠ 0) :
    jsonl_parse_text pf (json_text ++ space :: trailing) capacity = some (size, tree) :=
  jsonl_parse_text_append pf json_text trailing space capacity size tree hs h hsize

theorem jsonl_parse_text_ignores_trailing_witness :
    jsonl_is_white_space 32 = true ∧
      jsonl_parse_text jsonl_example_platform [91, 116, 114, 117, 101, 93] 1000 =
        some (88, some (.array [.boolean true])) ∧
      88 ≠ 0 ∧
      jsonl_parse_text jsonl_example_platform
        ([91, 116, 114, 117, 101, 93] ++ 32 :: [93, 120]) 1000 =
        some (88, some (.array [.boolean true])) :=
  ⟨rfl, rfl, by decide,
    jsonl_parse_text_ignores_trailing jsonl_example_platform [91, 116, 114, 117, 101, 93]
      [93, 120] 32 1000 88 (some (.array [.boolean true])) rfl rfl (by decide)⟩

/-- C39: for every tree built only from objects, arrays, booleans, nulls and strings, in
which every string and every object name consists of printable ASCII bytes other than the
double quote and the backslash, and which fits in the address space, `jsonl_parse_text`
applied to the text `jsonl_print` emits succeeds: for every capacity it reports the size
of the tree, and it leaves the tree itself in every buffer that the size fits. -/
theorem jsonl_parse_text_of_print (pf : jsonl_platform_t) (value_tree : jsonl_value_t)
    (hp : value_tree.plain = true) (hfit : value_tree.size ≤ jsonl_size_max) :
    jsonl_uniform (jsonl_parse_text pf (jsonl_printed_text (jsonl_print pf value_tree)))
      value_tree.size value_tree := by
  have htext : jsonl_printed_text (jsonl_print pf value_tree) = jsonl_rendered pf value_tree 0 :=
    jsonl_printed_text_of_prints _ _
      (jsonl_internal_print_rendered pf value_tree (jsonl_plain_valid value_tree hp) 0).2
  rw [htext]
  exact jsonl_parse_text_rendered pf value_tree hp hfit

theorem jsonl_parse_text_of_print_witness :
    (jsonl_value_t.object [([97, 44, 98], .array [.string [123, 120, 93], .boolean true,
        .null, .object []]), ([], .array [])]).plain = true ∧
      (jsonl_value_t.object [([97, 44, 98], .array [.string [123, 120, 93], .boolean true,
        .null, .object []]), ([], .array [])]).size ≤ jsonl_size_max ∧
      jsonl_uniform
        (jsonl_parse_text jsonl_example_platform
          (jsonl_printed_text (jsonl_print jsonl_example_platform
            (.object [([97, 44, 98], .array [.string [123, 120, 93], .boolean true,
              .null, .object []]), ([], .array [])]))))
        (jsonl_value_t.object [([97, 44, 98], .array [.string [123, 120, 93], .boolean true,
          .null, .object []]), ([], .array [])]).size
        (.object [([97, 44, 98], .array [.string [123, 120, 93], .boolean true,
          .null, .object []]), ([], .array [])]) :=
  ⟨rfl, by decide,
    jsonl_parse_text_of_print jsonl_example_platform
      (.object [([97, 44, 98], .array [.string [123, 120, 93], .boolean true,
        .null, .object []]), ([], .array [])]) rfl (by decide)⟩
